import Mathlib

/-!
# R*-tree spatial index (`src/rtree`): embedding and verification

The development follows the three source files of the index:

* `TGDomain.hh`: the rectangle algebra (`TGDomain`),
* `RTree.hh`: nodes, the tree, bounding, traversal and `clear` (`RTree`),
* `RStar.hh`: the R* insertion algorithm (`RStar`).

The rectangle algebra and the two heuristics `chooseInner` and `computeSplit` are
defined over any linearly ordered scalar type with its own arithmetic, exact or
rounded; `Single` is the scalar type `float` of the repository's instantiation.
The insertion as a whole is studied over exact scalars (a linearly ordered field).
Nodes are read level-driven, as in the source: the level passed down by the caller
decides whether a node is used as a leaf (level 0) or as an inner node.  The source
keeps a node's `size` next to a fixed-capacity array; here the content is a list and
`size` is its length.  `std::sort` is a parameter of the embedding, since the order it
gives to equivalent entries is not fixed by the language.
-/

/-! ## Definitions -/

namespace TGDomain

/-- Axis-aligned box `tg::aabb<D, ScalarT>`: a minimum and a maximum corner. -/
structure Rect (D : Nat) (S : Type) where
  min : Fin D → S
  max : Fin D → S

instance instInhabitedRect {D : Nat} {S : Type} [Zero S] : Inhabited (Rect D S) :=
  ⟨⟨fun _ => 0, fun _ => 0⟩⟩

instance instDecidableEqRect {D : Nat} {S : Type} [DecidableEq S] : DecidableEq (Rect D S) :=
  fun a b =>
    if h : a.min = b.min ∧ a.max = b.max then
      isTrue (by cases a; cases b; cases h; simp_all)
    else
      isFalse (by intro e; exact h (by subst e; exact ⟨rfl, rfl⟩))

/-- Coordinate `p[axis]` for an axis given as a number (`size_t axis` in the source);
an axis outside the dimension, which the source never uses, reads as 0. -/
def coord {D : Nat} {S : Type} [Zero S] (p : Fin D → S) (axis : Nat) : S :=
  if h : axis < D then p ⟨axis, h⟩ else 0

/-- Lexicographic `std::tie(a1, a2) < std::tie(b1, b2)`. -/
def tieLt {A B : Type} [LT A] [LT B] [DecidableRel (fun x y : A => x < y)]
    [DecidableRel (fun x y : B => x < y)] (a1 : A) (a2 : B) (b1 : A) (b2 : B) : Bool :=
  decide (a1 < b1) || (!decide (b1 < a1) && decide (a2 < b2))

/-- Source `TGDomain::intersect`: none as soon as on some axis
`max(a.min, b.min) >= min(a.max, b.max)`. -/
def intersect {D : Nat} {S : Type} [LinearOrder S] (a b : Rect D S) : Option (Rect D S) :=
  let mn : Fin D → S := fun i => Max.max (a.min i) (b.min i)
  let mx : Fin D → S := fun i => Min.min (a.max i) (b.max i)
  if (List.finRange D).any (fun i => decide (mx i ≤ mn i)) then none else some ⟨mn, mx⟩

/-- Source `TGDomain::union_`. -/
def union_ {D : Nat} {S : Type} [LinearOrder S] (a b : Rect D S) : Rect D S :=
  ⟨fun i => Min.min (a.min i) (b.min i), fun i => Max.max (a.max i) (b.max i)⟩

/-- Source `TGDomain::area`: product of the per-axis extents. -/
def area {D : Nat} {S : Type} [One S] [Mul S] [Sub S] (v : Rect D S) : S :=
  (List.finRange D).foldl (fun res i => res * (v.max i - v.min i)) 1

/-- Source `TGDomain::margin`: sum of the per-axis extents. -/
def margin {D : Nat} {S : Type} [Zero S] [Add S] [Sub S] (v : Rect D S) : S :=
  (List.finRange D).foldl (fun res i => res + (v.max i - v.min i)) 0

/-- Source `TGDomain::cmp`: order by `(min[axis], max[axis])`. -/
def cmp {D : Nat} {S : Type} [LinearOrder S] [Zero S] (axis : Nat) (a b : Rect D S) : Bool :=
  tieLt (coord a.min axis) (coord a.max axis) (coord b.min axis) (coord b.max axis)

/-- Source `TGDomain::center`: `tg::lerp(a.min, a.max, 0.5)`, the midpoint. -/
def center {D : Nat} {S : Type} [LinearOrderedField S] (a : Rect D S) : Fin D → S :=
  fun i => a.min i * (1 - 1 / 2) + a.max i * (1 / 2)

/-- Source `TGDomain::dist`: `tg::distance_sqr`, the squared Euclidean distance. -/
def dist {D : Nat} {S : Type} [LinearOrderedField S] (a b : Fin D → S) : S :=
  (List.finRange D).foldl (fun res i => res + (a i - b i) * (a i - b i)) 0

/-- Rectangle `a` contains rectangle `b` (on every axis). -/
def contains {D : Nat} {S : Type} [LinearOrder S] (a b : Rect D S) : Prop :=
  ∀ i, a.min i ≤ b.min i ∧ b.max i ≤ a.max i

/-- The two rectangles intersect in the sense of `TGDomain::intersect`. -/
def intersects {D : Nat} {S : Type} [LinearOrder S] (a b : Rect D S) : Bool :=
  (intersect a b).isSome

/-- Source `TGDomain::rect` for a point: the rectangle from the point to itself. -/
def pointRect {D : Nat} {S : Type} (p : Fin D → S) : Rect D S := ⟨p, p⟩

/-- Squared Euclidean distance from the point `q` to the rectangle `r`, zero inside: on
every axis the distance to the nearer face if `q` lies outside the slab. -/
def distToRect {D : Nat} {S : Type} [LinearOrderedField S] (r : Rect D S) (q : Fin D → S) : S :=
  (List.finRange D).foldl
    (fun res i => res + Max.max (Max.max (r.min i - q i) (q i - r.max i)) 0 *
      Max.max (Max.max (r.min i - q i) (q i - r.max i)) 0) 0

/-- Power of two `2^k` for an integer exponent. -/
def pow2 (k : Int) : ℚ :=
  if 0 ≤ k then ((2 ^ k.toNat : Nat) : ℚ) else 1 / ((2 ^ (-k).toNat : Nat) : ℚ)

/-- The number of halvings that bring `n` below 2 (the position of its leading bit), at
most `fuel` of them. -/
def log2Fuel : Nat → Nat → Nat
  | 0, _ => 0
  | fuel + 1, n => if n < 2 then 0 else log2Fuel fuel (n / 2) + 1

/-- Position of the leading bit of `n`: the `e` with `2^e ≤ n < 2^(e+1)` for `n ≥ 1`. -/
def log2 (n : Nat) : Nat := log2Fuel n n

/-- Binary exponent of a positive rational `q`: the integer `e` with
`2^e ≤ q < 2^(e+1)`. -/
def binExp (q : ℚ) : Int :=
  if q < pow2 ((log2 q.num.natAbs : Int) - (log2 q.den : Int)) then
    (log2 q.num.natAbs : Int) - (log2 q.den : Int) - 1
  else (log2 q.num.natAbs : Int) - (log2 q.den : Int)

/-- Round a non-negative rational to the nearest integer, ties to the even one. -/
def roundEven (m : ℚ) : Nat :=
  if 2 * (m - ((m.num.natAbs / m.den : Nat) : ℚ)) < 1 then m.num.natAbs / m.den
  else if 1 < 2 * (m - ((m.num.natAbs / m.den : Nat) : ℚ)) then m.num.natAbs / m.den + 1
  else if (m.num.natAbs / m.den) % 2 = 0 then m.num.natAbs / m.den
  else m.num.natAbs / m.den + 1

/-- Rounding of a real result to `float` (IEEE 754 binary32, round to nearest, ties to
even): the nearest number with a significand of 24 bits.  The exponent range is not
limited here, so overflow to infinity and subnormal numbers are left out, as are NaN and
the sign of zero. -/
def roundSingle (q : ℚ) : ℚ :=
  if q = 0 then 0
  else if q < 0 then -((roundEven (-q / pow2 (binExp (-q) - 23)) : ℚ) * pow2 (binExp (-q) - 23))
  else (roundEven (q / pow2 (binExp q - 23)) : ℚ) * pow2 (binExp q - 23)

/-- The scalar type `float` of the repository's instantiation `TGDomain<3, float>`: a
finite value, with the arithmetic operations rounded by `roundSingle`. -/
structure Single where
  val : ℚ

instance instLinearOrderSingle : LinearOrder Single :=
  LinearOrder.lift' Single.val (fun a b h => by cases a; cases b; cases h; rfl)

instance instZeroSingle : Zero Single := ⟨⟨0⟩⟩

instance instOneSingle : One Single := ⟨⟨1⟩⟩

instance instAddSingle : Add Single := ⟨fun a b => ⟨roundSingle (a.val + b.val)⟩⟩

instance instSubSingle : Sub Single := ⟨fun a b => ⟨roundSingle (a.val - b.val)⟩⟩

instance instMulSingle : Mul Single := ⟨fun a b => ⟨roundSingle (a.val * b.val)⟩⟩

end TGDomain

open TGDomain

namespace RTree

/-- Source `RTree::Node`: a cached rectangle and either items (read at level 0) or
children (read at a level above 0). -/
inductive Node (D : Nat) (S T : Type) where
  | leaf (rect : Rect D S) (objects : List T)
  | inner (rect : Rect D S) (children : List (Node D S T))

namespace Node

variable {D : Nat} {S T : Type}

/-- Field `rect`. -/
def rect : Node D S T → Rect D S
  | leaf r _ => r
  | inner r _ => r

/-- Field `objects`, the leaf reading of the content. -/
def objects : Node D S T → List T
  | leaf _ o => o
  | inner _ _ => []

/-- Field `children`, the inner reading of the content. -/
def children : Node D S T → List (Node D S T)
  | leaf _ _ => []
  | inner _ c => c

/-- Field `size`, the live count. -/
def size : Node D S T → Nat
  | leaf _ o => o.length
  | inner _ c => c.length

/-- Assignment `node.rect = r`. -/
def setRect (r : Rect D S) : Node D S T → Node D S T
  | leaf _ o => leaf r o
  | inner _ c => inner r c

/-- The value `{0}` returned by the descent when no node was split off. -/
def none [Zero S] : Node D S T := leaf default []

end Node

/-- Source `RTree`: the root node and the depth (levels above the leaves). -/
structure Tree (D : Nat) (S T : Type) where
  mDepth : Nat
  mRoot : Node D S T

/-- A freshly constructed tree: depth 0, root of size 0. -/
def Tree.empty {D : Nat} {S T : Type} [Zero S] : Tree D S T := ⟨0, Node.none⟩

/-- Source `RTree::depth`. -/
def Tree.depth {D : Nat} {S T : Type} (t : Tree D S T) : Nat := t.mDepth

/-- Source `RTree::clear`: the subtree is destroyed, size and depth are reset; the
cached rectangle of the root is left as it was. -/
def Tree.clear {D : Nat} {S T : Type} (t : Tree D S T) : Tree D S T :=
  ⟨0, Node.leaf t.mRoot.rect []⟩

/-- Union of a non-empty sequence of rectangles, first to last, as the loops of
`boundInner` and `boundLeaf` compute it. -/
def unionAll {D : Nat} {S : Type} [LinearOrder S] (r : Rect D S) (rs : List (Rect D S)) :
    Rect D S :=
  rs.foldl union_ r

/-- Source `RTree::boundInner`.  With no child `children[0]` does not exist; the
embedding then leaves the node as it is. -/
def boundInner {D : Nat} {S T : Type} [LinearOrder S] (node : Node D S T) : Node D S T :=
  match node.children with
  | [] => node
  | c :: cs => node.setRect (unionAll c.rect (cs.map Node.rect))

/-- Source `RTree::boundLeaf`, for the item rectangle function `rectOf` (`mDomain.rect`).
With no item `objects[0]` does not exist; the embedding then leaves the node as it is. -/
def boundLeaf {D : Nat} {S T : Type} [LinearOrder S] (rectOf : T → Rect D S)
    (node : Node D S T) : Node D S T :=
  match node.objects with
  | [] => node
  | o :: os => node.setRect (unionAll (rectOf o) (os.map rectOf))

/-- The pair of callbacks of a traversal (`RTree::visitor`); both may read and change a
shared state `σ`, as closures do in the source. -/
structure Visitor (σ : Type) (D : Nat) (S T : Type) where
  check : Rect D S → Nat → σ → Bool × σ
  visit : T → σ → Bool × σ

/-- A loop `for (...) { if (!f(x)) return false; } return true;` over a list. -/
def forEachWhile {α σ : Type} (f : α → σ → Bool × σ) : List α → σ → Bool × σ
  | [], s => (true, s)
  | a :: as, s =>
    let r := f a s
    if r.1 then forEachWhile f as r.2 else (false, r.2)

/-- Source `RTree::visitNode`. -/
def visitNode {σ : Type} {D : Nat} {S T : Type} (v : Visitor σ D S T) :
    Nat → Node D S T → σ → Bool × σ
  | 0, node, s =>
    if node.size = 0 then (true, s) else
      let r := v.check node.rect 0 s
      if r.1 then forEachWhile v.visit node.objects r.2 else (true, r.2)
  | level + 1, node, s =>
    if node.size = 0 then (true, s) else
      let r := v.check node.rect (level + 1) s
      if r.1 then forEachWhile (visitNode v level) node.children r.2 else (true, r.2)

/-- Source `RTree::visit`: the traversal starts at the root with level `mDepth`; the
result is the state the callbacks leave behind. -/
def visit {σ : Type} {D : Nat} {S T : Type} (t : Tree D S T) (v : Visitor σ D S T) (s : σ) : σ :=
  (visitNode v t.mDepth t.mRoot s).2

/-- One call of a callback, with the value it returned. -/
inductive Event (D : Nat) (S T : Type) where
  | check (rect : Rect D S) (level : Nat) (result : Bool)
  | visit (item : T) (result : Bool)

/-- The same callbacks, also writing every call they receive to a log. -/
def Visitor.traced {σ : Type} {D : Nat} {S T : Type} (v : Visitor σ D S T) :
    Visitor (σ × List (Event D S T)) D S T where
  check := fun r level s =>
    ((v.check r level s.1).1, ((v.check r level s.1).2, s.2 ++ [Event.check r level (v.check r level s.1).1]))
  visit := fun x s =>
    ((v.visit x s.1).1, ((v.visit x s.1).2, s.2 ++ [Event.visit x (v.visit x s.1).1]))

/-- The log of all callback calls of one traversal of the tree. -/
def visitLog {σ : Type} {D : Nat} {S T : Type} (t : Tree D S T) (v : Visitor σ D S T) (s : σ) :
    List (Event D S T) :=
  (visit t v.traced (s, [])).2

/-- A visitor with a stateless check and a `visitFn` that records each item it is passed
and returns true. -/
def collector {D : Nat} {S T : Type} (c : Rect D S → Nat → Bool) : Visitor (List T) D S T where
  check := fun r level s => (c r level, s)
  visit := fun x s => (true, s ++ [x])

/-- The items a traversal with check `c` passes to a recording `visitFn`, in call order. -/
def collect {D : Nat} {S T : Type} (t : Tree D S T) (c : Rect D S → Nat → Bool) : List T :=
  visit t (collector c) []

/-- Depth-first, left-to-right enumeration of the items below a node read at `level`. -/
def items {D : Nat} {S T : Type} : Nat → Node D S T → List T
  | 0, node => node.objects
  | level + 1, node => node.children.flatMap (items level)

/-- The depth-first enumeration restricted to the leaves for which the node itself and
every ancestor passes the stateless check `c`; empty nodes are skipped unchecked. -/
def prunedItems {D : Nat} {S T : Type} (c : Rect D S → Nat → Bool) : Nat → Node D S T → List T
  | 0, node => if node.size ≠ 0 ∧ c node.rect 0 = true then node.objects else []
  | level + 1, node =>
    if node.size ≠ 0 ∧ c node.rect (level + 1) = true then
      node.children.flatMap (prunedItems c level)
    else []

/-- The call sequence the traversal contract prescribes for a stateless check `c` and a
`visitFn` that returns true: the check on a node, at its level, comes before every call on
the node's content, and the content follows in index order one level lower. -/
def expectedLog {D : Nat} {S T : Type} (c : Rect D S → Nat → Bool) :
    Nat → Node D S T → List (Event D S T)
  | 0, node =>
    if node.size = 0 then []
    else if c node.rect 0 = true then
      Event.check node.rect 0 true :: node.objects.map (fun x => Event.visit x true)
    else [Event.check node.rect 0 false]
  | level + 1, node =>
    if node.size = 0 then []
    else if c node.rect (level + 1) = true then
      Event.check node.rect (level + 1) true :: node.children.flatMap (expectedLog c level)
    else [Event.check node.rect (level + 1) false]

/-- The item of a `visitFn` call; nothing for a `checkFn` call. -/
def Event.item {D : Nat} {S T : Type} : Event D S T → Option T
  | Event.visit x _ => some x
  | Event.check _ _ _ => Option.none

/-- A call of `visitFn` that returned false. -/
def Event.isStop {D : Nat} {S T : Type} : Event D S T → Bool
  | Event.visit _ r => !r
  | Event.check _ _ _ => false

/-- Shape of the log of a (sub)traversal that returned `ok`: no call of `visitFn`
returned false, except the very last call when the traversal returned false. -/
def EarlyStop {D : Nat} {S T : Type} (evs : List (Event D S T)) (ok : Bool) : Prop :=
  (ok = true → ∀ e ∈ evs, e.isStop = false) ∧
  (ok = false → ∃ pre e, evs = pre ++ [e] ∧ e.isStop = true ∧ ∀ e' ∈ pre, e'.isStop = false)

/-- The callbacks of a nearest-neighbour query, as `Obstacle::System::closest` passes
them to `visit`: the state is the best candidate so far with its distance; `checkFn`
accepts a node if there is no candidate yet or the node's rectangle is closer than the
candidate; `visitFn` takes the item as candidate if there is none yet or the item is
strictly closer, and returns true. -/
def nearest {D : Nat} {S T R : Type} [LinearOrder R] (dRect : Rect D S → R) (dItem : T → R) :
    Visitor (Option (T × R)) D S T where
  check := fun r _ s =>
    (match s with
      | Option.none => true
      | some b => decide (dRect r < b.2), s)
  visit := fun x s =>
    (true, match s with
      | Option.none => some (x, dItem x)
      | some b => if dItem x < b.2 then some (x, dItem x) else some b)

/-- The candidate `s` is a nearest one among the items `seen`: it is one of them, it
carries its own distance, and no item of `seen` is closer; without a candidate, `seen` is
empty. -/
def Best {T R : Type} [LinearOrder R] (dItem : T → R) (seen : List T) :
    Option (T × R) → Prop
  | Option.none => seen = []
  | some b => b.1 ∈ seen ∧ b.2 = dItem b.1 ∧ ∀ x ∈ seen, b.2 ≤ dItem x

end RTree

namespace RStar

open RTree

/-- The size parameters of the `RStar` class template. -/
structure Config where
  LeafSize : Nat
  InnerSize : Nat
  LeafMin : Nat
  LeafReinsert : Nat
  InnerMin : Nat
  InnerReinsert : Nat

/-- The defaults of the template: 64 entries per node, a third of that as minimum fill
and as reinsert count. -/
def Config.default : Config := ⟨64, 64, 64 / 3, 64 / 3, 64 / 3, 64 / 3⟩

/-- The `static_assert` block of `RStar` on the size parameters.  The first two
assertions of the block bound the capacities by the largest value of `NodeSizeT`, the
storage type of `size`; `size` is a natural number here, and they have no counterpart. -/
def Config.staticAsserts (c : Config) : Prop :=
  (c.InnerMin ≥ 1 ∧ c.LeafMin ≥ 1) ∧
  (c.InnerMin < c.InnerSize ∧ c.InnerMin < c.InnerSize / 2) ∧
  (c.LeafMin < c.LeafSize ∧ c.LeafMin < c.LeafSize / 2) ∧
  c.InnerReinsert ≤ c.InnerSize - c.InnerMin + 1 ∧
  c.LeafReinsert ≤ c.LeafSize - c.LeafMin + 1

/-- The configurations of the fill invariant: on both kinds of node
`1 <= minFill`, `2 * minFill < capacity` and
`1 <= reinsertCount <= capacity - minFill + 1`. -/
def Config.Valid (c : Config) : Prop :=
  (1 ≤ c.LeafMin ∧ 2 * c.LeafMin < c.LeafSize ∧
    1 ≤ c.LeafReinsert ∧ c.LeafReinsert ≤ c.LeafSize - c.LeafMin + 1) ∧
  (1 ≤ c.InnerMin ∧ 2 * c.InnerMin < c.InnerSize ∧
    1 ≤ c.InnerReinsert ∧ c.InnerReinsert ≤ c.InnerSize - c.InnerMin + 1)

/-- Capacity of a node read at `level`. -/
def Config.capAt (c : Config) : Nat → Nat
  | 0 => c.LeafSize
  | _ + 1 => c.InnerSize

/-- Minimum fill of a non-root node read at `level`. -/
def Config.minAt (c : Config) : Nat → Nat
  | 0 => c.LeafMin
  | _ + 1 => c.InnerMin

/-- What the insertion is instantiated with: the size parameters, the item rectangle
function `mDomain.rect`, and the sorting routine standing for `std::sort`. -/
structure Setup (D : Nat) (S T : Type) where
  cfg : Config
  rect : T → Rect D S
  sort : ∀ {α : Type}, (α → α → Bool) → List α → List α

/-- A sorting routine returns a rearrangement of its input. -/
def SortPerm (sort : ∀ {α : Type}, (α → α → Bool) → List α → List α) : Prop :=
  ∀ (α : Type) (lt : α → α → Bool) (l : List α), (sort lt l).Perm l

/-- Insertion sort, a concrete (stable) sorting routine used to run examples. -/
def insertSorted {α : Type} (lt : α → α → Bool) (x : α) : List α → List α
  | [] => [x]
  | y :: ys => if lt y x || !lt x y then y :: insertSorted lt x ys else x :: y :: ys

/-- Insertion sort over a list, see `insertSorted`. -/
def insertionSort {α : Type} (lt : α → α → Bool) : List α → List α
  | [] => []
  | x :: xs => insertSorted lt x (insertionSort lt xs)

/-- Source `RStar::max_depth`. -/
def max_depth : Nat := 63

/-- Source `RStar::ReinsertMask`, a `std::bitset<max_depth + 1>` indexed by level. -/
abbrev ReinsertMask := Nat → Bool

/-- The mask with no bit set. -/
def ReinsertMask.zero : ReinsertMask := fun _ => false

/-- Assignment `mask[level] = 1`. -/
def ReinsertMask.set (m : ReinsertMask) (level : Nat) : ReinsertMask :=
  fun i => if i = level then true else m i

/-- The mutable members of an `RStar` object: the number of evicted entries, the level
they were evicted at, and the sort buffer (a union of an item array and a node array in
the source) whose first `reinserts` entries are the evicted ones. -/
structure Bufs (D : Nat) (S T : Type) where
  reinserts : Nat
  reinsertLevel : Nat
  objects : List T
  children : List (Node D S T)

/-- A freshly constructed `RStar` object: `reinserts = 0`. -/
def Bufs.init {D : Nat} {S T : Type} : Bufs D S T := ⟨0, 0, [], []⟩

/-- Outcome of one call of the descent: the node it was called on (changed in place in
the source), the returned node, and the members of the `RStar` object afterwards. -/
structure Step (D : Nat) (S T : Type) where
  node : Node D S T
  ret : Node D S T
  bufs : Bufs D S T

/-- The ways an insertion can end other than normally: the `std::length_error` of
`splitRoot`, and exhausted recursion fuel of the embedding. -/
inductive Err where
  | lengthError
  | outOfFuel
  deriving DecidableEq

/-- The loop of `chooseInner` over the children from index `i` on; the state is
`(best, smallestArea, leastEnlargement)`. -/
def chooseLoop {D : Nat} {S T : Type} [LinearOrder S] [One S] [Mul S] [Sub S] (insRect : Rect D S) :
    List (Node D S T) → Nat → Nat × S × S → Nat × S × S
  | [], _, st => st
  | c :: cs, i, st =>
    let a := area c.rect
    let enlargement := area (union_ c.rect insRect) - a
    if tieLt enlargement a st.2.2 st.2.1 then chooseLoop insRect cs (i + 1) (i, a, enlargement)
    else chooseLoop insRect cs (i + 1) st

/-- Source `RStar::chooseInner`.  On a node without children `children[0]` does not
exist; the embedding then answers 0. -/
def chooseInner {D : Nat} {S T : Type} [LinearOrder S] [One S] [Mul S] [Sub S] (node : Node D S T)
    (insRect : Rect D S) : Nat :=
  match node.children with
  | [] => 0
  | c0 :: cs =>
    (chooseLoop insRect cs 1
      (0, area c0.rect, area (union_ c0.rect insRect) - area c0.rect)).1

/-- Source `RStar::chooseLeaf`: it returns `chooseInner`; the rest is compiled out. -/
def chooseLeaf {D : Nat} {S T : Type} [LinearOrder S] [One S] [Mul S] [Sub S] (node : Node D S T)
    (insRect : Rect D S) : Nat :=
  chooseInner node insRect

/-- A counting loop `for (i = lo; i < hi; ++i)` over a state. -/
def forLoop {σ : Type} (lo hi : Nat) (f : Nat → σ → σ) (s : σ) : σ :=
  (List.range' lo (hi - lo)).foldl (fun st i => f i st) s

/-- Read `getRect(buf[i])`; outside the buffer, where the source never reads, the
answer is the default rectangle. -/
def rectAt {D : Nat} {S E : Type} [Zero S] (getRect : E → Rect D S) (buf : List E) (i : Nat) :
    Rect D S :=
  match buf[i]? with
  | some e => getRect e
  | none => default

/-- One round of the margin loop of `computeSplit`; the state is `(rect1, rect2, S)`. -/
def marginStep {D : Nat} {S E : Type} [LinearOrder S] [Zero S] [Add S] [Sub S]
    (getRect : E → Rect D S)
    (buf : List E) (minSize : Nat) (i : Nat) (st : Rect D S × Rect D S × S) :
    Rect D S × Rect D S × S :=
  let rect1 := union_ st.1 (rectAt getRect buf i)
  let rect2 := union_ st.2.1 (rectAt getRect buf (buf.length - 1 - i))
  (rect1, rect2, if minSize ≤ i then st.2.2 + (margin rect1 + margin rect2) else st.2.2)

/-- The margin sum `S` that `computeSplit` computes for the buffer in its current order.
Differences of sizes are truncated at 0. -/
def marginSum {D : Nat} {S E : Type} [LinearOrder S] [Zero S] [Add S] [Sub S]
    (getRect : E → Rect D S)
    (buf : List E) (minSize : Nat) : S :=
  (forLoop 1 (buf.length - 1 - minSize) (marginStep getRect buf minSize)
    (rectAt getRect buf 0, rectAt getRect buf (buf.length - 1), 0)).2.2

/-- Running unions `acc, acc ∪ r0, acc ∪ r0 ∪ r1, ...`. -/
def unionScan {D : Nat} {S : Type} [LinearOrder S] : Rect D S → List (Rect D S) → List (Rect D S)
  | acc, [] => [acc]
  | acc, r :: rs => acc :: unionScan (union_ acc r) rs

/-- The array `rects1` of `computeSplit`: entry `i` bounds `buf[0..i]`. -/
def rects1 {D : Nat} {S E : Type} [LinearOrder S] (getRect : E → Rect D S) (buf : List E) :
    List (Rect D S) :=
  match buf.map getRect with
  | [] => []
  | r :: rs => unionScan r rs

/-- The array `rects2` of `computeSplit`: entry `i` bounds `buf[i..Size-1]`, accumulated
from the last entry downwards. -/
def rects2 {D : Nat} {S E : Type} [LinearOrder S] (getRect : E → Rect D S) (buf : List E) :
    List (Rect D S) :=
  match (buf.map getRect).reverse with
  | [] => []
  | r :: rs => (unionScan r rs).reverse

/-- One round of the axis loop of `computeSplit`; the state is `(buf, bestS, bestAxis)`. -/
def chooseAxisStep {D : Nat} {S T E : Type} [LinearOrder S] [Zero S] [Add S] [Sub S]
    (P : Setup D S T)
    (getRect : E → Rect D S) (minSize : Nat) (axis : Nat) (st : List E × S × Nat) :
    List E × S × Nat :=
  let buf := P.sort (fun a b => cmp axis (getRect a) (getRect b)) st.1
  let s := marginSum getRect buf minSize
  if decide (s < st.2.1) || decide (axis = 0) then (buf, s, axis) else (buf, st.2.1, st.2.2)

/-- The axis loop of `computeSplit`. -/
def chooseAxis {D : Nat} {S T E : Type} [LinearOrder S] [Zero S] [Add S] [Sub S] (P : Setup D S T)
    (getRect : E → Rect D S) (minSize : Nat) (buf : List E) : List E × S × Nat :=
  forLoop 0 D (chooseAxisStep P getRect minSize) (buf, 0, 0)

/-- One round of the split index loop of `computeSplit`; the state is
`(bestSplit, bestArea, bestOverlap)`. -/
def chooseSplitStep {D : Nat} {S : Type} [LinearOrder S] [Zero S] [One S] [Add S] [Mul S] [Sub S]
    (r1 r2 : List (Rect D S))
    (i : Nat) (st : Nat × S × S) : Nat × S × S :=
  let ra := r1.getD (i - 1) default
  let rb := r2.getD i default
  let overlap := match intersect ra rb with
    | some x => area x
    | Option.none => 0
  let a := area ra + area rb
  if tieLt overlap a st.2.2 st.2.1 || decide (st.1 = 0) then (i, a, overlap) else st

/-- The split index loop of `computeSplit`.  Differences of sizes are truncated at 0. -/
def chooseSplit {D : Nat} {S : Type} [LinearOrder S] [Zero S] [One S] [Add S] [Mul S] [Sub S]
    (r1 r2 : List (Rect D S))
    (size minSize : Nat) : Nat × S × S :=
  forLoop minSize (size - 1 - minSize) (chooseSplitStep r1 r2) (0, 0, 0)

/-- Source `RStar::computeSplit`: the reordered buffer and the index of the first entry
that goes to the second node. -/
def computeSplit {D : Nat} {S T E : Type} [LinearOrder S] [Zero S] [One S] [Add S] [Mul S] [Sub S]
    (P : Setup D S T)
    (buf : List E) (getRect : E → Rect D S) (minSize : Nat) : List E × Nat :=
  let ax := chooseAxis P getRect minSize buf
  let buf := P.sort (fun a b => cmp ax.2.2 (getRect a) (getRect b)) ax.1
  (buf, (chooseSplit (rects1 getRect buf) (rects2 getRect buf) buf.length minSize).1)

/-- Source `RStar::splitLeaf`, called on a full leaf with the item that does not fit.
The two `assert`s of the split branch are not part of the value: this is the function
as compiled with `NDEBUG`; whether the assertions hold at a call is `splitLeafAsserts`,
and `splitLeafChecked` is the function with the assertions enabled. -/
def splitLeaf {D : Nat} {S T : Type} [LinearOrderedField S] (P : Setup D S T)
    (mask : ReinsertMask) (bufs : Bufs D S T) (node : Node D S T) (extra : T) : Step D S T :=
  let buf := node.objects.take P.cfg.LeafSize ++ [extra]
  if !mask 0 then
    let c := center node.rect
    let buf := P.sort
      (fun a b => decide (dist (center (P.rect a)) c > dist (center (P.rect b)) c)) buf
    { node := Node.leaf node.rect (buf.drop P.cfg.LeafReinsert)
      ret := Node.none
      bufs := { bufs with objects := buf, reinserts := P.cfg.LeafReinsert, reinsertLevel := 0 } }
  else
    let sp := computeSplit P buf P.rect P.cfg.LeafMin
    { node := boundLeaf P.rect (Node.leaf node.rect (sp.1.drop sp.2))
      ret := boundLeaf P.rect (Node.leaf default (sp.1.take sp.2))
      bufs := { bufs with objects := sp.1 } }

/-- Source `RStar::splitInner`, called on a full inner node with the child that does
not fit. -/
def splitInner {D : Nat} {S T : Type} [LinearOrderedField S] (P : Setup D S T)
    (mask : ReinsertMask) (bufs : Bufs D S T) (node : Node D S T) (extra : Node D S T)
    (level : Nat) : Step D S T :=
  let buf := node.children.take P.cfg.InnerSize ++ [extra]
  if !mask level then
    let c := center node.rect
    let buf := P.sort
      (fun a b => decide (dist (center a.rect) c > dist (center b.rect) c)) buf
    { node := Node.inner node.rect (buf.drop P.cfg.InnerReinsert)
      ret := Node.none
      bufs := { bufs with children := buf, reinserts := P.cfg.InnerReinsert,
                          reinsertLevel := level } }
  else
    let sp := computeSplit P buf Node.rect P.cfg.InnerMin
    { node := boundInner (Node.inner node.rect (sp.1.drop sp.2))
      ret := boundInner (Node.inner default (sp.1.take sp.2))
      bufs := { bufs with children := sp.1 } }

/-- Source `RStar::insertElement`. -/
def insertElement {D : Nat} {S T : Type} [LinearOrderedField S] (P : Setup D S T)
    (mask : ReinsertMask) (obj : T) (rect : Rect D S) :
    Nat → Node D S T → Bufs D S T → Step D S T
  | 0, node, bufs =>
    let node := node.setRect (union_ node.rect rect)
    if node.size < P.cfg.LeafSize then
      ⟨Node.leaf node.rect (node.objects ++ [obj]), Node.none, bufs⟩
    else splitLeaf P mask bufs node obj
  | level + 1, node, bufs =>
    let node := node.setRect (union_ node.rect rect)
    let childIdx := if level + 1 > 1 then chooseInner node rect else chooseLeaf node rect
    let r := insertElement P mask obj rect level (node.children.getD childIdx Node.none) bufs
    let node' := Node.inner node.rect (node.children.set childIdx r.node)
    if node.size < P.cfg.InnerSize then
      if r.ret.size ≠ 0 then
        ⟨Node.inner node.rect (node'.children ++ [r.ret]), Node.none, r.bufs⟩
      else if r.bufs.reinserts ≠ 0 then ⟨boundInner node', Node.none, r.bufs⟩
      else ⟨node', Node.none, r.bufs⟩
    else if r.ret.size ≠ 0 then splitInner P mask r.bufs node' r.ret (level + 1)
    else if r.bufs.reinserts ≠ 0 then ⟨boundInner node', Node.none, r.bufs⟩
    else ⟨node', Node.none, r.bufs⟩

/-- Source `RStar::insertSubtree`. -/
def insertSubtree {D : Nat} {S T : Type} [LinearOrderedField S] (P : Setup D S T)
    (mask : ReinsertMask) (ins : Node D S T) (insLevel : Nat) :
    Nat → Node D S T → Bufs D S T → Step D S T
  | 0, node, bufs =>
    let node := node.setRect (union_ node.rect ins.rect)
    if node.size < P.cfg.InnerSize then
      ⟨Node.inner node.rect (node.children ++ [ins]), Node.none, bufs⟩
    else splitInner P mask bufs node ins 0
  | level + 1, node, bufs =>
    let node := node.setRect (union_ node.rect ins.rect)
    if level + 1 ≤ insLevel then
      if node.size < P.cfg.InnerSize then
        ⟨Node.inner node.rect (node.children ++ [ins]), Node.none, bufs⟩
      else splitInner P mask bufs node ins (level + 1)
    else
      let childIdx := chooseInner node ins.rect
      let r := insertSubtree P mask ins insLevel level
        (node.children.getD childIdx Node.none) bufs
      let node' := Node.inner node.rect (node.children.set childIdx r.node)
      if node.size < P.cfg.InnerSize then
        if r.ret.size ≠ 0 then
          ⟨Node.inner node.rect (node'.children ++ [r.ret]), Node.none, r.bufs⟩
        else if r.bufs.reinserts ≠ 0 then ⟨boundInner node', Node.none, r.bufs⟩
        else ⟨node', Node.none, r.bufs⟩
      else if r.ret.size ≠ 0 then splitInner P mask r.bufs node' r.ret (level + 1)
      else if r.bufs.reinserts ≠ 0 then ⟨boundInner node', Node.none, r.bufs⟩
      else ⟨node', Node.none, r.bufs⟩

/-- The part of `insertElement` and `insertSubtree` that follows the recursive call into
the chosen child, written once: `r` is the outcome of that call, `node` the node with its
rectangle already enlarged. -/
def afterChild {D : Nat} {S T : Type} [LinearOrderedField S] (P : Setup D S T)
    (mask : ReinsertMask) (node : Node D S T) (childIdx : Nat) (r : Step D S T) (level : Nat) :
    Step D S T :=
  let node' := Node.inner node.rect (node.children.set childIdx r.node)
  if node.size < P.cfg.InnerSize then
    if r.ret.size ≠ 0 then
      ⟨Node.inner node.rect (node'.children ++ [r.ret]), Node.none, r.bufs⟩
    else if r.bufs.reinserts ≠ 0 then ⟨boundInner node', Node.none, r.bufs⟩
    else ⟨node', Node.none, r.bufs⟩
  else if r.ret.size ≠ 0 then splitInner P mask r.bufs node' r.ret level
  else if r.bufs.reinserts ≠ 0 then ⟨boundInner node', Node.none, r.bufs⟩
  else ⟨node', Node.none, r.bufs⟩

/-- Source `RStar::splitRoot`: the `std::length_error` at depth `max_depth`, else a new
root over the former root and the split-off node. -/
def splitRoot {D : Nat} {S T : Type} [LinearOrder S] (tree : Tree D S T) (split : Node D S T) :
    Except Err (Tree D S T) :=
  if tree.mDepth = max_depth then Except.error Err.lengthError
  else Except.ok ⟨tree.mDepth + 1, boundInner (Node.inner tree.mRoot.rect [tree.mRoot, split])⟩

/-- A loop over a list whose body may throw; the state is passed along. -/
def forEachM {α σ : Type} (f : α → σ → Except Err σ) : List α → σ → Except Err σ
  | [], s => Except.ok s
  | a :: as, s =>
    match f a s with
    | Except.ok s' => forEachM f as s'
    | Except.error e => Except.error e

/-- The state the reinsertion loops work on: the tree, the shared reinsert mask, and the
members of the local `RStar` object `bufs`. -/
structure Work (D : Nat) (S T : Type) where
  tree : Tree D S T
  mask : ReinsertMask
  bufs : Bufs D S T

/-- One round of the loop of `reinsertInner`: the evicted subtree `child` is inserted
from the root; `nested` stands for the nested call of `reinsertInner`. -/
def reinsertRound {D : Nat} {S T : Type} [LinearOrderedField S] (P : Setup D S T)
    (nested : Bufs D S T → Tree D S T × ReinsertMask → Except Err (Tree D S T × ReinsertMask))
    (reinsertLevel : Nat) (child : Node D S T) (w : Work D S T) : Except Err (Work D S T) :=
  let r := insertSubtree P w.mask child reinsertLevel w.tree.mDepth w.tree.mRoot w.bufs
  let tree : Tree D S T := ⟨w.tree.mDepth, r.node⟩
  if r.ret.size ≠ 0 then
    match splitRoot tree r.ret with
    | Except.ok tree' => Except.ok ⟨tree', w.mask, r.bufs⟩
    | Except.error e => Except.error e
  else if r.bufs.reinserts ≠ 0 then
    match nested r.bufs (tree, w.mask.set r.bufs.reinsertLevel) with
    | Except.ok st' => Except.ok ⟨st'.1, st'.2, { r.bufs with reinserts := 0 }⟩
    | Except.error e => Except.error e
  else Except.ok ⟨tree, w.mask, r.bufs⟩

/-- Source `RStar::reinsertInner`.  The first argument bounds the nesting of
reinsertions; each nested call gets one less. -/
def reinsertInner {D : Nat} {S T : Type} [LinearOrderedField S] (P : Setup D S T) :
    Nat → Bufs D S T → Tree D S T × ReinsertMask → Except Err (Tree D S T × ReinsertMask)
  | 0, _, _ => Except.error Err.outOfFuel
  | fuel + 1, parent, st =>
    match forEachM (reinsertRound P (reinsertInner P fuel) parent.reinsertLevel)
      (parent.children.take parent.reinserts) ⟨st.1, st.2, Bufs.init⟩ with
    | Except.ok w => Except.ok (w.tree, w.mask)
    | Except.error e => Except.error e

/-- Source `RStar::insertLeaf`.  The first argument bounds the nesting of reinsertions;
each nested call gets one less. -/
def insertLeaf {D : Nat} {S T : Type} [LinearOrderedField S] (P : Setup D S T) :
    Nat → Tree D S T → T → ReinsertMask → Except Err (Tree D S T × ReinsertMask)
  | 0, _, _, _ => Except.error Err.outOfFuel
  | fuel + 1, tree, obj, mask =>
    let root := if tree.mRoot.size = 0 then Node.leaf (P.rect obj) [] else tree.mRoot
    let r := insertElement P mask obj (P.rect obj) tree.mDepth root Bufs.init
    let tree' : Tree D S T := ⟨tree.mDepth, r.node⟩
    if r.ret.size ≠ 0 then
      match splitRoot tree' r.ret with
      | Except.ok t => Except.ok (t, mask)
      | Except.error e => Except.error e
    else if r.bufs.reinserts ≠ 0 then
      if r.bufs.reinsertLevel = 0 then
        forEachM (fun (x : T) (st : Tree D S T × ReinsertMask) => insertLeaf P fuel st.1 x st.2)
          (r.bufs.objects.take r.bufs.reinserts) (tree', mask.set r.bufs.reinsertLevel)
      else reinsertInner P fuel r.bufs (tree', mask.set r.bufs.reinsertLevel)
    else Except.ok (tree', mask)

/-- Source `RStar::insert`: a fresh mask of `max_depth + 1` bits; the fuel is one more
than the number of bits, the most the nesting of reinsertions can need. -/
def insert {D : Nat} {S T : Type} [LinearOrderedField S] (P : Setup D S T) (tree : Tree D S T)
    (obj : T) : Except Err (Tree D S T) :=
  match insertLeaf P (max_depth + 2) tree obj ReinsertMask.zero with
  | Except.ok st => Except.ok st.1
  | Except.error e => Except.error e

/-- Insert the items of a list one after the other, stopping at the first failure. -/
def insertAll {D : Nat} {S T : Type} [LinearOrderedField S] (P : Setup D S T) :
    Tree D S T → List T → Except Err (Tree D S T)
  | tree, [] => Except.ok tree
  | tree, x :: xs =>
    match insert P tree x with
    | Except.ok t => insertAll P t xs
    | Except.error e => Except.error e

/-- The tree as `splitRoot` leaves it, also when it throws: the throw comes before
any assignment to the tree. -/
def splitRootState {D : Nat} {S T : Type} [LinearOrder S] (tree : Tree D S T)
    (split : Node D S T) : Tree D S T :=
  if tree.mDepth = max_depth then tree
  else ⟨tree.mDepth + 1, boundInner (Node.inner tree.mRoot.rect [tree.mRoot, split])⟩

/-- A comparator is a strict weak ordering, as `std::sort` requires. -/
def StrictWeak {α : Type} (lt : α → α → Bool) : Prop :=
  (∀ a, lt a a = false) ∧
  (∀ a b c, lt a b = true → lt b c = true → lt a c = true) ∧
  (∀ a b c, lt a b = false → lt b a = false → lt b c = false → lt c b = false →
    lt a c = false ∧ lt c a = false)

/-- For a strict weak ordering the output of the sorting routine is ordered: no entry
is less than an entry before it. -/
def SortSorted (sort : ∀ {α : Type}, (α → α → Bool) → List α → List α) : Prop :=
  ∀ (α : Type) (lt : α → α → Bool) (l : List α), StrictWeak lt →
    (sort lt l).Pairwise (fun a b => lt b a = false)

end RStar

/-! ## Invariants and stated properties -/

namespace RStar

open RTree

/-- Structural invariant of a node read at `level`, with lower size bound `lo` for the
node itself: it has the shape its level asks for, its size is within `lo` and the
capacity (an inner node has at least one child), every node below it has at least the
minimum fill of its level, and every cached rectangle contains the rectangles of the
node's entries. -/
def NodeOK {D : Nat} {S T : Type} [LinearOrder S] (P : Setup D S T) :
    Nat → Nat → Node D S T → Prop
  | lo, 0, n => ∃ r os, n = Node.leaf r os ∧ lo ≤ os.length ∧ os.length ≤ P.cfg.LeafSize ∧
      ∀ o ∈ os, contains r (P.rect o)
  | lo, k + 1, n => ∃ r cs, n = Node.inner r cs ∧ lo ≤ cs.length ∧ 1 ≤ cs.length ∧
      cs.length ≤ P.cfg.InnerSize ∧
      ∀ c ∈ cs, NodeOK P (P.cfg.minAt k) k c ∧ contains r c.rect

/-- Structural invariant of a tree: the depth is at most `max_depth` and the root
satisfies the node invariant without a lower size bound. -/
def TreeOK {D : Nat} {S T : Type} [LinearOrder S] (P : Setup D S T) (t : Tree D S T) : Prop :=
  t.mDepth ≤ max_depth ∧ NodeOK P 0 t.mDepth t.mRoot

/-- Every node strictly below `node` (read at `level`) has a size between the minimum
fill and the capacity of its level. -/
def fillOK {D : Nat} {S T : Type} (c : Config) : Nat → Node D S T → Prop
  | 0, _ => True
  | k + 1, node => ∀ ch ∈ node.children,
      c.minAt k ≤ ch.size ∧ ch.size ≤ c.capAt k ∧ fillOK c k ch

mutual
/-- The depths, below the node, of the leaves of a node, read from the shape of the node
alone (no level is passed in). -/
def leafDepths {D : Nat} {S T : Type} : Node D S T → List Nat
  | Node.leaf _ _ => [0]
  | Node.inner _ cs => (leafDepthsList cs).map (fun d => d + 1)
/-- The leaf depths of a list of nodes, one node after the other. -/
def leafDepthsList {D : Nat} {S T : Type} : List (Node D S T) → List Nat
  | [] => []
  | c :: cs => leafDepths c ++ leafDepthsList cs
end

/-- Level-driven well-formedness: a node read at level 0 is a leaf, a node read at level
`k + 1` is an inner node whose children are well-formed at level `k`. -/
def balanced {D : Nat} {S T : Type} : Nat → Node D S T → Prop
  | 0, node => ∃ r os, node = Node.leaf r os
  | k + 1, node => ∃ r cs, node = Node.inner r cs ∧ ∀ c ∈ cs, balanced k c

/-- Tight rectangles, as a check: the cached rectangle of every node at or below
`node` equals the union recomputed from its entries. -/
def tightB {D : Nat} {S T : Type} [LinearOrder S] (rectOf : T → Rect D S) :
    Nat → Node D S T → Bool
  | 0, node => decide ((boundLeaf rectOf node).rect = node.rect)
  | k + 1, node =>
    decide ((boundInner node).rect = node.rect) && node.children.all (tightB rectOf k)

/-- Tight rectangles: the cached rectangle of every node at or below `node` equals the
union recomputed from its entries. -/
def Tight {D : Nat} {S T : Type} [LinearOrder S] (rectOf : T → Rect D S) :
    Nat → Node D S T → Prop
  | 0, node => (boundLeaf rectOf node).rect = node.rect
  | k + 1, node =>
    (boundInner node).rect = node.rect ∧ ∀ c ∈ node.children, Tight rectOf k c

/-- The entries a descent left in the buffer for reinsertion, as items. -/
def evictedItems {D : Nat} {S T : Type} (b : Bufs D S T) : List T :=
  if b.reinsertLevel = 0 then b.objects.take b.reinserts
  else (b.children.take b.reinserts).flatMap (items (b.reinsertLevel - 1))

/-- What one call of the descent guarantees, for a node of lower size bound `lo` read
at `level`, the rectangle `u` the node was enlarged to, and the items `old` of the node
and of the inserted entry together; `base` is the lowest level the call can evict at. -/
def StepOK {D : Nat} {S T : Type} [LinearOrder S] (P : Setup D S T) (mask : ReinsertMask)
    (base lo level : Nat) (u : Rect D S) (old : List T) (r : Step D S T) : Prop :=
  contains u r.node.rect ∧
  (r.ret.size ≠ 0 →
    r.bufs.reinserts = 0 ∧ NodeOK P (P.cfg.minAt level) level r.node ∧
    NodeOK P (P.cfg.minAt level) level r.ret ∧ contains u r.ret.rect ∧
    (items level r.node ++ items level r.ret).Perm old) ∧
  (r.ret.size = 0 →
    NodeOK P lo level r.node ∧
    (r.bufs.reinserts = 0 → (items level r.node).Perm old) ∧
    (r.bufs.reinserts ≠ 0 →
      mask r.bufs.reinsertLevel = false ∧
      (base ≤ r.bufs.reinsertLevel ∧ r.bufs.reinsertLevel ≤ level) ∧
      (r.bufs.reinsertLevel ≠ 0 → ∀ c ∈ r.bufs.children.take r.bufs.reinserts,
        NodeOK P (P.cfg.minAt (r.bufs.reinsertLevel - 1)) (r.bufs.reinsertLevel - 1) c) ∧
      (items level r.node ++ evictedItems r.bufs).Perm old))

/-- What a completed insertion of the items `new` into the tree `t` under the mask
`mask` guarantees for the resulting tree and mask. -/
def Grown {D : Nat} {S T : Type} [LinearOrder S] (P : Setup D S T) (t : Tree D S T)
    (new : List T) (mask : ReinsertMask) (res : Tree D S T × ReinsertMask) : Prop :=
  TreeOK P res.1 ∧
  (items res.1.mDepth res.1.mRoot).Perm (items t.mDepth t.mRoot ++ new) ∧
  (∀ l, mask l = true → res.2 l = true) ∧
  t.mDepth ≤ res.1.mDepth

/-- The number of levels whose reinsert bit is still unset. -/
def unsetBits (m : ReinsertMask) : Nat :=
  ((List.range (max_depth + 1)).filter (fun l => !m l)).length

/-- Whether a result is a normal return. -/
def isOk {α : Type} : Except Err α → Bool
  | Except.ok _ => true
  | Except.error _ => false

/-- The value of a normal return, or the given default. -/
def getOk {α : Type} (d : α) : Except Err α → α
  | Except.ok a => a
  | Except.error _ => d

/-- Specification of a call of `reinsertInner` with enough fuel for `bound` unset bits. -/
def NestedOK {D : Nat} {S T : Type} [LinearOrder S] (P : Setup D S T) (bound : Nat)
    (nested : Bufs D S T → Tree D S T × ReinsertMask → Except Err (Tree D S T × ReinsertMask)) :
    Prop :=
  ∀ (parent : Bufs D S T) (t : Tree D S T) (mask : ReinsertMask), TreeOK P t →
    1 ≤ parent.reinsertLevel → parent.reinsertLevel ≤ t.mDepth →
    (∀ c ∈ parent.children.take parent.reinserts,
      NodeOK P (P.cfg.minAt (parent.reinsertLevel - 1)) (parent.reinsertLevel - 1) c) →
    unsetBits mask < bound →
    nested parent (t, mask) = Except.error Err.lengthError ∨
    ∃ res, nested parent (t, mask) = Except.ok res ∧ Grown P t (evictedItems parent) mask res

/-- The least number of items below a node of minimum fill read at `level`. -/
def minItems (c : Config) : Nat → Nat
  | 0 => c.LeafMin
  | k + 1 => c.InnerMin * minItems c k

/-- Specification of the failure of a call of `reinsertInner`: the length error is only
raised when the tree and the evicted entries together hold at least the items of a node
of minimum fill at level `max_depth`. -/
def NestedErr {D : Nat} {S T : Type} [LinearOrder S] (P : Setup D S T) (bound : Nat)
    (nested : Bufs D S T → Tree D S T × ReinsertMask → Except Err (Tree D S T × ReinsertMask)) :
    Prop :=
  ∀ (parent : Bufs D S T) (t : Tree D S T) (mask : ReinsertMask), TreeOK P t →
    1 ≤ parent.reinsertLevel → parent.reinsertLevel ≤ t.mDepth →
    (∀ c ∈ parent.children.take parent.reinserts,
      NodeOK P (P.cfg.minAt (parent.reinsertLevel - 1)) (parent.reinsertLevel - 1) c) →
    unsetBits mask < bound →
    nested parent (t, mask) = Except.error Err.lengthError →
    minItems P.cfg max_depth ≤ (items t.mDepth t.mRoot).length + (evictedItems parent).length

/-- What the insertion does when a node overflows, in call order: a call of `splitLeaf`
(level 0) or `splitInner` that takes the forced-reinsertion branch, one that takes the
split branch, and a call of `splitRoot`. -/
inductive InsEvent where
  | reinsert (level : Nat)
  | split (level : Nat)
  | rootSplit
  deriving DecidableEq

/-- The level of the node that overflowed; a call of `splitRoot` is no overflow. -/
def InsEvent.overflowLevel : InsEvent → Option Nat
  | InsEvent.reinsert level => some level
  | InsEvent.split level => some level
  | InsEvent.rootSplit => Option.none

/-- The branch `splitLeaf` (level 0) and `splitInner` take under the mask: forced
reinsertion if the bit of the level is unset, else the split. -/
def overflowEvent (mask : ReinsertMask) (level : Nat) : InsEvent :=
  if !mask level then InsEvent.reinsert level else InsEvent.split level

/-- The calls of `splitLeaf` and `splitInner` that `insertElement` makes, innermost
first as the source returns from the descent, each with the branch it takes. -/
def insertElementLog {D : Nat} {S T : Type} [LinearOrderedField S] (P : Setup D S T)
    (mask : ReinsertMask) (obj : T) (rect : Rect D S) :
    Nat → Node D S T → Bufs D S T → List InsEvent
  | 0, node, _ =>
    let node := node.setRect (union_ node.rect rect)
    if node.size < P.cfg.LeafSize then [] else [overflowEvent mask 0]
  | level + 1, node, bufs =>
    let node := node.setRect (union_ node.rect rect)
    let childIdx := if level + 1 > 1 then chooseInner node rect else chooseLeaf node rect
    let r := insertElement P mask obj rect level (node.children.getD childIdx Node.none) bufs
    insertElementLog P mask obj rect level (node.children.getD childIdx Node.none) bufs ++
      (if node.size < P.cfg.InnerSize then []
        else if r.ret.size ≠ 0 then [overflowEvent mask (level + 1)] else [])

/-- The calls of `splitInner` that `insertSubtree` makes, each with the branch it
takes. -/
def insertSubtreeLog {D : Nat} {S T : Type} [LinearOrderedField S] (P : Setup D S T)
    (mask : ReinsertMask) (ins : Node D S T) (insLevel : Nat) :
    Nat → Node D S T → Bufs D S T → List InsEvent
  | 0, node, _ =>
    let node := node.setRect (union_ node.rect ins.rect)
    if node.size < P.cfg.InnerSize then [] else [overflowEvent mask 0]
  | level + 1, node, bufs =>
    let node := node.setRect (union_ node.rect ins.rect)
    if level + 1 ≤ insLevel then
      if node.size < P.cfg.InnerSize then [] else [overflowEvent mask (level + 1)]
    else
      let childIdx := chooseInner node ins.rect
      let r := insertSubtree P mask ins insLevel level
        (node.children.getD childIdx Node.none) bufs
      insertSubtreeLog P mask ins insLevel level (node.children.getD childIdx Node.none) bufs ++
        (if node.size < P.cfg.InnerSize then []
          else if r.ret.size ≠ 0 then [overflowEvent mask (level + 1)] else [])

/-- The events of a loop whose body may throw: those of each round, up to and including
the round that throws. -/
def forEachLog {α σ : Type} (f : α → σ → Except Err σ) (lg : α → σ → List InsEvent) :
    List α → σ → List InsEvent
  | [], _ => []
  | a :: as, s =>
    lg a s ++
      (match f a s with
        | Except.ok s' => forEachLog f lg as s'
        | Except.error _ => [])

/-- The events of one round of the loop of `reinsertInner`; `nestedLog` stands for the
events of the nested call. -/
def reinsertRoundLog {D : Nat} {S T : Type} [LinearOrderedField S] (P : Setup D S T)
    (nestedLog : Bufs D S T → Tree D S T × ReinsertMask → List InsEvent)
    (reinsertLevel : Nat) (child : Node D S T) (w : Work D S T) : List InsEvent :=
  let r := insertSubtree P w.mask child reinsertLevel w.tree.mDepth w.tree.mRoot w.bufs
  let tree : Tree D S T := ⟨w.tree.mDepth, r.node⟩
  insertSubtreeLog P w.mask child reinsertLevel w.tree.mDepth w.tree.mRoot w.bufs ++
    (if r.ret.size ≠ 0 then [InsEvent.rootSplit]
      else if r.bufs.reinserts ≠ 0 then nestedLog r.bufs (tree, w.mask.set r.bufs.reinsertLevel)
      else [])

/-- The events of a call of `reinsertInner`, with the same bound on the nesting. -/
def reinsertInnerLog {D : Nat} {S T : Type} [LinearOrderedField S] (P : Setup D S T) :
    Nat → Bufs D S T → Tree D S T × ReinsertMask → List InsEvent
  | 0, _, _ => []
  | fuel + 1, parent, st =>
    forEachLog (reinsertRound P (reinsertInner P fuel) parent.reinsertLevel)
      (reinsertRoundLog P (reinsertInnerLog P fuel) parent.reinsertLevel)
      (parent.children.take parent.reinserts) ⟨st.1, st.2, Bufs.init⟩

/-- The events of a call of `insertLeaf`, with the same bound on the nesting. -/
def insertLeafLog {D : Nat} {S T : Type} [LinearOrderedField S] (P : Setup D S T) :
    Nat → Tree D S T → T → ReinsertMask → List InsEvent
  | 0, _, _, _ => []
  | fuel + 1, tree, obj, mask =>
    let root := if tree.mRoot.size = 0 then Node.leaf (P.rect obj) [] else tree.mRoot
    let r := insertElement P mask obj (P.rect obj) tree.mDepth root Bufs.init
    let tree' : Tree D S T := ⟨tree.mDepth, r.node⟩
    insertElementLog P mask obj (P.rect obj) tree.mDepth root Bufs.init ++
      (if r.ret.size ≠ 0 then [InsEvent.rootSplit]
        else if r.bufs.reinserts ≠ 0 then
          if r.bufs.reinsertLevel = 0 then
            forEachLog
              (fun (x : T) (st : Tree D S T × ReinsertMask) => insertLeaf P fuel st.1 x st.2)
              (fun (x : T) (st : Tree D S T × ReinsertMask) => insertLeafLog P fuel st.1 x st.2)
              (r.bufs.objects.take r.bufs.reinserts) (tree', mask.set r.bufs.reinsertLevel)
          else reinsertInnerLog P fuel r.bufs (tree', mask.set r.bufs.reinsertLevel)
        else [])

/-- The events of one call of `insert`. -/
def insertLog {D : Nat} {S T : Type} [LinearOrderedField S] (P : Setup D S T)
    (tree : Tree D S T) (obj : T) : List InsEvent :=
  insertLeafLog P (max_depth + 2) tree obj ReinsertMask.zero

/-- No forced reinsertion at a level whose mask bit is set, and none twice at one
level. -/
def LogOK (mask : ReinsertMask) (log : List InsEvent) : Prop :=
  (∀ L, InsEvent.reinsert L ∈ log → mask L = false) ∧
  log.Pairwise (fun a b => ∀ L, a = InsEvent.reinsert L → b ≠ InsEvent.reinsert L)

/-- The mask `m` after the events `log` that started under `mask`: no bit was cleared,
and the bit of every level of a forced reinsertion is set. -/
def MaskOK (mask : ReinsertMask) (log : List InsEvent) (m : ReinsertMask) : Prop :=
  (∀ L, mask L = true → m L = true) ∧ (∀ L, InsEvent.reinsert L ∈ log → m L = true)

/-- What the events of a descent tell about its outcome: a forced reinsertion at level
`L` happened under an unset bit, and the descent then signals reinsertion at `L`. -/
def DescentOK {D : Nat} {S T : Type} (mask : ReinsertMask) (log : List InsEvent)
    (r : Step D S T) : Prop :=
  (∀ L, InsEvent.reinsert L ∈ log →
    mask L = false ∧ r.ret.size = 0 ∧ r.bufs.reinserts ≠ 0 ∧ r.bufs.reinsertLevel = L) ∧
  log.Pairwise (fun a b => ∀ L, a = InsEvent.reinsert L → b ≠ InsEvent.reinsert L)

/-- The two `assert`s in the split branch of `splitLeaf`, for the node and the item it is
called with: `newNode.size < LeafSize`, where `newNode.size` is the index returned by
`computeSplit`, and `node.size < LeafSize`, where `node.size` is `buf.size()` minus that
index and `buf.size()` is `LeafSize + 1`. -/
def splitLeafAsserts {D : Nat} {S T : Type} [LinearOrderedField S] (P : Setup D S T)
    (node : Node D S T) (extra : T) : Bool × Bool :=
  let buf := node.objects.take P.cfg.LeafSize ++ [extra]
  let bestSplit := (computeSplit P buf P.rect P.cfg.LeafMin).2
  (decide (bestSplit < P.cfg.LeafSize), decide (P.cfg.LeafSize + 1 - bestSplit < P.cfg.LeafSize))

/-- Source `RStar::splitLeaf` as compiled without `NDEBUG`: the value of `splitLeaf` where
the two assertions of the split branch hold (the reinsertion branch has none), and no
value where one of them fails and the program is aborted. -/
def splitLeafChecked {D : Nat} {S T : Type} [LinearOrderedField S] (P : Setup D S T)
    (mask : ReinsertMask) (bufs : Bufs D S T) (node : Node D S T) (extra : T) :
    Option (Step D S T) :=
  if !mask 0 then some (splitLeaf P mask bufs node extra)
  else if (splitLeafAsserts P node extra).1 && (splitLeafAsserts P node extra).2 then
    some (splitLeaf P mask bufs node extra)
  else none

/-- The cached rectangle of the node read at `level`, and of every node below it,
contains the rectangle of every item stored in its subtree. -/
def Covered {D : Nat} {S T : Type} [LinearOrder S] (P : Setup D S T) :
    Nat → Node D S T → Prop
  | 0, n => ∀ x ∈ items 0 n, contains n.rect (P.rect x)
  | k + 1, n => (∀ x ∈ items (k + 1) n, contains n.rect (P.rect x)) ∧
      ∀ c ∈ n.children, Covered P k c

/-- The cached rectangle of the node read at `level`, and of every node below it, lies
within the rectangle `u`. -/
def Within {D : Nat} {S T : Type} [LinearOrder S] (u : Rect D S) : Nat → Node D S T → Prop
  | 0, n => contains u n.rect
  | k + 1, n => contains u n.rect ∧ ∀ c ∈ n.children, Within u k c

/-- What one call of the descent guarantees about the size of the cached rectangles: the
node it returns from and the node it splits off lie within `u`, a split leaves no
reinsertion pending, and evicted subtrees in the buffer lie within `u`. -/
def StepWithin {D : Nat} {S T : Type} [LinearOrder S] (u : Rect D S) (level : Nat)
    (r : Step D S T) : Prop :=
  Within u level r.node ∧
  (r.ret.size ≠ 0 → Within u level r.ret ∧ r.bufs.reinserts = 0) ∧
  (r.bufs.reinserts ≠ 0 → r.bufs.reinsertLevel ≠ 0 →
    ∀ c ∈ r.bufs.children.take r.bufs.reinserts, Within u (r.bufs.reinsertLevel - 1) c)

/-- Specification of a call of `reinsertInner` with respect to the size of the cached
rectangles: if the tree and the evicted subtrees lie within `u`, so does the result. -/
def NestedWithin {D : Nat} {S T : Type} [LinearOrder S] (P : Setup D S T) (u : Rect D S)
    (bound : Nat)
    (nested : Bufs D S T → Tree D S T × ReinsertMask → Except Err (Tree D S T × ReinsertMask)) :
    Prop :=
  ∀ (parent : Bufs D S T) (t : Tree D S T) (mask : ReinsertMask)
    (res : Tree D S T × ReinsertMask), TreeOK P t →
    1 ≤ parent.reinsertLevel → parent.reinsertLevel ≤ t.mDepth →
    (∀ c ∈ parent.children.take parent.reinserts,
      NodeOK P (P.cfg.minAt (parent.reinsertLevel - 1)) (parent.reinsertLevel - 1) c ∧
        Within u (parent.reinsertLevel - 1) c) →
    unsetBits mask < bound → Within u t.mDepth t.mRoot →
    nested parent (t, mask) = Except.ok res → Within u res.1.mDepth res.1.mRoot

/-- The bounding rectangle of a group of entries in the words of the specification: the
union of the rectangles of all its entries (the default rectangle for an empty group). -/
def groupBox {D : Nat} {S E : Type} [LinearOrder S] [Zero S] (getRect : E → Rect D S)
    (g : List E) : Rect D S :=
  match g.map getRect with
  | [] => default
  | r :: rs => unionAll r rs

/-- The overlap of the split of `buf` at `i` in the words of the specification: the area of
the intersection of the bounding rectangles of the entries `[0, i)` and `[i, Size)`, and
0 when they do not intersect. -/
def splitOverlap {D : Nat} {S E : Type} [LinearOrder S] [Zero S] [One S] [Mul S] [Sub S]
    (getRect : E → Rect D S)
    (buf : List E) (i : Nat) : S :=
  match intersect (groupBox getRect (buf.take i)) (groupBox getRect (buf.drop i)) with
  | some x => area x
  | Option.none => 0

/-- The area of the split of `buf` at `i` in the words of the specification: the sum of
the areas of the bounding rectangles of the entries `[0, i)` and `[i, Size)`. -/
def splitArea {D : Nat} {S E : Type} [LinearOrder S] [Zero S] [One S] [Add S] [Mul S] [Sub S]
    (getRect : E → Rect D S)
    (buf : List E) (i : Nat) : S :=
  area (groupBox getRect (buf.take i)) + area (groupBox getRect (buf.drop i))

/-- The pair `(overlap, area)` that the split index loop of `computeSplit` computes in
round `i` from the arrays `rects1` and `rects2`. -/
def splitKey {D : Nat} {S : Type} [LinearOrder S] [Zero S] [One S] [Add S] [Mul S] [Sub S]
    (r1 r2 : List (Rect D S)) (i : Nat) :
    S × S :=
  ((match intersect (r1.getD (i - 1) default) (r2.getD i default) with
      | some x => area x
      | Option.none => 0),
    area (r1.getD (i - 1) default) + area (r2.getD i default))

/-- The margin value of the two-way grouping of `buf` at `k` in the words of the
specification: the margin of the bounding rectangle of the entries `[0, k)` plus that of
the entries `[k, Size)`. -/
def groupingMargin {D : Nat} {S E : Type} [LinearOrder S] [Zero S] [Add S] [Sub S]
    (getRect : E → Rect D S)
    (buf : List E) (k : Nat) : S :=
  margin (groupBox getRect (buf.take k)) + margin (groupBox getRect (buf.drop k))

/-- The sum of the margin values of the two-way groupings at every `k` with
`lo ≤ k ≤ hi`; the specification takes `lo = minSize` and `hi = Size - minSize`. -/
def groupingMarginSum {D : Nat} {S E : Type} [LinearOrder S] [Zero S] [Add S] [Sub S]
    (getRect : E → Rect D S)
    (buf : List E) (lo hi : Nat) : S :=
  ((List.range' lo (hi + 1 - lo)).map (groupingMargin getRect buf)).sum

/-- The buffer of `computeSplit` after the sort of round `axis` of the axis loop: every
round sorts what the round before left. -/
def axisBuf {D : Nat} {S T E : Type} [LinearOrder S] [Zero S] (P : Setup D S T)
    (getRect : E → Rect D S) (buf : List E) : Nat → List E
  | 0 => P.sort (fun a b => cmp 0 (getRect a) (getRect b)) buf
  | axis + 1 =>
    P.sort (fun a b => cmp (axis + 1) (getRect a) (getRect b)) (axisBuf P getRect buf axis)

/-- The structural invariant without the upper size bounds: a node read at `level` has
the shape its level asks for, at least `lo` entries (an inner node at least one), every
node below it has at least the minimum fill of its level, and every cached rectangle
contains the rectangles of the node's entries.  It is what the insertion keeps for every
configuration the static assertions accept, a reinsert count of 0 included. -/
def NodeLax {D : Nat} {S T : Type} [LinearOrder S] (P : Setup D S T) :
    Nat → Nat → Node D S T → Prop
  | lo, 0, n => ∃ r os, n = Node.leaf r os ∧ lo ≤ os.length ∧ ∀ o ∈ os, contains r (P.rect o)
  | lo, k + 1, n => ∃ r cs, n = Node.inner r cs ∧ lo ≤ cs.length ∧ 1 ≤ cs.length ∧
      ∀ c ∈ cs, NodeLax P (P.cfg.minAt k) k c ∧ contains r c.rect

/-- The invariant `NodeLax` for a tree: the depth is at most `max_depth` and the root
satisfies the node invariant without a lower size bound. -/
def TreeLax {D : Nat} {S T : Type} [LinearOrder S] (P : Setup D S T) (t : Tree D S T) : Prop :=
  t.mDepth ≤ max_depth ∧ NodeLax P 0 t.mDepth t.mRoot

/-- What one call of the descent guarantees in terms of `NodeLax`, for a node of lower
size bound `lo` read at `level` and the rectangle `u` the node was enlarged to; `base` is
the lowest level the call can evict at. -/
def StepLax {D : Nat} {S T : Type} [LinearOrder S] (P : Setup D S T) (mask : ReinsertMask)
    (base lo level : Nat) (u : Rect D S) (r : Step D S T) : Prop :=
  contains u r.node.rect ∧
  (r.ret.size ≠ 0 →
    r.bufs.reinserts = 0 ∧ NodeLax P (P.cfg.minAt level) level r.node ∧
    NodeLax P (P.cfg.minAt level) level r.ret ∧ contains u r.ret.rect) ∧
  (r.ret.size = 0 →
    NodeLax P lo level r.node ∧
    (r.bufs.reinserts ≠ 0 →
      mask r.bufs.reinsertLevel = false ∧
      (base ≤ r.bufs.reinsertLevel ∧ r.bufs.reinsertLevel ≤ level) ∧
      (r.bufs.reinsertLevel ≠ 0 → ∀ c ∈ r.bufs.children.take r.bufs.reinserts,
        NodeLax P (P.cfg.minAt (r.bufs.reinsertLevel - 1)) (r.bufs.reinsertLevel - 1) c)))

/-- What a completed insertion into the tree `t` under the mask `mask` guarantees in
terms of `TreeLax`. -/
def GrownLax {D : Nat} {S T : Type} [LinearOrder S] (P : Setup D S T) (t : Tree D S T)
    (mask : ReinsertMask) (res : Tree D S T × ReinsertMask) : Prop :=
  TreeLax P res.1 ∧ (∀ l, mask l = true → res.2 l = true) ∧ t.mDepth ≤ res.1.mDepth

/-- Specification of a call of `reinsertInner` with enough fuel for `bound` unset bits,
in terms of `TreeLax`. -/
def NestedLax {D : Nat} {S T : Type} [LinearOrder S] (P : Setup D S T) (bound : Nat)
    (nested : Bufs D S T → Tree D S T × ReinsertMask → Except Err (Tree D S T × ReinsertMask)) :
    Prop :=
  ∀ (parent : Bufs D S T) (t : Tree D S T) (mask : ReinsertMask), TreeLax P t →
    1 ≤ parent.reinsertLevel → parent.reinsertLevel ≤ t.mDepth →
    (∀ c ∈ parent.children.take parent.reinserts,
      NodeLax P (P.cfg.minAt (parent.reinsertLevel - 1)) (parent.reinsertLevel - 1) c) →
    unsetBits mask < bound →
    nested parent (t, mask) = Except.error Err.lengthError ∨
    ∃ res, nested parent (t, mask) = Except.ok res ∧ GrownLax P t mask res

/-- The margin sum of an axis as the margin loop of `computeSplit` accumulates it: the
running sum starts at 0 and, for `k` from `lo` to `hi` in this order, the margin of the
bounding rectangle of the first `k` entries plus that of the last `k` entries is added
to it. -/
def runningMarginSum {D : Nat} {S E : Type} [LinearOrder S] [Zero S] [Add S] [Sub S]
    (getRect : E → Rect D S) (buf : List E) (lo hi : Nat) : S :=
  (List.range' lo (hi + 1 - lo)).foldl
    (fun s k => s + (margin (groupBox getRect (buf.take k)) +
      margin (groupBox getRect (buf.drop (buf.length - k))))) 0

end RStar

/-! ## Concrete instances used to run the code -/

open RTree RStar

namespace Example

/-- The one-dimensional box `[a, b]` over the rationals, used as an item that is its own
rectangle (`TGDomain::rect` of an `aabb`). -/
def interval (a b : ℚ) : Rect 1 ℚ := ⟨fun _ => a, fun _ => b⟩

/-- The smallest sizes the static assertions accept (capacity 4, minimum fill 1,
reinsert count 1), over one-dimensional boxes, with insertion sort as sorting routine. -/
def smallSetup : Setup 1 ℚ (Rect 1 ℚ) := ⟨⟨4, 4, 1, 1, 1, 1⟩, id, insertionSort⟩

/-- The default sizes of the template, over one-dimensional boxes. -/
def defaultSetup : Setup 1 ℚ (Rect 1 ℚ) := ⟨Config.default, id, insertionSort⟩

/-- Seven boxes whose insertion, in this order, ends with a forced reinsertion out of a
leaf whose evicted entry lands in another leaf. -/
def staleItems : List (Rect 1 ℚ) :=
  [interval 3 8, interval 56 73, interval 96 98, interval 4 5, interval 0 10,
    interval 57 59, interval 19 24]

end Example

namespace RStar

instance instDecidableValid (c : Config) : Decidable c.Valid := by
  unfold Config.Valid
  infer_instance

instance instDecidableStaticAsserts (c : Config) : Decidable c.staticAsserts := by
  unfold Config.staticAsserts
  infer_instance

end RStar

namespace Example

/-- A visitor over a call counter whose `checkFn` rejects every rectangle. -/
def rejectAll : Visitor Nat 1 ℚ Nat := ⟨fun _ _ s => (false, s + 1), fun _ s => (true, s + 1)⟩

/-- A visitor over a call counter whose `checkFn` accepts every rectangle and whose
`visitFn` returns false on the item 2. -/
def stopAtTwo : Visitor Nat 1 ℚ Nat :=
  ⟨fun _ _ s => (true, s + 1), fun x s => (decide (x ≠ 2), s + 1)⟩

/-- A visitor over a call counter whose `checkFn` accepts the rectangles that start
below 5 and whose `visitFn` returns true. -/
def belowFive : Visitor Nat 1 ℚ Nat :=
  ⟨fun r _ s => (decide (r.min 0 < 5), s + 1), fun _ s => (true, s + 1)⟩

/-- A visitor over a call counter whose callbacks both always return true. -/
def acceptAll : Visitor Nat 1 ℚ (Rect 1 ℚ) :=
  ⟨fun _ _ s => (true, s + 1), fun _ s => (true, s + 1)⟩

/-- A visitor over a call counter whose `checkFn` accepts the rectangles that intersect
the box 57 to 58 and whose `visitFn` returns true. -/
def nearFiftySeven : Visitor Nat 1 ℚ (Rect 1 ℚ) :=
  ⟨fun r _ s => (intersects (interval 57 58) r, s + 1), fun _ s => (true, s + 1)⟩

/-- A leaf with the items 1, 2, 3. -/
def leafA : Node 1 ℚ Nat := Node.leaf (interval 0 3) [1, 2, 3]

/-- A leaf with the items 7, 8. -/
def leafB : Node 1 ℚ Nat := Node.leaf (interval 7 8) [7, 8]

/-- A tree of depth 1 over the leaves `leafA` and `leafB`. -/
def twoLeaves : Tree 1 ℚ Nat := ⟨1, Node.inner (interval 0 8) [leafA, leafB]⟩

/-- A full leaf (small sizes) with cached rectangle 4 to 98. -/
def fullLeaf : Node 1 ℚ (Rect 1 ℚ) :=
  Node.leaf (interval 4 98) [interval 4 5, interval 56 73, interval 96 98, interval 57 59]

/-- A thousand unit boxes, the box from `i` to `i + 1` for `i` below 1000. -/
def thousandBoxes : List (Rect 1 ℚ) :=
  (List.range 1000).map (fun (i : Nat) => interval (i : ℚ) ((i : ℚ) + 1))

/-- A full inner node at level 1 (capacity 4) over four leaves of one box each. -/
def fullInner : Node 1 ℚ (Rect 1 ℚ) :=
  Node.inner (interval 0 98)
    [Node.leaf (interval 0 10) [interval 0 10], Node.leaf (interval 56 73) [interval 56 73],
      Node.leaf (interval 96 98) [interval 96 98], Node.leaf (interval 57 59) [interval 57 59]]

/-- A leaf of one box, the child that does not fit into `fullInner`. -/
def extraLeaf : Node 1 ℚ (Rect 1 ℚ) := Node.leaf (interval 19 24) [interval 19 24]

/-- The smallest sizes the static assertions accept, over one-dimensional points. -/
def pointSetup : Setup 1 ℚ (Fin 1 → ℚ) := ⟨⟨4, 4, 1, 1, 1, 1⟩, pointRect, insertionSort⟩

/-- Seven points on the line. -/
def somePoints : List (Fin 1 → ℚ) :=
  [fun _ => 3, fun _ => 56, fun _ => 96, fun _ => 4, fun _ => 0, fun _ => 57, fun _ => 19]

/-- A full leaf (small sizes) holding the boxes 0 to 10, 1 to 2, 3 to 4 and 5 to 6, with
its rectangle already enlarged by the box 20 to 21. -/
def nestedLeaf : Node 1 ℚ (Rect 1 ℚ) :=
  Node.leaf (interval 0 21) [interval 0 10, interval 1 2, interval 3 4, interval 5 6]

/-- Sizes with a leaf reinsert count of 0; the static assertions accept them. -/
def zeroReinsert : Setup 1 ℚ (Rect 1 ℚ) := ⟨⟨4, 4, 1, 0, 1, 1⟩, id, insertionSort⟩

/-- Five boxes, the first far from the others. -/
def spreadBoxes : List (Rect 1 ℚ) :=
  [interval 0 1, interval 10 11, interval 12 13, interval 14 15, interval 16 17]

/-- A full leaf (small sizes) with the first four boxes of `spreadBoxes`, its rectangle
already enlarged by the fifth. -/
def spreadLeaf : Node 1 ℚ (Rect 1 ℚ) := Node.leaf (interval 0 17) (spreadBoxes.take 4)

/-- A full leaf (small sizes) with the rectangle 0 to 10. -/
def centreLeaf : Node 1 ℚ (Rect 1 ℚ) :=
  Node.leaf (interval 0 10) [interval 0 1, interval 9 10, interval 4 5, interval 5 6]

/-- A point of the plane as a rectangle without extent. -/
def planePoint (x y : ℚ) : Rect 2 ℚ :=
  ⟨fun i => if i.val = 0 then x else y, fun i => if i.val = 0 then x else y⟩

/-- Small node sizes in the plane (capacity 4, minimum fill 1, one reinsertion); the items
are their own rectangles. -/
def planeSetup : Setup 2 ℚ (Rect 2 ℚ) := ⟨⟨4, 4, 1, 1, 1, 1⟩, id, insertionSort⟩

/-- Five points of the plane with pairwise different coordinates on both axes. -/
def planePoints : List (Rect 2 ℚ) :=
  [planePoint 5 2, planePoint 4 7, planePoint 1 1, planePoint 2 3, planePoint 0 0]

/-- The four boxes of `fullLeaf`, then the boxes 19 to 24 and 1 to 2. -/
def sixBoxes : List (Rect 1 ℚ) := fullLeaf.objects ++ [interval 19 24, interval 1 2]

/-- The sizes of `zeroReinsert` (leaf reinsert count 0) over one-dimensional points. -/
def zeroPointSetup : Setup 1 ℚ (Fin 1 → ℚ) := ⟨⟨4, 4, 1, 0, 1, 1⟩, pointRect, insertionSort⟩

/-- Sizes with a leaf reinsert count of 2 and an inner reinsert count of 0; the static
assertions accept them. -/
def zeroInnerReinsert : Setup 1 ℚ (Rect 1 ℚ) := ⟨⟨4, 4, 1, 2, 1, 0⟩, id, insertionSort⟩

/-- Thirteen boxes that fill a root of four leaves (sizes `zeroInnerReinsert`). -/
def crowdedBoxes : List (Rect 1 ℚ) :=
  [interval 0 12, interval 33 36, interval 25 27, interval 25 28, interval 22 24,
    interval 16 23, interval 17 23, interval 33 41, interval 17 30, interval 5 17,
    interval 2 4, interval 4 10, interval 12 19]

/-- Six boxes, the first spanning all the others. -/
def wideFirstBoxes : List (Rect 1 ℚ) :=
  [interval 0 100, interval 10 11, interval 90 91, interval 20 21, interval 80 81,
    interval 50 51]

/-- The one-dimensional box from `a` to `b` over `float`; `a` and `b` are to be `float`
values. -/
def singleInterval (a b : ℚ) : Rect 1 Single := ⟨fun _ => ⟨a⟩, fun _ => ⟨b⟩⟩

/-- An inner node over `float` with the children 0 to 16777216 (2^24) and -1/2 to 0. -/
def roundedInner : Node 1 Single Nat :=
  Node.inner (singleInterval (-1 / 2) 16777216)
    [Node.leaf (singleInterval 0 16777216) [0], Node.leaf (singleInterval (-1 / 2) 0) [1]]

/-- The tree of the first four boxes of `spreadBoxes` (small sizes): one full leaf. -/
def fourBoxTree : Tree 1 ℚ (Rect 1 ℚ) :=
  getOk Tree.empty (insertAll smallSetup Tree.empty (spreadBoxes.take 4))

/-- The descent `insertElement` that `insertLeaf` starts for the box 16 to 17 on
`fourBoxTree`, with an empty reinsert mask. -/
def firstDescent : Step 1 ℚ (Rect 1 ℚ) :=
  insertElement smallSetup ReinsertMask.zero (interval 16 17)
    (smallSetup.rect (interval 16 17)) fourBoxTree.mDepth fourBoxTree.mRoot Bufs.init

end Example

/-! ## Theorems -/

open TGDomain RTree RStar Example

/-! ### Rectangle algebra -/

namespace TGDomain

variable {D : Nat} {S : Type} [LinearOrder S]

theorem contains_refl (a : Rect D S) : contains a a :=
  fun _ => ⟨le_refl _, le_refl _⟩

theorem contains_trans {a b c : Rect D S} (hab : contains a b) (hbc : contains b c) :
    contains a c :=
  fun i => ⟨le_trans (hab i).1 (hbc i).1, le_trans (hbc i).2 (hab i).2⟩

theorem contains_union_left (a b : Rect D S) : contains (union_ a b) a :=
  fun _ => ⟨min_le_left _ _, le_max_left _ _⟩

theorem contains_union_right (a b : Rect D S) : contains (union_ a b) b :=
  fun _ => ⟨min_le_right _ _, le_max_right _ _⟩

theorem contains_union_of {r a b : Rect D S} (ha : contains r a) (hb : contains r b) :
    contains r (union_ a b) :=
  fun i => ⟨le_min (ha i).1 (hb i).1, max_le (ha i).2 (hb i).2⟩

theorem union_self (a : Rect D S) : union_ a a = a := by
  cases a
  simp [union_]

theorem union_eq_left_of_contains {a b : Rect D S} (h : contains a b) : union_ a b = a := by
  cases a with
  | mk amin amax =>
    cases b with
    | mk bmin bmax =>
      simp only [union_, Rect.mk.injEq]
      constructor
      · funext i
        exact min_eq_left (h i).1
      · funext i
        exact max_eq_left (h i).2

theorem intersects_iff (a b : Rect D S) :
    intersects a b = true ↔ ∀ i, Max.max (a.min i) (b.min i) < Min.min (a.max i) (b.max i) := by
  unfold intersects intersect
  simp only
  split
  · rename_i h
    simp only [Option.isSome_none, Bool.false_eq_true, false_iff]
    intro hall
    rw [List.any_eq_true] at h
    obtain ⟨i, _, hi⟩ := h
    exact absurd (hall i) (not_lt.mpr (of_decide_eq_true hi))
  · rename_i h
    simp only [Option.isSome_some, true_iff]
    intro i
    by_contra hlt
    apply h
    rw [List.any_eq_true]
    exact ⟨i, List.mem_finRange i, decide_eq_true (not_lt.mp hlt)⟩

theorem intersects_mono {q a b : Rect D S} (hba : contains b a) (h : intersects q a = true) :
    intersects q b = true := by
  rw [intersects_iff] at h ⊢
  intro i
  calc Max.max (q.min i) (b.min i) ≤ Max.max (q.min i) (a.min i) :=
        max_le_max (le_refl _) (hba i).1
    _ < Min.min (q.max i) (a.max i) := h i
    _ ≤ Min.min (q.max i) (b.max i) := min_le_min (le_refl _) (hba i).2

end TGDomain

/-! ### Unions of several rectangles -/

namespace RTree

variable {D : Nat} {S T : Type} [LinearOrder S]

theorem contains_unionAll_init (r : Rect D S) (rs : List (Rect D S)) :
    contains (unionAll r rs) r := by
  induction rs generalizing r with
  | nil => exact contains_refl r
  | cons x xs ih =>
    exact contains_trans (ih (union_ r x)) (contains_union_left r x)

theorem contains_unionAll_mem (r : Rect D S) (rs : List (Rect D S)) :
    ∀ x ∈ rs, contains (unionAll r rs) x := by
  induction rs generalizing r with
  | nil => intro x hx; cases hx
  | cons y ys ih =>
    intro x hx
    rcases List.mem_cons.mp hx with h | h
    · subst h
      exact contains_trans (contains_unionAll_init (union_ r x) ys) (contains_union_right r x)
    · exact ih (union_ r y) x h

theorem contains_unionAll_of {u r : Rect D S} {rs : List (Rect D S)} (hr : contains u r)
    (hrs : ∀ x ∈ rs, contains u x) : contains u (unionAll r rs) := by
  induction rs generalizing r with
  | nil => exact hr
  | cons y ys ih =>
    exact ih (contains_union_of hr (hrs y (List.mem_cons_self y ys)))
      (fun x hx => hrs x (List.mem_cons_of_mem y hx))

end RTree

/-! ### The call log of a traversal -/

namespace RTree

variable {D : Nat} {S T : Type} {σ : Type}

theorem Node.size_leaf (r : Rect D S) (os : List T) : (Node.leaf r os).size = os.length := rfl
theorem Node.size_inner (r : Rect D S) (cs : List (Node D S T)) :
    (Node.inner r cs).size = cs.length := rfl

theorem EarlyStop.nil : EarlyStop ([] : List (Event D S T)) true := by
  constructor
  · intro _ e he
    cases he
  · intro h
    cases h

theorem EarlyStop.single {e : Event D S T} (he : e.isStop = false) : EarlyStop [e] true := by
  constructor
  · intro _ e' he'
    rw [List.mem_singleton] at he'
    rw [he']
    exact he
  · intro h
    cases h

theorem EarlyStop.stop {e : Event D S T} (he : e.isStop = true) : EarlyStop [e] false := by
  constructor
  · intro h
    cases h
  · intro _
    exact ⟨[], e, rfl, he, fun _ h => by cases h⟩

theorem EarlyStop.append {a b : List (Event D S T)} {ok : Bool} (ha : EarlyStop a true)
    (hb : EarlyStop b ok) : EarlyStop (a ++ b) ok := by
  constructor
  · intro h e he
    rcases List.mem_append.mp he with h1 | h1
    · exact ha.1 rfl e h1
    · exact hb.1 h e h1
  · intro h
    obtain ⟨pre, e, hpre, he, hall⟩ := hb.2 h
    refine ⟨a ++ pre, e, by rw [hpre, List.append_assoc], he, ?_⟩
    intro e' he'
    rcases List.mem_append.mp he' with h1 | h1
    · exact ha.1 rfl e' h1
    · exact hall e' h1

theorem EarlyStop.last {evs pre post : List (Event D S T)} {ok : Bool} {e : Event D S T}
    (h : EarlyStop evs ok) (he : e.isStop = true) (hsplit : evs = pre ++ e :: post) :
    post = [] ∧ ok = false := by
  cases ok with
  | true =>
    have := h.1 rfl e (by rw [hsplit]; simp)
    rw [he] at this
    cases this
  | false =>
    obtain ⟨pre', e', hpre, _, hall⟩ := h.2 rfl
    refine ⟨?_, rfl⟩
    rw [hsplit] at hpre
    rcases List.eq_nil_or_concat post with hp | ⟨post', z, hp⟩
    · exact hp
    · exfalso
      rw [hp, List.concat_eq_append] at hpre
      have h2 : pre ++ e :: (post' ++ [z]) = (pre ++ e :: post') ++ [z] := by simp
      rw [h2] at hpre
      have h3 := List.append_inj' hpre rfl
      have := hall e (by rw [← h3.1]; simp)
      rw [he] at this
      cases this

/-- The log only grows. -/
theorem forEachWhile_log {α : Type} (f : α → σ × List (Event D S T) → Bool × σ × List (Event D S T))
    (hf : ∀ a st, ∃ evs, (f a st).2.2 = st.2 ++ evs ∧ EarlyStop evs (f a st).1)
    (l : List α) (st : σ × List (Event D S T)) :
    ∃ evs, (forEachWhile f l st).2.2 = st.2 ++ evs ∧ EarlyStop evs (forEachWhile f l st).1 := by
  induction l generalizing st with
  | nil => exact ⟨[], by simp [forEachWhile], EarlyStop.nil⟩
  | cons a as ih =>
    obtain ⟨e1, h1, s1⟩ := hf a st
    simp only [forEachWhile]
    cases hok : (f a st).1 with
    | true =>
      simp only [if_true]
      obtain ⟨e2, h2, s2⟩ := ih (f a st).2
      refine ⟨e1 ++ e2, by rw [h2, h1, List.append_assoc], ?_⟩
      rw [hok] at s1
      exact EarlyStop.append s1 s2
    | false =>
      simp only [Bool.false_eq_true, if_false]
      rw [hok] at s1
      exact ⟨e1, h1, s1⟩

theorem visitNode_traced_log (v : Visitor σ D S T) (level : Nat) (node : Node D S T)
    (st : σ × List (Event D S T)) :
    ∃ evs, (visitNode v.traced level node st).2.2 = st.2 ++ evs ∧
      EarlyStop evs (visitNode v.traced level node st).1 := by
  have hcheck : ∀ (r : Rect D S) (l : Nat) (st : σ × List (Event D S T)),
      EarlyStop [(Event.check r l (v.check r l st.1).1 : Event D S T)] true :=
    fun r l st => EarlyStop.single rfl
  induction level generalizing node st with
  | zero =>
    simp only [visitNode]
    split
    · exact ⟨[], by simp, EarlyStop.nil⟩
    · split
      · have hv : ∀ (x : T) (st : σ × List (Event D S T)), ∃ evs,
            (v.traced.visit x st).2.2 = st.2 ++ evs ∧ EarlyStop evs (v.traced.visit x st).1 := by
          intro x st
          refine ⟨[Event.visit x (v.visit x st.1).1], rfl, ?_⟩
          simp only [Visitor.traced]
          cases hx : (v.visit x st.1).1 with
          | true => exact EarlyStop.single rfl
          | false => exact EarlyStop.stop rfl
        obtain ⟨e2, h2, s2⟩ := forEachWhile_log v.traced.visit hv node.objects
          (v.traced.check node.rect 0 st).2
        refine ⟨[Event.check node.rect 0 (v.check node.rect 0 st.1).1] ++ e2, ?_, ?_⟩
        · rw [h2]; simp [Visitor.traced]
        · exact EarlyStop.append (hcheck _ _ st) s2
      · exact ⟨[Event.check node.rect 0 (v.check node.rect 0 st.1).1], rfl, hcheck _ _ st⟩
  | succ k ih =>
    simp only [visitNode]
    split
    · exact ⟨[], by simp, EarlyStop.nil⟩
    · split
      · obtain ⟨e2, h2, s2⟩ := forEachWhile_log (visitNode v.traced k) (fun a st => ih a st)
          node.children (v.traced.check node.rect (k + 1) st).2
        refine ⟨[Event.check node.rect (k + 1) (v.check node.rect (k + 1) st.1).1] ++ e2, ?_, ?_⟩
        · rw [h2]; simp [Visitor.traced]
        · exact EarlyStop.append (hcheck _ _ st) s2
      · exact ⟨[Event.check node.rect (k + 1) (v.check node.rect (k + 1) st.1).1], rfl,
          hcheck _ _ st⟩

/-! ### Traversal order -/

theorem flatMap_singleton_map {α β : Type} (f : α → β) (l : List α) :
    l.flatMap (fun x => [f x]) = l.map f := by
  induction l with
  | nil => rfl
  | cons a as ih => simp [List.flatMap_cons, ih]

theorem forEachWhile_true {α τ β : Type} (f : α → τ → Bool × τ) (proj : τ → List β)
    (g : α → List β) (hf : ∀ a st, (f a st).1 = true ∧ proj (f a st).2 = proj st ++ g a)
    (l : List α) (st : τ) :
    (forEachWhile f l st).1 = true ∧ proj (forEachWhile f l st).2 = proj st ++ l.flatMap g := by
  induction l generalizing st with
  | nil => simp [forEachWhile]
  | cons a as ih =>
    simp only [forEachWhile, (hf a st).1, if_true, List.flatMap_cons]
    refine ⟨(ih _).1, ?_⟩
    rw [(ih _).2, (hf a st).2, List.append_assoc]

theorem visitNode_expectedLog (v : Visitor σ D S T) (c : Rect D S → Nat → Bool)
    (hc : ∀ r l s, (v.check r l s).1 = c r l) (hv : ∀ x s, (v.visit x s).1 = true)
    (level : Nat) (node : Node D S T) (st : σ × List (Event D S T)) :
    (visitNode v.traced level node st).1 = true ∧
    (visitNode v.traced level node st).2.2 = st.2 ++ expectedLog c level node := by
  induction level generalizing node st with
  | zero =>
    simp only [visitNode, expectedLog]
    by_cases hs : node.size = 0
    · simp [hs]
    · simp only [hs, if_false]
      have hck : (v.traced.check node.rect 0 st).1 = c node.rect 0 := hc _ _ _
      cases hcv : c node.rect 0 with
      | false =>
        rw [hcv] at hck
        simp only [hck, Bool.false_eq_true, if_false, true_and]
        simp [Visitor.traced, hc, hcv]
      | true =>
        rw [hcv] at hck
        simp only [hck, if_true]
        have := forEachWhile_true v.traced.visit (fun st => st.2)
          (fun x => [(Event.visit x true : Event D S T)])
          (fun a st => ⟨hv a st.1, by simp [Visitor.traced, hv]⟩) node.objects
          (v.traced.check node.rect 0 st).2
        refine ⟨this.1, ?_⟩
        rw [this.2]
        simp [Visitor.traced, hc, hcv, flatMap_singleton_map]
  | succ k ih =>
    simp only [visitNode, expectedLog]
    by_cases hs : node.size = 0
    · simp [hs]
    · simp only [hs, if_false]
      have hck : (v.traced.check node.rect (k + 1) st).1 = c node.rect (k + 1) := hc _ _ _
      cases hcv : c node.rect (k + 1) with
      | false =>
        rw [hcv] at hck
        simp only [hck, Bool.false_eq_true, if_false, true_and]
        simp [Visitor.traced, hc, hcv]
      | true =>
        rw [hcv] at hck
        simp only [hck, if_true]
        have := forEachWhile_true (visitNode v.traced k) (fun st => st.2)
          (expectedLog c k) (fun a st => ih a st) node.children
          (v.traced.check node.rect (k + 1) st).2
        refine ⟨this.1, ?_⟩
        rw [this.2]
        simp [Visitor.traced, hc, hcv]


theorem expectedLog_items (c : Rect D S → Nat → Bool) (level : Nat) (node : Node D S T) :
    (expectedLog c level node).filterMap Event.item = prunedItems c level node := by
  induction level generalizing node with
  | zero =>
    simp only [expectedLog, prunedItems]
    by_cases hs : node.size = 0
    · simp [hs]
    · cases hcv : c node.rect 0 with
      | false => simp [hs, Event.item]
      | true =>
        simp only [hs, if_false, if_true, ne_eq, not_false_eq_true, and_self,
          List.filterMap_cons, Event.item]
        induction node.objects with
        | nil => rfl
        | cons o os iho => simp [Event.item, iho]
  | succ k ih =>
    simp only [expectedLog, prunedItems]
    by_cases hs : node.size = 0
    · simp [hs]
    · cases hcv : c node.rect (k + 1) with
      | false => simp [hs, Event.item]
      | true =>
        simp only [hs, if_false, if_true, ne_eq, not_false_eq_true, and_self,
          List.filterMap_cons, Event.item]
        induction node.children with
        | nil => rfl
        | cons o os iho => simp [List.filterMap_append, ih, iho]

theorem visitNode_collector (c : Rect D S → Nat → Bool) (level : Nat) (node : Node D S T)
    (acc : List T) :
    (visitNode (collector c) level node acc).1 = true ∧
    (visitNode (collector c) level node acc).2 = acc ++ prunedItems c level node := by
  induction level generalizing node acc with
  | zero =>
    simp only [visitNode, prunedItems]
    by_cases hs : node.size = 0
    · simp [hs]
    · cases hcv : c node.rect 0 with
      | false => simp [hs, collector, hcv]
      | true =>
        have := forEachWhile_true (collector c).visit (fun st => st) (fun x => [x])
          (fun a st => ⟨rfl, rfl⟩) node.objects acc
        simp only [hs, if_false, collector, hcv, if_true, ne_eq, not_false_eq_true, and_self]
        simp only [collector] at this
        refine ⟨this.1, ?_⟩
        rw [this.2]
        exact congrArg _ ((flatMap_singleton_map id node.objects).trans (List.map_id _))
  | succ k ih =>
    simp only [visitNode, prunedItems]
    by_cases hs : node.size = 0
    · simp [hs]
    · cases hcv : c node.rect (k + 1) with
      | false => simp [hs, collector, hcv]
      | true =>
        have := forEachWhile_true (visitNode (collector c) k) (fun st => st)
          (prunedItems c k) (fun a st => ih a st) node.children acc
        simp only [hs, if_false, collector, hcv, if_true, ne_eq, not_false_eq_true, and_self]
        simp only [collector] at this
        exact this

theorem collect_eq_prunedItems (t : Tree D S T) (c : Rect D S → Nat → Bool) :
    collect t c = prunedItems c t.mDepth t.mRoot := by
  simp only [collect, visit, (visitNode_collector c t.mDepth t.mRoot []).2, List.nil_append]

end RTree

namespace RStar

variable {D : Nat} {S T : Type}

/-! ### Size parameters -/

theorem Config.valid_of_staticAsserts (c : Config) (h : c.staticAsserts)
    (hl : 1 ≤ c.LeafReinsert) (hi : 1 ≤ c.InnerReinsert) : c.Valid := by
  obtain ⟨⟨h1, h2⟩, ⟨_, h4⟩, ⟨_, h6⟩, h7, h8⟩ := h
  unfold Config.Valid
  omega

theorem Config.default_staticAsserts : Config.default.staticAsserts := by
  decide

theorem Config.default_valid : Config.default.Valid := by
  decide

/-! ### Lists -/

theorem flatMap_set_perm {α β : Type} (f : α → List β) (d x : α) (l : List α) (i : Nat)
    (hi : i < l.length) :
    ((l.set i x).flatMap f ++ f (l.getD i d)).Perm (l.flatMap f ++ f x) := by
  induction l generalizing i with
  | nil => cases hi
  | cons a as ih =>
    cases i with
    | zero =>
      simp only [List.set_cons_zero, List.flatMap_cons, List.getD_cons_zero]
      have h1 : (f x ++ as.flatMap f ++ f a).Perm (f a ++ (f x ++ as.flatMap f)) :=
        List.perm_append_comm
      have h2 : (f a ++ (f x ++ as.flatMap f)).Perm (f a ++ (as.flatMap f ++ f x)) :=
        List.Perm.append_left _ List.perm_append_comm
      rw [List.append_assoc (f a)]
      exact h1.trans h2
    | succ j =>
      simp only [List.set_cons_succ, List.flatMap_cons, List.getD_cons_succ, List.append_assoc]
      exact List.Perm.append_left _ (ih j (Nat.lt_of_succ_lt_succ hi))

theorem getD_mem {α : Type} (d : α) (l : List α) (i : Nat) (hi : i < l.length) :
    l.getD i d ∈ l := by
  rw [List.getD_eq_getElem l d hi]
  exact List.getElem_mem hi

theorem drop_take_flatMap_perm {α β : Type} (f : α → List β) (l : List α) (n : Nat) :
    ((l.drop n).flatMap f ++ (l.take n).flatMap f).Perm (l.flatMap f) := by
  have h : l.flatMap f = (l.take n).flatMap f ++ (l.drop n).flatMap f := by
    rw [← List.flatMap_append, List.take_append_drop]
  rw [h]
  exact List.perm_append_comm

theorem flatMap_perm {α β : Type} (f : α → List β) {l l' : List α} (h : l.Perm l') :
    (l.flatMap f).Perm (l'.flatMap f) := by
  induction h with
  | nil => exact List.Perm.refl _
  | cons x _ ih => exact List.Perm.append_left _ ih
  | swap x y l =>
    simp only [List.flatMap_cons, ← List.append_assoc]
    exact List.Perm.append_right _ List.perm_append_comm
  | trans _ _ ih1 ih2 => exact ih1.trans ih2

/-! ### Loops -/

theorem forLoop_induction {σ : Type} (inv : Nat → σ → Prop) (f : Nat → σ → σ) (lo hi : Nat)
    (s : σ) (h0 : inv lo s) (hstep : ∀ i st, lo ≤ i → i < hi → inv i st → inv (i + 1) (f i st))
    (hle : lo ≤ hi) : inv hi (forLoop lo hi f s) := by
  unfold forLoop
  obtain ⟨n, rfl⟩ := Nat.exists_eq_add_of_le hle
  simp only [Nat.add_sub_cancel_left]
  induction n generalizing lo s with
  | zero => simpa using h0
  | succ k ih =>
    rw [List.range'_succ, List.foldl_cons]
    have := ih (lo + 1) (f lo s) (hstep lo s (le_refl _) (by omega) h0)
      (fun i st h1 h2 h3 => hstep i st (by omega) (by omega) h3) (by omega)
    have e : lo + 1 + k = lo + (k + 1) := by omega
    rw [e] at this
    exact this

/-! ### The split heuristic -/

theorem chooseLoop_lt [LinearOrder S] [One S] [Mul S] [Sub S] (insRect : Rect D S) (cs : List
    (Node D S T))
    (i : Nat) (st : Nat × S × S) (h : st.1 < i) :
    (chooseLoop insRect cs i st).1 < i + cs.length := by
  induction cs generalizing i st with
  | nil => simpa [chooseLoop] using h
  | cons c cs ih =>
    simp only [chooseLoop, List.length_cons]
    split
    · have := ih (i + 1) (i, area c.rect, area (union_ c.rect insRect) - area c.rect)
        (Nat.lt_succ_self i)
      omega
    · have := ih (i + 1) st (Nat.lt_succ_of_lt h)
      omega

theorem chooseInner_lt [LinearOrder S] [One S] [Mul S] [Sub S] (node : Node D S T)
    (insRect : Rect D S)
    (h : 0 < node.children.length) : chooseInner node insRect < node.children.length := by
  unfold chooseInner
  cases hc : node.children with
  | nil => rw [hc] at h; cases h
  | cons c cs =>
    simp only [List.length_cons]
    have := chooseLoop_lt insRect cs 1
      (0, area c.rect, area (union_ c.rect insRect) - area c.rect) Nat.zero_lt_one
    omega

theorem chooseAxis_perm [LinearOrder S] [Zero S] [Add S] [Sub S] (P : Setup D S T)
    (hs : SortPerm P.sort)
    {E : Type} (getRect : E → Rect D S) (minSize : Nat) (buf : List E) :
    (chooseAxis P getRect minSize buf).1.Perm buf := by
  unfold chooseAxis
  exact forLoop_induction (fun _ st => st.1.Perm buf) (chooseAxisStep P getRect minSize) 0 D
    (buf, 0, 0) (List.Perm.refl _)
    (fun i st _ _ h => by
      unfold chooseAxisStep
      dsimp only
      split
      · exact (hs _ _ _).trans h
      · exact (hs _ _ _).trans h) (Nat.zero_le _)

theorem computeSplit_perm [LinearOrder S] [Zero S] [One S] [Add S] [Mul S] [Sub S]
    (P : Setup D S T) (hs : SortPerm P.sort)
    {E : Type} (buf : List E) (getRect : E → Rect D S) (minSize : Nat) :
    (computeSplit P buf getRect minSize).1.Perm buf := by
  unfold computeSplit
  exact (hs _ _ _).trans (chooseAxis_perm P hs getRect minSize buf)

theorem chooseSplit_bounds [LinearOrderedField S] (r1 r2 : List (Rect D S)) (size minSize : Nat)
    (h : minSize < size - 1 - minSize) :
    minSize ≤ (chooseSplit r1 r2 size minSize).1 ∧
    (chooseSplit r1 r2 size minSize).1 < size - 1 - minSize := by
  unfold chooseSplit
  have := forLoop_induction
    (fun i (st : Nat × S × S) => (i = minSize ∧ st.1 = 0) ∨ (minSize ≤ st.1 ∧ st.1 < i))
    (chooseSplitStep r1 r2) minSize (size - 1 - minSize) (0, 0, 0) (Or.inl ⟨rfl, rfl⟩)
    (fun i st h1 h2 hinv => by
      right
      unfold chooseSplitStep
      dsimp only
      split
      · exact ⟨h1, Nat.lt_succ_self i⟩
      · rename_i hne
        rcases hinv with ⟨_, h0⟩ | ⟨ha, hb⟩
        · exfalso
          apply hne
          simp [h0]
        · exact ⟨ha, Nat.lt_succ_of_lt hb⟩) (Nat.le_of_lt h)
  rcases this with ⟨h1, _⟩ | h2
  · omega
  · exact h2

theorem computeSplit_bounds [LinearOrderedField S] (P : Setup D S T) (hs : SortPerm P.sort)
    {E : Type} (buf : List E) (getRect : E → Rect D S) (minSize : Nat)
    (h : 2 * minSize + 1 < buf.length) :
    minSize ≤ (computeSplit P buf getRect minSize).2 ∧
    (computeSplit P buf getRect minSize).2 + minSize + 2 ≤ buf.length := by
  have hlen : (computeSplit P buf getRect minSize).1.length = buf.length :=
    (computeSplit_perm P hs buf getRect minSize).length_eq
  unfold computeSplit at hlen ⊢
  dsimp only at hlen ⊢
  rw [hlen]
  have := chooseSplit_bounds
    (rects1 getRect (P.sort (fun a b => cmp (chooseAxis P getRect minSize buf).2.2 (getRect a)
      (getRect b)) (chooseAxis P getRect minSize buf).1))
    (rects2 getRect (P.sort (fun a b => cmp (chooseAxis P getRect minSize buf).2.2 (getRect a)
      (getRect b)) (chooseAxis P getRect minSize buf).1)) buf.length minSize (by omega)
  omega


/-! ### Bounding -/

theorem boundLeaf_leaf [LinearOrder S] (f : T → Rect D S) (r : Rect D S) (os : List T) :
    ∃ r', boundLeaf f (Node.leaf r os) = Node.leaf r' os ∧
      (∀ o ∈ os, contains r' (f o)) ∧
      (∀ u, (∀ o ∈ os, contains u (f o)) → os ≠ [] → contains u r') := by
  cases os with
  | nil =>
    exact ⟨r, rfl, fun o ho => (by cases ho), fun u _ h => absurd rfl h⟩
  | cons o os =>
    refine ⟨unionAll (f o) (os.map f), rfl, ?_, ?_⟩
    · intro x hx
      rcases List.mem_cons.mp hx with h | h
      · rw [h]
        exact contains_unionAll_init _ _
      · exact contains_unionAll_mem _ _ _ (List.mem_map_of_mem f h)
    · intro u hu _
      apply contains_unionAll_of (hu o (List.mem_cons_self _ _))
      intro x hx
      obtain ⟨y, hy, rfl⟩ := List.mem_map.mp hx
      exact hu y (List.mem_cons_of_mem _ hy)

theorem boundInner_inner [LinearOrder S] (r : Rect D S) (cs : List (Node D S T)) :
    ∃ r', boundInner (Node.inner r cs) = Node.inner r' cs ∧
      (∀ c ∈ cs, contains r' c.rect) ∧
      (∀ u, (∀ c ∈ cs, contains u c.rect) → cs ≠ [] → contains u r') := by
  cases cs with
  | nil =>
    exact ⟨r, rfl, fun o ho => (by cases ho), fun u _ h => absurd rfl h⟩
  | cons o os =>
    refine ⟨unionAll o.rect (os.map Node.rect), rfl, ?_, ?_⟩
    · intro x hx
      rcases List.mem_cons.mp hx with h | h
      · rw [h]
        exact contains_unionAll_init _ _
      · exact contains_unionAll_mem _ _ _ (List.mem_map_of_mem Node.rect h)
    · intro u hu _
      apply contains_unionAll_of (hu o (List.mem_cons_self _ _))
      intro x hx
      obtain ⟨y, hy, rfl⟩ := List.mem_map.mp hx
      exact hu y (List.mem_cons_of_mem _ hy)

/-! ### The node invariant -/

theorem NodeOK_leaf [LinearOrder S] (P : Setup D S T) (lo : Nat) (r : Rect D S) (os : List T) :
    NodeOK P lo 0 (Node.leaf r os) ↔
      lo ≤ os.length ∧ os.length ≤ P.cfg.LeafSize ∧ ∀ o ∈ os, contains r (P.rect o) := by
  simp only [NodeOK]
  constructor
  · rintro ⟨r', os', h, h1, h2, h3⟩
    cases h
    exact ⟨h1, h2, h3⟩
  · rintro ⟨h1, h2, h3⟩
    exact ⟨r, os, rfl, h1, h2, h3⟩

theorem NodeOK_inner [LinearOrder S] (P : Setup D S T) (lo k : Nat) (r : Rect D S)
    (cs : List (Node D S T)) :
    NodeOK P lo (k + 1) (Node.inner r cs) ↔
      lo ≤ cs.length ∧ 1 ≤ cs.length ∧ cs.length ≤ P.cfg.InnerSize ∧
      ∀ c ∈ cs, NodeOK P (P.cfg.minAt k) k c ∧ contains r c.rect := by
  simp only [NodeOK]
  constructor
  · rintro ⟨r', cs', h, h1, h2, h3, h4⟩
    cases h
    exact ⟨h1, h2, h3, h4⟩
  · rintro ⟨h1, h2, h3, h4⟩
    exact ⟨r, cs, rfl, h1, h2, h3, h4⟩

theorem NodeOK.mono [LinearOrder S] {P : Setup D S T} {lo lo' level : Nat} {n : Node D S T}
    (h : NodeOK P lo level n) (hle : lo' ≤ lo) : NodeOK P lo' level n := by
  cases level with
  | zero =>
    obtain ⟨r, os, rfl, h1, h2, h3⟩ := h
    exact (NodeOK_leaf P lo' r os).mpr ⟨le_trans hle h1, h2, h3⟩
  | succ k =>
    obtain ⟨r, cs, rfl, h1, h2, h3, h4⟩ := h
    exact (NodeOK_inner P lo' k r cs).mpr ⟨le_trans hle h1, h2, h3, h4⟩

theorem Node.none_size [Zero S] : (Node.none : Node D S T).size = 0 := rfl

/-! ### Splitting and forced reinsertion -/

theorem items_zero (n : Node D S T) : items 0 n = n.objects := rfl
theorem items_succ (k : Nat) (n : Node D S T) :
    items (k + 1) n = n.children.flatMap (items k) := rfl

theorem drop_take_perm {α : Type} (l : List α) (n : Nat) : (l.drop n ++ l.take n).Perm l := by
  have h : (l.take n ++ l.drop n).Perm l := by rw [List.take_append_drop]
  exact List.perm_append_comm.trans h

theorem splitLeaf_ok [LinearOrderedField S] (P : Setup D S T) (hv : P.cfg.Valid)
    (hs : SortPerm P.sort) (mask : ReinsertMask) (bufs : Bufs D S T) (hb : bufs.reinserts = 0)
    (base : Nat) (hbase : base ≤ 0) (lo : Nat) (hlo : lo ≤ P.cfg.LeafMin) (u : Rect D S)
    (os : List T)
    (hlen : os.length = P.cfg.LeafSize) (hcont : ∀ o ∈ os, contains u (P.rect o))
    (extra : T) (hex : contains u (P.rect extra)) :
    StepOK P mask base lo 0 u (os ++ [extra]) (splitLeaf P mask bufs (Node.leaf u os) extra) := by
  obtain ⟨⟨h1, h2, h3, h4⟩, _⟩ := hv
  have hbuf : (Node.leaf u os).objects.take P.cfg.LeafSize ++ [extra] = os ++ [extra] := by
    simp [Node.objects, ← hlen]
  have hall : ∀ o ∈ os ++ [extra], contains u (P.rect o) := by
    intro o ho
    rcases List.mem_append.mp ho with h | h
    · exact hcont o h
    · rw [List.mem_singleton.mp h]
      exact hex
  unfold splitLeaf
  rw [hbuf]
  cases hm : mask 0 with
  | false =>
    simp only [Bool.not_false, if_true, Node.rect]
    generalize hsorted : P.sort _ (os ++ [extra]) = sorted
    have hperm : sorted.Perm (os ++ [extra]) := by
      rw [← hsorted]
      exact hs _ _ _
    have hl : sorted.length = P.cfg.LeafSize + 1 := by
      rw [hperm.length_eq, List.length_append, hlen]
      rfl
    refine ⟨contains_refl u, fun h => absurd Node.none_size h, fun _ => ⟨?_, ?_, ?_⟩⟩
    · rw [NodeOK_leaf]
      refine ⟨?_, ?_, ?_⟩
      · rw [List.length_drop, hl]
        omega
      · rw [List.length_drop, hl]
        omega
      · intro o ho
        exact hall o (hperm.subset (List.mem_of_mem_drop ho))
    · intro h
      simp only at h
      omega
    · intro _
      refine ⟨hm, ⟨hbase, le_refl _⟩, fun h => absurd rfl h, ?_⟩
      simp only [items_zero, Node.objects, evictedItems, if_true]
      exact (drop_take_perm sorted _).trans hperm
  | true =>
    simp only [Bool.not_true, Bool.false_eq_true, if_false, Node.rect]
    have hperm := computeSplit_perm P hs (os ++ [extra]) P.rect P.cfg.LeafMin
    have hbd := computeSplit_bounds P hs (os ++ [extra]) P.rect P.cfg.LeafMin
      (by rw [List.length_append, hlen]; simp; omega)
    generalize computeSplit P (os ++ [extra]) P.rect P.cfg.LeafMin = sp at hperm hbd
    have hl : sp.1.length = P.cfg.LeafSize + 1 := by
      rw [hperm.length_eq, List.length_append, hlen]
      rfl
    rw [List.length_append, hlen] at hbd
    simp only [List.length_singleton] at hbd
    obtain ⟨ra, ea, ca, ua⟩ := boundLeaf_leaf P.rect u (sp.1.drop sp.2)
    obtain ⟨rb, eb, cb, ub⟩ := boundLeaf_leaf P.rect (default : Rect D S) (sp.1.take sp.2)
    rw [ea, eb]
    have hd : (sp.1.drop sp.2).length = P.cfg.LeafSize + 1 - sp.2 := by
      rw [List.length_drop, hl]
    have ht : (sp.1.take sp.2).length = sp.2 := by
      rw [List.length_take, hl]
      omega
    have hda : ∀ o ∈ sp.1.drop sp.2, contains u (P.rect o) :=
      fun o ho => hall o (hperm.subset (List.mem_of_mem_drop ho))
    have hta : ∀ o ∈ sp.1.take sp.2, contains u (P.rect o) :=
      fun o ho => hall o (hperm.subset (List.mem_of_mem_take ho))
    have hdne : sp.1.drop sp.2 ≠ [] := by
      intro h
      rw [h] at hd
      simp at hd
      omega
    have htne : sp.1.take sp.2 ≠ [] := by
      intro h
      rw [h] at ht
      simp at ht
      omega
    refine ⟨ua u hda hdne, fun _ => ⟨hb, ?_, ?_, ub u hta htne, ?_⟩, fun h => ?_⟩
    · rw [NodeOK_leaf]
      exact ⟨by rw [hd]; simp [Config.minAt]; omega, by rw [hd]; omega, ca⟩
    · rw [NodeOK_leaf]
      exact ⟨by rw [ht]; simp [Config.minAt]; omega, by rw [ht]; omega, cb⟩
    · simp only [items_zero, Node.objects]
      exact (drop_take_perm sp.1 _).trans hperm
    · exfalso
      simp only [Node.size] at h
      omega

theorem splitInner_ok [LinearOrderedField S] (P : Setup D S T) (hv : P.cfg.Valid)
    (hs : SortPerm P.sort) (mask : ReinsertMask) (bufs : Bufs D S T) (hb : bufs.reinserts = 0)
    (base lo k : Nat) (hbase : base ≤ k + 1) (hlo : lo ≤ P.cfg.InnerMin) (u : Rect D S)
    (cs : List (Node D S T)) (hlen : cs.length = P.cfg.InnerSize)
    (hcs : ∀ c ∈ cs, NodeOK P (P.cfg.minAt k) k c ∧ contains u c.rect)
    (extra : Node D S T) (hex : NodeOK P (P.cfg.minAt k) k extra ∧ contains u extra.rect) :
    StepOK P mask base lo (k + 1) u ((cs ++ [extra]).flatMap (items k))
      (splitInner P mask bufs (Node.inner u cs) extra (k + 1)) := by
  obtain ⟨_, ⟨h1, h2, h3, h4⟩⟩ := hv
  have hbuf : (Node.inner u cs).children.take P.cfg.InnerSize ++ [extra] = cs ++ [extra] := by
    simp [Node.children, ← hlen]
  have hall : ∀ c ∈ cs ++ [extra], NodeOK P (P.cfg.minAt k) k c ∧ contains u c.rect := by
    intro o ho
    rcases List.mem_append.mp ho with h | h
    · exact hcs o h
    · rw [List.mem_singleton.mp h]
      exact hex
  unfold splitInner
  rw [hbuf]
  cases hm : mask (k + 1) with
  | false =>
    simp only [Bool.not_false, if_true, Node.rect]
    generalize hsorted : P.sort _ (cs ++ [extra]) = sorted
    have hperm : sorted.Perm (cs ++ [extra]) := by
      rw [← hsorted]
      exact hs _ _ _
    have hl : sorted.length = P.cfg.InnerSize + 1 := by
      rw [hperm.length_eq, List.length_append, hlen]
      rfl
    refine ⟨contains_refl u, fun h => absurd Node.none_size h, fun _ => ⟨?_, ?_, ?_⟩⟩
    · rw [NodeOK_inner]
      refine ⟨?_, ?_, ?_, ?_⟩
      · rw [List.length_drop, hl]
        omega
      · rw [List.length_drop, hl]
        omega
      · rw [List.length_drop, hl]
        omega
      · intro o ho
        exact hall o (hperm.subset (List.mem_of_mem_drop ho))
    · intro h
      simp only at h
      omega
    · intro _
      refine ⟨hm, ⟨hbase, le_refl _⟩, fun _ c hc => ?_, ?_⟩
      · exact (hall c (hperm.subset (List.mem_of_mem_take hc))).1
      · simp only [items_succ, Node.children, evictedItems, Nat.succ_ne_zero, if_false,
          Nat.add_sub_cancel]
        exact (drop_take_flatMap_perm _ sorted _).trans (flatMap_perm _ hperm)
  | true =>
    simp only [Bool.not_true, Bool.false_eq_true, if_false, Node.rect]
    have hperm := computeSplit_perm P hs (cs ++ [extra]) Node.rect P.cfg.InnerMin
    have hbd := computeSplit_bounds P hs (cs ++ [extra]) Node.rect P.cfg.InnerMin
      (by rw [List.length_append, hlen]; simp; omega)
    generalize computeSplit P (cs ++ [extra]) Node.rect P.cfg.InnerMin = sp at hperm hbd
    have hl : sp.1.length = P.cfg.InnerSize + 1 := by
      rw [hperm.length_eq, List.length_append, hlen]
      rfl
    rw [List.length_append, hlen] at hbd
    simp only [List.length_singleton] at hbd
    obtain ⟨ra, ea, ca, ua⟩ := boundInner_inner u (sp.1.drop sp.2)
    obtain ⟨rb, eb, cb, ub⟩ := boundInner_inner (default : Rect D S) (sp.1.take sp.2)
    rw [ea, eb]
    have hd : (sp.1.drop sp.2).length = P.cfg.InnerSize + 1 - sp.2 := by
      rw [List.length_drop, hl]
    have ht : (sp.1.take sp.2).length = sp.2 := by
      rw [List.length_take, hl]
      omega
    have hda : ∀ o ∈ sp.1.drop sp.2, NodeOK P (P.cfg.minAt k) k o ∧ contains u o.rect :=
      fun o ho => hall o (hperm.subset (List.mem_of_mem_drop ho))
    have hta : ∀ o ∈ sp.1.take sp.2, NodeOK P (P.cfg.minAt k) k o ∧ contains u o.rect :=
      fun o ho => hall o (hperm.subset (List.mem_of_mem_take ho))
    have hdne : sp.1.drop sp.2 ≠ [] := by
      intro h
      rw [h] at hd
      simp at hd
      omega
    have htne : sp.1.take sp.2 ≠ [] := by
      intro h
      rw [h] at ht
      simp at ht
      omega
    refine ⟨ua u (fun o ho => (hda o ho).2) hdne,
      fun _ => ⟨hb, ?_, ?_, ub u (fun o ho => (hta o ho).2) htne, ?_⟩, fun h => ?_⟩
    · rw [NodeOK_inner]
      exact ⟨by rw [hd]; simp [Config.minAt]; omega, by rw [hd]; omega, by rw [hd]; omega,
        fun c hc => ⟨(hda c hc).1, ca c hc⟩⟩
    · rw [NodeOK_inner]
      exact ⟨by rw [ht]; simp [Config.minAt]; omega, by rw [ht]; omega, by rw [ht]; omega,
        fun c hc => ⟨(hta c hc).1, cb c hc⟩⟩
    · simp only [items_succ, Node.children]
      exact (drop_take_flatMap_perm _ sp.1 _).trans (flatMap_perm _ hperm)
    · exfalso
      simp only [Node.size] at h
      omega

/-! ### After the recursive call -/

theorem Node.rect_leaf (r : Rect D S) (os : List T) : (Node.leaf r os).rect = r := rfl
theorem Node.rect_inner (r : Rect D S) (cs : List (Node D S T)) : (Node.inner r cs).rect = r := rfl
theorem Node.objects_leaf (r : Rect D S) (os : List T) : (Node.leaf r os).objects = os := rfl
theorem Node.children_inner (r : Rect D S) (cs : List (Node D S T)) :
    (Node.inner r cs).children = cs := rfl

theorem perm_replace {α : Type} {a' c a n e w : List α} (hA : (a' ++ c).Perm (a ++ n))
    (hB : (n ++ e).Perm (c ++ w)) : (a' ++ e).Perm (a ++ w) := by
  have h1 : ((a' ++ e) ++ c).Perm ((a ++ w) ++ c) := by
    have s1 : ((a' ++ e) ++ c).Perm ((a' ++ c) ++ e) := by
      rw [List.append_assoc, List.append_assoc]
      exact List.Perm.append_left _ List.perm_append_comm
    have s2 : ((a' ++ c) ++ e).Perm ((a ++ n) ++ e) := List.Perm.append_right _ hA
    have s3 : ((a ++ n) ++ e).Perm (a ++ (c ++ w)) := by
      rw [List.append_assoc]
      exact List.Perm.append_left _ hB
    have s4 : (a ++ (c ++ w)).Perm ((a ++ w) ++ c) := by
      rw [List.append_assoc]
      exact List.Perm.append_left _ List.perm_append_comm
    exact ((s1.trans s2).trans s3).trans s4
  exact (List.perm_append_right_iff c).mp h1

theorem StepOK.perm_old [LinearOrder S] {P : Setup D S T} {mask : ReinsertMask}
    {base lo level : Nat}
    {u : Rect D S} {old old' : List T} {r : Step D S T} (h : StepOK P mask base lo level u old r)
    (hp : old.Perm old') : StepOK P mask base lo level u old' r := by
  obtain ⟨h1, h2, h3⟩ := h
  refine ⟨h1, fun hr => ?_, fun hr => ?_⟩
  · obtain ⟨a, b, c, d, e⟩ := h2 hr
    exact ⟨a, b, c, d, e.trans hp⟩
  · obtain ⟨a, b, c⟩ := h3 hr
    refine ⟨a, fun hz => (b hz).trans hp, fun hz => ?_⟩
    obtain ⟨x, y, z, w⟩ := c hz
    exact ⟨x, y, z, w.trans hp⟩

theorem StepOK.mono_u [LinearOrder S] {P : Setup D S T} {mask : ReinsertMask} {base lo level : Nat}
    {u u' : Rect D S} {old : List T} {r : Step D S T} (h : StepOK P mask base lo level u old r)
    (hu : contains u' u) : StepOK P mask base lo level u' old r := by
  obtain ⟨h1, h2, h3⟩ := h
  refine ⟨contains_trans hu h1, fun hr => ?_, h3⟩
  obtain ⟨a, b, c, d, e⟩ := h2 hr
  exact ⟨a, b, c, contains_trans hu d, e⟩

theorem afterChild_ok [LinearOrderedField S] (P : Setup D S T) (hv : P.cfg.Valid)
    (hs : SortPerm P.sort) (mask : ReinsertMask) (base lo k : Nat) (hbase : base ≤ k + 1)
    (hlo : lo ≤ P.cfg.InnerMin) (u : Rect D S) (cs : List (Node D S T))
    (hn : NodeOK P lo (k + 1) (Node.inner u cs))
    (idx : Nat) (hidx : idx < cs.length) (new : List T) (r : Step D S T)
    (hr : StepOK P mask base (P.cfg.minAt k) k u (items k (cs.getD idx Node.none) ++ new) r) :
    StepOK P mask base lo (k + 1) u (cs.flatMap (items k) ++ new)
      (afterChild P mask (Node.inner u cs) idx r (k + 1)) := by
  obtain ⟨hn1, hn2, hn3, hn4⟩ := (NodeOK_inner P lo k u cs).mp hn
  obtain ⟨hr1, hr2, hr3⟩ := hr
  have hset : ∀ c ∈ cs.set idx r.node, c = r.node ∨ c ∈ cs := fun c hc => by
    rcases List.mem_or_eq_of_mem_set hc with h | h
    · exact Or.inr h
    · exact Or.inl h
  have hlen : (cs.set idx r.node).length = cs.length := List.length_set _ _ _
  have hA := flatMap_set_perm (items k) Node.none r.node cs idx hidx
  unfold afterChild
  simp only [Node.rect_inner, Node.children_inner, Node.size_inner]
  by_cases hret : r.ret.size = 0
  · -- the child did not split
    obtain ⟨c1, c2, c3⟩ := hr3 hret
    have hkids : ∀ c ∈ cs.set idx r.node, NodeOK P (P.cfg.minAt k) k c ∧ contains u c.rect :=
      fun c hc => by
        rcases hset c hc with h | h
        · rw [h]
          exact ⟨c1, hr1⟩
        · exact hn4 c h
    have hne : cs.set idx r.node ≠ [] := by
      intro h
      rw [h] at hlen
      simp at hlen
      omega
    have hres : (if cs.length < P.cfg.InnerSize then
          if r.ret.size ≠ 0 then
            (⟨Node.inner u (cs.set idx r.node ++ [r.ret]), Node.none, r.bufs⟩ : Step D S T)
          else if r.bufs.reinserts ≠ 0 then
            ⟨boundInner (Node.inner u (cs.set idx r.node)), Node.none, r.bufs⟩
          else ⟨Node.inner u (cs.set idx r.node), Node.none, r.bufs⟩
        else if r.ret.size ≠ 0 then
          splitInner P mask r.bufs (Node.inner u (cs.set idx r.node)) r.ret (k + 1)
        else if r.bufs.reinserts ≠ 0 then
          ⟨boundInner (Node.inner u (cs.set idx r.node)), Node.none, r.bufs⟩
        else ⟨Node.inner u (cs.set idx r.node), Node.none, r.bufs⟩) =
        (if r.bufs.reinserts ≠ 0 then
          ⟨boundInner (Node.inner u (cs.set idx r.node)), Node.none, r.bufs⟩
        else ⟨Node.inner u (cs.set idx r.node), Node.none, r.bufs⟩) := by
      simp [hret]
    rw [hres]
    by_cases hre : r.bufs.reinserts = 0
    · simp only [hre, ne_eq, not_true_eq_false, if_false]
      refine ⟨contains_refl u, fun h => absurd Node.none_size h, fun _ => ⟨?_, ?_, ?_⟩⟩
      · rw [NodeOK_inner]
        exact ⟨by rw [hlen]; exact hn1, by rw [hlen]; exact hn2, by rw [hlen]; exact hn3, hkids⟩
      · intro _
        have hB : (items k r.node ++ []).Perm (items k (cs.getD idx Node.none) ++ new) := by
          rw [List.append_nil]
          exact c2 hre
        have := perm_replace hA hB
        rw [List.append_nil] at this
        exact this
      · intro h
        exact absurd hre h
    · simp only [hre, ne_eq, not_false_eq_true, if_true]
      obtain ⟨r', e', ca, ua⟩ := boundInner_inner u (cs.set idx r.node)
      rw [e']
      obtain ⟨d1, d2, d3, d4⟩ := c3 hre
      refine ⟨ua u (fun c hc => (hkids c hc).2) hne, fun h => absurd Node.none_size h,
        fun _ => ⟨?_, fun h => absurd h hre,
          fun _ => ⟨d1, ⟨d2.1, Nat.le_succ_of_le d2.2⟩, d3, ?_⟩⟩⟩
      · rw [NodeOK_inner]
        exact ⟨by rw [hlen]; exact hn1, by rw [hlen]; exact hn2, by rw [hlen]; exact hn3,
          fun c hc => ⟨(hkids c hc).1, ca c hc⟩⟩
      · exact perm_replace hA d4
  · -- the child split
    obtain ⟨c1, c2, c3, c4, c5⟩ := hr2 hret
    have hkids : ∀ c ∈ cs.set idx r.node, NodeOK P (P.cfg.minAt k) k c ∧ contains u c.rect :=
      fun c hc => by
        rcases hset c hc with h | h
        · rw [h]
          exact ⟨c2, hr1⟩
        · exact hn4 c h
    have hperm : ((cs.set idx r.node ++ [r.ret]).flatMap (items k)).Perm
        (cs.flatMap (items k) ++ new) := by
      rw [List.flatMap_append]
      simp only [List.flatMap_cons, List.flatMap_nil, List.append_nil]
      exact perm_replace hA c5
    by_cases hsz : cs.length < P.cfg.InnerSize
    · simp only [hsz, if_true, hret, ne_eq, not_false_eq_true]
      refine ⟨contains_refl u, fun h => absurd Node.none_size h, fun _ => ⟨?_, ?_, ?_⟩⟩
      · rw [NodeOK_inner]
        refine ⟨?_, ?_, ?_, ?_⟩
        · rw [List.length_append, hlen]
          omega
        · rw [List.length_append, hlen]
          omega
        · rw [List.length_append, hlen]
          simp only [List.length_singleton]
          omega
        · intro c hc
          rcases List.mem_append.mp hc with h | h
          · exact hkids c h
          · rw [List.mem_singleton.mp h]
            exact ⟨c3, c4⟩
      · intro _
        exact hperm
      · intro h
        exact absurd c1 h
    · simp only [hsz, if_false, hret, ne_eq, not_false_eq_true, if_true]
      exact (splitInner_ok P hv hs mask r.bufs c1 base lo k hbase hlo u (cs.set idx r.node)
        (by rw [hlen]; omega) hkids r.ret ⟨c3, c4⟩).perm_old hperm

/-! ### The descent -/

theorem insertElement_succ [LinearOrderedField S] (P : Setup D S T) (mask : ReinsertMask)
    (obj : T) (rect : Rect D S) (level : Nat) (node : Node D S T) (bufs : Bufs D S T) :
    insertElement P mask obj rect (level + 1) node bufs =
      afterChild P mask (node.setRect (union_ node.rect rect))
        (if level + 1 > 1 then chooseInner (node.setRect (union_ node.rect rect)) rect
          else chooseLeaf (node.setRect (union_ node.rect rect)) rect)
        (insertElement P mask obj rect level
          ((node.setRect (union_ node.rect rect)).children.getD
            (if level + 1 > 1 then chooseInner (node.setRect (union_ node.rect rect)) rect
              else chooseLeaf (node.setRect (union_ node.rect rect)) rect) Node.none) bufs)
        (level + 1) := rfl

theorem insertSubtree_succ [LinearOrderedField S] (P : Setup D S T) (mask : ReinsertMask)
    (ins : Node D S T) (insLevel : Nat) (level : Nat) (node : Node D S T) (bufs : Bufs D S T)
    (h : ¬ level + 1 ≤ insLevel) :
    insertSubtree P mask ins insLevel (level + 1) node bufs =
      afterChild P mask (node.setRect (union_ node.rect ins.rect))
        (chooseInner (node.setRect (union_ node.rect ins.rect)) ins.rect)
        (insertSubtree P mask ins insLevel level
          ((node.setRect (union_ node.rect ins.rect)).children.getD
            (chooseInner (node.setRect (union_ node.rect ins.rect)) ins.rect) Node.none) bufs)
        (level + 1) := by
  simp only [insertSubtree, h, if_false, afterChild]

theorem NodeOK_inner_widen [LinearOrder S] {P : Setup D S T} {lo k : Nat} {r u : Rect D S}
    {cs : List (Node D S T)} (h : NodeOK P lo (k + 1) (Node.inner r cs)) (hu : contains u r) :
    NodeOK P lo (k + 1) (Node.inner u cs) := by
  obtain ⟨h1, h2, h3, h4⟩ := (NodeOK_inner P lo k r cs).mp h
  exact (NodeOK_inner P lo k u cs).mpr
    ⟨h1, h2, h3, fun c hc => ⟨(h4 c hc).1, contains_trans hu (h4 c hc).2⟩⟩

theorem insertElement_ok [LinearOrderedField S] (P : Setup D S T) (hv : P.cfg.Valid)
    (hs : SortPerm P.sort) (mask : ReinsertMask) (obj : T) (level : Nat) :
    ∀ (lo : Nat) (node : Node D S T) (bufs : Bufs D S T), bufs.reinserts = 0 →
      lo ≤ P.cfg.minAt level → NodeOK P lo level node →
      StepOK P mask 0 lo level (union_ node.rect (P.rect obj)) (items level node ++ [obj])
        (insertElement P mask obj (P.rect obj) level node bufs) := by
  induction level with
  | zero =>
    intro lo node bufs hb hlo hn
    obtain ⟨r, os, rfl, h1, h2, h3⟩ := hn
    simp only [insertElement, Node.setRect, Node.rect_leaf, Node.size_leaf, Node.objects_leaf,
      items_zero]
    have hcont : ∀ o ∈ os, contains (union_ r (P.rect obj)) (P.rect o) :=
      fun o ho => contains_trans (contains_union_left _ _) (h3 o ho)
    by_cases hsz : os.length < P.cfg.LeafSize
    · simp only [hsz, if_true]
      refine ⟨contains_refl _, fun h => absurd Node.none_size h, fun _ => ⟨?_, ?_, ?_⟩⟩
      · rw [NodeOK_leaf]
        refine ⟨?_, ?_, ?_⟩
        · rw [List.length_append]
          omega
        · rw [List.length_append]
          simp only [List.length_singleton]
          omega
        · intro o ho
          rcases List.mem_append.mp ho with h | h
          · exact hcont o h
          · rw [List.mem_singleton.mp h]
            exact contains_union_right _ _
      · intro _
        exact List.Perm.refl _
      · intro h
        exact absurd hb h
    · simp only [hsz, if_false]
      exact splitLeaf_ok P hv hs mask bufs hb 0 (le_refl _) lo hlo _ os (by omega) hcont obj
        (contains_union_right _ _)
  | succ k ih =>
    intro lo node bufs hb hlo hn
    obtain ⟨r, cs, rfl, h1, h2, h3, h4⟩ := hn
    rw [insertElement_succ]
    simp only [Node.setRect, Node.rect_inner, Node.children_inner, items_succ]
    have hn' : NodeOK P lo (k + 1) (Node.inner (union_ r (P.rect obj)) cs) :=
      NodeOK_inner_widen ((NodeOK_inner P lo k r cs).mpr ⟨h1, h2, h3, h4⟩)
        (contains_union_left _ _)
    generalize hidx : (if k + 1 > 1 then
        chooseInner (Node.inner (union_ r (P.rect obj)) cs) (P.rect obj)
      else chooseLeaf (Node.inner (union_ r (P.rect obj)) cs) (P.rect obj)) = idx
    have hlt : idx < cs.length := by
      rw [← hidx]
      have := chooseInner_lt (Node.inner (union_ r (P.rect obj)) cs) (P.rect obj) h2
      simp only [Node.children_inner] at this
      split
      · exact this
      · exact this
    have hmem := getD_mem Node.none cs idx hlt
    have hchild := ih (P.cfg.minAt k) (cs.getD idx Node.none) bufs hb (le_refl _) (h4 _ hmem).1
    exact afterChild_ok P hv hs mask 0 lo k (Nat.zero_le _) hlo _ cs hn' idx hlt [obj] _
      (hchild.mono_u (contains_union_of
        (contains_trans (contains_union_left _ _) (h4 _ hmem).2) (contains_union_right _ _)))

theorem insertSubtree_ok [LinearOrderedField S] (P : Setup D S T) (hv : P.cfg.Valid)
    (hs : SortPerm P.sort) (mask : ReinsertMask) (ins : Node D S T) (insLevel : Nat)
    (hpos : 1 ≤ insLevel)
    (hins : NodeOK P (P.cfg.minAt (insLevel - 1)) (insLevel - 1) ins) (level : Nat) :
    ∀ (lo : Nat) (node : Node D S T) (bufs : Bufs D S T), bufs.reinserts = 0 →
      lo ≤ P.cfg.minAt level → insLevel ≤ level → NodeOK P lo level node →
      StepOK P mask insLevel lo level (union_ node.rect ins.rect)
        (items level node ++ items (insLevel - 1) ins)
        (insertSubtree P mask ins insLevel level node bufs) := by
  induction level with
  | zero =>
    intro lo node bufs _ _ hle _
    omega
  | succ k ih =>
    intro lo node bufs hb hlo hle hn
    obtain ⟨r, cs, rfl, h1, h2, h3, h4⟩ := hn
    have hn' : NodeOK P lo (k + 1) (Node.inner (union_ r ins.rect) cs) :=
      NodeOK_inner_widen ((NodeOK_inner P lo k r cs).mpr ⟨h1, h2, h3, h4⟩)
        (contains_union_left _ _)
    by_cases hbase : k + 1 ≤ insLevel
    · have he : insLevel = k + 1 := by omega
      subst he
      simp only [Nat.add_sub_cancel] at hins ⊢
      simp only [insertSubtree, le_refl, if_true, Node.setRect, Node.rect_inner,
        Node.size_inner, Node.children_inner, items_succ]
      have hcs : ∀ c ∈ cs, NodeOK P (P.cfg.minAt k) k c ∧ contains (union_ r ins.rect) c.rect :=
        fun c hc => ⟨(h4 c hc).1, contains_trans (contains_union_left _ _) (h4 c hc).2⟩
      by_cases hsz : cs.length < P.cfg.InnerSize
      · simp only [hsz, if_true]
        refine ⟨contains_refl _, fun h => absurd Node.none_size h, fun _ => ⟨?_, ?_, ?_⟩⟩
        · rw [NodeOK_inner]
          refine ⟨?_, ?_, ?_, ?_⟩
          · rw [List.length_append]
            omega
          · rw [List.length_append]
            omega
          · rw [List.length_append]
            simp only [List.length_singleton]
            omega
          · intro c hc
            rcases List.mem_append.mp hc with h | h
            · exact hcs c h
            · rw [List.mem_singleton.mp h]
              exact ⟨hins, contains_union_right _ _⟩
        · intro _
          simp only [items_succ, Node.children_inner, List.flatMap_append, List.flatMap_cons,
            List.flatMap_nil, List.append_nil]
          exact List.Perm.refl _
        · intro h
          exact absurd hb h
      · simp only [hsz, if_false]
        have := splitInner_ok P hv hs mask bufs hb (k + 1) lo k (le_refl _) hlo _ cs (by omega)
          hcs ins
          ⟨hins, contains_union_right _ _⟩
        rw [List.flatMap_append] at this
        simp only [List.flatMap_cons, List.flatMap_nil, List.append_nil] at this
        exact this
    · rw [insertSubtree_succ P mask ins insLevel k _ bufs hbase]
      simp only [Node.setRect, Node.rect_inner, Node.children_inner, items_succ]
      generalize hidx : chooseInner (Node.inner (union_ r ins.rect) cs) ins.rect = idx
      have hlt : idx < cs.length := by
        rw [← hidx]
        have := chooseInner_lt (Node.inner (union_ r ins.rect) cs) ins.rect h2
        simp only [Node.children_inner] at this
        exact this
      have hmem := getD_mem Node.none cs idx hlt
      have hchild := ih (P.cfg.minAt k) (cs.getD idx Node.none) bufs hb (le_refl _) (by omega)
        (h4 _ hmem).1
      exact afterChild_ok P hv hs mask insLevel lo k hle hlo _ cs hn' idx hlt _ _
        (hchild.mono_u (contains_union_of
          (contains_trans (contains_union_left _ _) (h4 _ hmem).2) (contains_union_right _ _)))


/-! ### The reinsert mask -/

theorem unsetBits_mono {m m' : ReinsertMask} (h : ∀ l, m l = true → m' l = true) :
    unsetBits m' ≤ unsetBits m := by
  unfold unsetBits
  apply List.Sublist.length_le
  apply List.monotone_filter_right
  intro l hl
  cases hm : m l with
  | false => rfl
  | true =>
    rw [h l hm] at hl
    exact hl

theorem unsetBits_set {m : ReinsertMask} {level : Nat} (hm : m level = false)
    (hl : level ≤ max_depth) : unsetBits (m.set level) < unsetBits m := by
  unfold unsetBits
  have hsub : ((List.range (max_depth + 1)).filter (fun l => !(m.set level) l)).Sublist
      ((List.range (max_depth + 1)).filter (fun l => !m l)) := by
    apply List.monotone_filter_right
    intro l h
    unfold ReinsertMask.set at h
    by_cases e : l = level
    · simp [e] at h
    · simpa [e] using h
  rcases Nat.lt_or_ge ((List.range (max_depth + 1)).filter (fun l => !(m.set level) l)).length
      ((List.range (max_depth + 1)).filter (fun l => !m l)).length with h | h
  · exact h
  · exfalso
    have heq := hsub.eq_of_length_le h
    have hin : level ∈ (List.range (max_depth + 1)).filter (fun l => !m l) := by
      rw [List.mem_filter]
      exact ⟨List.mem_range.mpr (Nat.lt_succ_of_le hl), by simp [hm]⟩
    rw [← heq, List.mem_filter] at hin
    simp [ReinsertMask.set] at hin

theorem ReinsertMask.set_le (m : ReinsertMask) (level : Nat) :
    ∀ l, m l = true → (m.set level) l = true := by
  intro l h
  unfold ReinsertMask.set
  split
  · rfl
  · exact h

/-! ### Growing the root -/

theorem splitRoot_ok [LinearOrderedField S] (P : Setup D S T) (hv : P.cfg.Valid) (d : Nat)
    (hd : d ≤ max_depth) (node split : Node D S T)
    (hn : NodeOK P (P.cfg.minAt d) d node) (hsp : NodeOK P (P.cfg.minAt d) d split) :
    splitRoot ⟨d, node⟩ split = Except.error Err.lengthError ∨
    ∃ t, splitRoot ⟨d, node⟩ split = Except.ok t ∧ TreeOK P t ∧ t.mDepth = d + 1 ∧
      items t.mDepth t.mRoot = items d node ++ items d split := by
  unfold splitRoot
  by_cases h : d = max_depth
  · left
    simp [h]
  · right
    simp only [h, if_false]
    obtain ⟨r', e', ca, _⟩ := boundInner_inner node.rect [node, split]
    refine ⟨_, rfl, ⟨?_, ?_⟩, rfl, ?_⟩
    · show d + 1 ≤ max_depth
      omega
    · show NodeOK P 0 (d + 1) (boundInner (Node.inner node.rect [node, split]))
      rw [e', NodeOK_inner]
      obtain ⟨_, ⟨_, h2, _, _⟩⟩ := hv
      refine ⟨Nat.zero_le _, by simp, by simp; omega, ?_⟩
      intro c hc
      refine ⟨?_, ca c hc⟩
      simp only [List.mem_cons, List.mem_singleton, List.not_mem_nil, or_false] at hc
      rcases hc with h | h
      · rw [h]; exact hn
      · rw [h]; exact hsp
    · show items (d + 1) (boundInner (Node.inner node.rect [node, split])) = _
      rw [e']
      simp [items_succ, Node.children_inner]

/-! ### Reinsertion of evicted subtrees -/

theorem Grown.trans [LinearOrder S] {P : Setup D S T} {t : Tree D S T} {n1 n2 : List T}
    {m : ReinsertMask} {r1 r2 : Tree D S T × ReinsertMask} (h1 : Grown P t n1 m r1)
    (h2 : Grown P r1.1 n2 r1.2 r2) : Grown P t (n1 ++ n2) m r2 := by
  obtain ⟨_, b1, c1, d1⟩ := h1
  obtain ⟨a2, b2, c2, d2⟩ := h2
  refine ⟨a2, ?_, fun l hl => c2 l (c1 l hl), le_trans d1 d2⟩
  rw [← List.append_assoc]
  exact b2.trans (List.Perm.append_right _ b1)

theorem Grown.refl [LinearOrder S] {P : Setup D S T} {t : Tree D S T} {m : ReinsertMask}
    (h : TreeOK P t) : Grown P t [] m (t, m) :=
  ⟨h, by simp, fun _ hl => hl, le_refl _⟩

/-- A loop whose rounds each grow the tree by the items of one entry grows it by the
items of all entries, unless a round throws the length error. -/
theorem forEachM_grown [LinearOrder S] {α σ : Type} (P : Setup D S T) (f : α → σ → Except Err σ)
    (pt : σ → Tree D S T) (pm : σ → ReinsertMask) (inv : σ → Prop) (g : α → List T)
    (bound lvl : Nat) (l : List α)
    (hf : ∀ a ∈ l, ∀ s, TreeOK P (pt s) → inv s → unsetBits (pm s) ≤ bound →
      lvl ≤ (pt s).mDepth →
      f a s = Except.error Err.lengthError ∨
      ∃ s', f a s = Except.ok s' ∧ Grown P (pt s) (g a) (pm s) (pt s', pm s') ∧ inv s') :
    ∀ s, TreeOK P (pt s) → inv s → unsetBits (pm s) ≤ bound → lvl ≤ (pt s).mDepth →
      forEachM f l s = Except.error Err.lengthError ∨
      ∃ s', forEachM f l s = Except.ok s' ∧
        Grown P (pt s) (l.flatMap g) (pm s) (pt s', pm s') ∧ inv s' := by
  induction l with
  | nil =>
    intro s hs hi _ _
    right
    exact ⟨s, rfl, Grown.refl hs, hi⟩
  | cons a as ih =>
    intro s hs hi hb hl
    rcases hf a (List.mem_cons_self a as) s hs hi hb hl with h | ⟨s1, h1, g1, i1⟩
    · left
      simp only [forEachM, h]
    · simp only [forEachM, h1]
      have hb1 : unsetBits (pm s1) ≤ bound := le_trans (unsetBits_mono g1.2.2.1) hb
      rcases ih (fun a' ha' => hf a' (List.mem_cons_of_mem a ha')) s1 g1.1 i1 hb1
        (le_trans hl g1.2.2.2) with h | ⟨s2, h2, g2, i2⟩
      · left
        exact h
      · right
        refine ⟨s2, h2, ?_, i2⟩
        rw [List.flatMap_cons]
        exact Grown.trans g1 g2

theorem NodeOK.root_of_min [LinearOrder S] {P : Setup D S T} {level : Nat} {n : Node D S T}
    (h : NodeOK P (P.cfg.minAt level) level n) : NodeOK P 0 level n :=
  h.mono (Nat.zero_le _)

theorem reinsertRound_ok [LinearOrderedField S] (P : Setup D S T) (hv : P.cfg.Valid)
    (hs : SortPerm P.sort) (bound : Nat)
    (nested : Bufs D S T → Tree D S T × ReinsertMask → Except Err (Tree D S T × ReinsertMask))
    (hnested : NestedOK P bound nested) (rl : Nat) (hrl : 1 ≤ rl) (child : Node D S T)
    (hchild : NodeOK P (P.cfg.minAt (rl - 1)) (rl - 1) child) (w : Work D S T)
    (hw : TreeOK P w.tree) (hb : w.bufs.reinserts = 0) (hm : unsetBits w.mask ≤ bound)
    (hl : rl ≤ w.tree.mDepth) :
    reinsertRound P nested rl child w = Except.error Err.lengthError ∨
    ∃ w', reinsertRound P nested rl child w = Except.ok w' ∧
      Grown P w.tree (items (rl - 1) child) w.mask (w'.tree, w'.mask) ∧ w'.bufs.reinserts = 0 := by
  have hstep := insertSubtree_ok P hv hs w.mask child rl hrl hchild w.tree.mDepth 0
    w.tree.mRoot w.bufs hb (Nat.zero_le _) hl hw.2
  obtain ⟨s1, s2, s3⟩ := hstep
  unfold reinsertRound
  generalize insertSubtree P w.mask child rl w.tree.mDepth w.tree.mRoot w.bufs = r at s1 s2 s3
  by_cases hret : r.ret.size = 0
  · obtain ⟨c1, c2, c3⟩ := s3 hret
    by_cases hre : r.bufs.reinserts = 0
    · right
      simp only [hret, hre, ne_eq, not_true_eq_false, if_false]
      exact ⟨_, rfl, ⟨⟨hw.1, c1⟩, c2 hre, fun _ h => h, le_refl _⟩, hre⟩
    · obtain ⟨d1, d2, d3, d4⟩ := c3 hre
      simp only [hret, hre, ne_eq, not_true_eq_false, if_false, not_false_eq_true, if_true]
      have hpos : 1 ≤ r.bufs.reinsertLevel := le_trans hrl d2.1
      have hlt : unsetBits (w.mask.set r.bufs.reinsertLevel) < bound :=
        lt_of_lt_of_le (unsetBits_set d1 (le_trans d2.2 hw.1)) hm
      rcases hnested r.bufs ⟨w.tree.mDepth, r.node⟩ (w.mask.set r.bufs.reinsertLevel)
        ⟨hw.1, c1⟩ hpos d2.2 (d3 (by omega)) hlt with h | ⟨res, h, g1, g2, g3, g4⟩
      · left
        simp only [h]
      · right
        simp only [h]
        refine ⟨_, rfl, ⟨g1, g2.trans d4, fun l hl' => g3 l (ReinsertMask.set_le _ _ l hl'), g4⟩,
          rfl⟩
  · obtain ⟨c1, c2, c3, _, c5⟩ := s2 hret
    simp only [hret, ne_eq, not_false_eq_true, if_true]
    rcases splitRoot_ok P hv w.tree.mDepth hw.1 r.node r.ret c2 c3 with h | ⟨t, h, t1, t2, t3⟩
    · left
      simp only [h]
    · right
      simp only [h]
      refine ⟨_, rfl, ⟨t1, ?_, fun _ h => h, ?_⟩, c1⟩
      · show (items t.mDepth t.mRoot).Perm _
        rw [t3]
        exact c5
      · show w.tree.mDepth ≤ t.mDepth
        omega

theorem reinsertInner_ok [LinearOrderedField S] (P : Setup D S T) (hv : P.cfg.Valid)
    (hs : SortPerm P.sort) (fuel : Nat) : NestedOK P fuel (reinsertInner P fuel) := by
  induction fuel with
  | zero =>
    intro parent t mask _ _ _ _ h
    omega
  | succ n ih =>
    intro parent t mask ht hpos hle hev hbits
    simp only [reinsertInner]
    have hloop := forEachM_grown P (reinsertRound P (reinsertInner P n) parent.reinsertLevel)
      (fun w => w.tree) (fun w => w.mask) (fun w => w.bufs.reinserts = 0)
      (items (parent.reinsertLevel - 1)) n parent.reinsertLevel
      (parent.children.take parent.reinserts)
      (fun a ha s h1 h2 h3 h4 =>
        reinsertRound_ok P hv hs n (reinsertInner P n) ih parent.reinsertLevel hpos a (hev a ha)
          s h1 h2 h3 h4)
      ⟨t, mask, Bufs.init⟩ ht rfl (Nat.le_of_lt_succ hbits) hle
    have hev' : evictedItems parent =
        (parent.children.take parent.reinserts).flatMap (items (parent.reinsertLevel - 1)) := by
      unfold evictedItems
      rw [if_neg (by omega)]
    rcases hloop with h | ⟨w', h, g, _⟩
    · left
      simp only [h]
    · right
      simp only [h]
      exact ⟨_, rfl, by rw [hev']; exact g⟩

/-! ### Insertion from the root -/

theorem TreeOK.root_cases [LinearOrder S] {P : Setup D S T} {t : Tree D S T} (h : TreeOK P t)
    (obj : T) :
    NodeOK P 0 t.mDepth (if t.mRoot.size = 0 then Node.leaf (P.rect obj) [] else t.mRoot) ∧
    items t.mDepth (if t.mRoot.size = 0 then Node.leaf (P.rect obj) [] else t.mRoot) =
      items t.mDepth t.mRoot := by
  by_cases hz : t.mRoot.size = 0
  · rw [if_pos hz]
    obtain ⟨hd, hn⟩ := h
    cases hdepth : t.mDepth with
    | zero =>
      rw [hdepth] at hn
      obtain ⟨r, os, hr, _, _, _⟩ := hn
      rw [hr, Node.size_leaf] at hz
      refine ⟨(NodeOK_leaf P 0 _ _).mpr ⟨le_refl _, Nat.zero_le _, fun o ho => by cases ho⟩, ?_⟩
      rw [hr]
      simp only [items_zero, Node.objects_leaf]
      exact (List.length_eq_zero.mp hz).symm
    | succ k =>
      exfalso
      rw [hdepth] at hn
      obtain ⟨r, cs, hr, _, h1, _, _⟩ := hn
      rw [hr, Node.size_inner] at hz
      omega
  · rw [if_neg hz]
    exact ⟨h.2, rfl⟩

theorem insertLeaf_ok [LinearOrderedField S] (P : Setup D S T) (hv : P.cfg.Valid)
    (hs : SortPerm P.sort) (fuel : Nat) :
    ∀ (t : Tree D S T) (obj : T) (mask : ReinsertMask), TreeOK P t → unsetBits mask < fuel →
      insertLeaf P fuel t obj mask = Except.error Err.lengthError ∨
      ∃ res, insertLeaf P fuel t obj mask = Except.ok res ∧ Grown P t [obj] mask res := by
  induction fuel with
  | zero =>
    intro t obj mask _ h
    omega
  | succ n ih =>
    intro t obj mask ht hbits
    obtain ⟨hroot, hitems⟩ := ht.root_cases obj
    simp only [insertLeaf]
    generalize (if t.mRoot.size = 0 then Node.leaf (P.rect obj) [] else t.mRoot) = root
      at hroot hitems
    obtain ⟨s1, s2, s3⟩ := insertElement_ok P hv hs mask obj t.mDepth 0 root Bufs.init rfl
      (Nat.zero_le _) hroot
    rw [hitems] at s2 s3
    generalize insertElement P mask obj (P.rect obj) t.mDepth root Bufs.init = r at s1 s2 s3
    by_cases hret : r.ret.size = 0
    · obtain ⟨c1, c2, c3⟩ := s3 hret
      by_cases hre : r.bufs.reinserts = 0
      · right
        simp only [hret, hre, ne_eq, not_true_eq_false, if_false]
        exact ⟨_, rfl, ⟨ht.1, c1⟩, c2 hre, fun _ h => h, le_refl _⟩
      · obtain ⟨d1, d2, d3, d4⟩ := c3 hre
        simp only [hret, hre, ne_eq, not_true_eq_false, if_false, not_false_eq_true, if_true]
        have hlt : unsetBits (mask.set r.bufs.reinsertLevel) < n := by
          have := unsetBits_set d1 (le_trans d2.2 ht.1)
          omega
        have hup : ∀ (res : Tree D S T × ReinsertMask),
            Grown P ⟨t.mDepth, r.node⟩ (evictedItems r.bufs) (mask.set r.bufs.reinsertLevel)
              res → Grown P t [obj] mask res := by
          rintro res ⟨g1, g2, g3, g4⟩
          exact ⟨g1, g2.trans d4, fun l hl' => g3 l (ReinsertMask.set_le _ _ l hl'), g4⟩
        by_cases hlev : r.bufs.reinsertLevel = 0
        · simp only [hlev, if_true]
          have hloop := forEachM_grown P
            (fun (x : T) (st : Tree D S T × ReinsertMask) => insertLeaf P n st.1 x st.2)
            (fun st => st.1) (fun st => st.2) (fun _ => True) (fun x => [x]) (n - 1) 0
            (r.bufs.objects.take r.bufs.reinserts)
            (fun a _ s h1 _ h3 _ => by
              rcases ih s.1 a s.2 h1 (by simp only at h3; omega) with h | ⟨res, h, g⟩
              · exact Or.inl h
              · exact Or.inr ⟨res, h, g, trivial⟩)
            (⟨t.mDepth, r.node⟩, mask.set 0) ⟨ht.1, c1⟩ trivial
            (by rw [hlev] at hlt; simp only; omega) (Nat.zero_le _)
          rcases hloop with h | ⟨res, h, g, _⟩
          · exact Or.inl h
          · right
            refine ⟨res, h, hup res ?_⟩
            have he : evictedItems r.bufs = r.bufs.objects.take r.bufs.reinserts := by
              unfold evictedItems
              rw [if_pos hlev]
            rw [he, hlev]
            have hm : (r.bufs.objects.take r.bufs.reinserts).flatMap (fun x => [x]) =
                r.bufs.objects.take r.bufs.reinserts :=
              (flatMap_singleton_map id _).trans (List.map_id _)
            rw [hm] at g
            exact g
        · simp only [hlev, if_false]
          rcases reinsertInner_ok P hv hs n r.bufs ⟨t.mDepth, r.node⟩
            (mask.set r.bufs.reinsertLevel) ⟨ht.1, c1⟩ (by omega) d2.2 (d3 hlev)
            hlt with h | ⟨res, h, g⟩
          · exact Or.inl h
          · exact Or.inr ⟨res, h, hup res g⟩
    · obtain ⟨c1, c2, c3, _, c5⟩ := s2 hret
      simp only [hret, ne_eq, not_false_eq_true, if_true]
      rcases splitRoot_ok P hv t.mDepth ht.1 r.node r.ret c2 c3 with h | ⟨t', h, t1, t2, t3⟩
      · left
        simp only [h]
      · right
        simp only [h]
        refine ⟨_, rfl, t1, ?_, fun _ h => h, ?_⟩
        · show (items t'.mDepth t'.mRoot).Perm _
          rw [t3]
          exact c5
        · show t.mDepth ≤ t'.mDepth
          omega

theorem unsetBits_zero : unsetBits ReinsertMask.zero = max_depth + 1 := by
  unfold unsetBits ReinsertMask.zero
  simp

theorem insert_ok [LinearOrderedField S] (P : Setup D S T) (hv : P.cfg.Valid)
    (hs : SortPerm P.sort) (t : Tree D S T) (obj : T) (ht : TreeOK P t) :
    insert P t obj = Except.error Err.lengthError ∨
    ∃ t', insert P t obj = Except.ok t' ∧ TreeOK P t' ∧
      (items t'.mDepth t'.mRoot).Perm (items t.mDepth t.mRoot ++ [obj]) ∧
      t.mDepth ≤ t'.mDepth := by
  unfold insert
  rcases insertLeaf_ok P hv hs (max_depth + 2) t obj ReinsertMask.zero ht
    (by rw [unsetBits_zero]; omega) with h | ⟨res, h, g1, g2, _, g4⟩
  · left
    simp only [h]
  · right
    simp only [h]
    exact ⟨_, rfl, g1, g2, g4⟩

theorem TreeOK.empty [LinearOrderedField S] (P : Setup D S T) :
    TreeOK P (Tree.empty : Tree D S T) :=
  ⟨Nat.zero_le _, (NodeOK_leaf P 0 _ _).mpr ⟨le_refl _, Nat.zero_le _, fun o ho => by cases ho⟩⟩

theorem insertAll_ok [LinearOrderedField S] (P : Setup D S T) (hv : P.cfg.Valid)
    (hs : SortPerm P.sort) (xs : List T) :
    ∀ (t : Tree D S T), TreeOK P t →
      insertAll P t xs = Except.error Err.lengthError ∨
      ∃ t', insertAll P t xs = Except.ok t' ∧ TreeOK P t' ∧
        (items t'.mDepth t'.mRoot).Perm (items t.mDepth t.mRoot ++ xs) := by
  induction xs with
  | nil =>
    intro t ht
    right
    exact ⟨t, rfl, ht, by simp⟩
  | cons x xs ih =>
    intro t ht
    rcases insert_ok P hv hs t x ht with h | ⟨t1, h, g1, g2, _⟩
    · left
      simp only [insertAll, h]
    · simp only [insertAll, h]
      rcases ih t1 g1 with h' | ⟨t2, h', k1, k2⟩
      · exact Or.inl h'
      · right
        refine ⟨t2, h', k1, ?_⟩
        have e : items t.mDepth t.mRoot ++ x :: xs = (items t.mDepth t.mRoot ++ [x]) ++ xs := by
          simp
        rw [e]
        exact k2.trans (List.Perm.append_right _ g2)


/-! ### From the node invariant to the stated properties -/

theorem prunedItems_true (level : Nat) (node : Node D S T) :
    prunedItems (fun _ _ => true) level node = items level node := by
  induction level generalizing node with
  | zero =>
    cases node with
    | leaf r os =>
      cases os with
      | nil => simp [prunedItems, items, Node.size, Node.objects]
      | cons o os => simp [prunedItems, items, Node.size, Node.objects]
    | inner r cs => simp [prunedItems, items, Node.objects]
  | succ k ih =>
    cases node with
    | leaf r os => simp [prunedItems, items, Node.children]
    | inner r cs =>
      cases cs with
      | nil => simp [prunedItems, items, Node.size, Node.children]
      | cons c cs =>
        simp only [prunedItems, items, Node.size, Node.children, List.length_cons, ne_eq,
          Nat.succ_ne_zero, not_false_eq_true, and_self, if_true]
        congr 1
        funext n
        exact ih n

theorem items_contained [LinearOrder S] (P : Setup D S T) (level : Nat) :
    ∀ (lo : Nat) (node : Node D S T), NodeOK P lo level node →
      ∀ x ∈ items level node, contains node.rect (P.rect x) := by
  induction level with
  | zero =>
    intro lo node hn x hx
    obtain ⟨r, os, rfl, _, _, h3⟩ := hn
    exact h3 x hx
  | succ k ih =>
    intro lo node hn x hx
    obtain ⟨r, cs, rfl, _, _, _, h4⟩ := hn
    simp only [items_succ, Node.children_inner, List.mem_flatMap] at hx
    obtain ⟨c, hc, hxc⟩ := hx
    exact contains_trans (h4 c hc).2 (ih _ c (h4 c hc).1 x hxc)

theorem mem_prunedItems [LinearOrder S] (P : Setup D S T) (c : Rect D S → Nat → Bool)
    (hmono : ∀ r r' l, contains r' r → c r l = true → c r' l = true) (x : T) (level : Nat) :
    ∀ (lo : Nat) (node : Node D S T), NodeOK P lo level node → x ∈ items level node →
      (∀ l, l ≤ level → c (P.rect x) l = true) → x ∈ prunedItems c level node := by
  induction level with
  | zero =>
    intro lo node hn hx hc
    obtain ⟨r, os, rfl, _, _, h3⟩ := hn
    have hne : (Node.leaf r os : Node D S T).size ≠ 0 := by
      rw [Node.size_leaf]
      intro h
      rw [List.length_eq_zero.mp h] at hx
      cases hx
    have hck : c r 0 = true := hmono _ _ _ (h3 x hx) (hc 0 (le_refl _))
    simp only [prunedItems, Node.rect_leaf, hck, hne, ne_eq, not_false_eq_true, and_self,
      if_true]
    exact hx
  | succ k ih =>
    intro lo node hn hx hc
    have hcont := items_contained P (k + 1) lo node hn x hx
    obtain ⟨r, cs, rfl, _, h1, _, h4⟩ := hn
    have hne : (Node.inner r cs : Node D S T).size ≠ 0 := by
      rw [Node.size_inner]
      omega
    have hck : c r (k + 1) = true := hmono _ _ _ hcont (hc (k + 1) (le_refl _))
    simp only [prunedItems, Node.rect_inner, hck, hne, ne_eq, not_false_eq_true, and_self,
      if_true, Node.children_inner, List.mem_flatMap]
    simp only [items_succ, Node.children_inner, List.mem_flatMap] at hx
    obtain ⟨ch, hch, hxc⟩ := hx
    exact ⟨ch, hch, ih _ ch (h4 ch hch).1 hxc (fun l hl => hc l (Nat.le_succ_of_le hl))⟩

theorem filter_flatMap_congr {α β : Type} (p : β → Bool) (f g : α → List β) (l : List α)
    (h : ∀ a ∈ l, (f a).filter p = (g a).filter p) :
    (l.flatMap f).filter p = (l.flatMap g).filter p := by
  induction l with
  | nil => rfl
  | cons a as ih =>
    simp only [List.flatMap_cons, List.filter_append]
    rw [h a (List.mem_cons_self a as), ih (fun a' ha' => h a' (List.mem_cons_of_mem a ha'))]

theorem filter_prunedItems [LinearOrder S] (P : Setup D S T) (c : Rect D S → Nat → Bool)
    (p : T → Bool) (hcp : ∀ x r l, contains r (P.rect x) → p x = true → c r l = true)
    (level : Nat) :
    ∀ (lo : Nat) (node : Node D S T), NodeOK P lo level node →
      (prunedItems c level node).filter p = (items level node).filter p := by
  induction level with
  | zero =>
    intro lo node hn
    have hcont := items_contained P 0 lo node hn
    simp only [prunedItems]
    split
    · rfl
    · rename_i hno
      symm
      rw [List.filter_nil, List.filter_eq_nil_iff]
      intro x hx hpx
      apply hno
      refine ⟨?_, hcp x _ 0 (hcont x hx) hpx⟩
      obtain ⟨r, os, rfl, _, _, _⟩ := hn
      rw [Node.size_leaf]
      intro h
      rw [items_zero, Node.objects_leaf, List.length_eq_zero.mp h] at hx
      cases hx
  | succ k ih =>
    intro lo node hn
    have hcont := items_contained P (k + 1) lo node hn
    obtain ⟨r, cs, rfl, _, h1, _, h4⟩ := hn
    simp only [prunedItems]
    split
    · simp only [items_succ, Node.children_inner]
      exact filter_flatMap_congr p _ _ cs (fun a ha => ih _ a (h4 a ha).1)
    · rename_i hno
      symm
      rw [List.filter_nil, List.filter_eq_nil_iff]
      intro x hx hpx
      apply hno
      refine ⟨?_, hcp x _ (k + 1) (hcont x hx) hpx⟩
      rw [Node.size_inner]
      omega

theorem NodeOK.fill [LinearOrder S] {P : Setup D S T} (level : Nat) :
    ∀ (lo : Nat) (node : Node D S T), NodeOK P lo level node →
      lo ≤ node.size ∧ node.size ≤ P.cfg.capAt level ∧ fillOK P.cfg level node := by
  induction level with
  | zero =>
    intro lo node hn
    obtain ⟨r, os, rfl, h1, h2, _⟩ := hn
    exact ⟨h1, h2, trivial⟩
  | succ k ih =>
    intro lo node hn
    obtain ⟨r, cs, rfl, h1, _, h3, h4⟩ := hn
    refine ⟨h1, h3, ?_⟩
    intro ch hch
    exact ih _ ch (h4 ch hch).1

theorem NodeOK.balanced [LinearOrder S] {P : Setup D S T} (level : Nat) :
    ∀ (lo : Nat) (node : Node D S T), NodeOK P lo level node → balanced level node := by
  induction level with
  | zero =>
    intro lo node hn
    obtain ⟨r, os, rfl, _⟩ := hn
    exact ⟨r, os, rfl⟩
  | succ k ih =>
    intro lo node hn
    obtain ⟨r, cs, rfl, _, _, _, h4⟩ := hn
    exact ⟨r, cs, rfl, fun c hc => ih _ c (h4 c hc).1⟩

theorem built_ok [LinearOrderedField S] (P : Setup D S T) (hv : P.cfg.Valid)
    (hs : SortPerm P.sort) (xs : List T) (t : Tree D S T)
    (hins : insertAll P Tree.empty xs = Except.ok t) :
    TreeOK P t ∧ (items t.mDepth t.mRoot).Perm xs := by
  rcases insertAll_ok P hv hs xs Tree.empty (TreeOK.empty P) with h | ⟨t', h, h1, h2⟩
  · rw [h] at hins
    cases hins
  · rw [h] at hins
    cases hins
    exact ⟨h1, h2⟩

/-! ### Running examples -/

theorem eq_ok_of_isOk {α : Type} (d : α) (e : Except Err α) (h : isOk e = true) :
    e = Except.ok (getOk d e) := by
  cases e with
  | ok a => rfl
  | error _ => cases h

theorem ne_error_of_isOk {α : Type} (e : Except Err α) (x : Err) (h : isOk e = true) :
    e ≠ Except.error x := by
  cases e with
  | ok a => intro hh; cases hh
  | error _ => cases h

theorem insertSorted_perm {α : Type} (lt : α → α → Bool) (x : α) (l : List α) :
    (insertSorted lt x l).Perm (x :: l) := by
  induction l with
  | nil => exact List.Perm.refl _
  | cons y ys ih =>
    simp only [insertSorted]
    split
    · exact (List.Perm.cons y ih).trans (List.Perm.swap x y ys)
    · exact List.Perm.refl _

theorem insertionSort_perm : SortPerm (fun {α : Type} => @insertionSort α) := by
  intro α lt l
  induction l with
  | nil => exact List.Perm.refl _
  | cons x xs ih => exact (insertSorted_perm lt x _).trans (List.Perm.cons x ih)

end RStar

/-! ### Traversal, leaf depths and tightness -/

namespace RStar

variable {D : Nat} {S T : Type} {σ : Type}

theorem visitLog_items (t : Tree D S T) (v : Visitor σ D S T) (c : Rect D S → Nat → Bool)
    (s : σ) (hc : ∀ r l s, (v.check r l s).1 = c r l) (hv : ∀ x s, (v.visit x s).1 = true) :
    (visitLog t v s).filterMap Event.item = prunedItems c t.mDepth t.mRoot := by
  have h := (visitNode_expectedLog v c hc hv t.mDepth t.mRoot (s, [])).2
  have h1 : visitLog t v s = expectedLog c t.mDepth t.mRoot := by
    simp only [visitLog, visit, h, List.nil_append]
  rw [h1, expectedLog_items]

theorem tightB_of_Tight [LinearOrder S] (rectOf : T → Rect D S) (level : Nat) :
    ∀ (node : Node D S T), Tight rectOf level node → tightB rectOf level node = true := by
  induction level with
  | zero =>
    intro node h
    simp only [tightB]
    exact decide_eq_true h
  | succ k ih =>
    intro node h
    simp only [tightB, Bool.and_eq_true, List.all_eq_true]
    exact ⟨decide_eq_true h.1, fun c hc => ih c (h.2 c hc)⟩

end RStar

/-! ### Ordered output of the sorting routine -/

namespace RStar

variable {D : Nat} {S T : Type} {σ : Type}

theorem strictWeak_of_key {α K : Type} [LinearOrder K] (key : α → K) :
    StrictWeak (fun a b => decide (key a > key b)) := by
  refine ⟨?_, ?_, ?_⟩
  · intro a
    simp
  · intro a b c h1 h2
    simp only [gt_iff_lt, decide_eq_true_eq] at h1 h2 ⊢
    exact lt_trans h2 h1
  · intro a b c h1 h2 h3 h4
    simp only [gt_iff_lt, decide_eq_false_iff_not, not_lt] at h1 h2 h3 h4 ⊢
    exact ⟨le_trans h1 h3, le_trans h4 h2⟩

theorem pairwise_take_drop {α : Type} {R : α → α → Prop} {l : List α} (h : l.Pairwise R)
    (n : Nat) : ∀ a ∈ l.take n, ∀ b ∈ l.drop n, R a b := by
  have h' : (l.take n ++ l.drop n).Pairwise R := by
    rw [List.take_append_drop]
    exact h
  exact (List.pairwise_append.mp h').2.2

theorem insertSorted_mem {α : Type} (lt : α → α → Bool) (x : α) (l : List α) (z : α)
    (hz : z ∈ insertSorted lt x l) : z = x ∨ z ∈ l :=
  List.mem_cons.mp ((insertSorted_perm lt x l).subset hz)

theorem insertSorted_sorted {α : Type} (lt : α → α → Bool) (hlt : StrictWeak lt) (x : α)
    (l : List α) (h : l.Pairwise (fun a b => lt b a = false)) :
    (insertSorted lt x l).Pairwise (fun a b => lt b a = false) := by
  induction l with
  | nil => simp [insertSorted]
  | cons y ys ih =>
    rw [List.pairwise_cons] at h
    simp only [insertSorted]
    split
    · rename_i hc
      rw [List.pairwise_cons]
      refine ⟨?_, ih h.2⟩
      intro z hz
      rcases insertSorted_mem lt x ys z hz with e | e
      · rw [e]
        cases hyx : lt y x with
        | true =>
          cases hxy : lt x y with
          | false => rfl
          | true =>
            have := hlt.2.1 x y x hxy hyx
            rw [hlt.1 x] at this
            cases this
        | false =>
          cases hxy : lt x y with
          | false => rfl
          | true => simp [hyx, hxy] at hc
      · exact h.1 z e
    · rename_i hc
      have hxy : lt x y = true := by
        cases hxy : lt x y with
        | true => rfl
        | false => simp [hxy] at hc
      have hyx : lt y x = false := by
        cases hyx : lt y x with
        | false => rfl
        | true => simp [hyx] at hc
      rw [List.pairwise_cons]
      refine ⟨?_, List.pairwise_cons.mpr h⟩
      intro z hz
      rcases List.mem_cons.mp hz with e | e
      · rw [e]
        exact hyx
      · cases hzx : lt z x with
        | false => rfl
        | true =>
          have := hlt.2.1 z x y hzx hxy
          rw [h.1 z e] at this
          cases this

theorem insertionSort_sorted : SortSorted (fun {α : Type} => @insertionSort α) := by
  intro α lt l hlt
  induction l with
  | nil => simp [insertionSort]
  | cons x xs ih => exact insertSorted_sorted lt hlt x _ ih

/-! ### The bound on the nesting of reinsertions -/

theorem forEachM_fuel {α σ : Type} (f g : α → σ → Except Err σ)
    (hfg : ∀ a s, f a s ≠ Except.error Err.outOfFuel → g a s = f a s) :
    ∀ (l : List α) (s : σ), forEachM f l s ≠ Except.error Err.outOfFuel →
      forEachM g l s = forEachM f l s := by
  intro l
  induction l with
  | nil => intro s _; rfl
  | cons a as ih =>
    intro s h
    simp only [forEachM] at h ⊢
    cases hf : f a s with
    | error e =>
      rw [hf] at h
      have hne : f a s ≠ Except.error Err.outOfFuel := by
        rw [hf]
        exact h
      rw [hfg a s hne, hf]
    | ok s' =>
      rw [hf] at h
      have hne : f a s ≠ Except.error Err.outOfFuel := by
        rw [hf]
        intro hh
        cases hh
      rw [hfg a s hne, hf]
      exact ih s' h

theorem reinsertRound_fuel [LinearOrderedField S] (P : Setup D S T)
    (n1 n2 : Bufs D S T → Tree D S T × ReinsertMask → Except Err (Tree D S T × ReinsertMask))
    (h12 : ∀ b st, n1 b st ≠ Except.error Err.outOfFuel → n2 b st = n1 b st)
    (lvl : Nat) (child : Node D S T) (w : Work D S T)
    (h : reinsertRound P n1 lvl child w ≠ Except.error Err.outOfFuel) :
    reinsertRound P n2 lvl child w = reinsertRound P n1 lvl child w := by
  unfold reinsertRound at h ⊢
  simp only at h ⊢
  split
  · rfl
  · rename_i hret
    rw [if_neg hret] at h
    split
    · rename_i hre
      rw [if_pos hre] at h
      have hne : n1 (insertSubtree P w.mask child lvl w.tree.mDepth w.tree.mRoot w.bufs).bufs
          (⟨w.tree.mDepth, (insertSubtree P w.mask child lvl w.tree.mDepth w.tree.mRoot
              w.bufs).node⟩,
            w.mask.set (insertSubtree P w.mask child lvl w.tree.mDepth w.tree.mRoot
              w.bufs).bufs.reinsertLevel) ≠ Except.error Err.outOfFuel := by
        intro hh
        rw [hh] at h
        exact h rfl
      rw [h12 _ _ hne]
    · rfl

theorem reinsertInner_fuel [LinearOrderedField S] (P : Setup D S T) (fuel : Nat) :
    ∀ (b : Bufs D S T) (st : Tree D S T × ReinsertMask),
      reinsertInner P fuel b st ≠ Except.error Err.outOfFuel →
      reinsertInner P (fuel + 1) b st = reinsertInner P fuel b st := by
  induction fuel with
  | zero =>
    intro b st h
    exact absurd rfl h
  | succ n ih =>
    intro b st h
    rw [reinsertInner] at h
    rw [reinsertInner, reinsertInner]
    have hloop : forEachM (reinsertRound P (reinsertInner P n) b.reinsertLevel)
        (b.children.take b.reinserts) ⟨st.1, st.2, Bufs.init⟩ ≠
          Except.error Err.outOfFuel := by
      intro hh
      rw [hh] at h
      exact h rfl
    rw [forEachM_fuel (reinsertRound P (reinsertInner P n) b.reinsertLevel)
      (reinsertRound P (reinsertInner P (n + 1)) b.reinsertLevel)
      (fun a s hne => reinsertRound_fuel P _ _ ih b.reinsertLevel a s hne) _ _ hloop]

theorem insertLeaf_fuel [LinearOrderedField S] (P : Setup D S T) (fuel : Nat) :
    ∀ (t : Tree D S T) (obj : T) (mask : ReinsertMask),
      insertLeaf P fuel t obj mask ≠ Except.error Err.outOfFuel →
      insertLeaf P (fuel + 1) t obj mask = insertLeaf P fuel t obj mask := by
  induction fuel with
  | zero =>
    intro t obj mask h
    exact absurd rfl h
  | succ n ih =>
    intro t obj mask h
    rw [insertLeaf] at h
    rw [insertLeaf, insertLeaf]
    generalize (if t.mRoot.size = 0 then Node.leaf (P.rect obj) [] else t.mRoot) = root at h ⊢
    generalize insertElement P mask obj (P.rect obj) t.mDepth root Bufs.init = r at h ⊢
    by_cases hret : r.ret.size ≠ 0
    · simp only [if_pos hret]
    · simp only [if_neg hret] at h ⊢
      by_cases hre : r.bufs.reinserts ≠ 0
      · simp only [if_pos hre] at h ⊢
        by_cases hl : r.bufs.reinsertLevel = 0
        · simp only [if_pos hl] at h ⊢
          exact forEachM_fuel _ _ (fun a s hne => ih s.1 a s.2 hne) _ _ h
        · simp only [if_neg hl] at h ⊢
          exact reinsertInner_fuel P n _ _ h
      · simp only [if_neg hre]

theorem insertLeaf_fuel_add [LinearOrderedField S] (P : Setup D S T) (fuel : Nat)
    (t : Tree D S T) (obj : T) (mask : ReinsertMask)
    (h : insertLeaf P fuel t obj mask ≠ Except.error Err.outOfFuel) (k : Nat) :
    insertLeaf P (fuel + k) t obj mask = insertLeaf P fuel t obj mask := by
  induction k with
  | zero => rfl
  | succ k ih =>
    rw [← Nat.add_assoc, insertLeaf_fuel P (fuel + k) t obj mask (by rw [ih]; exact h), ih]

theorem insertLeaf_no_outOfFuel [LinearOrderedField S] (P : Setup D S T) (hv : P.cfg.Valid)
    (hs : SortPerm P.sort) (fuel : Nat) (t : Tree D S T) (obj : T) (mask : ReinsertMask)
    (ht : TreeOK P t) (hf : unsetBits mask < fuel) :
    insertLeaf P fuel t obj mask ≠ Except.error Err.outOfFuel := by
  rcases insertLeaf_ok P hv hs fuel t obj mask ht hf with h | ⟨res, h, _⟩
  · rw [h]
    intro hh
    cases hh
  · rw [h]
    intro hh
    cases hh

/-! ### Counting items, and when the length error can occur -/

theorem length_flatMap_ge {α β : Type} (f : α → List β) (m : Nat) :
    ∀ (l : List α), (∀ a ∈ l, m ≤ (f a).length) → l.length * m ≤ (l.flatMap f).length := by
  intro l
  induction l with
  | nil => intro _; simp
  | cons a as ih =>
    intro h
    rw [List.flatMap_cons, List.length_append, List.length_cons, Nat.succ_mul]
    have h1 := h a (List.mem_cons_self a as)
    have h2 := ih (fun b hb => h b (List.mem_cons_of_mem a hb))
    omega

theorem NodeOK.count [LinearOrder S] {P : Setup D S T} (level : Nat) :
    ∀ (n : Node D S T), NodeOK P (P.cfg.minAt level) level n →
      minItems P.cfg level ≤ (items level n).length := by
  induction level with
  | zero =>
    intro n h
    obtain ⟨r, os, rfl, h1, _, _⟩ := h
    exact h1
  | succ k ih =>
    intro n h
    obtain ⟨r, cs, rfl, h1, _, _, h4⟩ := h
    rw [items_succ, Node.children_inner]
    have := length_flatMap_ge (items k) (minItems P.cfg k) cs (fun c hc => ih c (h4 c hc).1)
    have hm : P.cfg.InnerMin * minItems P.cfg k ≤ cs.length * minItems P.cfg k :=
      Nat.mul_le_mul_right _ h1
    exact le_trans hm this

theorem NodeOK.count_root [LinearOrder S] {P : Setup D S T} (k : Nat) (n : Node D S T)
    (h : NodeOK P 0 (k + 1) n) : minItems P.cfg k ≤ (items (k + 1) n).length := by
  obtain ⟨r, cs, rfl, _, h1, _, h4⟩ := h
  rw [items_succ, Node.children_inner]
  have := length_flatMap_ge (items k) (minItems P.cfg k) cs
    (fun c hc => NodeOK.count k c (h4 c hc).1)
  have hm : 1 * minItems P.cfg k ≤ cs.length * minItems P.cfg k :=
    Nat.mul_le_mul_right _ h1
  omega

theorem NodeOK.count_leaf [LinearOrder S] {P : Setup D S T} (lo : Nat) (n : Node D S T)
    (h : NodeOK P lo 0 n) : (items 0 n).length ≤ P.cfg.LeafSize := by
  obtain ⟨r, os, rfl, _, h2, _⟩ := h
  exact h2

theorem minItems_mono (c : Config) (h : 1 ≤ c.InnerMin) (k : Nat) :
    minItems c k ≤ minItems c (k + 1) := by
  show minItems c k ≤ c.InnerMin * minItems c k
  calc minItems c k = 1 * minItems c k := (Nat.one_mul _).symm
    _ ≤ c.InnerMin * minItems c k := Nat.mul_le_mul_right _ h

theorem minItems_le (c : Config) (h : 1 ≤ c.InnerMin) {j k : Nat} (hjk : j ≤ k) :
    minItems c j ≤ minItems c k := by
  induction hjk with
  | refl => exact le_refl _
  | step _ ih => exact le_trans ih (minItems_mono c h _)

theorem splitRoot_error {D : Nat} {S T : Type} [LinearOrder S] (tree : Tree D S T)
    (split : Node D S T) (e : Err) (h : splitRoot tree split = Except.error e) :
    tree.mDepth = max_depth := by
  unfold splitRoot at h
  by_cases hd : tree.mDepth = max_depth
  · exact hd
  · rw [if_neg hd] at h
    cases h

theorem forEachM_err [LinearOrder S] {α σ : Type} (P : Setup D S T) (f : α → σ → Except Err σ)
    (pt : σ → Tree D S T) (pm : σ → ReinsertMask) (inv : σ → Prop) (g : α → List T)
    (bound lvl : Nat) (l : List α)
    (hf : ∀ a ∈ l, ∀ s, TreeOK P (pt s) → inv s → unsetBits (pm s) ≤ bound →
      lvl ≤ (pt s).mDepth →
      f a s = Except.error Err.lengthError ∨
      ∃ s', f a s = Except.ok s' ∧ Grown P (pt s) (g a) (pm s) (pt s', pm s') ∧ inv s')
    (hfe : ∀ a ∈ l, ∀ s, TreeOK P (pt s) → inv s → unsetBits (pm s) ≤ bound →
      lvl ≤ (pt s).mDepth → f a s = Except.error Err.lengthError →
      minItems P.cfg max_depth ≤ (items (pt s).mDepth (pt s).mRoot).length + (g a).length) :
    ∀ s, TreeOK P (pt s) → inv s → unsetBits (pm s) ≤ bound → lvl ≤ (pt s).mDepth →
      forEachM f l s = Except.error Err.lengthError →
      minItems P.cfg max_depth ≤
        (items (pt s).mDepth (pt s).mRoot).length + (l.flatMap g).length := by
  induction l with
  | nil =>
    intro s _ _ _ _ h
    cases h
  | cons a as ih =>
    intro s hs hi hb hl herr
    rw [List.flatMap_cons, List.length_append]
    rcases hf a (List.mem_cons_self a as) s hs hi hb hl with h | ⟨s1, h1, g1, i1⟩
    · have := hfe a (List.mem_cons_self a as) s hs hi hb hl h
      omega
    · simp only [forEachM, h1] at herr
      have hb1 : unsetBits (pm s1) ≤ bound := le_trans (unsetBits_mono g1.2.2.1) hb
      have := ih (fun a' ha' => hf a' (List.mem_cons_of_mem a ha'))
        (fun a' ha' => hfe a' (List.mem_cons_of_mem a ha')) s1 g1.1 i1 hb1
        (le_trans hl g1.2.2.2) herr
      have hlen := g1.2.1.length_eq
      rw [List.length_append] at hlen
      simp only at hlen
      omega

theorem reinsertRound_err [LinearOrderedField S] (P : Setup D S T) (hv : P.cfg.Valid)
    (hs : SortPerm P.sort) (bound : Nat)
    (nested : Bufs D S T → Tree D S T × ReinsertMask → Except Err (Tree D S T × ReinsertMask))
    (hnerr : NestedErr P bound nested) (rl : Nat) (hrl : 1 ≤ rl)
    (child : Node D S T)
    (hchild : NodeOK P (P.cfg.minAt (rl - 1)) (rl - 1) child) (w : Work D S T)
    (hw : TreeOK P w.tree) (hb : w.bufs.reinserts = 0) (hm : unsetBits w.mask ≤ bound)
    (hl : rl ≤ w.tree.mDepth)
    (herr : reinsertRound P nested rl child w = Except.error Err.lengthError) :
    minItems P.cfg max_depth ≤
      (items w.tree.mDepth w.tree.mRoot).length + (items (rl - 1) child).length := by
  have hstep := insertSubtree_ok P hv hs w.mask child rl hrl hchild w.tree.mDepth 0
    w.tree.mRoot w.bufs hb (Nat.zero_le _) hl hw.2
  obtain ⟨s1, s2, s3⟩ := hstep
  unfold reinsertRound at herr
  generalize insertSubtree P w.mask child rl w.tree.mDepth w.tree.mRoot w.bufs = r
    at s1 s2 s3 herr
  rw [← List.length_append]
  by_cases hret : r.ret.size = 0
  · obtain ⟨c1, c2, c3⟩ := s3 hret
    by_cases hre : r.bufs.reinserts = 0
    · simp only [hret, hre, ne_eq, not_true_eq_false, if_false] at herr
      cases herr
    · obtain ⟨d1, d2, d3, d4⟩ := c3 hre
      simp only [hret, hre, ne_eq, not_true_eq_false, if_false, not_false_eq_true, if_true]
        at herr
      have hpos : 1 ≤ r.bufs.reinsertLevel := le_trans hrl d2.1
      have hlt : unsetBits (w.mask.set r.bufs.reinsertLevel) < bound :=
        lt_of_lt_of_le (unsetBits_set d1 (le_trans d2.2 hw.1)) hm
      have hcall : nested r.bufs (⟨w.tree.mDepth, r.node⟩, w.mask.set r.bufs.reinsertLevel) =
          Except.error Err.lengthError := by
        cases hn : nested r.bufs (⟨w.tree.mDepth, r.node⟩, w.mask.set r.bufs.reinsertLevel) with
        | ok st =>
          rw [hn] at herr
          cases herr
        | error e =>
          rw [hn] at herr
          cases herr
          rfl
      have := hnerr r.bufs ⟨w.tree.mDepth, r.node⟩ (w.mask.set r.bufs.reinsertLevel)
        ⟨hw.1, c1⟩ hpos d2.2 (d3 (by omega)) hlt hcall
      rw [← d4.length_eq, List.length_append]
      exact this
  · obtain ⟨c1, c2, c3, _, c5⟩ := s2 hret
    simp only [hret, ne_eq, not_false_eq_true, if_true] at herr
    have hd : w.tree.mDepth = max_depth := by
      cases hn : splitRoot (⟨w.tree.mDepth, r.node⟩ : Tree D S T) r.ret with
      | ok t =>
        rw [hn] at herr
        cases herr
      | error e => exact splitRoot_error ⟨_, r.node⟩ r.ret e hn
    rw [hd] at c2
    have := NodeOK.count max_depth r.node c2
    rw [← c5.length_eq, List.length_append, hd]
    omega

theorem reinsertInner_err [LinearOrderedField S] (P : Setup D S T) (hv : P.cfg.Valid)
    (hs : SortPerm P.sort) (fuel : Nat) : NestedErr P fuel (reinsertInner P fuel) := by
  induction fuel with
  | zero =>
    intro parent t mask _ _ _ _ h
    omega
  | succ n ih =>
    intro parent t mask ht hpos hle hev hbits herr
    simp only [reinsertInner] at herr
    have hev' : evictedItems parent =
        (parent.children.take parent.reinserts).flatMap (items (parent.reinsertLevel - 1)) := by
      unfold evictedItems
      rw [if_neg (by omega)]
    rw [hev']
    refine forEachM_err P (reinsertRound P (reinsertInner P n) parent.reinsertLevel)
      (fun w => w.tree) (fun w => w.mask) (fun w => w.bufs.reinserts = 0)
      (items (parent.reinsertLevel - 1)) n parent.reinsertLevel
      (parent.children.take parent.reinserts)
      (fun a ha s h1 h2 h3 h4 =>
        reinsertRound_ok P hv hs n (reinsertInner P n) (reinsertInner_ok P hv hs n)
          parent.reinsertLevel hpos a (hev a ha) s h1 h2 h3 h4)
      (fun a ha s h1 h2 h3 h4 h5 =>
        reinsertRound_err P hv hs n (reinsertInner P n) ih
          parent.reinsertLevel hpos a (hev a ha) s h1 h2 h3 h4 h5)
      ⟨t, mask, Bufs.init⟩ ht rfl (Nat.le_of_lt_succ hbits) hle ?_
    cases hn : forEachM (reinsertRound P (reinsertInner P n) parent.reinsertLevel)
        (parent.children.take parent.reinserts) ⟨t, mask, Bufs.init⟩ with
    | ok st =>
      rw [hn] at herr
      cases herr
    | error e =>
      rw [hn] at herr
      cases herr
      rfl

theorem insertLeaf_err [LinearOrderedField S] (P : Setup D S T) (hv : P.cfg.Valid)
    (hs : SortPerm P.sort) (fuel : Nat) :
    ∀ (t : Tree D S T) (obj : T) (mask : ReinsertMask), TreeOK P t → unsetBits mask < fuel →
      insertLeaf P fuel t obj mask = Except.error Err.lengthError →
      minItems P.cfg max_depth ≤ (items t.mDepth t.mRoot).length + 1 := by
  induction fuel with
  | zero =>
    intro t obj mask _ h
    omega
  | succ n ih =>
    intro t obj mask ht hbits herr
    obtain ⟨hroot, hitems⟩ := ht.root_cases obj
    simp only [insertLeaf] at herr
    generalize (if t.mRoot.size = 0 then Node.leaf (P.rect obj) [] else t.mRoot) = root
      at hroot hitems herr
    obtain ⟨s1, s2, s3⟩ := insertElement_ok P hv hs mask obj t.mDepth 0 root Bufs.init rfl
      (Nat.zero_le _) hroot
    rw [hitems] at s2 s3
    generalize insertElement P mask obj (P.rect obj) t.mDepth root Bufs.init = r
      at s1 s2 s3 herr
    have hone : (items t.mDepth t.mRoot).length + 1 =
        (items t.mDepth t.mRoot ++ [obj]).length := by
      rw [List.length_append]
      rfl
    rw [hone]
    by_cases hret : r.ret.size = 0
    · obtain ⟨c1, c2, c3⟩ := s3 hret
      by_cases hre : r.bufs.reinserts = 0
      · simp only [hret, hre, ne_eq, not_true_eq_false, if_false] at herr
        cases herr
      · obtain ⟨d1, d2, d3, d4⟩ := c3 hre
        simp only [hret, hre, ne_eq, not_true_eq_false, if_false, not_false_eq_true, if_true]
          at herr
        have hlt : unsetBits (mask.set r.bufs.reinsertLevel) < n := by
          have := unsetBits_set d1 (le_trans d2.2 ht.1)
          omega
        rw [← d4.length_eq, List.length_append]
        by_cases hlev : r.bufs.reinsertLevel = 0
        · simp only [hlev, if_true] at herr
          have he : evictedItems r.bufs = r.bufs.objects.take r.bufs.reinserts := by
            unfold evictedItems
            rw [if_pos hlev]
          have hm : (r.bufs.objects.take r.bufs.reinserts).flatMap (fun x => [x]) =
              r.bufs.objects.take r.bufs.reinserts :=
            (flatMap_singleton_map id _).trans (List.map_id _)
          rw [he, ← hm]
          exact forEachM_err P
            (fun (x : T) (st : Tree D S T × ReinsertMask) => insertLeaf P n st.1 x st.2)
            (fun st => st.1) (fun st => st.2) (fun _ => True) (fun x => [x]) (n - 1) 0
            (r.bufs.objects.take r.bufs.reinserts)
            (fun a _ s h1 _ h3 _ => by
              rcases insertLeaf_ok P hv hs n s.1 a s.2 h1 (by simp only at h3; omega)
                with h | ⟨res, h, g⟩
              · exact Or.inl h
              · exact Or.inr ⟨res, h, g, trivial⟩)
            (fun a _ s h1 _ h3 _ h5 => ih s.1 a s.2 h1 (by simp only at h3; omega) h5)
            (⟨t.mDepth, r.node⟩, mask.set 0) ⟨ht.1, c1⟩ trivial
            (by rw [hlev] at hlt; simp only; omega) (Nat.zero_le _) herr
        · simp only [hlev, if_false] at herr
          exact reinsertInner_err P hv hs n r.bufs ⟨t.mDepth, r.node⟩
            (mask.set r.bufs.reinsertLevel) ⟨ht.1, c1⟩ (by omega) d2.2 (d3 hlev) hlt herr
    · obtain ⟨c1, c2, c3, _, c5⟩ := s2 hret
      simp only [hret, ne_eq, not_false_eq_true, if_true] at herr
      have hd : t.mDepth = max_depth := by
        cases hn : splitRoot (⟨t.mDepth, r.node⟩ : Tree D S T) r.ret with
        | ok t' =>
          rw [hn] at herr
          cases herr
        | error e => exact splitRoot_error ⟨_, r.node⟩ r.ret e hn
      rw [hd] at c2
      have := NodeOK.count max_depth r.node c2
      rw [← c5.length_eq, List.length_append, hd]
      omega

theorem insert_err [LinearOrderedField S] (P : Setup D S T) (hv : P.cfg.Valid)
    (hs : SortPerm P.sort) (t : Tree D S T) (obj : T) (ht : TreeOK P t)
    (herr : insert P t obj = Except.error Err.lengthError) :
    minItems P.cfg max_depth ≤ (items t.mDepth t.mRoot).length + 1 := by
  unfold insert at herr
  refine insertLeaf_err P hv hs (max_depth + 2) t obj ReinsertMask.zero ht
    (by rw [unsetBits_zero]; omega) ?_
  cases hn : insertLeaf P (max_depth + 2) t obj ReinsertMask.zero with
  | ok st =>
    rw [hn] at herr
    cases herr
  | error e =>
    rw [hn] at herr
    cases herr
    rfl

theorem insertAll_total [LinearOrderedField S] (P : Setup D S T) (hv : P.cfg.Valid)
    (hs : SortPerm P.sort) (xs : List T) :
    ∀ (t : Tree D S T), TreeOK P t →
      (items t.mDepth t.mRoot).length + xs.length < minItems P.cfg max_depth →
      ∃ t', insertAll P t xs = Except.ok t' ∧ TreeOK P t' ∧
        (items t'.mDepth t'.mRoot).Perm (items t.mDepth t.mRoot ++ xs) := by
  induction xs with
  | nil =>
    intro t ht _
    exact ⟨t, rfl, ht, by simp⟩
  | cons x xs ih =>
    intro t ht hlt
    rw [List.length_cons] at hlt
    rcases insert_ok P hv hs t x ht with h | ⟨t1, h, g1, g2, _⟩
    · have := insert_err P hv hs t x ht h
      omega
    · simp only [insertAll, h]
      have hlen := g2.length_eq
      rw [List.length_append, List.length_singleton] at hlen
      obtain ⟨t2, h', k1, k2⟩ := ih t1 g1 (by omega)
      refine ⟨t2, h', k1, ?_⟩
      have e : items t.mDepth t.mRoot ++ x :: xs = (items t.mDepth t.mRoot ++ [x]) ++ xs := by
        simp
      rw [e]
      exact k2.trans (List.Perm.append_right _ g2)

theorem thousandBoxes_length : thousandBoxes.length = 1000 := by
  unfold thousandBoxes
  rw [List.length_map, List.length_range]

theorem minItems_default_two : minItems Config.default 2 = 9261 := rfl

end RStar

/-! ### Nearest-neighbour traversal -/

namespace RTree

variable {D : Nat} {S T R : Type}

theorem Best.visit [LinearOrder R] (dItem : T → R) (seen : List T) (s : Option (T × R))
    (x : T) (h : Best dItem seen s) (dRect : Rect D S → R) :
    ((nearest dRect dItem).visit x s).1 = true ∧
    Best dItem (seen ++ [x]) ((nearest dRect dItem).visit x s).2 := by
  refine ⟨rfl, ?_⟩
  cases s with
  | none =>
    have hs : seen = [] := h
    subst hs
    exact ⟨by simp, rfl, by simp⟩
  | some b =>
    obtain ⟨h1, h2, h3⟩ := h
    show Best dItem (seen ++ [x]) (if dItem x < b.2 then some (x, dItem x) else some b)
    by_cases hlt : dItem x < b.2
    · rw [if_pos hlt]
      refine ⟨by simp, rfl, ?_⟩
      intro y hy
      rcases List.mem_append.mp hy with hy | hy
      · exact le_trans (le_of_lt hlt) (h3 y hy)
      · rw [List.mem_singleton.mp hy]
    · rw [if_neg hlt]
      refine ⟨List.mem_append_left _ h1, h2, ?_⟩
      intro y hy
      rcases List.mem_append.mp hy with hy | hy
      · exact h3 y hy
      · rw [List.mem_singleton.mp hy]
        exact not_lt.mp hlt

theorem Best.visitAll [LinearOrder R] (dItem : T → R) (dRect : Rect D S → R) (os : List T) :
    ∀ (seen : List T) (s : Option (T × R)), Best dItem seen s →
      (forEachWhile (nearest dRect dItem).visit os s).1 = true ∧
      Best dItem (seen ++ os) (forEachWhile (nearest dRect dItem).visit os s).2 := by
  induction os with
  | nil =>
    intro seen s h
    exact ⟨rfl, by rw [List.append_nil]; exact h⟩
  | cons o os ih =>
    intro seen s h
    obtain ⟨h1, h2⟩ := h.visit dItem seen s o dRect
    simp only [forEachWhile, h1, if_true]
    have := ih (seen ++ [o]) _ h2
    rw [List.append_assoc] at this
    exact this

theorem Best.skip [LinearOrder R] (dItem : T → R) (seen more : List T) (b : T × R) (d : R)
    (h : Best dItem seen (some b)) (hd : b.2 ≤ d) (hmore : ∀ x ∈ more, d ≤ dItem x) :
    Best dItem (seen ++ more) (some b) := by
  obtain ⟨h1, h2, h3⟩ := h
  refine ⟨List.mem_append_left _ h1, h2, ?_⟩
  intro y hy
  rcases List.mem_append.mp hy with hy | hy
  · exact h3 y hy
  · exact le_trans hd (hmore y hy)

theorem Best.children [LinearOrder R] (dItem : T → R) (f : Node D S T → Option (T × R) →
    Bool × Option (T × R)) (g : Node D S T → List T) (cs : List (Node D S T))
    (hf : ∀ c ∈ cs, ∀ seen s, Best dItem seen s →
      (f c s).1 = true ∧ Best dItem (seen ++ g c) (f c s).2) :
    ∀ (seen : List T) (s : Option (T × R)), Best dItem seen s →
      (forEachWhile f cs s).1 = true ∧
      Best dItem (seen ++ cs.flatMap g) (forEachWhile f cs s).2 := by
  induction cs with
  | nil =>
    intro seen s h
    exact ⟨rfl, by simpa using h⟩
  | cons c cs ih =>
    intro seen s h
    obtain ⟨h1, h2⟩ := hf c (List.mem_cons_self c cs) seen s h
    simp only [forEachWhile, h1, if_true]
    have := ih (fun c' hc' => hf c' (List.mem_cons_of_mem c hc')) (seen ++ g c) _ h2
    rw [List.flatMap_cons, ← List.append_assoc]
    exact this

theorem Best.visitNode [LinearOrder S] [LinearOrder R] (P : Setup D S T) (dRect : Rect D S → R)
    (dItem : T → R) (hlaw : ∀ r x, contains r (P.rect x) → dRect r ≤ dItem x) (level : Nat) :
    ∀ (lo : Nat) (node : Node D S T), NodeOK P lo level node →
      ∀ (seen : List T) (s : Option (T × R)), Best dItem seen s →
        (visitNode (nearest dRect dItem) level node s).1 = true ∧
        Best dItem (seen ++ items level node)
          (visitNode (nearest dRect dItem) level node s).2 := by
  induction level with
  | zero =>
    intro lo node hn seen s h
    have hcont := items_contained P 0 lo node hn
    obtain ⟨r, os, rfl, _, _, _⟩ := hn
    simp only [RTree.visitNode, Node.size_leaf, Node.rect_leaf, Node.objects_leaf, items_zero]
      at hcont ⊢
    by_cases hz : os.length = 0
    · rw [if_pos hz]
      have : os = [] := List.length_eq_zero.mp hz
      subst this
      exact ⟨rfl, by rw [List.append_nil]; exact h⟩
    · rw [if_neg hz]
      cases s with
      | none =>
        exact Best.visitAll dItem dRect os seen Option.none h
      | some b =>
        by_cases hc : dRect r < b.2
        · have e : ((nearest dRect dItem).check r 0 (some b)) = (true, some b) := by
            simp [nearest, hc]
          rw [e]
          exact Best.visitAll dItem dRect os seen (some b) h
        · have e : ((nearest dRect dItem).check r 0 (some b)) = (false, some b) := by
            simp [nearest, hc]
          rw [e]
          exact ⟨rfl, Best.skip dItem seen os b (dRect r) h (not_lt.mp hc)
            (fun x hx => hlaw r x (hcont x hx))⟩
  | succ k ih =>
    intro lo node hn seen s h
    have hcont := items_contained P (k + 1) lo node hn
    obtain ⟨r, cs, rfl, _, h1, _, h4⟩ := hn
    simp only [Node.rect_inner] at hcont
    simp only [RTree.visitNode, Node.size_inner, Node.rect_inner, Node.children_inner]
    rw [if_neg (by omega)]
    have hloop := Best.children dItem (RTree.visitNode (nearest dRect dItem) k) (items k) cs
      (fun c hc seen' s' h' => ih _ c (h4 c hc).1 seen' s' h')
    have hit : items (k + 1) (Node.inner r cs) = cs.flatMap (items k) := rfl
    rw [hit] at hcont ⊢
    cases s with
    | none =>
      exact hloop seen Option.none h
    | some b =>
      by_cases hc : dRect r < b.2
      · have e : ((nearest dRect dItem).check r (k + 1) (some b)) = (true, some b) := by
          simp [nearest, hc]
        rw [e]
        exact hloop seen (some b) h
      · have e : ((nearest dRect dItem).check r (k + 1) (some b)) = (false, some b) := by
          simp [nearest, hc]
        rw [e]
        exact ⟨rfl, Best.skip dItem seen _ b (dRect r) h (not_lt.mp hc)
          (fun x hx => hlaw r x (hcont x hx))⟩

theorem Best.perm [LinearOrder R] (dItem : T → R) {l1 l2 : List T} (hp : l1.Perm l2)
    (s : Option (T × R)) (h : Best dItem l1 s) : Best dItem l2 s := by
  cases s with
  | none =>
    have h1 : l1 = [] := h
    subst h1
    exact hp.symm.eq_nil
  | some b =>
    obtain ⟨h1, h2, h3⟩ := h
    exact ⟨hp.subset h1, h2, fun x hx => h3 x (hp.symm.subset hx)⟩

end RTree

namespace TGDomain

variable {D : Nat} {S : Type}

theorem foldl_add_le [LinearOrderedField S] {α : Type} (f g : α → S) (l : List α)
    (h : ∀ a ∈ l, f a ≤ g a) :
    ∀ (x y : S), x ≤ y →
      l.foldl (fun res i => res + f i) x ≤ l.foldl (fun res i => res + g i) y := by
  induction l with
  | nil => intro x y hxy; exact hxy
  | cons a as ih =>
    intro x y hxy
    simp only [List.foldl_cons]
    exact ih (fun b hb => h b (List.mem_cons_of_mem a hb)) _ _
      (add_le_add hxy (h a (List.mem_cons_self a as)))

theorem distToRect_le [LinearOrderedField S] (r : Rect D S) (q p : Fin D → S)
    (h : contains r (pointRect p)) : distToRect r q ≤ TGDomain.dist q p := by
  unfold distToRect TGDomain.dist
  apply foldl_add_le _ _ _ _ 0 0 (le_refl _)
  intro i _
  obtain ⟨h1, h2⟩ := h i
  simp only [pointRect] at h1 h2
  have hm : Max.max (Max.max (r.min i - q i) (q i - r.max i)) 0 ≤ |q i - p i| := by
    apply max_le
    · apply max_le
      · have : r.min i - q i ≤ -(q i - p i) := by linarith
        exact le_trans this (neg_le_abs _)
      · have : q i - r.max i ≤ q i - p i := by linarith
        exact le_trans this (le_abs_self _)
    · exact abs_nonneg _
  have h0 : (0 : S) ≤ Max.max (Max.max (r.min i - q i) (q i - r.max i)) 0 := le_max_right _ _
  calc Max.max (Max.max (r.min i - q i) (q i - r.max i)) 0 *
        Max.max (Max.max (r.min i - q i) (q i - r.max i)) 0
      ≤ |q i - p i| * |q i - p i| := mul_le_mul hm hm h0 (abs_nonneg _)
    _ = (q i - p i) * (q i - p i) := abs_mul_abs_self _

end TGDomain

/-! ### The overflow events of an insertion -/

namespace RStar

variable {D : Nat} {S T : Type}

theorem overflowEvent_reinsert (mask : ReinsertMask) (level L : Nat)
    (h : overflowEvent mask level = InsEvent.reinsert L) : mask level = false ∧ L = level := by
  unfold overflowEvent at h
  cases hm : mask level with
  | false =>
    rw [hm] at h
    simp only [Bool.not_false, if_true, InsEvent.reinsert.injEq] at h
    exact ⟨rfl, h.symm⟩
  | true =>
    rw [hm] at h
    simp at h

theorem splitLeaf_reinsert [LinearOrderedField S] (P : Setup D S T) (mask : ReinsertMask)
    (bufs : Bufs D S T) (node : Node D S T) (extra : T) (hm : mask 0 = false) :
    (splitLeaf P mask bufs node extra).ret.size = 0 ∧
    (splitLeaf P mask bufs node extra).bufs.reinserts = P.cfg.LeafReinsert ∧
    (splitLeaf P mask bufs node extra).bufs.reinsertLevel = 0 := by
  refine ⟨?_, ?_, ?_⟩ <;> (unfold splitLeaf; simp only [hm, Bool.not_false, if_true]; try rfl)

theorem splitInner_reinsert [LinearOrderedField S] (P : Setup D S T) (mask : ReinsertMask)
    (bufs : Bufs D S T) (node extra : Node D S T) (level : Nat) (hm : mask level = false) :
    (splitInner P mask bufs node extra level).ret.size = 0 ∧
    (splitInner P mask bufs node extra level).bufs.reinserts = P.cfg.InnerReinsert ∧
    (splitInner P mask bufs node extra level).bufs.reinsertLevel = level := by
  refine ⟨?_, ?_, ?_⟩ <;> (unfold splitInner; simp only [hm, Bool.not_false, if_true]; try rfl)

theorem afterChild_signal [LinearOrderedField S] (P : Setup D S T) (mask : ReinsertMask)
    (node : Node D S T) (childIdx : Nat) (r : Step D S T) (level : Nat)
    (h1 : r.ret.size = 0) (h2 : r.bufs.reinserts ≠ 0) :
    (afterChild P mask node childIdx r level).ret.size = 0 ∧
    (afterChild P mask node childIdx r level).bufs = r.bufs := by
  refine ⟨?_, ?_⟩ <;>
    (unfold afterChild
     simp only [h1, h2, ne_eq, not_true_eq_false, if_false, not_false_eq_true, if_true,
       ite_self]
     try rfl)

theorem DescentOK.step [LinearOrderedField S] (P : Setup D S T) (hi : 1 ≤ P.cfg.InnerReinsert)
    (mask : ReinsertMask) (node : Node D S T) (childIdx : Nat) (r : Step D S T) (level : Nat)
    (log : List InsEvent) (h : DescentOK mask log r) :
    DescentOK mask
      (log ++ (if node.size < P.cfg.InnerSize then []
        else if r.ret.size ≠ 0 then [overflowEvent mask level] else []))
      (afterChild P mask node childIdx r level) := by
  obtain ⟨ha, hb⟩ := h
  constructor
  · intro L hL
    rcases List.mem_append.mp hL with hL | hL
    · obtain ⟨a1, a2, a3, a4⟩ := ha L hL
      obtain ⟨s1, s2⟩ := afterChild_signal P mask node childIdx r level a2 a3
      rw [s2]
      exact ⟨a1, s1, a3, a4⟩
    · by_cases hsz : node.size < P.cfg.InnerSize
      · rw [if_pos hsz] at hL
        cases hL
      · rw [if_neg hsz] at hL
        by_cases hret : r.ret.size ≠ 0
        · rw [if_pos hret] at hL
          obtain ⟨e1, e2⟩ := overflowEvent_reinsert mask level L (List.mem_singleton.mp hL).symm
          subst e2
          have hsp := splitInner_reinsert P mask r.bufs
            (Node.inner node.rect (node.children.set childIdx r.node)) r.ret L e1
          unfold afterChild
          simp only [hsz, hret, ne_eq, not_false_eq_true, if_true, if_false]
          exact ⟨e1, hsp.1, by rw [hsp.2.1]; omega, hsp.2.2⟩
        · rw [if_neg hret] at hL
          cases hL
  · rw [List.pairwise_append]
    refine ⟨hb, ?_, ?_⟩
    · by_cases hsz : node.size < P.cfg.InnerSize
      · rw [if_pos hsz]
        exact List.Pairwise.nil
      · rw [if_neg hsz]
        by_cases hret : r.ret.size ≠ 0
        · rw [if_pos hret]
          exact List.pairwise_singleton _ _
        · rw [if_neg hret]
          exact List.Pairwise.nil
    · intro a haL b hbL L hLa
      subst hLa
      obtain ⟨_, a2, _, _⟩ := ha L haL
      by_cases hsz : node.size < P.cfg.InnerSize
      · rw [if_pos hsz] at hbL
        cases hbL
      · rw [if_neg hsz, if_neg (by simp [a2])] at hbL
        cases hbL

theorem DescentOK.single_leaf [LinearOrderedField S] (P : Setup D S T)
    (hl : 1 ≤ P.cfg.LeafReinsert) (mask : ReinsertMask) (bufs : Bufs D S T)
    (node : Node D S T) (extra : T) :
    DescentOK mask [overflowEvent mask 0] (splitLeaf P mask bufs node extra) := by
  constructor
  · intro L hL
    obtain ⟨e1, e2⟩ := overflowEvent_reinsert mask 0 L (List.mem_singleton.mp hL).symm
    subst e2
    have hsp := splitLeaf_reinsert P mask bufs node extra e1
    exact ⟨e1, hsp.1, by rw [hsp.2.1]; omega, hsp.2.2⟩
  · exact List.pairwise_singleton _ _

theorem DescentOK.single_inner [LinearOrderedField S] (P : Setup D S T)
    (hi : 1 ≤ P.cfg.InnerReinsert) (mask : ReinsertMask) (bufs : Bufs D S T)
    (node extra : Node D S T) (level : Nat) :
    DescentOK mask [overflowEvent mask level] (splitInner P mask bufs node extra level) := by
  constructor
  · intro L hL
    obtain ⟨e1, e2⟩ := overflowEvent_reinsert mask level L (List.mem_singleton.mp hL).symm
    subst e2
    have hsp := splitInner_reinsert P mask bufs node extra L e1
    exact ⟨e1, hsp.1, by rw [hsp.2.1]; omega, hsp.2.2⟩
  · exact List.pairwise_singleton _ _

theorem DescentOK.nil_descent (mask : ReinsertMask) (r : Step D S T) : DescentOK mask [] r :=
  ⟨fun _ h => (by cases h), List.Pairwise.nil⟩

theorem insertElementLog_ok [LinearOrderedField S] (P : Setup D S T)
    (hl : 1 ≤ P.cfg.LeafReinsert) (hi : 1 ≤ P.cfg.InnerReinsert) (mask : ReinsertMask)
    (obj : T) (rect : Rect D S) (level : Nat) :
    ∀ (node : Node D S T) (bufs : Bufs D S T),
      DescentOK mask (insertElementLog P mask obj rect level node bufs)
        (insertElement P mask obj rect level node bufs) := by
  induction level with
  | zero =>
    intro node bufs
    simp only [insertElementLog, insertElement]
    by_cases hsz : (node.setRect (union_ node.rect rect)).size < P.cfg.LeafSize
    · simp only [hsz, if_true]
      exact DescentOK.nil_descent _ _
    · simp only [hsz, if_false]
      exact DescentOK.single_leaf P hl mask bufs _ obj
  | succ k ih =>
    intro node bufs
    rw [insertElement_succ]
    simp only [insertElementLog]
    exact DescentOK.step P hi mask _ _ _ (k + 1) _ (ih _ bufs)

theorem insertSubtreeLog_ok [LinearOrderedField S] (P : Setup D S T)
    (hi : 1 ≤ P.cfg.InnerReinsert) (mask : ReinsertMask)
    (ins : Node D S T) (insLevel : Nat) (level : Nat) :
    ∀ (node : Node D S T) (bufs : Bufs D S T),
      DescentOK mask (insertSubtreeLog P mask ins insLevel level node bufs)
        (insertSubtree P mask ins insLevel level node bufs) := by
  induction level with
  | zero =>
    intro node bufs
    simp only [insertSubtreeLog, insertSubtree]
    by_cases hsz : (node.setRect (union_ node.rect ins.rect)).size < P.cfg.InnerSize
    · simp only [hsz, if_true]
      exact DescentOK.nil_descent _ _
    · simp only [hsz, if_false]
      exact DescentOK.single_inner P hi mask bufs _ ins 0
  | succ k ih =>
    intro node bufs
    by_cases hle : k + 1 ≤ insLevel
    · simp only [insertSubtreeLog, insertSubtree, hle, if_true]
      by_cases hsz : (node.setRect (union_ node.rect ins.rect)).size < P.cfg.InnerSize
      · simp only [hsz, if_true]
        exact DescentOK.nil_descent _ _
      · simp only [hsz, if_false]
        exact DescentOK.single_inner P hi mask bufs _ ins (k + 1)
    · rw [insertSubtree_succ P mask ins insLevel k node bufs (by omega)]
      simp only [insertSubtreeLog, hle, if_false]
      exact DescentOK.step P hi mask _ _ _ (k + 1) _ (ih _ bufs)

theorem LogOK.nil_log (mask : ReinsertMask) : LogOK mask [] :=
  ⟨fun _ h => (by cases h), List.Pairwise.nil⟩

theorem MaskOK.refl_nil (mask : ReinsertMask) : MaskOK mask [] mask :=
  ⟨fun _ h => h, fun _ h => (by cases h)⟩

/-- Events under a mask followed by events under the mask they left behind. -/
theorem LogOK.append_log {mask m : ReinsertMask} {l1 l2 : List InsEvent} (h1 : LogOK mask l1)
    (hm : MaskOK mask l1 m) (h2 : LogOK m l2) : LogOK mask (l1 ++ l2) := by
  constructor
  · intro L hL
    rcases List.mem_append.mp hL with hL | hL
    · exact h1.1 L hL
    · have := h2.1 L hL
      cases hmk : mask L with
      | false => rfl
      | true =>
        rw [hm.1 L hmk] at this
        cases this
  · rw [List.pairwise_append]
    refine ⟨h1.2, h2.2, ?_⟩
    intro a ha b hb L hLa hLb
    subst hLa
    subst hLb
    have t1 := hm.2 L ha
    have t2 := h2.1 L hb
    rw [t1] at t2
    cases t2

theorem MaskOK.append_mask {mask m m' : ReinsertMask} {l1 l2 : List InsEvent}
    (hm : MaskOK mask l1 m) (hm' : MaskOK m l2 m') : MaskOK mask (l1 ++ l2) m' := by
  constructor
  · intro L hL
    exact hm'.1 L (hm.1 L hL)
  · intro L hL
    rcases List.mem_append.mp hL with hL | hL
    · exact hm'.1 L (hm.2 L hL)
    · exact hm'.2 L hL

theorem forEachLog_ok {α σ : Type} (f : α → σ → Except Err σ) (lg : α → σ → List InsEvent)
    (pm : σ → ReinsertMask)
    (hf : ∀ a s, LogOK (pm s) (lg a s) ∧
      ∀ s', f a s = Except.ok s' → MaskOK (pm s) (lg a s) (pm s')) :
    ∀ (l : List α) (s : σ), LogOK (pm s) (forEachLog f lg l s) ∧
      ∀ s', forEachM f l s = Except.ok s' → MaskOK (pm s) (forEachLog f lg l s) (pm s') := by
  intro l
  induction l with
  | nil =>
    intro s
    refine ⟨LogOK.nil_log _, ?_⟩
    intro s' h
    cases h
    exact MaskOK.refl_nil _
  | cons a as ih =>
    intro s
    obtain ⟨h1, h2⟩ := hf a s
    simp only [forEachLog, forEachM]
    cases hfa : f a s with
    | error e =>
      simp only [List.append_nil]
      exact ⟨h1, fun s' h => (by cases h)⟩
    | ok s1 =>
      simp only
      obtain ⟨i1, i2⟩ := ih s1
      exact ⟨LogOK.append_log h1 (h2 s1 hfa) i1,
        fun s' h => MaskOK.append_mask (h2 s1 hfa) (i2 s' h)⟩

/-- The events of a descent followed by what the caller does with its outcome,
`tail` being the events of the nested insertions under the mask with the bit set. -/
theorem LogOK.descent {mask : ReinsertMask} {dlog tail : List InsEvent} {r : Step D S T}
    (hd : DescentOK mask dlog r) (ht : LogOK (mask.set r.bufs.reinsertLevel) tail) :
    LogOK mask (dlog ++ tail) ∧
    ∀ m, MaskOK (mask.set r.bufs.reinsertLevel) tail m → MaskOK mask (dlog ++ tail) m := by
  have hset : MaskOK mask dlog (mask.set r.bufs.reinsertLevel) := by
    constructor
    · intro L hL
      exact ReinsertMask.set_le _ _ L hL
    · intro L hL
      obtain ⟨_, _, _, e⟩ := hd.1 L hL
      rw [e]
      unfold ReinsertMask.set
      simp
  exact ⟨LogOK.append_log ⟨fun L hL => (hd.1 L hL).1, hd.2⟩ hset ht,
    fun m hm => MaskOK.append_mask hset hm⟩

theorem LogOK.descent_rootSplit {mask : ReinsertMask} {dlog : List InsEvent} {r : Step D S T}
    (hd : DescentOK mask dlog r) (hre : r.ret.size ≠ 0) :
    LogOK mask (dlog ++ [InsEvent.rootSplit]) ∧ MaskOK mask (dlog ++ [InsEvent.rootSplit]) mask := by
  have hno : ∀ L, InsEvent.reinsert L ∉ dlog := fun L hL => hre (hd.1 L hL).2.1
  refine ⟨⟨?_, ?_⟩, fun _ h => h, ?_⟩
  · intro L hL
    rcases List.mem_append.mp hL with hL | hL
    · exact absurd hL (hno L)
    · simp at hL
  · rw [List.pairwise_append]
    refine ⟨hd.2, List.pairwise_singleton _ _, ?_⟩
    intro a ha b hb L hLa
    subst hLa
    exact absurd ha (hno L)
  · intro L hL
    rcases List.mem_append.mp hL with hL | hL
    · exact absurd hL (hno L)
    · simp at hL

theorem LogOK.descent_plain {mask : ReinsertMask} {dlog : List InsEvent} {r : Step D S T}
    (hd : DescentOK mask dlog r) (hne : r.bufs.reinserts = 0) :
    LogOK mask (dlog ++ []) ∧ MaskOK mask (dlog ++ []) mask := by
  have hno : ∀ L, InsEvent.reinsert L ∉ dlog := fun L hL => (hd.1 L hL).2.2.1 hne
  rw [List.append_nil]
  exact ⟨⟨fun L hL => absurd hL (hno L), hd.2⟩, fun _ h => h, fun L hL => absurd hL (hno L)⟩

/-- What the events of a call of `reinsertInner` satisfy. -/
theorem reinsertRoundLog_ok [LinearOrderedField S] (P : Setup D S T)
    (hi : 1 ≤ P.cfg.InnerReinsert)
    (nested : Bufs D S T → Tree D S T × ReinsertMask → Except Err (Tree D S T × ReinsertMask))
    (nestedLog : Bufs D S T → Tree D S T × ReinsertMask → List InsEvent)
    (hn : ∀ b st, LogOK st.2 (nestedLog b st) ∧
      ∀ res, nested b st = Except.ok res → MaskOK st.2 (nestedLog b st) res.2)
    (rl : Nat) (child : Node D S T) (w : Work D S T) :
    LogOK w.mask (reinsertRoundLog P nestedLog rl child w) ∧
    ∀ w', reinsertRound P nested rl child w = Except.ok w' →
      MaskOK w.mask (reinsertRoundLog P nestedLog rl child w) w'.mask := by
  have hd := insertSubtreeLog_ok P hi w.mask child rl w.tree.mDepth w.tree.mRoot w.bufs
  unfold reinsertRoundLog reinsertRound
  simp only
  generalize insertSubtree P w.mask child rl w.tree.mDepth w.tree.mRoot w.bufs = r at hd
  generalize insertSubtreeLog P w.mask child rl w.tree.mDepth w.tree.mRoot w.bufs = dlog at hd
  by_cases hret : r.ret.size ≠ 0
  · simp only [if_pos hret]
    obtain ⟨a1, a2⟩ := LogOK.descent_rootSplit hd hret
    refine ⟨a1, ?_⟩
    intro w' h
    cases hsr : splitRoot (⟨w.tree.mDepth, r.node⟩ : Tree D S T) r.ret with
    | error e =>
      rw [hsr] at h
      cases h
    | ok t' =>
      rw [hsr] at h
      cases h
      exact a2
  · simp only [if_neg hret]
    by_cases hre : r.bufs.reinserts ≠ 0
    · simp only [if_pos hre]
      obtain ⟨n1, n2⟩ := hn r.bufs (⟨w.tree.mDepth, r.node⟩, w.mask.set r.bufs.reinsertLevel)
      obtain ⟨a1, a2⟩ := LogOK.descent hd n1
      refine ⟨a1, ?_⟩
      intro w' h
      cases hnr : nested r.bufs (⟨w.tree.mDepth, r.node⟩, w.mask.set r.bufs.reinsertLevel) with
      | error e =>
        rw [hnr] at h
        cases h
      | ok res =>
        rw [hnr] at h
        cases h
        exact a2 _ (n2 res hnr)
    · simp only [if_neg hre]
      obtain ⟨a1, a2⟩ := LogOK.descent_plain hd (not_not.mp hre)
      refine ⟨a1, ?_⟩
      intro w' h
      cases h
      exact a2

theorem reinsertInnerLog_ok [LinearOrderedField S] (P : Setup D S T)
    (hi : 1 ≤ P.cfg.InnerReinsert) (fuel : Nat) :
    ∀ (b : Bufs D S T) (st : Tree D S T × ReinsertMask),
      LogOK st.2 (reinsertInnerLog P fuel b st) ∧
      ∀ res, reinsertInner P fuel b st = Except.ok res →
        MaskOK st.2 (reinsertInnerLog P fuel b st) res.2 := by
  induction fuel with
  | zero =>
    intro b st
    exact ⟨LogOK.nil_log _, fun res h => (by cases h)⟩
  | succ n ih =>
    intro b st
    simp only [reinsertInnerLog, reinsertInner]
    obtain ⟨l1, l2⟩ := forEachLog_ok
      (reinsertRound P (reinsertInner P n) b.reinsertLevel)
      (reinsertRoundLog P (reinsertInnerLog P n) b.reinsertLevel)
      (fun w => w.mask)
      (fun a s => reinsertRoundLog_ok P hi (reinsertInner P n) (reinsertInnerLog P n) ih
        b.reinsertLevel a s)
      (b.children.take b.reinserts) ⟨st.1, st.2, Bufs.init⟩
    refine ⟨l1, ?_⟩
    intro res h
    cases hl : forEachM (reinsertRound P (reinsertInner P n) b.reinsertLevel)
        (b.children.take b.reinserts) ⟨st.1, st.2, Bufs.init⟩ with
    | error e =>
      rw [hl] at h
      cases h
    | ok w' =>
      rw [hl] at h
      cases h
      exact l2 w' hl

theorem insertLeafLog_ok [LinearOrderedField S] (P : Setup D S T)
    (hl : 1 ≤ P.cfg.LeafReinsert) (hi : 1 ≤ P.cfg.InnerReinsert) (fuel : Nat) :
    ∀ (t : Tree D S T) (obj : T) (mask : ReinsertMask),
      LogOK mask (insertLeafLog P fuel t obj mask) ∧
      ∀ res, insertLeaf P fuel t obj mask = Except.ok res →
        MaskOK mask (insertLeafLog P fuel t obj mask) res.2 := by
  induction fuel with
  | zero =>
    intro t obj mask
    exact ⟨LogOK.nil_log _, fun res h => (by cases h)⟩
  | succ n ih =>
    intro t obj mask
    simp only [insertLeafLog, insertLeaf]
    generalize (if t.mRoot.size = 0 then Node.leaf (P.rect obj) [] else t.mRoot) = root
    have hd := insertElementLog_ok P hl hi mask obj (P.rect obj) t.mDepth root Bufs.init
    generalize insertElement P mask obj (P.rect obj) t.mDepth root Bufs.init = r at hd
    generalize insertElementLog P mask obj (P.rect obj) t.mDepth root Bufs.init = dlog at hd
    by_cases hret : r.ret.size ≠ 0
    · simp only [if_pos hret]
      obtain ⟨a1, a2⟩ := LogOK.descent_rootSplit hd hret
      refine ⟨a1, ?_⟩
      intro res h
      cases hsr : splitRoot (⟨t.mDepth, r.node⟩ : Tree D S T) r.ret with
      | error e =>
        rw [hsr] at h
        cases h
      | ok t' =>
        rw [hsr] at h
        cases h
        exact a2
    · simp only [if_neg hret]
      by_cases hre : r.bufs.reinserts ≠ 0
      · simp only [if_pos hre]
        by_cases hlev : r.bufs.reinsertLevel = 0
        · simp only [if_pos hlev]
          obtain ⟨l1, l2⟩ := forEachLog_ok
            (fun (x : T) (st : Tree D S T × ReinsertMask) => insertLeaf P n st.1 x st.2)
            (fun (x : T) (st : Tree D S T × ReinsertMask) => insertLeafLog P n st.1 x st.2)
            (fun st => st.2) (fun a s => ih s.1 a s.2)
            (r.bufs.objects.take r.bufs.reinserts) (⟨t.mDepth, r.node⟩, mask.set r.bufs.reinsertLevel)
          obtain ⟨a1, a2⟩ := LogOK.descent hd l1
          exact ⟨a1, fun res h => a2 _ (l2 res h)⟩
        · simp only [if_neg hlev]
          obtain ⟨l1, l2⟩ := reinsertInnerLog_ok P hi n r.bufs
            (⟨t.mDepth, r.node⟩, mask.set r.bufs.reinsertLevel)
          obtain ⟨a1, a2⟩ := LogOK.descent hd l1
          exact ⟨a1, fun res h => a2 _ (l2 res h)⟩
      · simp only [if_neg hre]
        obtain ⟨a1, a2⟩ := LogOK.descent_plain hd (not_not.mp hre)
        refine ⟨a1, ?_⟩
        intro res h
        cases h
        exact a2

theorem forEachLog_fuel {α σ : Type} (f g : α → σ → Except Err σ)
    (lf lg : α → σ → List InsEvent)
    (hfg : ∀ a s, f a s ≠ Except.error Err.outOfFuel → g a s = f a s ∧ lg a s = lf a s) :
    ∀ (l : List α) (s : σ), forEachM f l s ≠ Except.error Err.outOfFuel →
      forEachLog g lg l s = forEachLog f lf l s := by
  intro l
  induction l with
  | nil => intro s _; rfl
  | cons a as ih =>
    intro s h
    simp only [forEachM] at h
    simp only [forEachLog]
    cases hf : f a s with
    | error e =>
      rw [hf] at h
      have hne : f a s ≠ Except.error Err.outOfFuel := by
        rw [hf]
        exact h
      rw [(hfg a s hne).1, (hfg a s hne).2, hf]
    | ok s' =>
      rw [hf] at h
      have hne : f a s ≠ Except.error Err.outOfFuel := by
        rw [hf]
        intro hh
        cases hh
      rw [(hfg a s hne).1, (hfg a s hne).2, hf]
      simp only
      rw [ih s' h]

theorem reinsertRoundLog_fuel [LinearOrderedField S] (P : Setup D S T)
    (n1 : Bufs D S T → Tree D S T × ReinsertMask → Except Err (Tree D S T × ReinsertMask))
    (l1 l2 : Bufs D S T → Tree D S T × ReinsertMask → List InsEvent)
    (h12 : ∀ b st, n1 b st ≠ Except.error Err.outOfFuel → l2 b st = l1 b st)
    (lvl : Nat) (child : Node D S T) (w : Work D S T)
    (h : reinsertRound P n1 lvl child w ≠ Except.error Err.outOfFuel) :
    reinsertRoundLog P l2 lvl child w = reinsertRoundLog P l1 lvl child w := by
  unfold reinsertRound at h
  unfold reinsertRoundLog
  simp only at h ⊢
  generalize insertSubtree P w.mask child lvl w.tree.mDepth w.tree.mRoot w.bufs = r at h ⊢
  by_cases hret : r.ret.size ≠ 0
  · simp only [if_pos hret]
  · simp only [if_neg hret] at h ⊢
    by_cases hre : r.bufs.reinserts ≠ 0
    · simp only [if_pos hre] at h ⊢
      have hne : n1 r.bufs (⟨w.tree.mDepth, r.node⟩, w.mask.set r.bufs.reinsertLevel) ≠
          Except.error Err.outOfFuel := by
        intro hh
        rw [hh] at h
        exact h rfl
      rw [h12 _ _ hne]
    · simp only [if_neg hre]

theorem reinsertInnerLog_fuel [LinearOrderedField S] (P : Setup D S T) (fuel : Nat) :
    ∀ (b : Bufs D S T) (st : Tree D S T × ReinsertMask),
      reinsertInner P fuel b st ≠ Except.error Err.outOfFuel →
      reinsertInnerLog P (fuel + 1) b st = reinsertInnerLog P fuel b st := by
  induction fuel with
  | zero =>
    intro b st h
    exact absurd rfl h
  | succ n ih =>
    intro b st h
    rw [reinsertInner] at h
    rw [reinsertInnerLog, reinsertInnerLog]
    have hloop : forEachM (reinsertRound P (reinsertInner P n) b.reinsertLevel)
        (b.children.take b.reinserts) ⟨st.1, st.2, Bufs.init⟩ ≠
          Except.error Err.outOfFuel := by
      intro hh
      rw [hh] at h
      exact h rfl
    exact forEachLog_fuel (reinsertRound P (reinsertInner P n) b.reinsertLevel)
      (reinsertRound P (reinsertInner P (n + 1)) b.reinsertLevel)
      (reinsertRoundLog P (reinsertInnerLog P n) b.reinsertLevel)
      (reinsertRoundLog P (reinsertInnerLog P (n + 1)) b.reinsertLevel)
      (fun a s hne => ⟨reinsertRound_fuel P _ _ (reinsertInner_fuel P n) b.reinsertLevel a s hne,
        reinsertRoundLog_fuel P (reinsertInner P n) _ _ ih b.reinsertLevel a s hne⟩) _ _ hloop

theorem insertLeafLog_fuel [LinearOrderedField S] (P : Setup D S T) (fuel : Nat) :
    ∀ (t : Tree D S T) (obj : T) (mask : ReinsertMask),
      insertLeaf P fuel t obj mask ≠ Except.error Err.outOfFuel →
      insertLeafLog P (fuel + 1) t obj mask = insertLeafLog P fuel t obj mask := by
  induction fuel with
  | zero =>
    intro t obj mask h
    exact absurd rfl h
  | succ n ih =>
    intro t obj mask h
    rw [insertLeaf] at h
    rw [insertLeafLog, insertLeafLog]
    generalize (if t.mRoot.size = 0 then Node.leaf (P.rect obj) [] else t.mRoot) = root at h ⊢
    generalize insertElementLog P mask obj (P.rect obj) t.mDepth root Bufs.init = dlog
    generalize insertElement P mask obj (P.rect obj) t.mDepth root Bufs.init = r at h ⊢
    by_cases hret : r.ret.size ≠ 0
    · simp only [if_pos hret]
    · simp only [if_neg hret] at h ⊢
      by_cases hre : r.bufs.reinserts ≠ 0
      · simp only [if_pos hre] at h ⊢
        by_cases hl : r.bufs.reinsertLevel = 0
        · simp only [if_pos hl] at h ⊢
          rw [forEachLog_fuel
            (fun (x : T) (st : Tree D S T × ReinsertMask) => insertLeaf P n st.1 x st.2)
            (fun (x : T) (st : Tree D S T × ReinsertMask) => insertLeaf P (n + 1) st.1 x st.2)
            (fun (x : T) (st : Tree D S T × ReinsertMask) => insertLeafLog P n st.1 x st.2)
            (fun (x : T) (st : Tree D S T × ReinsertMask) => insertLeafLog P (n + 1) st.1 x st.2)
            (fun a s hne => ⟨insertLeaf_fuel P n s.1 a s.2 hne, ih s.1 a s.2 hne⟩) _ _ h]
        · simp only [if_neg hl] at h ⊢
          rw [reinsertInnerLog_fuel P n _ _ h]
      · simp only [if_neg hre]

theorem insertLeafLog_fuel_add [LinearOrderedField S] (P : Setup D S T) (fuel : Nat)
    (t : Tree D S T) (obj : T) (mask : ReinsertMask)
    (h : insertLeaf P fuel t obj mask ≠ Except.error Err.outOfFuel) (k : Nat) :
    insertLeafLog P (fuel + k) t obj mask = insertLeafLog P fuel t obj mask := by
  induction k with
  | zero => rfl
  | succ k ih =>
    rw [← Nat.add_assoc, insertLeafLog_fuel P (fuel + k) t obj mask
      (by rw [insertLeaf_fuel_add P fuel t obj mask h k]; exact h), ih]

theorem count_reinsert_le_one (log : List InsEvent)
    (h : log.Pairwise (fun a b => ∀ L, a = InsEvent.reinsert L → b ≠ InsEvent.reinsert L))
    (L : Nat) : log.count (InsEvent.reinsert L) ≤ 1 := by
  induction log with
  | nil => simp
  | cons a l ih =>
    rw [List.pairwise_cons] at h
    by_cases ha : a = InsEvent.reinsert L
    · have hz : l.count (InsEvent.reinsert L) = 0 := by
        rw [List.count_eq_zero]
        intro hmem
        exact h.1 _ hmem L ha rfl
      rw [ha, List.count_cons_self, hz]
    · rw [List.count_cons_of_ne (fun hh => ha hh.symm)]
      exact ih h.2

theorem later_overflow_splits (log : List InsEvent)
    (h : log.Pairwise (fun a b => ∀ L, a = InsEvent.reinsert L → b ≠ InsEvent.reinsert L))
    (L : Nat) (before after : List InsEvent)
    (hlog : log = before ++ InsEvent.reinsert L :: after) (e : InsEvent) (he : e ∈ after)
    (hlev : e.overflowLevel = some L) : e = InsEvent.split L := by
  rw [hlog, List.pairwise_append, List.pairwise_cons] at h
  have hne := h.2.1.1 e he L rfl
  cases e with
  | reinsert l =>
    simp only [InsEvent.overflowLevel, Option.some.injEq] at hlev
    subst hlev
    exact absurd rfl hne
  | split l =>
    simp only [InsEvent.overflowLevel, Option.some.injEq] at hlev
    rw [hlev]
  | rootSplit =>
    simp [InsEvent.overflowLevel] at hlev

/-! ### The first overflow of the root leaf -/

theorem forEachM_append {α σ : Type} (f : α → σ → Except Err σ) (l1 l2 : List α) :
    ∀ (s : σ), forEachM f (l1 ++ l2) s =
      match forEachM f l1 s with
      | Except.ok s' => forEachM f l2 s'
      | Except.error e => Except.error e := by
  induction l1 with
  | nil => intro s; rfl
  | cons a as ih =>
    intro s
    simp only [List.cons_append, forEachM]
    cases f a s with
    | error e => rfl
    | ok s' => exact ih s'

theorem forEachLog_append {α σ : Type} (f : α → σ → Except Err σ)
    (lg : α → σ → List InsEvent) (l1 l2 : List α) :
    ∀ (s : σ), forEachLog f lg (l1 ++ l2) s =
      forEachLog f lg l1 s ++
        (match forEachM f l1 s with
          | Except.ok s' => forEachLog f lg l2 s'
          | Except.error _ => []) := by
  induction l1 with
  | nil => intro s; rfl
  | cons a as ih =>
    intro s
    simp only [List.cons_append, forEachLog, forEachM]
    cases f a s with
    | error e => simp
    | ok s' =>
      simp only [List.append_eq]
      rw [ih s', List.append_assoc]

theorem insertAll_append [LinearOrderedField S] (P : Setup D S T) (l1 l2 : List T) :
    ∀ (t : Tree D S T), insertAll P t (l1 ++ l2) =
      match insertAll P t l1 with
      | Except.ok t' => insertAll P t' l2
      | Except.error e => Except.error e := by
  induction l1 with
  | nil => intro t; rfl
  | cons a as ih =>
    intro t
    simp only [List.cons_append, insertAll]
    cases insert P t a with
    | error e => rfl
    | ok t' => exact ih t'

/-- An item that fits into the root leaf is appended to it; nothing overflows. -/
theorem insertLeaf_fits [LinearOrderedField S] (P : Setup D S T) (fuel : Nat) (r : Rect D S)
    (os : List T) (x : T) (mask : ReinsertMask) (h : os.length < P.cfg.LeafSize) :
    (∃ r', insertLeaf P (fuel + 1) ⟨0, Node.leaf r os⟩ x mask =
      Except.ok (⟨0, Node.leaf r' (os ++ [x])⟩, mask)) ∧
    insertLeafLog P (fuel + 1) ⟨0, Node.leaf r os⟩ x mask = [] := by
  by_cases hz : os.length = 0
  · have : os = [] := List.length_eq_zero.mp hz
    subst this
    have h0 : 0 < P.cfg.LeafSize := h
    constructor
    · refine ⟨union_ (P.rect x) (P.rect x), ?_⟩
      simp [insertLeaf, insertElement, Node.size, Node.setRect, Node.rect, Node.objects, h0,
        Node.none, Bufs.init]
    · simp [insertLeafLog, insertElementLog, insertLeaf, insertElement, Node.size, Node.setRect,
        Node.rect, Node.objects, h0, Node.none, Bufs.init]
  · constructor
    · refine ⟨union_ r (P.rect x), ?_⟩
      simp [insertLeaf, insertElement, Node.size, Node.setRect, Node.rect, Node.objects, h, hz,
        Node.none, Bufs.init]
    · simp [insertLeafLog, insertElementLog, insertLeaf, insertElement, Node.size, Node.setRect,
        Node.rect, Node.objects, h, hz, Node.none, Bufs.init]

/-- Items that fit into the root leaf one after the other are appended to it; nothing
overflows. -/
theorem insertLeaf_fits_loop [LinearOrderedField S] (P : Setup D S T) (fuel : Nat)
    (mask : ReinsertMask) :
    ∀ (ys : List T) (r : Rect D S) (os : List T), os.length + ys.length ≤ P.cfg.LeafSize →
      (∃ r', forEachM
          (fun (x : T) (st : Tree D S T × ReinsertMask) => insertLeaf P (fuel + 1) st.1 x st.2)
          ys (⟨0, Node.leaf r os⟩, mask) = Except.ok (⟨0, Node.leaf r' (os ++ ys)⟩, mask)) ∧
      forEachLog
        (fun (x : T) (st : Tree D S T × ReinsertMask) => insertLeaf P (fuel + 1) st.1 x st.2)
        (fun (x : T) (st : Tree D S T × ReinsertMask) => insertLeafLog P (fuel + 1) st.1 x st.2)
        ys (⟨0, Node.leaf r os⟩, mask) = [] := by
  intro ys
  induction ys with
  | nil =>
    intro r os _
    exact ⟨⟨r, by rw [List.append_nil]; rfl⟩, rfl⟩
  | cons y ys ih =>
    intro r os h
    rw [List.length_cons] at h
    obtain ⟨⟨r1, h1⟩, h2⟩ := insertLeaf_fits P fuel r os y mask (by omega)
    obtain ⟨⟨r2, k1⟩, k2⟩ := ih r1 (os ++ [y]) (by rw [List.length_append]; simp; omega)
    simp only [forEachM, forEachLog, h1, h2, List.nil_append]
    rw [List.append_assoc] at k1
    exact ⟨⟨r2, k1⟩, k2⟩

/-- A full root leaf whose mask bit is set is split, and the tree grows to depth 1 with
a root over the two leaves. -/
theorem insertLeaf_splits [LinearOrderedField S] (P : Setup D S T) (hv : P.cfg.Valid)
    (hs : SortPerm P.sort) (fuel : Nat) (r : Rect D S) (os : List T) (x : T)
    (mask : ReinsertMask) (hfull : os.length = P.cfg.LeafSize) (hm : mask 0 = true) :
    (∃ rr ra rb oa ob, insertLeaf P (fuel + 1) ⟨0, Node.leaf r os⟩ x mask =
      Except.ok (⟨1, Node.inner rr [Node.leaf ra oa, Node.leaf rb ob]⟩, mask)) ∧
    insertLeafLog P (fuel + 1) ⟨0, Node.leaf r os⟩ x mask =
      [InsEvent.split 0, InsEvent.rootSplit] := by
  obtain ⟨⟨hmin, h2min, _, _⟩, _⟩ := hv
  have hz : ¬ os.length = 0 := by omega
  have hnl : ¬ os.length < P.cfg.LeafSize := by omega
  have hb := computeSplit_bounds P hs (os.take P.cfg.LeafSize ++ [x]) P.rect P.cfg.LeafMin (by
    rw [List.length_append, List.length_take, hfull]
    simp
    omega)
  have hp := (computeSplit_perm P hs (os.take P.cfg.LeafSize ++ [x]) P.rect
    P.cfg.LeafMin).length_eq
  generalize hsp : computeSplit P (os.take P.cfg.LeafSize ++ [x]) P.rect P.cfg.LeafMin = sp
    at hb hp
  obtain ⟨ra, ea, _⟩ := boundLeaf_leaf P.rect (union_ r (P.rect x)) (sp.1.drop sp.2)
  obtain ⟨rb, eb, _⟩ := boundLeaf_leaf P.rect (default : Rect D S) (sp.1.take sp.2)
  obtain ⟨rr, er, _⟩ := boundInner_inner (T := T) ra
    [Node.leaf ra (sp.1.drop sp.2), Node.leaf rb (sp.1.take sp.2)]
  have hret : ¬ (sp.1.take sp.2).length = 0 := by
    rw [List.length_take]
    rw [List.length_append, List.length_take, hfull] at hb hp
    simp at hb hp
    omega
  have hd : ¬ (0 : Nat) = max_depth := by decide
  have hstep : insertElement P mask x (P.rect x) 0 (Node.leaf r os) Bufs.init =
      ⟨Node.leaf ra (sp.1.drop sp.2), Node.leaf rb (sp.1.take sp.2),
        { Bufs.init with objects := sp.1 }⟩ := by
    simp only [insertElement, Node.setRect, Node.size, Node.rect, hnl, if_false, splitLeaf, hm,
      Bool.not_true, Node.objects, hsp, ea, eb]
    rfl
  constructor
  · refine ⟨rr, ra, rb, sp.1.drop sp.2, sp.1.take sp.2, ?_⟩
    simp only [insertLeaf, Node.size, hz, if_false, hstep, hret, ne_eq, not_false_eq_true,
      if_true, splitRoot, hd, Node.rect, er]
  · simp only [insertLeafLog, insertElementLog, Node.size, hz, if_false, hstep, hret, ne_eq,
      not_false_eq_true, if_true, Node.setRect, hnl, overflowEvent, hm, Bool.not_true]
    rfl

theorem take_succ_last {α : Type} (l : List α) (n : Nat) (h : n < l.length) :
    ∃ y, l.take (n + 1) = l.take n ++ [y] := by
  refine ⟨l.get ⟨n, h⟩, ?_⟩
  rw [List.take_succ, List.getElem?_eq_getElem h]
  rfl

/-- The first overflow of the root leaf: forced reinsertion, then a split while the
evicted entries are put back, and the tree grows to depth 1. -/
theorem insertLeaf_first_overflow [LinearOrderedField S] (P : Setup D S T) (hv : P.cfg.Valid)
    (hs : SortPerm P.sort) (fuel : Nat) (r : Rect D S) (os : List T) (x : T)
    (mask : ReinsertMask) (hfull : os.length = P.cfg.LeafSize) (hm : mask 0 = false) :
    (∃ rr ra rb oa ob, insertLeaf P (fuel + 2) ⟨0, Node.leaf r os⟩ x mask =
      Except.ok (⟨1, Node.inner rr [Node.leaf ra oa, Node.leaf rb ob]⟩, mask.set 0)) ∧
    insertLeafLog P (fuel + 2) ⟨0, Node.leaf r os⟩ x mask =
      [InsEvent.reinsert 0, InsEvent.split 0, InsEvent.rootSplit] := by
  have hv' := hv
  obtain ⟨⟨hmin, h2min, hre1, hre2⟩, _⟩ := hv'
  have hz : ¬ os.length = 0 := by omega
  have hnl : ¬ os.length < P.cfg.LeafSize := by omega
  have hlen := (hs T (fun a b => decide (TGDomain.dist (center (P.rect a))
      (center (union_ r (P.rect x))) > TGDomain.dist (center (P.rect b))
        (center (union_ r (P.rect x))))) (os.take P.cfg.LeafSize ++ [x])).length_eq
  rw [List.length_append, List.length_take, hfull] at hlen
  simp only [min_self, List.length_singleton] at hlen
  generalize hbuf : P.sort (fun a b => decide (TGDomain.dist (center (P.rect a))
      (center (union_ r (P.rect x))) > TGDomain.dist (center (P.rect b))
        (center (union_ r (P.rect x))))) (os.take P.cfg.LeafSize ++ [x]) = buf at hlen
  have hstep : insertElement P mask x (P.rect x) 0 (Node.leaf r os) Bufs.init =
      ⟨Node.leaf (union_ r (P.rect x)) (buf.drop P.cfg.LeafReinsert), Node.none,
        { Bufs.init with objects := buf, reinserts := P.cfg.LeafReinsert,
                         reinsertLevel := 0 }⟩ := by
    simp only [insertElement, Node.setRect, Node.size, Node.rect, hnl, if_false, splitLeaf, hm,
      Bool.not_false, if_true, Node.objects, hbuf]
  obtain ⟨R', hR⟩ : ∃ R', P.cfg.LeafReinsert = R' + 1 := ⟨P.cfg.LeafReinsert - 1, by omega⟩
  obtain ⟨y, hy⟩ := take_succ_last buf R' (by omega)
  have hre0 : ¬ P.cfg.LeafReinsert = 0 := by omega
  obtain ⟨⟨r1, l1⟩, l2⟩ := insertLeaf_fits_loop P fuel (mask.set 0) (buf.take R')
    (union_ r (P.rect x)) (buf.drop P.cfg.LeafReinsert) (by
      rw [List.length_drop, List.length_take]
      omega)
  obtain ⟨⟨rr, ra, rb, oa, ob, c1⟩, c2⟩ := insertLeaf_splits P hv hs fuel r1
    (buf.drop P.cfg.LeafReinsert ++ buf.take R') y (mask.set 0) (by
      rw [List.length_append, List.length_drop, List.length_take]
      omega) (by simp [ReinsertMask.set])
  constructor
  · refine ⟨rr, ra, rb, oa, ob, ?_⟩
    rw [insertLeaf]
    simp only [Node.size, hz, if_false, hstep, Node.none, List.length_nil, ne_eq,
      not_true_eq_false, hre0, not_false_eq_true, if_true]
    rw [hR, hy, forEachM_append, ← hR, l1]
    simp only [forEachM, c1]
  · rw [insertLeafLog]
    simp only [insertElementLog, Node.size, hz, if_false, hstep, Node.none,
      List.length_nil, ne_eq, not_true_eq_false, hre0, not_false_eq_true, if_true,
      Node.setRect, hnl, overflowEvent, hm, Bool.not_false]
    rw [hR, hy, forEachLog_append, ← hR, l1, l2]
    simp only [forEachLog, c1, c2]
    rfl

/-- Inserting items that fit into the root leaf, one call of `insert` after the other. -/
theorem insertAll_fits [LinearOrderedField S] (P : Setup D S T) :
    ∀ (ys : List T) (r : Rect D S) (os : List T), os.length + ys.length ≤ P.cfg.LeafSize →
      ∃ r', insertAll P ⟨0, Node.leaf r os⟩ ys = Except.ok ⟨0, Node.leaf r' (os ++ ys)⟩ := by
  intro ys
  induction ys with
  | nil =>
    intro r os _
    exact ⟨r, by rw [List.append_nil]; rfl⟩
  | cons y ys ih =>
    intro r os h
    rw [List.length_cons] at h
    obtain ⟨⟨r1, h1⟩, _⟩ := insertLeaf_fits P (max_depth + 1) r os y ReinsertMask.zero (by omega)
    obtain ⟨r2, k1⟩ := ih r1 (os ++ [y]) (by rw [List.length_append]; simp; omega)
    refine ⟨r2, ?_⟩
    simp only [insertAll, insert, h1]
    rw [List.append_assoc] at k1
    exact k1

end RStar

/-! ## Splits, eviction and bounds -/

namespace RStar

variable {D : Nat} {S T E : Type} {σ : Type}

/-! ### The split branch -/

theorem splitLeaf_split [LinearOrderedField S] (P : Setup D S T) (mask : ReinsertMask)
    (bufs : Bufs D S T) (node : Node D S T) (extra : T) (hm : mask 0 = true) :
    (splitLeaf P mask bufs node extra).ret.objects =
      (computeSplit P (node.objects.take P.cfg.LeafSize ++ [extra]) P.rect P.cfg.LeafMin).1.take
        (computeSplit P (node.objects.take P.cfg.LeafSize ++ [extra]) P.rect P.cfg.LeafMin).2 ∧
    (splitLeaf P mask bufs node extra).node.objects =
      (computeSplit P (node.objects.take P.cfg.LeafSize ++ [extra]) P.rect P.cfg.LeafMin).1.drop
        (computeSplit P (node.objects.take P.cfg.LeafSize ++ [extra]) P.rect P.cfg.LeafMin).2 := by
  unfold splitLeaf
  simp only [hm, Bool.not_true, Bool.false_eq_true, if_false]
  constructor
  · obtain ⟨r, e, _⟩ := boundLeaf_leaf P.rect (default : Rect D S)
      ((computeSplit P (node.objects.take P.cfg.LeafSize ++ [extra]) P.rect P.cfg.LeafMin).1.take
        (computeSplit P (node.objects.take P.cfg.LeafSize ++ [extra]) P.rect P.cfg.LeafMin).2)
    rw [e]
    rfl
  · obtain ⟨r, e, _⟩ := boundLeaf_leaf P.rect node.rect
      ((computeSplit P (node.objects.take P.cfg.LeafSize ++ [extra]) P.rect P.cfg.LeafMin).1.drop
        (computeSplit P (node.objects.take P.cfg.LeafSize ++ [extra]) P.rect P.cfg.LeafMin).2)
    rw [e]
    rfl

theorem splitInner_split [LinearOrderedField S] (P : Setup D S T) (mask : ReinsertMask)
    (bufs : Bufs D S T) (node extra : Node D S T) (level : Nat) (hm : mask level = true) :
    (splitInner P mask bufs node extra level).ret.children =
      (computeSplit P (node.children.take P.cfg.InnerSize ++ [extra]) Node.rect
        P.cfg.InnerMin).1.take
        (computeSplit P (node.children.take P.cfg.InnerSize ++ [extra]) Node.rect
          P.cfg.InnerMin).2 ∧
    (splitInner P mask bufs node extra level).node.children =
      (computeSplit P (node.children.take P.cfg.InnerSize ++ [extra]) Node.rect
        P.cfg.InnerMin).1.drop
        (computeSplit P (node.children.take P.cfg.InnerSize ++ [extra]) Node.rect
          P.cfg.InnerMin).2 := by
  unfold splitInner
  simp only [hm, Bool.not_true, Bool.false_eq_true, if_false]
  constructor
  · obtain ⟨r, e, _⟩ := @boundInner_inner D S T _ (default : Rect D S)
      ((computeSplit P (node.children.take P.cfg.InnerSize ++ [extra]) Node.rect
        P.cfg.InnerMin).1.take
        (computeSplit P (node.children.take P.cfg.InnerSize ++ [extra]) Node.rect
          P.cfg.InnerMin).2)
    rw [e]
    rfl
  · obtain ⟨r, e, _⟩ := @boundInner_inner D S T _ node.rect
      ((computeSplit P (node.children.take P.cfg.InnerSize ++ [extra]) Node.rect
        P.cfg.InnerMin).1.drop
        (computeSplit P (node.children.take P.cfg.InnerSize ++ [extra]) Node.rect
          P.cfg.InnerMin).2)
    rw [e]
    rfl

/-- A split point within the legal range cuts a buffer into two groups of at least
`minSize` entries that together are the buffer. -/
theorem computeSplit_partition [LinearOrderedField S] (P : Setup D S T) (hs : SortPerm P.sort)
    {E : Type} (buf : List E) (getRect : E → Rect D S) (minSize cap : Nat)
    (hcap : minSize < cap / 2) (hbuf : buf.length = cap + 1) :
    (minSize ≤ (computeSplit P buf getRect minSize).2 ∧
      (computeSplit P buf getRect minSize).2 ≤ buf.length - minSize) ∧
    (computeSplit P buf getRect minSize).1.Perm buf ∧
    minSize ≤ ((computeSplit P buf getRect minSize).1.take
      (computeSplit P buf getRect minSize).2).length ∧
    minSize ≤ ((computeSplit P buf getRect minSize).1.drop
      (computeSplit P buf getRect minSize).2).length ∧
    ((computeSplit P buf getRect minSize).1.take (computeSplit P buf getRect minSize).2 ++
      (computeSplit P buf getRect minSize).1.drop (computeSplit P buf getRect minSize).2).Perm
        buf := by
  have hb := computeSplit_bounds P hs buf getRect minSize (by omega)
  have hp := computeSplit_perm P hs buf getRect minSize
  have hl := hp.length_eq
  refine ⟨⟨hb.1, by omega⟩, hp, ?_, ?_, ?_⟩
  · rw [List.length_take]
    omega
  · rw [List.length_drop]
    omega
  · rw [List.take_append_drop]
    exact hp

/-! ### The reinsertion branch -/

theorem splitLeaf_evict_size [LinearOrderedField S] (P : Setup D S T) (hs : SortPerm P.sort)
    (mask : ReinsertMask) (bufs : Bufs D S T) (leaf : Node D S T) (extra : T)
    (hleaf : leaf.objects.length = P.cfg.LeafSize) (hm : mask 0 = false) :
    (splitLeaf P mask bufs leaf extra).node.size =
      P.cfg.LeafSize + 1 - P.cfg.LeafReinsert := by
  have hlen := fun lt => (hs T lt (leaf.objects.take P.cfg.LeafSize ++ [extra])).length_eq
  unfold splitLeaf
  simp only [hm, Bool.not_false, if_true, Node.size_leaf, List.length_drop]
  rw [hlen, List.length_append, List.length_take, hleaf]
  simp

theorem splitInner_evict_size [LinearOrderedField S] (P : Setup D S T) (hs : SortPerm P.sort)
    (mask : ReinsertMask) (bufs : Bufs D S T) (inner child : Node D S T) (level : Nat)
    (hinner : inner.children.length = P.cfg.InnerSize) (hm : mask level = false) :
    (splitInner P mask bufs inner child level).node.size =
      P.cfg.InnerSize + 1 - P.cfg.InnerReinsert := by
  have hlen := fun lt =>
    (hs (Node D S T) lt (inner.children.take P.cfg.InnerSize ++ [child])).length_eq
  unfold splitInner
  simp only [hm, Bool.not_false, if_true, Node.size_inner, List.length_drop]
  rw [hlen, List.length_append, List.length_take, hinner]
  simp

/-! ### The choice of the subtree -/

theorem tieLt_iff_lex {A B : Type} [LinearOrder A] [LinearOrder B] (a1 : A) (a2 : B) (b1 : A)
    (b2 : B) : tieLt a1 a2 b1 b2 = true ↔ toLex (a1, a2) < toLex (b1, b2) := by
  rw [Prod.Lex.lt_iff]
  unfold tieLt
  simp only [Bool.or_eq_true, decide_eq_true_eq, Bool.and_eq_true, Bool.not_eq_true',
    decide_eq_false_iff_not, not_lt]
  constructor
  · rintro (h | ⟨h1, h2⟩)
    · exact Or.inl h
    · rcases lt_or_eq_of_le h1 with h | h
      · exact Or.inl h
      · exact Or.inr ⟨h, h2⟩
  · rintro (h | ⟨h1, h2⟩)
    · exact Or.inl h
    · exact Or.inr ⟨le_of_eq h1, h2⟩

/-- The loop of `chooseInner` keeps the first entry with the least key, the key of a
child being the pair of its area enlargement and its area in lexicographic order. -/
theorem chooseLoop_least [LinearOrder S] [One S] [Mul S] [Sub S] (insRect : Rect D S) :
    ∀ (cs pre : List (Node D S T)) (st : Nat × S × S),
      (∃ c, pre[st.1]? = some c ∧
        toLex (area (union_ c.rect insRect) - area c.rect, area c.rect) =
          toLex (st.2.2, st.2.1)) →
      (∀ (j : Nat) (c : Node D S T), pre[j]? = some c →
        toLex (st.2.2, st.2.1) ≤
          toLex (area (union_ c.rect insRect) - area c.rect, area c.rect)) →
      (∀ (j : Nat) (c : Node D S T), j < st.1 → pre[j]? = some c →
        toLex (st.2.2, st.2.1) <
          toLex (area (union_ c.rect insRect) - area c.rect, area c.rect)) →
      (∃ c, (pre ++ cs)[(chooseLoop insRect cs pre.length st).1]? = some c ∧
        toLex (area (union_ c.rect insRect) - area c.rect, area c.rect) =
          toLex ((chooseLoop insRect cs pre.length st).2.2,
            (chooseLoop insRect cs pre.length st).2.1)) ∧
      (∀ (j : Nat) (c : Node D S T), (pre ++ cs)[j]? = some c →
        toLex ((chooseLoop insRect cs pre.length st).2.2,
            (chooseLoop insRect cs pre.length st).2.1) ≤
          toLex (area (union_ c.rect insRect) - area c.rect, area c.rect)) ∧
      (∀ (j : Nat) (c : Node D S T), j < (chooseLoop insRect cs pre.length st).1 →
        (pre ++ cs)[j]? = some c →
        toLex ((chooseLoop insRect cs pre.length st).2.2,
            (chooseLoop insRect cs pre.length st).2.1) <
          toLex (area (union_ c.rect insRect) - area c.rect, area c.rect)) := by
  intro cs
  induction cs with
  | nil =>
    intro pre st h1 h2 h3
    simp only [chooseLoop, List.append_nil]
    exact ⟨h1, h2, h3⟩
  | cons c cs ih =>
    intro pre st h1 h2 h3
    have hsplit : pre ++ c :: cs = (pre ++ [c]) ++ cs := by simp
    have hlen : (pre ++ [c]).length = pre.length + 1 := by simp
    have hget : ∀ (j : Nat) (x : Node D S T), (pre ++ [c])[j]? = some x →
        pre[j]? = some x ∨ (j = pre.length ∧ x = c) := by
      intro j x hx
      by_cases hj : j < pre.length
      · rw [List.getElem?_append_left hj] at hx
        exact Or.inl hx
      · right
        rw [List.getElem?_append_right (by omega)] at hx
        by_cases hj0 : j - pre.length = 0
        · rw [hj0] at hx
          simp only [List.getElem?_cons_zero, Option.some.injEq] at hx
          exact ⟨by omega, hx.symm⟩
        · obtain ⟨k, hk⟩ := Nat.exists_eq_succ_of_ne_zero hj0
          rw [hk] at hx
          simp at hx
    simp only [chooseLoop]
    rw [hsplit, ← hlen]
    by_cases ht : tieLt (area (union_ c.rect insRect) - area c.rect) (area c.rect) st.2.2 st.2.1
        = true
    · rw [if_pos ht]
      rw [tieLt_iff_lex] at ht
      rw [hlen]
      have := ih (pre ++ [c]) (pre.length, area c.rect, area (union_ c.rect insRect) - area c.rect)
        ⟨c, by simp, rfl⟩
        (fun j x hx => by
          rcases hget j x hx with h | ⟨_, h⟩
          · exact le_trans (le_of_lt ht) (h2 j x h)
          · rw [h])
        (fun j x hj hx => by
          rcases hget j x hx with h | ⟨h, _⟩
          · exact lt_of_lt_of_le ht (h2 j x h)
          · simp only at hj
            omega)
      rw [hlen] at this
      exact this
    · rw [if_neg ht]
      rw [tieLt_iff_lex, not_lt] at ht
      obtain ⟨c0, hc0, hk0⟩ := h1
      have hlt : st.1 < pre.length := by
        rcases Nat.lt_or_ge st.1 pre.length with h | h
        · exact h
        · rw [List.getElem?_eq_none h] at hc0
          cases hc0
      rw [hlen]
      have := ih (pre ++ [c]) st
        ⟨c0, by rw [List.getElem?_append_left hlt]; exact hc0, hk0⟩
        (fun j x hx => by
          rcases hget j x hx with h | ⟨_, h⟩
          · exact h2 j x h
          · rw [h]
            exact ht)
        (fun j x hj hx => by
          rcases hget j x hx with h | ⟨h, _⟩
          · exact h3 j x hj h
          · omega)
      rw [hlen] at this
      exact this

/-! ### Root splits and the depth -/

theorem overflowEvent_count (mask : ReinsertMask) (level : Nat) :
    [overflowEvent mask level].count InsEvent.rootSplit = 0 := by
  unfold overflowEvent
  cases mask level <;> simp

theorem overflowTail_count (c1 c2 : Prop) [Decidable c1] [Decidable c2] (mask : ReinsertMask)
    (level : Nat) :
    (if c1 then [] else if c2 then [overflowEvent mask level] else []).count
      InsEvent.rootSplit = 0 := by
  by_cases h1 : c1
  · rw [if_pos h1]
    rfl
  · rw [if_neg h1]
    by_cases h2 : c2
    · rw [if_pos h2]
      exact overflowEvent_count mask level
    · rw [if_neg h2]
      rfl

theorem overflowLeaf_count (c1 : Prop) [Decidable c1] (mask : ReinsertMask) (level : Nat) :
    (if c1 then [] else [overflowEvent mask level]).count InsEvent.rootSplit = 0 := by
  by_cases h1 : c1
  · rw [if_pos h1]
    rfl
  · rw [if_neg h1]
    exact overflowEvent_count mask level

theorem insertElementLog_count [LinearOrderedField S] (P : Setup D S T) (mask : ReinsertMask)
    (obj : T) (rect : Rect D S) (level : Nat) :
    ∀ (node : Node D S T) (bufs : Bufs D S T),
      (insertElementLog P mask obj rect level node bufs).count InsEvent.rootSplit = 0 := by
  induction level with
  | zero =>
    intro node bufs
    simp only [insertElementLog]
    exact overflowLeaf_count _ mask 0
  | succ k ih =>
    intro node bufs
    simp only [insertElementLog, List.count_append, ih, Nat.zero_add]
    exact overflowTail_count _ _ mask (k + 1)

theorem insertSubtreeLog_count [LinearOrderedField S] (P : Setup D S T) (mask : ReinsertMask)
    (ins : Node D S T) (insLevel : Nat) (level : Nat) :
    ∀ (node : Node D S T) (bufs : Bufs D S T),
      (insertSubtreeLog P mask ins insLevel level node bufs).count InsEvent.rootSplit = 0 := by
  induction level with
  | zero =>
    intro node bufs
    simp only [insertSubtreeLog]
    exact overflowLeaf_count _ mask 0
  | succ k ih =>
    intro node bufs
    simp only [insertSubtreeLog]
    by_cases hle : k + 1 ≤ insLevel
    · rw [if_pos hle]
      exact overflowLeaf_count _ mask (k + 1)
    · rw [if_neg hle, List.count_append, ih, Nat.zero_add]
      exact overflowTail_count _ _ mask (k + 1)

theorem splitRoot_depth [LinearOrder S] (tree : Tree D S T) (split : Node D S T)
    (t : Tree D S T) (h : splitRoot tree split = Except.ok t) : t.mDepth = tree.mDepth + 1 := by
  unfold splitRoot at h
  split at h
  · cases h
  · cases h
    rfl

theorem forEachLog_depth {α σ : Type} (f : α → σ → Except Err σ)
    (lg : α → σ → List InsEvent) (pt : σ → Tree D S T)
    (hf : ∀ a s s', f a s = Except.ok s' →
      (pt s').mDepth = (pt s).mDepth + (lg a s).count InsEvent.rootSplit) :
    ∀ (l : List α) (s s' : σ), forEachM f l s = Except.ok s' →
      (pt s').mDepth = (pt s).mDepth + (forEachLog f lg l s).count InsEvent.rootSplit := by
  intro l
  induction l with
  | nil =>
    intro s s' h
    cases h
    rfl
  | cons a as ih =>
    intro s s' h
    simp only [forEachM] at h
    simp only [forEachLog]
    cases hfa : f a s with
    | error e =>
      rw [hfa] at h
      cases h
    | ok s1 =>
      rw [hfa] at h
      simp only at h ⊢
      rw [List.count_append, ih s1 s' h, hf a s s1 hfa]
      omega

theorem reinsertRoundLog_depth [LinearOrderedField S] (P : Setup D S T)
    (nested : Bufs D S T → Tree D S T × ReinsertMask → Except Err (Tree D S T × ReinsertMask))
    (nestedLog : Bufs D S T → Tree D S T × ReinsertMask → List InsEvent)
    (hn : ∀ b st res, nested b st = Except.ok res →
      res.1.mDepth = st.1.mDepth + (nestedLog b st).count InsEvent.rootSplit)
    (rl : Nat) (child : Node D S T) (w w' : Work D S T)
    (h : reinsertRound P nested rl child w = Except.ok w') :
    w'.tree.mDepth = w.tree.mDepth +
      (reinsertRoundLog P nestedLog rl child w).count InsEvent.rootSplit := by
  unfold reinsertRound at h
  unfold reinsertRoundLog
  simp only at h ⊢
  rw [List.count_append, insertSubtreeLog_count, Nat.zero_add]
  generalize insertSubtree P w.mask child rl w.tree.mDepth w.tree.mRoot w.bufs = r at h ⊢
  by_cases hret : r.ret.size ≠ 0
  · simp only [if_pos hret] at h ⊢
    cases hsr : splitRoot (⟨w.tree.mDepth, r.node⟩ : Tree D S T) r.ret with
    | error e =>
      rw [hsr] at h
      cases h
    | ok t' =>
      rw [hsr] at h
      cases h
      exact splitRoot_depth ⟨_, r.node⟩ r.ret _ hsr
  · simp only [if_neg hret] at h ⊢
    by_cases hre : r.bufs.reinserts ≠ 0
    · simp only [if_pos hre] at h ⊢
      cases hnr : nested r.bufs (⟨w.tree.mDepth, r.node⟩, w.mask.set r.bufs.reinsertLevel) with
      | error e =>
        rw [hnr] at h
        cases h
      | ok res =>
        rw [hnr] at h
        cases h
        exact hn _ _ res hnr
    · simp only [if_neg hre] at h ⊢
      cases h
      rfl

theorem reinsertInnerLog_depth [LinearOrderedField S] (P : Setup D S T) (fuel : Nat) :
    ∀ (b : Bufs D S T) (st res : Tree D S T × ReinsertMask),
      reinsertInner P fuel b st = Except.ok res →
      res.1.mDepth = st.1.mDepth + (reinsertInnerLog P fuel b st).count InsEvent.rootSplit := by
  induction fuel with
  | zero =>
    intro b st res h
    cases h
  | succ n ih =>
    intro b st res h
    simp only [reinsertInner] at h
    simp only [reinsertInnerLog]
    cases hl : forEachM (reinsertRound P (reinsertInner P n) b.reinsertLevel)
        (b.children.take b.reinserts) ⟨st.1, st.2, Bufs.init⟩ with
    | error e =>
      rw [hl] at h
      cases h
    | ok w' =>
      rw [hl] at h
      cases h
      exact forEachLog_depth (reinsertRound P (reinsertInner P n) b.reinsertLevel)
        (reinsertRoundLog P (reinsertInnerLog P n) b.reinsertLevel) (fun w => w.tree)
        (fun a s s' hs => reinsertRoundLog_depth P (reinsertInner P n) (reinsertInnerLog P n) ih
          b.reinsertLevel a s s' hs) _ _ w' hl

theorem insertLeafLog_depth [LinearOrderedField S] (P : Setup D S T) (fuel : Nat) :
    ∀ (t : Tree D S T) (obj : T) (mask : ReinsertMask) (res : Tree D S T × ReinsertMask),
      insertLeaf P fuel t obj mask = Except.ok res →
      res.1.mDepth = t.mDepth + (insertLeafLog P fuel t obj mask).count InsEvent.rootSplit := by
  induction fuel with
  | zero =>
    intro t obj mask res h
    cases h
  | succ n ih =>
    intro t obj mask res h
    rw [insertLeaf] at h
    rw [insertLeafLog]
    rw [List.count_append, insertElementLog_count, Nat.zero_add]
    generalize (if t.mRoot.size = 0 then Node.leaf (P.rect obj) [] else t.mRoot) = root at h ⊢
    generalize insertElement P mask obj (P.rect obj) t.mDepth root Bufs.init = r at h ⊢
    by_cases hret : r.ret.size ≠ 0
    · simp only [if_pos hret] at h ⊢
      cases hsr : splitRoot (⟨t.mDepth, r.node⟩ : Tree D S T) r.ret with
      | error e =>
        rw [hsr] at h
        cases h
      | ok t' =>
        rw [hsr] at h
        cases h
        exact splitRoot_depth ⟨_, r.node⟩ r.ret _ hsr
    · simp only [if_neg hret] at h ⊢
      by_cases hre : r.bufs.reinserts ≠ 0
      · simp only [if_pos hre] at h ⊢
        by_cases hlev : r.bufs.reinsertLevel = 0
        · simp only [if_pos hlev] at h ⊢
          exact forEachLog_depth
            (fun (x : T) (st : Tree D S T × ReinsertMask) => insertLeaf P n st.1 x st.2)
            (fun (x : T) (st : Tree D S T × ReinsertMask) => insertLeafLog P n st.1 x st.2)
            (fun st => st.1) (fun a s s' hs => ih s.1 a s.2 s' hs) _ _ res h
        · simp only [if_neg hlev] at h ⊢
          exact reinsertInnerLog_depth P n _ _ res h
      · simp only [if_neg hre] at h ⊢
        cases h
        rfl

/-! ### Containment -/

theorem NodeOK.covered [LinearOrder S] (P : Setup D S T) (level : Nat) :
    ∀ (lo : Nat) (node : Node D S T), NodeOK P lo level node → Covered P level node := by
  induction level with
  | zero =>
    intro lo node hn
    exact items_contained P 0 lo node hn
  | succ k ih =>
    intro lo node hn
    refine ⟨items_contained P (k + 1) lo node hn, ?_⟩
    obtain ⟨r, cs, rfl, _, _, _, h4⟩ := hn
    intro c hc
    exact ih _ c (h4 c hc).1

/-! ### An outer bound on the cached rectangles -/

theorem Within.rect_le [LinearOrder S] {u : Rect D S} {level : Nat} {n : Node D S T}
    (h : Within u level n) : contains u n.rect := by
  cases level with
  | zero => exact h
  | succ k => exact h.1

theorem within_leaf [LinearOrder S] (u r : Rect D S) (os : List T) :
    Within u 0 (Node.leaf r os : Node D S T) ↔ contains u r := Iff.rfl

theorem within_inner [LinearOrder S] (u r : Rect D S) (k : Nat) (cs : List (Node D S T)) :
    Within u (k + 1) (Node.inner r cs) ↔ contains u r ∧ ∀ c ∈ cs, Within u k c := Iff.rfl

theorem boundLeaf_rect_within [LinearOrder S] (f : T → Rect D S) (u r0 : Rect D S)
    (os : List T) (hr : os = [] → contains u r0) (ho : ∀ o ∈ os, contains u (f o)) :
    contains u (boundLeaf f (Node.leaf r0 os : Node D S T)).rect := by
  cases os with
  | nil => exact hr rfl
  | cons o os =>
    show contains u (unionAll (f o) (os.map f))
    apply contains_unionAll_of (ho o (List.mem_cons_self o os))
    intro x hx
    obtain ⟨y, hy, rfl⟩ := List.mem_map.mp hx
    exact ho y (List.mem_cons_of_mem o hy)

theorem boundInner_rect_within [LinearOrder S] (u r0 : Rect D S) (cs : List (Node D S T))
    (hr : cs = [] → contains u r0) (hc : ∀ c ∈ cs, contains u c.rect) :
    contains u (boundInner (Node.inner r0 cs)).rect := by
  cases cs with
  | nil => exact hr rfl
  | cons c cs =>
    show contains u (unionAll c.rect (cs.map Node.rect))
    apply contains_unionAll_of (hc c (List.mem_cons_self c cs))
    intro x hx
    obtain ⟨y, hy, rfl⟩ := List.mem_map.mp hx
    exact hc y (List.mem_cons_of_mem c hy)

theorem boundLeaf_within [LinearOrder S] (f : T → Rect D S) (u r0 : Rect D S)
    (os : List T) (hr : os = [] → contains u r0) (ho : ∀ o ∈ os, contains u (f o)) :
    Within u 0 (boundLeaf f (Node.leaf r0 os : Node D S T)) :=
  boundLeaf_rect_within f u r0 os hr ho

theorem boundInner_within [LinearOrder S] (u r0 : Rect D S) (k : Nat)
    (cs : List (Node D S T)) (hr : cs = [] → contains u r0) (hc : ∀ c ∈ cs, Within u k c) :
    Within u (k + 1) (boundInner (Node.inner r0 cs)) := by
  have hrect := boundInner_rect_within u r0 cs hr (fun c h => (hc c h).rect_le)
  obtain ⟨r', e, _, _⟩ := boundInner_inner r0 cs
  rw [e] at hrect ⊢
  exact ⟨hrect, hc⟩

theorem splitLeaf_within [LinearOrderedField S] (P : Setup D S T) (hs : SortPerm P.sort)
    (mask : ReinsertMask) (bufs : Bufs D S T) (hb : bufs.reinserts = 0) (u r : Rect D S)
    (os : List T) (extra : T) (hr : contains u r) (ho : ∀ o ∈ os, contains u (P.rect o))
    (he : contains u (P.rect extra)) :
    StepWithin u 0 (splitLeaf P mask bufs (Node.leaf r os) extra) := by
  have hall : ∀ o ∈ os.take P.cfg.LeafSize ++ [extra], contains u (P.rect o) := by
    intro o h
    rcases List.mem_append.mp h with h | h
    · exact ho o (List.mem_of_mem_take h)
    · rw [List.mem_singleton.mp h]
      exact he
  unfold splitLeaf
  simp only [Node.objects_leaf, Node.rect_leaf]
  by_cases hm : mask 0 = true
  · simp only [hm, Bool.not_true, Bool.false_eq_true, if_false]
    have hp := computeSplit_perm P hs (os.take P.cfg.LeafSize ++ [extra]) P.rect P.cfg.LeafMin
    generalize computeSplit P (os.take P.cfg.LeafSize ++ [extra]) P.rect P.cfg.LeafMin = sp
      at hp
    have hsp : ∀ o ∈ sp.1, contains u (P.rect o) := fun o h => hall o (hp.subset h)
    refine ⟨?_, ?_, ?_⟩
    · exact boundLeaf_within P.rect u r _ (fun _ => hr)
        (fun o h => hsp o (List.mem_of_mem_drop h))
    · intro hsize
      refine ⟨?_, hb⟩
      apply boundLeaf_within P.rect u _ _ _ (fun o h => hsp o (List.mem_of_mem_take h))
      intro hnil
      exfalso
      apply hsize
      obtain ⟨r', e, _⟩ := boundLeaf_leaf P.rect (default : Rect D S) (sp.1.take sp.2)
      rw [e, Node.size_leaf, hnil]
      rfl
    · intro h
      exact absurd hb h
  · simp only [hm, Bool.not_false, if_true]
    refine ⟨hr, fun h => absurd Node.none_size h, fun _ h => absurd rfl h⟩

theorem splitInner_within [LinearOrderedField S] (P : Setup D S T) (hs : SortPerm P.sort)
    (mask : ReinsertMask) (bufs : Bufs D S T) (hb : bufs.reinserts = 0) (u r : Rect D S)
    (k : Nat) (cs : List (Node D S T)) (extra : Node D S T) (hr : contains u r)
    (hc : ∀ c ∈ cs, Within u k c) (he : Within u k extra) :
    StepWithin u (k + 1) (splitInner P mask bufs (Node.inner r cs) extra (k + 1)) := by
  have hall : ∀ c ∈ cs.take P.cfg.InnerSize ++ [extra], Within u k c := by
    intro c h
    rcases List.mem_append.mp h with h | h
    · exact hc c (List.mem_of_mem_take h)
    · rw [List.mem_singleton.mp h]
      exact he
  unfold splitInner
  simp only [Node.children_inner, Node.rect_inner]
  by_cases hm : mask (k + 1) = true
  · simp only [hm, Bool.not_true, Bool.false_eq_true, if_false]
    have hp := computeSplit_perm P hs (cs.take P.cfg.InnerSize ++ [extra]) Node.rect
      P.cfg.InnerMin
    generalize computeSplit P (cs.take P.cfg.InnerSize ++ [extra]) Node.rect P.cfg.InnerMin
      = sp at hp
    have hsp : ∀ c ∈ sp.1, Within u k c := fun c h => hall c (hp.subset h)
    refine ⟨?_, ?_, ?_⟩
    · exact boundInner_within u r k _ (fun _ => hr)
        (fun c h => hsp c (List.mem_of_mem_drop h))
    · intro hsize
      refine ⟨?_, hb⟩
      apply boundInner_within u _ k _ _ (fun c h => hsp c (List.mem_of_mem_take h))
      intro hnil
      exfalso
      apply hsize
      obtain ⟨r', e, _⟩ := @boundInner_inner D S T _ (default : Rect D S) (sp.1.take sp.2)
      rw [e, Node.size_inner, hnil]
      rfl
    · intro h
      exact absurd hb h
  · simp only [hm, Bool.not_false, if_true]
    have hp := hs (Node D S T) (fun a b => decide (TGDomain.dist (center a.rect) (center r) >
      TGDomain.dist (center b.rect) (center r))) (cs.take P.cfg.InnerSize ++ [extra])
    refine ⟨⟨hr, fun c h => hall c (hp.subset (List.mem_of_mem_drop h))⟩,
      fun h => absurd Node.none_size h, fun _ _ c h => ?_⟩
    exact hall c (hp.subset (List.mem_of_mem_take h))

theorem afterChild_within [LinearOrderedField S] (P : Setup D S T) (hs : SortPerm P.sort)
    (mask : ReinsertMask) (u r : Rect D S) (k : Nat) (cs : List (Node D S T))
    (hr : contains u r) (hc : ∀ c ∈ cs, Within u k c) (hne : cs ≠ []) (idx : Nat)
    (rc : Step D S T) (hrc : StepWithin u k rc) :
    StepWithin u (k + 1) (afterChild P mask (Node.inner r cs) idx rc (k + 1)) := by
  obtain ⟨w1, w2, w3⟩ := hrc
  have hset : ∀ c ∈ cs.set idx rc.node, Within u k c := fun c h => by
    rcases List.mem_or_eq_of_mem_set h with h | h
    · exact hc c h
    · rw [h]
      exact w1
  have hne' : cs.set idx rc.node ≠ [] := by
    intro h
    apply hne
    have := congrArg List.length h
    rw [List.length_set] at this
    exact List.length_eq_zero.mp this
  unfold afterChild
  simp only [Node.rect_inner, Node.children_inner, Node.size_inner]
  by_cases hret : rc.ret.size ≠ 0
  · obtain ⟨v1, v2⟩ := w2 hret
    simp only [hret, ne_eq, not_false_eq_true, if_true]
    by_cases hsz : cs.length < P.cfg.InnerSize
    · simp only [hsz, if_true]
      refine ⟨⟨hr, fun c h => ?_⟩, fun h => absurd Node.none_size h, fun h => absurd v2 h⟩
      rcases List.mem_append.mp h with h | h
      · exact hset c h
      · rw [List.mem_singleton.mp h]
        exact v1
    · simp only [hsz, if_false]
      exact splitInner_within P hs mask rc.bufs v2 u r k _ rc.ret hr hset v1
  · have hz : rc.ret.size = 0 := not_not.mp hret
    simp only [hz, ne_eq, not_true_eq_false, if_false, ite_self]
    by_cases hre : rc.bufs.reinserts ≠ 0
    · simp only [hre, ne_eq, not_false_eq_true, if_true]
      refine ⟨boundInner_within u r k _ (fun h => absurd h hne') hset,
        fun h => absurd Node.none_size h, w3⟩
    · simp only [hre, if_false]
      exact ⟨⟨hr, hset⟩, fun h => absurd Node.none_size h, w3⟩

theorem insertElement_within [LinearOrderedField S] (P : Setup D S T) (hs : SortPerm P.sort)
    (mask : ReinsertMask) (obj : T) (u : Rect D S) (hu : contains u (P.rect obj))
    (level : Nat) :
    ∀ (lo : Nat) (node : Node D S T) (bufs : Bufs D S T), bufs.reinserts = 0 →
      NodeOK P lo level node → Within u level node →
      StepWithin u level (insertElement P mask obj (P.rect obj) level node bufs) := by
  induction level with
  | zero =>
    intro lo node bufs hb hn hw
    obtain ⟨r, os, rfl, _, _, h3⟩ := hn
    have hr : contains u r := hw
    have hur : contains u (union_ r (P.rect obj)) := contains_union_of hr hu
    simp only [insertElement, Node.setRect, Node.rect_leaf, Node.size_leaf, Node.objects_leaf]
    by_cases hsz : os.length < P.cfg.LeafSize
    · simp only [hsz, if_true]
      exact ⟨hur, fun h => absurd Node.none_size h, fun h => absurd hb h⟩
    · simp only [hsz, if_false]
      exact splitLeaf_within P hs mask bufs hb u _ os obj hur
        (fun o ho => contains_trans hr (h3 o ho)) hu
  | succ k ih =>
    intro lo node bufs hb hn hw
    obtain ⟨r, cs, rfl, _, h2, _, h4⟩ := hn
    obtain ⟨hr, hc⟩ := hw
    simp only [Node.children_inner] at hc
    have hur : contains u (union_ r (P.rect obj)) := contains_union_of hr hu
    rw [insertElement_succ]
    simp only [Node.setRect, Node.rect_inner, Node.children_inner]
    generalize hidx : (if k + 1 > 1 then
        chooseInner (Node.inner (union_ r (P.rect obj)) cs) (P.rect obj)
      else chooseLeaf (Node.inner (union_ r (P.rect obj)) cs) (P.rect obj)) = idx
    have hlt : idx < cs.length := by
      rw [← hidx]
      have := chooseInner_lt (Node.inner (union_ r (P.rect obj)) cs) (P.rect obj) h2
      simp only [Node.children_inner] at this
      split
      · exact this
      · exact this
    have hmem := getD_mem Node.none cs idx hlt
    have hne : cs ≠ [] := by
      intro h
      rw [h] at h2
      cases h2
    exact afterChild_within P hs mask u _ k cs hur hc hne idx _
      (ih _ _ bufs hb (h4 _ hmem).1 (hc _ hmem))

theorem insertSubtree_within [LinearOrderedField S] (P : Setup D S T) (hs : SortPerm P.sort)
    (mask : ReinsertMask) (ins : Node D S T) (insLevel : Nat) (hpos : 1 ≤ insLevel)
    (u : Rect D S) (hu : Within u (insLevel - 1) ins) (level : Nat) :
    ∀ (lo : Nat) (node : Node D S T) (bufs : Bufs D S T), bufs.reinserts = 0 →
      insLevel ≤ level → NodeOK P lo level node → Within u level node →
      StepWithin u level (insertSubtree P mask ins insLevel level node bufs) := by
  induction level with
  | zero =>
    intro lo node bufs _ hle _ _
    omega
  | succ k ih =>
    intro lo node bufs hb hle hn hw
    obtain ⟨r, cs, rfl, _, h2, _, h4⟩ := hn
    obtain ⟨hr, hc⟩ := hw
    simp only [Node.children_inner] at hc
    have hur : contains u (union_ r ins.rect) := contains_union_of hr hu.rect_le
    by_cases hbase : k + 1 ≤ insLevel
    · have he : insLevel = k + 1 := by omega
      subst he
      simp only [Nat.add_sub_cancel] at hu
      simp only [insertSubtree, le_refl, if_true, Node.setRect, Node.rect_inner,
        Node.size_inner, Node.children_inner]
      by_cases hsz : cs.length < P.cfg.InnerSize
      · simp only [hsz, if_true]
        refine ⟨⟨hur, fun c h => ?_⟩, fun h => absurd Node.none_size h, fun h => absurd hb h⟩
        rcases List.mem_append.mp h with h | h
        · exact hc c h
        · rw [List.mem_singleton.mp h]
          exact hu
      · simp only [hsz, if_false]
        exact splitInner_within P hs mask bufs hb u _ k cs ins hur hc hu
    · rw [insertSubtree_succ P mask ins insLevel k _ bufs hbase]
      simp only [Node.setRect, Node.rect_inner, Node.children_inner]
      generalize hidx : chooseInner (Node.inner (union_ r ins.rect) cs) ins.rect = idx
      have hlt : idx < cs.length := by
        rw [← hidx]
        have := chooseInner_lt (Node.inner (union_ r ins.rect) cs) ins.rect h2
        simp only [Node.children_inner] at this
        exact this
      have hmem := getD_mem Node.none cs idx hlt
      have hne : cs ≠ [] := by
        intro h
        rw [h] at h2
        cases h2
      exact afterChild_within P hs mask u _ k cs hur hc hne idx _
        (ih _ _ bufs hb (by omega) (h4 _ hmem).1 (hc _ hmem))

theorem splitRoot_within [LinearOrder S] (u : Rect D S) (d : Nat) (node split : Node D S T)
    (t : Tree D S T) (h : splitRoot ⟨d, node⟩ split = Except.ok t) (hn : Within u d node)
    (hsp : Within u d split) : Within u t.mDepth t.mRoot := by
  unfold splitRoot at h
  split at h
  · cases h
  · cases h
    show Within u (d + 1) (boundInner (Node.inner node.rect [node, split]))
    apply boundInner_within u node.rect d [node, split] (fun hh => (by cases hh))
    intro c hc
    simp only [List.mem_cons, List.mem_singleton, List.not_mem_nil, or_false] at hc
    rcases hc with hc | hc
    · rw [hc]
      exact hn
    · rw [hc]
      exact hsp

theorem forEachM_inv {α σ : Type} (f : α → σ → Except Err σ) (inv : σ → Prop)
    (l : List α) (hf : ∀ a ∈ l, ∀ s s', inv s → f a s = Except.ok s' → inv s') :
    ∀ (s s' : σ), inv s → forEachM f l s = Except.ok s' → inv s' := by
  induction l with
  | nil =>
    intro s s' hi h
    cases h
    exact hi
  | cons a as ih =>
    intro s s' hi h
    simp only [forEachM] at h
    cases hfa : f a s with
    | error e =>
      rw [hfa] at h
      cases h
    | ok s1 =>
      rw [hfa] at h
      exact ih (fun b hb => hf b (List.mem_cons_of_mem a hb)) s1 s'
        (hf a (List.mem_cons_self a as) s s1 hi hfa) h

theorem reinsertRound_within [LinearOrderedField S] (P : Setup D S T) (hv : P.cfg.Valid)
    (hs : SortPerm P.sort) (u : Rect D S) (bound : Nat)
    (nested : Bufs D S T → Tree D S T × ReinsertMask → Except Err (Tree D S T × ReinsertMask))
    (hnw : NestedWithin P u bound nested) (rl : Nat) (hrl : 1 ≤ rl) (child : Node D S T)
    (hchild : NodeOK P (P.cfg.minAt (rl - 1)) (rl - 1) child) (hcw : Within u (rl - 1) child)
    (w w' : Work D S T) (hw : TreeOK P w.tree) (hb : w.bufs.reinserts = 0)
    (hm : unsetBits w.mask ≤ bound) (hl : rl ≤ w.tree.mDepth)
    (hww : Within u w.tree.mDepth w.tree.mRoot)
    (h : reinsertRound P nested rl child w = Except.ok w') :
    Within u w'.tree.mDepth w'.tree.mRoot := by
  obtain ⟨_, s2, s3⟩ := insertSubtree_ok P hv hs w.mask child rl hrl hchild w.tree.mDepth 0
    w.tree.mRoot w.bufs hb (Nat.zero_le _) hl hw.2
  obtain ⟨w1, w2, w3⟩ := insertSubtree_within P hs w.mask child rl hrl u hcw w.tree.mDepth 0
    w.tree.mRoot w.bufs hb hl hw.2 hww
  unfold reinsertRound at h
  simp only at h
  generalize insertSubtree P w.mask child rl w.tree.mDepth w.tree.mRoot w.bufs = r
    at s2 s3 w1 w2 w3 h
  by_cases hret : r.ret.size ≠ 0
  · simp only [if_pos hret] at h
    cases hsr : splitRoot (⟨w.tree.mDepth, r.node⟩ : Tree D S T) r.ret with
    | error e =>
      rw [hsr] at h
      cases h
    | ok t' =>
      rw [hsr] at h
      cases h
      exact splitRoot_within u _ _ _ t' hsr w1 (w2 hret).1
  · simp only [if_neg hret] at h
    obtain ⟨c1, _, c3⟩ := s3 (not_not.mp hret)
    by_cases hre : r.bufs.reinserts ≠ 0
    · simp only [if_pos hre] at h
      obtain ⟨d1, d2, d3, _⟩ := c3 hre
      have hpos : 1 ≤ r.bufs.reinsertLevel := le_trans hrl d2.1
      have hlt : unsetBits (w.mask.set r.bufs.reinsertLevel) < bound :=
        lt_of_lt_of_le (unsetBits_set d1 (le_trans d2.2 hw.1)) hm
      cases hnr : nested r.bufs (⟨w.tree.mDepth, r.node⟩, w.mask.set r.bufs.reinsertLevel) with
      | error e =>
        rw [hnr] at h
        cases h
      | ok res =>
        rw [hnr] at h
        cases h
        exact hnw r.bufs ⟨w.tree.mDepth, r.node⟩ (w.mask.set r.bufs.reinsertLevel) res
          ⟨hw.1, c1⟩ hpos d2.2
          (fun c hc => ⟨d3 (by omega) c hc, w3 hre (by omega) c hc⟩) hlt w1 hnr
    · simp only [if_neg hre] at h
      cases h
      exact w1

theorem reinsertInner_within [LinearOrderedField S] (P : Setup D S T) (hv : P.cfg.Valid)
    (hs : SortPerm P.sort) (u : Rect D S) (fuel : Nat) :
    NestedWithin P u fuel (reinsertInner P fuel) := by
  induction fuel with
  | zero =>
    intro parent t mask res _ _ _ _ h
    omega
  | succ n ih =>
    intro parent t mask res ht hpos hle hev hbits hw h
    simp only [reinsertInner] at h
    cases hl : forEachM (reinsertRound P (reinsertInner P n) parent.reinsertLevel)
        (parent.children.take parent.reinserts) ⟨t, mask, Bufs.init⟩ with
    | error e =>
      rw [hl] at h
      cases h
    | ok w' =>
      rw [hl] at h
      cases h
      have := forEachM_inv (reinsertRound P (reinsertInner P n) parent.reinsertLevel)
        (fun (w : Work D S T) => TreeOK P w.tree ∧ w.bufs.reinserts = 0 ∧
          unsetBits w.mask ≤ n ∧ parent.reinsertLevel ≤ w.tree.mDepth ∧
          Within u w.tree.mDepth w.tree.mRoot)
        (parent.children.take parent.reinserts)
        (fun a ha s s' hi hf => by
          obtain ⟨i1, i2, i3, i4, i5⟩ := hi
          rcases reinsertRound_ok P hv hs n (reinsertInner P n) (reinsertInner_ok P hv hs n)
            parent.reinsertLevel hpos a (hev a ha).1 s i1 i2 i3 i4 with he | ⟨s1, h1, g, hb1⟩
          · rw [he] at hf
            cases hf
          · rw [h1] at hf
            have e := Except.ok.inj hf
            subst e
            exact ⟨g.1, hb1, le_trans (unsetBits_mono g.2.2.1) i3, le_trans i4 g.2.2.2,
              reinsertRound_within P hv hs u n (reinsertInner P n) ih parent.reinsertLevel hpos a
                (hev a ha).1 (hev a ha).2 s s1 i1 i2 i3 i4 i5 h1⟩)
        ⟨t, mask, Bufs.init⟩ w' ⟨ht, rfl, Nat.le_of_lt_succ hbits, hle, hw⟩ hl
      exact this.2.2.2.2

theorem TreeOK.root_within [LinearOrder S] {P : Setup D S T} {t : Tree D S T}
    (h : TreeOK P t) (u : Rect D S) (obj : T) (hu : contains u (P.rect obj))
    (hw : t.mRoot.size ≠ 0 → Within u t.mDepth t.mRoot) :
    Within u t.mDepth (if t.mRoot.size = 0 then Node.leaf (P.rect obj) [] else t.mRoot) := by
  by_cases hz : t.mRoot.size = 0
  · have hroot := (h.root_cases obj).1
    rw [if_pos hz] at hroot ⊢
    cases hd : t.mDepth with
    | zero => exact hu
    | succ k =>
      rw [hd] at hroot
      obtain ⟨r, cs, e, _⟩ := hroot
      cases e
  · rw [if_neg hz]
    exact hw hz

theorem insertLeaf_within [LinearOrderedField S] (P : Setup D S T) (hv : P.cfg.Valid)
    (hs : SortPerm P.sort) (u : Rect D S) (fuel : Nat) :
    ∀ (t : Tree D S T) (obj : T) (mask : ReinsertMask) (res : Tree D S T × ReinsertMask),
      TreeOK P t → unsetBits mask < fuel → (t.mRoot.size ≠ 0 → Within u t.mDepth t.mRoot) →
      contains u (P.rect obj) → insertLeaf P fuel t obj mask = Except.ok res →
      Within u res.1.mDepth res.1.mRoot := by
  induction fuel with
  | zero =>
    intro t obj mask res _ h
    omega
  | succ n ih =>
    intro t obj mask res ht hbits hw hu h
    obtain ⟨hroot, hitems⟩ := ht.root_cases obj
    have hrw := ht.root_within u obj hu hw
    rw [insertLeaf] at h
    generalize (if t.mRoot.size = 0 then Node.leaf (P.rect obj) [] else t.mRoot) = root
      at hroot hitems hrw h
    obtain ⟨_, s2, s3⟩ := insertElement_ok P hv hs mask obj t.mDepth 0 root Bufs.init rfl
      (Nat.zero_le _) hroot
    obtain ⟨w1, w2, w3⟩ := insertElement_within P hs mask obj u hu t.mDepth 0 root Bufs.init
      rfl hroot hrw
    have hcont := items_contained P t.mDepth 0 root hroot
    generalize insertElement P mask obj (P.rect obj) t.mDepth root Bufs.init = r
      at s2 s3 w1 w2 w3 h
    by_cases hret : r.ret.size ≠ 0
    · simp only [if_pos hret] at h
      cases hsr : splitRoot (⟨t.mDepth, r.node⟩ : Tree D S T) r.ret with
      | error e =>
        rw [hsr] at h
        cases h
      | ok t' =>
        rw [hsr] at h
        cases h
        exact splitRoot_within u _ _ _ t' hsr w1 (w2 hret).1
    · simp only [if_neg hret] at h
      obtain ⟨c1, _, c3⟩ := s3 (not_not.mp hret)
      by_cases hre : r.bufs.reinserts ≠ 0
      · simp only [if_pos hre] at h
        obtain ⟨d1, d2, d3, d4⟩ := c3 hre
        have hlt : unsetBits (mask.set r.bufs.reinsertLevel) < n := by
          have := unsetBits_set d1 (le_trans d2.2 ht.1)
          omega
        by_cases hlev : r.bufs.reinsertLevel = 0
        · simp only [if_pos hlev] at h
          have hev : ∀ x ∈ r.bufs.objects.take r.bufs.reinserts, contains u (P.rect x) := by
            intro x hx
            have hmem : x ∈ items t.mDepth r.node ++ evictedItems r.bufs := by
              apply List.mem_append_right
              unfold evictedItems
              rw [if_pos hlev]
              exact hx
            rcases List.mem_append.mp (d4.subset hmem) with h1 | h1
            · exact contains_trans hrw.rect_le (hcont x h1)
            · rw [List.mem_singleton.mp h1]
              exact hu
          have := forEachM_inv
            (fun (x : T) (st : Tree D S T × ReinsertMask) => insertLeaf P n st.1 x st.2)
            (fun (st : Tree D S T × ReinsertMask) => TreeOK P st.1 ∧ unsetBits st.2 < n ∧
              Within u st.1.mDepth st.1.mRoot)
            (r.bufs.objects.take r.bufs.reinserts)
            (fun a ha s s' hi hf => by
              obtain ⟨i1, i2, i3⟩ := hi
              have hf : insertLeaf P n s.1 a s.2 = Except.ok s' := hf
              rcases insertLeaf_ok P hv hs n s.1 a s.2 i1 i2 with he | ⟨s1, h1, g⟩
              · rw [he] at hf
                cases hf
              · rw [h1] at hf
                have e := Except.ok.inj hf
                subst e
                exact ⟨g.1, lt_of_le_of_lt (unsetBits_mono g.2.2.1) i2,
                  ih s.1 a s.2 s1 i1 i2 (fun _ => i3) (hev a ha) h1⟩)
            (⟨t.mDepth, r.node⟩, mask.set r.bufs.reinsertLevel) res
            ⟨⟨ht.1, c1⟩, hlt, w1⟩ h
          exact this.2.2
        · simp only [if_neg hlev] at h
          exact reinsertInner_within P hv hs u n r.bufs ⟨t.mDepth, r.node⟩
            (mask.set r.bufs.reinsertLevel) res ⟨ht.1, c1⟩ (by omega) d2.2
            (fun c hc => ⟨d3 hlev c hc, w3 hre hlev c hc⟩) hlt w1 h
      · simp only [if_neg hre] at h
        cases h
        exact w1

theorem insertAll_within [LinearOrderedField S] (P : Setup D S T) (hv : P.cfg.Valid)
    (hs : SortPerm P.sort) (u : Rect D S) (xs : List T) :
    ∀ (t t' : Tree D S T), TreeOK P t → (t.mRoot.size ≠ 0 → Within u t.mDepth t.mRoot) →
      (∀ x ∈ xs, contains u (P.rect x)) → insertAll P t xs = Except.ok t' →
      (t'.mRoot.size ≠ 0 → Within u t'.mDepth t'.mRoot) := by
  induction xs with
  | nil =>
    intro t t' _ hw _ h
    cases h
    exact hw
  | cons x xs ih =>
    intro t t' ht hw hx h
    simp only [insertAll] at h
    rcases insert_ok P hv hs t x ht with he | ⟨t1, h1, g1, _⟩
    · rw [he] at h
      cases h
    · rw [h1] at h
      simp only at h
      have hw1 : Within u t1.mDepth t1.mRoot := by
        unfold insert at h1
        cases hl : insertLeaf P (max_depth + 2) t x ReinsertMask.zero with
        | error e =>
          rw [hl] at h1
          cases h1
        | ok res =>
          rw [hl] at h1
          cases h1
          exact insertLeaf_within P hv hs u (max_depth + 2) t x ReinsertMask.zero res ht
            (by rw [unsetBits_zero]; omega) hw (hx x (List.mem_cons_self x xs)) hl
      exact ih t1 t' g1 (fun _ => hw1) (fun y hy => hx y (List.mem_cons_of_mem x hy)) h

theorem TreeOK.root_size [LinearOrder S] {P : Setup D S T} {t : Tree D S T} (h : TreeOK P t)
    (hne : items t.mDepth t.mRoot ≠ []) : t.mRoot.size ≠ 0 := by
  obtain ⟨_, hn⟩ := h
  cases hd : t.mDepth with
  | zero =>
    rw [hd] at hn hne
    obtain ⟨r, os, e, _⟩ := hn
    rw [e] at hne ⊢
    rw [Node.size_leaf]
    intro hz
    exact hne (List.length_eq_zero.mp hz)
  | succ k =>
    rw [hd] at hn
    obtain ⟨r, cs, e, _, h1, _⟩ := hn
    rw [e, Node.size_inner]
    omega

theorem contains_antisymm [LinearOrder S] {a b : Rect D S} (h1 : contains a b)
    (h2 : contains b a) : a = b := by
  cases a with
  | mk amin amax =>
    cases b with
    | mk bmin bmax =>
      simp only [Rect.mk.injEq]
      constructor
      · funext i
        exact le_antisymm (h1 i).1 (h2 i).1
      · funext i
        exact le_antisymm (h2 i).2 (h1 i).2

theorem visitLog_rejected (t : Tree D S T) (v : Visitor σ D S T) (s : σ)
    (h : (v.check t.mRoot.rect t.mDepth s).1 = false) :
    (visitLog t v s).filterMap Event.item = [] := by
  unfold visitLog visit
  by_cases hz : t.mRoot.size = 0
  · cases hd : t.mDepth with
    | zero => simp [visitNode, hz]
    | succ k => simp [visitNode, hz]
  · cases hd : t.mDepth with
    | zero =>
      rw [hd] at h
      simp [visitNode, hz, Visitor.traced, h, Event.item]
    | succ k =>
      rw [hd] at h
      simp [visitNode, hz, Visitor.traced, h, Event.item]

/-! ### The arrays of the split index loop -/

theorem unionScan_length [LinearOrder S] (rs : List (Rect D S)) :
    ∀ (r : Rect D S), (unionScan r rs).length = rs.length + 1 := by
  induction rs with
  | nil => intro r; rfl
  | cons x xs ih =>
    intro r
    simp only [unionScan, List.length_cons, ih]

theorem unionScan_getD [LinearOrder S] [Zero S] (rs : List (Rect D S)) :
    ∀ (r : Rect D S) (k : Nat), k ≤ rs.length →
      (unionScan r rs).getD k default = unionAll r (rs.take k) := by
  induction rs with
  | nil =>
    intro r k hk
    have : k = 0 := by simpa using hk
    subst this
    rfl
  | cons x xs ih =>
    intro r k hk
    cases k with
    | zero => rfl
    | succ j =>
      simp only [unionScan, List.getD_cons_succ, List.take_succ_cons]
      rw [ih (union_ r x) j (by simpa using hk)]
      rfl

theorem unionAll_same [LinearOrder S] {r r' : Rect D S} {rs rs' : List (Rect D S)}
    (h : ∀ x, x ∈ r :: rs ↔ x ∈ r' :: rs') : unionAll r rs = unionAll r' rs' := by
  have key : ∀ (a b : Rect D S) (as bs : List (Rect D S)),
      (∀ x, x ∈ a :: as → x ∈ b :: bs) → contains (unionAll b bs) (unionAll a as) := by
    intro a b as bs hsub
    have hmem : ∀ x ∈ b :: bs, contains (unionAll b bs) x := by
      intro x hx
      rcases List.mem_cons.mp hx with e | e
      · rw [e]
        exact contains_unionAll_init _ _
      · exact contains_unionAll_mem _ _ _ e
    apply contains_unionAll_of (hmem a (hsub a (List.mem_cons_self _ _)))
    intro x hx
    exact hmem x (hsub x (List.mem_cons_of_mem _ hx))
  exact contains_antisymm (key r' r rs' rs (fun x hx => (h x).mpr hx))
    (key r r' rs rs' (fun x hx => (h x).mp hx))

theorem groupBox_same [LinearOrder S] [Zero S] (getRect : E → Rect D S) {g g' : List E}
    (h : ∀ x, x ∈ g.map getRect ↔ x ∈ g'.map getRect) :
    groupBox getRect g = groupBox getRect g' := by
  unfold groupBox
  cases h1 : g.map getRect with
  | nil =>
    cases h2 : g'.map getRect with
    | nil => rfl
    | cons b bs =>
      rw [h1, h2] at h
      exact absurd ((h b).mpr (List.mem_cons_self _ _)) (List.not_mem_nil _)
  | cons a as =>
    cases h2 : g'.map getRect with
    | nil =>
      rw [h1, h2] at h
      exact absurd ((h a).mp (List.mem_cons_self _ _)) (List.not_mem_nil _)
    | cons b bs =>
      rw [h1, h2] at h
      exact unionAll_same h

/-- The array `rects1` of the source holds at `i - 1` the bounding rectangle of the
entries `[0, i)`. -/
theorem rects1_getD [LinearOrder S] [Zero S] (getRect : E → Rect D S) (buf : List E) (i : Nat)
    (h1 : 1 ≤ i) (h2 : i ≤ buf.length) :
    (rects1 getRect buf).getD (i - 1) default = groupBox getRect (buf.take i) := by
  unfold rects1 groupBox
  cases buf with
  | nil =>
    simp only [List.length_nil] at h2
    omega
  | cons e es =>
    obtain ⟨j, rfl⟩ : ∃ j, i = j + 1 := ⟨i - 1, by omega⟩
    simp only [List.map_cons, List.take_succ_cons, Nat.add_sub_cancel]
    rw [unionScan_getD _ _ j (by simpa using h2), List.map_take]

/-- The array `rects2` of the source holds at `i` the bounding rectangle of the entries
`[i, Size)`. -/
theorem rects2_getD [LinearOrder S] [Zero S] (getRect : E → Rect D S) (buf : List E) (i : Nat)
    (h : i < buf.length) :
    (rects2 getRect buf).getD i default = groupBox getRect (buf.drop i) := by
  have hrev : groupBox getRect (buf.drop i) = groupBox getRect (buf.drop i).reverse :=
    groupBox_same getRect (fun x => by simp)
  rw [hrev]
  unfold rects2 groupBox
  cases hl : (buf.map getRect).reverse with
  | nil =>
    have := congrArg List.length hl
    simp only [List.length_reverse, List.length_map, List.length_nil] at this
    omega
  | cons r rs =>
    have hlen : rs.length + 1 = buf.length := by
      have := congrArg List.length hl
      simp only [List.length_reverse, List.length_map, List.length_cons] at this
      omega
    simp only
    rw [List.getD_eq_getElem?_getD, List.getElem?_reverse (by rw [unionScan_length]; omega),
      ← List.getD_eq_getElem?_getD, unionScan_length,
      unionScan_getD rs r _ (by omega)]
    have e : ((buf.drop i).reverse).map getRect = r :: rs.take (rs.length + 1 - 1 - i) := by
      rw [List.map_reverse, List.map_drop, List.reverse_drop, hl, List.length_map]
      have : buf.length - i = (rs.length + 1 - 1 - i) + 1 := by omega
      rw [this, List.take_succ_cons]
    rw [e]

/-! ### The split index loop -/

theorem chooseSplitStep_eq [LinearOrderedField S] (r1 r2 : List (Rect D S)) (i : Nat)
    (st : Nat × S × S) :
    chooseSplitStep r1 r2 i st =
      if tieLt (splitKey r1 r2 i).1 (splitKey r1 r2 i).2 st.2.2 st.2.1 || decide (st.1 = 0)
      then (i, (splitKey r1 r2 i).2, (splitKey r1 r2 i).1) else st := rfl

/-- The split index loop keeps the first index with the least pair `(overlap, area)` of
the indices it evaluates. -/
theorem chooseSplit_least [LinearOrderedField S] (r1 r2 : List (Rect D S)) (size minSize : Nat)
    (hm : 1 ≤ minSize) (h : minSize < size - 1 - minSize) :
    ((chooseSplit r1 r2 size minSize).2.2, (chooseSplit r1 r2 size minSize).2.1) =
      splitKey r1 r2 (chooseSplit r1 r2 size minSize).1 ∧
    ∀ (i : Nat), minSize ≤ i → i < size - 1 - minSize →
      toLex (splitKey r1 r2 (chooseSplit r1 r2 size minSize).1) ≤ toLex (splitKey r1 r2 i) ∧
      (i < (chooseSplit r1 r2 size minSize).1 →
        toLex (splitKey r1 r2 (chooseSplit r1 r2 size minSize).1) < toLex (splitKey r1 r2 i)) := by
  unfold chooseSplit
  have := forLoop_induction
    (fun j (st : Nat × S × S) => (j = minSize ∧ st.1 = 0) ∨
      (minSize ≤ st.1 ∧ st.1 < j ∧ (st.2.2, st.2.1) = splitKey r1 r2 st.1 ∧
        ∀ (i : Nat), minSize ≤ i → i < j →
          toLex (splitKey r1 r2 st.1) ≤ toLex (splitKey r1 r2 i) ∧
          (i < st.1 → toLex (splitKey r1 r2 st.1) < toLex (splitKey r1 r2 i))))
    (chooseSplitStep r1 r2) minSize (size - 1 - minSize) (0, 0, 0) (Or.inl ⟨rfl, rfl⟩)
    (fun i st h1 h2 hinv => by
      right
      rw [chooseSplitStep_eq]
      by_cases hz : st.1 = 0
      · have hc : (tieLt (splitKey r1 r2 i).1 (splitKey r1 r2 i).2 st.2.2 st.2.1 ||
            decide (st.1 = 0)) = true := by simp [hz]
        rw [if_pos hc]
        have hi : i = minSize := by
          rcases hinv with ⟨e, _⟩ | ⟨e, _⟩
          · exact e
          · omega
        refine ⟨h1, Nat.lt_succ_self i, rfl, ?_⟩
        intro k hk1 hk2
        have : k = i := by omega
        subst this
        exact ⟨le_refl _, fun hlt => absurd hlt (lt_irrefl _)⟩
      · rcases hinv with ⟨_, e⟩ | ⟨a1, a2, a3, a4⟩
        · exact absurd e hz
        · by_cases ht : tieLt (splitKey r1 r2 i).1 (splitKey r1 r2 i).2 st.2.2 st.2.1 = true
          · have hc : (tieLt (splitKey r1 r2 i).1 (splitKey r1 r2 i).2 st.2.2 st.2.1 ||
                decide (st.1 = 0)) = true := by simp [ht]
            rw [if_pos hc]
            rw [tieLt_iff_lex] at ht
            have ht' : toLex (splitKey r1 r2 i) < toLex (splitKey r1 r2 st.1) := by
              rw [← a3]
              exact ht
            refine ⟨h1, Nat.lt_succ_self i, rfl, ?_⟩
            intro k hk1 hk2
            by_cases hki : k = i
            · subst hki
              exact ⟨le_refl _, fun hlt => absurd hlt (lt_irrefl _)⟩
            · have hk := (a4 k hk1 (by omega)).1
              exact ⟨le_of_lt (lt_of_lt_of_le ht' hk), fun _ => lt_of_lt_of_le ht' hk⟩
          · have hc : ¬ (tieLt (splitKey r1 r2 i).1 (splitKey r1 r2 i).2 st.2.2 st.2.1 ||
                decide (st.1 = 0)) = true := by simp [ht, hz]
            rw [if_neg hc]
            rw [tieLt_iff_lex, not_lt] at ht
            have ht' : toLex (splitKey r1 r2 st.1) ≤ toLex (splitKey r1 r2 i) := by
              rw [← a3]
              exact ht
            refine ⟨a1, Nat.lt_succ_of_lt a2, a3, ?_⟩
            intro k hk1 hk2
            by_cases hki : k = i
            · subst hki
              exact ⟨ht', fun hlt => absurd hlt (by omega)⟩
            · exact a4 k hk1 (by omega)) (Nat.le_of_lt h)
  rcases this with ⟨e, _⟩ | ⟨_, _, a3, a4⟩
  · omega
  · exact ⟨a3, a4⟩

/-- On a buffer the arrays `rects1` and `rects2` were built from, the pair the loop
computes at `i` is the overlap and the area of the split at `i`. -/
theorem splitKey_eq [LinearOrderedField S] (getRect : E → Rect D S) (buf : List E) (i : Nat)
    (h1 : 1 ≤ i) (h2 : i < buf.length) :
    splitKey (rects1 getRect buf) (rects2 getRect buf) i =
      (splitOverlap getRect buf i, splitArea getRect buf i) := by
  unfold splitKey splitOverlap splitArea
  rw [rects1_getD getRect buf i h1 (le_of_lt h2), rects2_getD getRect buf i h2]

/-! ### The margin loop -/

theorem groupBox_concat [LinearOrder S] [Zero S] (getRect : E → Rect D S) (g : List E) (x : E)
    (hg : g ≠ []) : groupBox getRect (g ++ [x]) = union_ (groupBox getRect g) (getRect x) := by
  cases g with
  | nil => exact absurd rfl hg
  | cons y ys => simp [groupBox, unionAll, List.foldl_append]

theorem groupBox_cons [LinearOrder S] [Zero S] (getRect : E → Rect D S) (g : List E) (x : E)
    (hg : g ≠ []) : groupBox getRect (x :: g) = union_ (groupBox getRect g) (getRect x) := by
  rw [← groupBox_concat getRect g x hg]
  apply groupBox_same
  intro r
  simp only [List.map_cons, List.mem_cons, List.map_append, List.map_nil, List.mem_append,
    List.mem_singleton, List.not_mem_nil, or_false]
  exact Or.comm

theorem rectAt_eq [Zero S] (getRect : E → Rect D S) (buf : List E) (i : Nat)
    (h : i < buf.length) : rectAt getRect buf i = getRect (buf.get ⟨i, h⟩) := by
  unfold rectAt
  rw [List.getElem?_eq_getElem h]
  rfl

theorem groupBox_take_succ [LinearOrder S] [Zero S] (getRect : E → Rect D S) (buf : List E)
    (i : Nat) (h1 : 1 ≤ i) (h2 : i < buf.length) :
    groupBox getRect (buf.take (i + 1)) =
      union_ (groupBox getRect (buf.take i)) (rectAt getRect buf i) := by
  rw [rectAt_eq getRect buf i h2, List.take_succ, List.getElem?_eq_getElem h2]
  apply groupBox_concat
  intro e
  have := congrArg List.length e
  simp only [List.length_take, List.length_nil] at this
  omega

theorem groupBox_drop_pred [LinearOrder S] [Zero S] (getRect : E → Rect D S) (buf : List E)
    (i : Nat) (h2 : i + 1 < buf.length) :
    groupBox getRect (buf.drop i) =
      union_ (groupBox getRect (buf.drop (i + 1))) (rectAt getRect buf i) := by
  rw [rectAt_eq getRect buf i (by omega), List.drop_eq_getElem_cons (by omega)]
  apply groupBox_cons
  intro e
  have := congrArg List.length e
  simp only [List.length_drop, List.length_nil] at this
  omega

/-- The margin loop of the source adds, for every `i` with
`minSize ≤ i < Size - 1 - minSize`, the margin of the bounding rectangle of the first
`i + 1` entries and that of the last `i + 1` entries. -/
theorem marginSum_loop [LinearOrderedField S] (getRect : E → Rect D S) (buf : List E)
    (minSize : Nat) (hm : 1 ≤ minSize) (hlen : 2 * minSize + 1 < buf.length) :
    marginSum getRect buf minSize =
      ((List.range' minSize (buf.length - 1 - minSize - minSize)).map
        (fun i => margin (groupBox getRect (buf.take (i + 1))) +
          margin (groupBox getRect (buf.drop (buf.length - 1 - i))))).sum := by
  unfold marginSum
  have := forLoop_induction
    (fun j (st : Rect D S × Rect D S × S) =>
      st.1 = groupBox getRect (buf.take j) ∧
      st.2.1 = groupBox getRect (buf.drop (buf.length - j)) ∧
      st.2.2 = ((List.range' minSize (j - minSize)).map
        (fun i => margin (groupBox getRect (buf.take (i + 1))) +
          margin (groupBox getRect (buf.drop (buf.length - 1 - i))))).sum)
    (marginStep getRect buf minSize) 1 (buf.length - 1 - minSize)
    (rectAt getRect buf 0, rectAt getRect buf (buf.length - 1), 0)
    ⟨by
      cases buf with
      | nil => simp at hlen
      | cons e es => simp [rectAt, groupBox, unionAll],
     by
      rw [rectAt_eq getRect buf (buf.length - 1) (by omega),
        List.drop_eq_getElem_cons (by omega)]
      have e : buf.length - 1 + 1 = buf.length := by omega
      rw [e, List.drop_length]
      rfl,
     by
      have e : 1 - minSize = 0 := by omega
      rw [e]
      rfl⟩
    (fun i st h1 h2 hinv => by
      obtain ⟨a1, a2, a3⟩ := hinv
      have e1 : union_ st.1 (rectAt getRect buf i) = groupBox getRect (buf.take (i + 1)) := by
        rw [groupBox_take_succ getRect buf i h1 (by omega), a1]
      have e2 : union_ st.2.1 (rectAt getRect buf (buf.length - 1 - i)) =
          groupBox getRect (buf.drop (buf.length - (i + 1))) := by
        have e : buf.length - (i + 1) = buf.length - 1 - i := by omega
        rw [e, groupBox_drop_pred getRect buf (buf.length - 1 - i) (by omega), a2]
        have e' : buf.length - 1 - i + 1 = buf.length - i := by omega
        rw [e']
      unfold marginStep
      dsimp only
      rw [e1, e2]
      refine ⟨rfl, rfl, ?_⟩
      by_cases hmi : minSize ≤ i
      · rw [if_pos hmi, a3]
        have e : i + 1 - minSize = (i - minSize) + 1 := by omega
        rw [e, List.range'_concat, List.map_append, List.sum_append]
        simp only [List.map_cons, List.map_nil, List.sum_cons, List.sum_nil, add_zero, mul_one,
          one_mul]
        have e3 : minSize + (i - minSize) = i := by omega
        have e4 : buf.length - (i + 1) = buf.length - 1 - i := by omega
        rw [e3, e4]
      · rw [if_neg hmi, a3]
        have e : i + 1 - minSize = 0 := by omega
        have e' : i - minSize = 0 := by omega
        rw [e, e'])
    (by omega)
  rw [this.2.2]

theorem range_reflect (n lo len : Nat) (h : lo + len ≤ n) :
    ((List.range' lo len).map (fun i => n - 1 - i)).reverse = List.range' (n - lo - len) len := by
  apply List.ext_getElem
  · simp
  · intro j h1 h2
    simp only [List.length_reverse, List.length_map, List.length_range'] at h1
    simp only [List.getElem_reverse, List.getElem_map, List.getElem_range', List.length_map,
      List.length_range', mul_one, one_mul]
    omega

/-- The sum the margin loop computes is the sum of the margin values of the two-way
groupings at every `k` with `minSize + 1 ≤ k ≤ Size - 1 - minSize`. -/
theorem marginSum_eq [LinearOrderedField S] (getRect : E → Rect D S) (buf : List E)
    (minSize : Nat) (hm : 1 ≤ minSize) (hlen : 2 * minSize + 1 < buf.length) :
    marginSum getRect buf minSize =
      groupingMarginSum getRect buf (minSize + 1) (buf.length - 1 - minSize) := by
  rw [marginSum_loop getRect buf minSize hm hlen]
  unfold groupingMarginSum groupingMargin
  have hl : buf.length - 1 - minSize + 1 - (minSize + 1) = buf.length - 1 - minSize - minSize := by
    omega
  rw [hl, List.sum_map_add, List.sum_map_add]
  congr 1
  · have : List.range' (minSize + 1) (buf.length - 1 - minSize - minSize) =
        (List.range' minSize (buf.length - 1 - minSize - minSize)).map (fun i => i + 1) := by
      rw [List.range'_eq_map_range, List.range'_eq_map_range, List.map_map]
      apply List.map_congr_left
      intro a _
      simp only [Function.comp_apply]
      omega
    rw [this, List.map_map]
    rfl
  · have := range_reflect buf.length minSize (buf.length - 1 - minSize - minSize) (by omega)
    have e : buf.length - minSize - (buf.length - 1 - minSize - minSize) = minSize + 1 := by
      omega
    rw [e] at this
    rw [← this, List.map_reverse, List.sum_reverse, List.map_map]
    rfl

/-! ### The axis loop -/

theorem axisBuf_perm [LinearOrder S] [Zero S] (P : Setup D S T) (hs : SortPerm P.sort)
    (getRect : E → Rect D S) (buf : List E) (axis : Nat) :
    (axisBuf P getRect buf axis).Perm buf := by
  induction axis with
  | zero => exact hs _ _ _
  | succ k ih => exact (hs _ _ _).trans ih

/-- The axis loop keeps the lowest-numbered axis with the least margin sum, each sum
computed on the buffer as the sort of that round left it. -/
theorem chooseAxis_least [LinearOrder S] [Zero S] [Add S] [Sub S] (P : Setup D S T)
    (getRect : E → Rect D S)
    (minSize : Nat) (buf : List E) (hD : 1 ≤ D) :
    (chooseAxis P getRect minSize buf).2.2 < D ∧
    (chooseAxis P getRect minSize buf).1 = axisBuf P getRect buf (D - 1) ∧
    (chooseAxis P getRect minSize buf).2.1 =
      marginSum getRect (axisBuf P getRect buf (chooseAxis P getRect minSize buf).2.2) minSize ∧
    ∀ (a : Nat), a < D →
      (chooseAxis P getRect minSize buf).2.1 ≤ marginSum getRect (axisBuf P getRect buf a) minSize ∧
      (a < (chooseAxis P getRect minSize buf).2.2 →
        (chooseAxis P getRect minSize buf).2.1 <
          marginSum getRect (axisBuf P getRect buf a) minSize) := by
  unfold chooseAxis
  have := forLoop_induction
    (fun j (st : List E × S × Nat) => (j = 0 ∧ st.1 = buf) ∨
      (1 ≤ j ∧ st.1 = axisBuf P getRect buf (j - 1) ∧ st.2.2 < j ∧
        st.2.1 = marginSum getRect (axisBuf P getRect buf st.2.2) minSize ∧
        ∀ (a : Nat), a < j →
          st.2.1 ≤ marginSum getRect (axisBuf P getRect buf a) minSize ∧
          (a < st.2.2 → st.2.1 < marginSum getRect (axisBuf P getRect buf a) minSize)))
    (chooseAxisStep P getRect minSize) 0 D (buf, 0, 0) (Or.inl ⟨rfl, rfl⟩)
    (fun i st _ _ hinv => by
      right
      have hbuf : P.sort (fun a b => cmp i (getRect a) (getRect b)) st.1 =
          axisBuf P getRect buf i := by
        rcases hinv with ⟨e1, e2⟩ | ⟨e1, e2, _⟩
        · rw [e1, e2]
          rfl
        · obtain ⟨k, rfl⟩ : ∃ k, i = k + 1 := ⟨i - 1, by omega⟩
          rw [e2]
          rfl
      unfold chooseAxisStep
      dsimp only
      rw [hbuf]
      by_cases hz : i = 0
      · have hc : (decide (marginSum getRect (axisBuf P getRect buf i) minSize < st.2.1) ||
            decide (i = 0)) = true := by simp [hz]
        rw [if_pos hc]
        subst hz
        refine ⟨le_refl _, rfl, Nat.zero_lt_one, rfl, ?_⟩
        intro a ha
        have : a = 0 := by omega
        subst this
        exact ⟨le_refl _, fun h => absurd h (lt_irrefl _)⟩
      · rcases hinv with ⟨e1, _⟩ | ⟨a1, a2, a3, a4, a5⟩
        · exact absurd e1 hz
        · by_cases hlt : marginSum getRect (axisBuf P getRect buf i) minSize < st.2.1
          · have hc : (decide (marginSum getRect (axisBuf P getRect buf i) minSize < st.2.1) ||
                decide (i = 0)) = true := by simp [hlt]
            rw [if_pos hc]
            refine ⟨by omega, rfl, Nat.lt_succ_self i, rfl, ?_⟩
            intro a ha
            by_cases hai : a = i
            · subst hai
              exact ⟨le_refl _, fun h => absurd h (lt_irrefl _)⟩
            · have hk := (a5 a (by omega)).1
              exact ⟨le_of_lt (lt_of_lt_of_le hlt hk), fun _ => lt_of_lt_of_le hlt hk⟩
          · have hc : ¬ (decide (marginSum getRect (axisBuf P getRect buf i) minSize < st.2.1) ||
                decide (i = 0)) = true := by simp [hlt, hz]
            rw [if_neg hc]
            refine ⟨by omega, rfl, Nat.lt_succ_of_lt a3, a4, ?_⟩
            intro a ha
            by_cases hai : a = i
            · subst hai
              exact ⟨not_lt.mp hlt, fun h => absurd (show a < st.2.2 from h) (by omega)⟩
            · exact a5 a (by omega)) (Nat.zero_le _)
  rcases this with ⟨e, _⟩ | ⟨_, a2, a3, a4, a5⟩
  · omega
  · exact ⟨a3, a2, a4, a5⟩

end RStar

/-! ## The invariant without the upper size bounds -/

namespace RStar

variable {D : Nat} {S T E : Type} {σ : Type}

theorem NodeLax_leaf [LinearOrder S] (P : Setup D S T) (lo : Nat) (r : Rect D S) (os : List T) :
    NodeLax P lo 0 (Node.leaf r os) ↔ lo ≤ os.length ∧ ∀ o ∈ os, contains r (P.rect o) := by
  simp only [NodeLax]
  constructor
  · rintro ⟨r', os', h, h1, h3⟩
    cases h
    exact ⟨h1, h3⟩
  · rintro ⟨h1, h3⟩
    exact ⟨r, os, rfl, h1, h3⟩

theorem NodeLax_inner [LinearOrder S] (P : Setup D S T) (lo k : Nat) (r : Rect D S)
    (cs : List (Node D S T)) :
    NodeLax P lo (k + 1) (Node.inner r cs) ↔
      lo ≤ cs.length ∧ 1 ≤ cs.length ∧
      ∀ c ∈ cs, NodeLax P (P.cfg.minAt k) k c ∧ contains r c.rect := by
  simp only [NodeLax]
  constructor
  · rintro ⟨r', cs', h, h1, h2, h4⟩
    cases h
    exact ⟨h1, h2, h4⟩
  · rintro ⟨h1, h2, h4⟩
    exact ⟨r, cs, rfl, h1, h2, h4⟩

theorem NodeLax.mono_lo [LinearOrder S] {P : Setup D S T} {lo lo' level : Nat} {n : Node D S T}
    (h : NodeLax P lo level n) (hle : lo' ≤ lo) : NodeLax P lo' level n := by
  cases level with
  | zero =>
    obtain ⟨r, os, rfl, h1, h3⟩ := h
    exact (NodeLax_leaf P lo' r os).mpr ⟨le_trans hle h1, h3⟩
  | succ k =>
    obtain ⟨r, cs, rfl, h1, h2, h4⟩ := h
    exact (NodeLax_inner P lo' k r cs).mpr ⟨le_trans hle h1, h2, h4⟩

theorem NodeLax_inner_widen [LinearOrder S] {P : Setup D S T} {lo k : Nat} {r u : Rect D S}
    {cs : List (Node D S T)} (h : NodeLax P lo (k + 1) (Node.inner r cs)) (hu : contains u r) :
    NodeLax P lo (k + 1) (Node.inner u cs) := by
  obtain ⟨h1, h2, h4⟩ := (NodeLax_inner P lo k r cs).mp h
  exact (NodeLax_inner P lo k u cs).mpr
    ⟨h1, h2, fun c hc => ⟨(h4 c hc).1, contains_trans hu (h4 c hc).2⟩⟩

theorem StepLax.widen [LinearOrder S] {P : Setup D S T} {mask : ReinsertMask}
    {base lo level : Nat} {u u' : Rect D S} {r : Step D S T}
    (h : StepLax P mask base lo level u r) (hu : contains u' u) :
    StepLax P mask base lo level u' r := by
  obtain ⟨h1, h2, h3⟩ := h
  refine ⟨contains_trans hu h1, fun hr => ?_, h3⟩
  obtain ⟨a, b, c, d⟩ := h2 hr
  exact ⟨a, b, c, contains_trans hu d⟩

theorem take_append_length {α : Type} (l : List α) (n : Nat) (x : α) (h : n ≤ l.length) :
    (l.take n ++ [x]).length = n + 1 := by
  rw [List.length_append, List.length_take, Nat.min_eq_left h]
  rfl

theorem splitLeaf_lax [LinearOrderedField S] (P : Setup D S T) (ha : P.cfg.staticAsserts)
    (hs : SortPerm P.sort) (mask : ReinsertMask) (bufs : Bufs D S T) (hb : bufs.reinserts = 0)
    (base : Nat) (hbase : base ≤ 0) (lo : Nat) (hlo : lo ≤ P.cfg.LeafMin) (u : Rect D S)
    (os : List T)
    (hlen : P.cfg.LeafSize ≤ os.length) (hcont : ∀ o ∈ os, contains u (P.rect o))
    (extra : T) (hex : contains u (P.rect extra)) :
    StepLax P mask base lo 0 u (splitLeaf P mask bufs (Node.leaf u os) extra) := by
  obtain ⟨⟨_, h1⟩, _, ⟨_, h2⟩, _, h4⟩ := ha
  have hall : ∀ o ∈ os.take P.cfg.LeafSize ++ [extra], contains u (P.rect o) := by
    intro o ho
    rcases List.mem_append.mp ho with h | h
    · exact hcont o (List.mem_of_mem_take h)
    · rw [List.mem_singleton.mp h]
      exact hex
  have hblen := take_append_length os P.cfg.LeafSize extra hlen
  unfold splitLeaf
  simp only [Node.objects_leaf]
  generalize os.take P.cfg.LeafSize ++ [extra] = buf at hall hblen
  cases hm : mask 0 with
  | false =>
    simp only [Bool.not_false, if_true, Node.rect]
    generalize hsorted : P.sort _ buf = sorted
    have hperm : sorted.Perm buf := by
      rw [← hsorted]
      exact hs _ _ _
    have hl : sorted.length = P.cfg.LeafSize + 1 := by
      rw [hperm.length_eq, hblen]
    refine ⟨contains_refl u, fun h => absurd Node.none_size h, fun _ => ⟨?_, ?_⟩⟩
    · rw [NodeLax_leaf]
      refine ⟨?_, ?_⟩
      · rw [List.length_drop, hl]
        omega
      · intro o ho
        exact hall o (hperm.subset (List.mem_of_mem_drop ho))
    · intro _
      exact ⟨hm, ⟨hbase, le_refl _⟩, fun h => absurd rfl h⟩
  | true =>
    simp only [Bool.not_true, Bool.false_eq_true, if_false, Node.rect]
    have hperm := computeSplit_perm P hs buf P.rect P.cfg.LeafMin
    have hbd := computeSplit_bounds P hs buf P.rect P.cfg.LeafMin (by rw [hblen]; omega)
    generalize computeSplit P buf P.rect P.cfg.LeafMin = sp at hperm hbd
    have hl : sp.1.length = P.cfg.LeafSize + 1 := by
      rw [hperm.length_eq, hblen]
    rw [hblen] at hbd
    obtain ⟨ra, ea, ca, ua⟩ := boundLeaf_leaf P.rect u (sp.1.drop sp.2)
    obtain ⟨rb, eb, cb, ub⟩ := boundLeaf_leaf P.rect (default : Rect D S) (sp.1.take sp.2)
    rw [ea, eb]
    have hd : (sp.1.drop sp.2).length = P.cfg.LeafSize + 1 - sp.2 := by
      rw [List.length_drop, hl]
    have ht : (sp.1.take sp.2).length = sp.2 := by
      rw [List.length_take, hl]
      omega
    have hda : ∀ o ∈ sp.1.drop sp.2, contains u (P.rect o) :=
      fun o ho => hall o (hperm.subset (List.mem_of_mem_drop ho))
    have hta : ∀ o ∈ sp.1.take sp.2, contains u (P.rect o) :=
      fun o ho => hall o (hperm.subset (List.mem_of_mem_take ho))
    have hdne : sp.1.drop sp.2 ≠ [] := by
      intro h
      rw [h] at hd
      simp at hd
      omega
    have htne : sp.1.take sp.2 ≠ [] := by
      intro h
      rw [h] at ht
      simp at ht
      omega
    refine ⟨ua u hda hdne, fun _ => ⟨hb, ?_, ?_, ub u hta htne⟩, fun h => ?_⟩
    · rw [NodeLax_leaf]
      exact ⟨by rw [hd]; simp [Config.minAt]; omega, ca⟩
    · rw [NodeLax_leaf]
      exact ⟨by rw [ht]; simp [Config.minAt]; omega, cb⟩
    · exfalso
      simp only [Node.size] at h
      omega

theorem splitInner_lax [LinearOrderedField S] (P : Setup D S T) (ha : P.cfg.staticAsserts)
    (hs : SortPerm P.sort) (mask : ReinsertMask) (bufs : Bufs D S T) (hb : bufs.reinserts = 0)
    (base lo k : Nat) (hbase : base ≤ k + 1) (hlo : lo ≤ P.cfg.InnerMin) (u : Rect D S)
    (cs : List (Node D S T)) (hlen : P.cfg.InnerSize ≤ cs.length)
    (hcs : ∀ c ∈ cs, NodeLax P (P.cfg.minAt k) k c ∧ contains u c.rect)
    (extra : Node D S T) (hex : NodeLax P (P.cfg.minAt k) k extra ∧ contains u extra.rect) :
    StepLax P mask base lo (k + 1) u (splitInner P mask bufs (Node.inner u cs) extra (k + 1)) := by
  obtain ⟨⟨h1, _⟩, ⟨_, h2⟩, _, h4, _⟩ := ha
  have hall : ∀ c ∈ cs.take P.cfg.InnerSize ++ [extra],
      NodeLax P (P.cfg.minAt k) k c ∧ contains u c.rect := by
    intro o ho
    rcases List.mem_append.mp ho with h | h
    · exact hcs o (List.mem_of_mem_take h)
    · rw [List.mem_singleton.mp h]
      exact hex
  have hblen := take_append_length cs P.cfg.InnerSize extra hlen
  unfold splitInner
  simp only [Node.children_inner]
  generalize cs.take P.cfg.InnerSize ++ [extra] = buf at hall hblen
  cases hm : mask (k + 1) with
  | false =>
    simp only [Bool.not_false, if_true, Node.rect]
    generalize hsorted : P.sort _ buf = sorted
    have hperm : sorted.Perm buf := by
      rw [← hsorted]
      exact hs _ _ _
    have hl : sorted.length = P.cfg.InnerSize + 1 := by
      rw [hperm.length_eq, hblen]
    refine ⟨contains_refl u, fun h => absurd Node.none_size h, fun _ => ⟨?_, ?_⟩⟩
    · rw [NodeLax_inner]
      refine ⟨?_, ?_, ?_⟩
      · rw [List.length_drop, hl]
        omega
      · rw [List.length_drop, hl]
        omega
      · intro o ho
        exact hall o (hperm.subset (List.mem_of_mem_drop ho))
    · intro _
      refine ⟨hm, ⟨hbase, le_refl _⟩, fun _ c hc => ?_⟩
      exact (hall c (hperm.subset (List.mem_of_mem_take hc))).1
  | true =>
    simp only [Bool.not_true, Bool.false_eq_true, if_false, Node.rect]
    have hperm := computeSplit_perm P hs buf Node.rect P.cfg.InnerMin
    have hbd := computeSplit_bounds P hs buf Node.rect P.cfg.InnerMin (by rw [hblen]; omega)
    generalize computeSplit P buf Node.rect P.cfg.InnerMin = sp at hperm hbd
    have hl : sp.1.length = P.cfg.InnerSize + 1 := by
      rw [hperm.length_eq, hblen]
    rw [hblen] at hbd
    obtain ⟨ra, ea, ca, ua⟩ := boundInner_inner u (sp.1.drop sp.2)
    obtain ⟨rb, eb, cb, ub⟩ := boundInner_inner (default : Rect D S) (sp.1.take sp.2)
    rw [ea, eb]
    have hd : (sp.1.drop sp.2).length = P.cfg.InnerSize + 1 - sp.2 := by
      rw [List.length_drop, hl]
    have ht : (sp.1.take sp.2).length = sp.2 := by
      rw [List.length_take, hl]
      omega
    have hda : ∀ o ∈ sp.1.drop sp.2, NodeLax P (P.cfg.minAt k) k o ∧ contains u o.rect :=
      fun o ho => hall o (hperm.subset (List.mem_of_mem_drop ho))
    have hta : ∀ o ∈ sp.1.take sp.2, NodeLax P (P.cfg.minAt k) k o ∧ contains u o.rect :=
      fun o ho => hall o (hperm.subset (List.mem_of_mem_take ho))
    have hdne : sp.1.drop sp.2 ≠ [] := by
      intro h
      rw [h] at hd
      simp at hd
      omega
    have htne : sp.1.take sp.2 ≠ [] := by
      intro h
      rw [h] at ht
      simp at ht
      omega
    refine ⟨ua u (fun o ho => (hda o ho).2) hdne,
      fun _ => ⟨hb, ?_, ?_, ub u (fun o ho => (hta o ho).2) htne⟩, fun h => ?_⟩
    · rw [NodeLax_inner]
      exact ⟨by rw [hd]; simp [Config.minAt]; omega, by rw [hd]; omega,
        fun c hc => ⟨(hda c hc).1, ca c hc⟩⟩
    · rw [NodeLax_inner]
      exact ⟨by rw [ht]; simp [Config.minAt]; omega, by rw [ht]; omega,
        fun c hc => ⟨(hta c hc).1, cb c hc⟩⟩
    · exfalso
      simp only [Node.size] at h
      omega

theorem afterChild_lax [LinearOrderedField S] (P : Setup D S T) (ha : P.cfg.staticAsserts)
    (hs : SortPerm P.sort) (mask : ReinsertMask) (base lo k : Nat) (hbase : base ≤ k + 1)
    (hlo : lo ≤ P.cfg.InnerMin) (u : Rect D S) (cs : List (Node D S T))
    (hn : NodeLax P lo (k + 1) (Node.inner u cs))
    (idx : Nat) (r : Step D S T) (hr : StepLax P mask base (P.cfg.minAt k) k u r) :
    StepLax P mask base lo (k + 1) u (afterChild P mask (Node.inner u cs) idx r (k + 1)) := by
  obtain ⟨hn1, hn2, hn4⟩ := (NodeLax_inner P lo k u cs).mp hn
  obtain ⟨hr1, hr2, hr3⟩ := hr
  have hset : ∀ c ∈ cs.set idx r.node, c = r.node ∨ c ∈ cs := fun c hc => by
    rcases List.mem_or_eq_of_mem_set hc with h | h
    · exact Or.inr h
    · exact Or.inl h
  have hlen : (cs.set idx r.node).length = cs.length := List.length_set _ _ _
  unfold afterChild
  simp only [Node.rect_inner, Node.children_inner, Node.size_inner]
  by_cases hret : r.ret.size = 0
  · -- the child did not split
    obtain ⟨c1, c3⟩ := hr3 hret
    have hkids : ∀ c ∈ cs.set idx r.node, NodeLax P (P.cfg.minAt k) k c ∧ contains u c.rect :=
      fun c hc => by
        rcases hset c hc with h | h
        · rw [h]
          exact ⟨c1, hr1⟩
        · exact hn4 c h
    have hne : cs.set idx r.node ≠ [] := by
      intro h
      rw [h] at hlen
      simp at hlen
      omega
    have hres : (if cs.length < P.cfg.InnerSize then
          if r.ret.size ≠ 0 then
            (⟨Node.inner u (cs.set idx r.node ++ [r.ret]), Node.none, r.bufs⟩ : Step D S T)
          else if r.bufs.reinserts ≠ 0 then
            ⟨boundInner (Node.inner u (cs.set idx r.node)), Node.none, r.bufs⟩
          else ⟨Node.inner u (cs.set idx r.node), Node.none, r.bufs⟩
        else if r.ret.size ≠ 0 then
          splitInner P mask r.bufs (Node.inner u (cs.set idx r.node)) r.ret (k + 1)
        else if r.bufs.reinserts ≠ 0 then
          ⟨boundInner (Node.inner u (cs.set idx r.node)), Node.none, r.bufs⟩
        else ⟨Node.inner u (cs.set idx r.node), Node.none, r.bufs⟩) =
        (if r.bufs.reinserts ≠ 0 then
          ⟨boundInner (Node.inner u (cs.set idx r.node)), Node.none, r.bufs⟩
        else ⟨Node.inner u (cs.set idx r.node), Node.none, r.bufs⟩) := by
      simp [hret]
    rw [hres]
    by_cases hre : r.bufs.reinserts = 0
    · simp only [hre, ne_eq, not_true_eq_false, if_false]
      refine ⟨contains_refl u, fun h => absurd Node.none_size h, fun _ => ⟨?_, ?_⟩⟩
      · rw [NodeLax_inner]
        exact ⟨by rw [hlen]; exact hn1, by rw [hlen]; exact hn2, hkids⟩
      · intro h
        exact absurd hre h
    · simp only [hre, ne_eq, not_false_eq_true, if_true]
      obtain ⟨r', e', ca, ua⟩ := boundInner_inner u (cs.set idx r.node)
      rw [e']
      obtain ⟨d1, d2, d3⟩ := c3 hre
      refine ⟨ua u (fun c hc => (hkids c hc).2) hne, fun h => absurd Node.none_size h,
        fun _ => ⟨?_, fun _ => ⟨d1, ⟨d2.1, Nat.le_succ_of_le d2.2⟩, d3⟩⟩⟩
      rw [NodeLax_inner]
      exact ⟨by rw [hlen]; exact hn1, by rw [hlen]; exact hn2,
        fun c hc => ⟨(hkids c hc).1, ca c hc⟩⟩
  · -- the child split
    obtain ⟨c1, c2, c3, c4⟩ := hr2 hret
    have hkids : ∀ c ∈ cs.set idx r.node, NodeLax P (P.cfg.minAt k) k c ∧ contains u c.rect :=
      fun c hc => by
        rcases hset c hc with h | h
        · rw [h]
          exact ⟨c2, hr1⟩
        · exact hn4 c h
    by_cases hsz : cs.length < P.cfg.InnerSize
    · simp only [hsz, if_true, hret, ne_eq, not_false_eq_true]
      refine ⟨contains_refl u, fun h => absurd Node.none_size h, fun _ => ⟨?_, ?_⟩⟩
      · rw [NodeLax_inner]
        refine ⟨?_, ?_, ?_⟩
        · rw [List.length_append, hlen]
          omega
        · rw [List.length_append, hlen]
          omega
        · intro c hc
          rcases List.mem_append.mp hc with h | h
          · exact hkids c h
          · rw [List.mem_singleton.mp h]
            exact ⟨c3, c4⟩
      · intro h
        exact absurd c1 h
    · simp only [hsz, if_false, hret, ne_eq, not_false_eq_true, if_true]
      exact splitInner_lax P ha hs mask r.bufs c1 base lo k hbase hlo u (cs.set idx r.node)
        (by rw [hlen]; omega) hkids r.ret ⟨c3, c4⟩

theorem insertElement_lax [LinearOrderedField S] (P : Setup D S T) (ha : P.cfg.staticAsserts)
    (hs : SortPerm P.sort) (mask : ReinsertMask) (obj : T) (level : Nat) :
    ∀ (lo : Nat) (node : Node D S T) (bufs : Bufs D S T), bufs.reinserts = 0 →
      lo ≤ P.cfg.minAt level → NodeLax P lo level node →
      StepLax P mask 0 lo level (union_ node.rect (P.rect obj))
        (insertElement P mask obj (P.rect obj) level node bufs) := by
  induction level with
  | zero =>
    intro lo node bufs hb hlo hn
    obtain ⟨r, os, rfl, h1, h3⟩ := hn
    simp only [insertElement, Node.setRect, Node.rect_leaf, Node.size_leaf, Node.objects_leaf]
    have hcont : ∀ o ∈ os, contains (union_ r (P.rect obj)) (P.rect o) :=
      fun o ho => contains_trans (contains_union_left _ _) (h3 o ho)
    by_cases hsz : os.length < P.cfg.LeafSize
    · simp only [hsz, if_true]
      refine ⟨contains_refl _, fun h => absurd Node.none_size h, fun _ => ⟨?_, ?_⟩⟩
      · rw [NodeLax_leaf]
        refine ⟨?_, ?_⟩
        · rw [List.length_append]
          omega
        · intro o ho
          rcases List.mem_append.mp ho with h | h
          · exact hcont o h
          · rw [List.mem_singleton.mp h]
            exact contains_union_right _ _
      · intro h
        exact absurd hb h
    · simp only [hsz, if_false]
      exact splitLeaf_lax P ha hs mask bufs hb 0 (le_refl _) lo hlo _ os (by omega) hcont obj
        (contains_union_right _ _)
  | succ k ih =>
    intro lo node bufs hb hlo hn
    obtain ⟨r, cs, rfl, h1, h2, h4⟩ := hn
    rw [insertElement_succ]
    simp only [Node.setRect, Node.rect_inner, Node.children_inner]
    have hn' : NodeLax P lo (k + 1) (Node.inner (union_ r (P.rect obj)) cs) :=
      NodeLax_inner_widen ((NodeLax_inner P lo k r cs).mpr ⟨h1, h2, h4⟩)
        (contains_union_left _ _)
    generalize hidx : (if k + 1 > 1 then
        chooseInner (Node.inner (union_ r (P.rect obj)) cs) (P.rect obj)
      else chooseLeaf (Node.inner (union_ r (P.rect obj)) cs) (P.rect obj)) = idx
    have hlt : idx < cs.length := by
      rw [← hidx]
      have := chooseInner_lt (Node.inner (union_ r (P.rect obj)) cs) (P.rect obj) h2
      simp only [Node.children_inner] at this
      split
      · exact this
      · exact this
    have hmem := getD_mem Node.none cs idx hlt
    have hchild := ih (P.cfg.minAt k) (cs.getD idx Node.none) bufs hb (le_refl _) (h4 _ hmem).1
    exact afterChild_lax P ha hs mask 0 lo k (Nat.zero_le _) hlo _ cs hn' idx _
      (hchild.widen (contains_union_of
        (contains_trans (contains_union_left _ _) (h4 _ hmem).2) (contains_union_right _ _)))

theorem insertSubtree_lax [LinearOrderedField S] (P : Setup D S T) (ha : P.cfg.staticAsserts)
    (hs : SortPerm P.sort) (mask : ReinsertMask) (ins : Node D S T) (insLevel : Nat)
    (hpos : 1 ≤ insLevel)
    (hins : NodeLax P (P.cfg.minAt (insLevel - 1)) (insLevel - 1) ins) (level : Nat) :
    ∀ (lo : Nat) (node : Node D S T) (bufs : Bufs D S T), bufs.reinserts = 0 →
      lo ≤ P.cfg.minAt level → insLevel ≤ level → NodeLax P lo level node →
      StepLax P mask insLevel lo level (union_ node.rect ins.rect)
        (insertSubtree P mask ins insLevel level node bufs) := by
  induction level with
  | zero =>
    intro lo node bufs _ _ hle _
    omega
  | succ k ih =>
    intro lo node bufs hb hlo hle hn
    obtain ⟨r, cs, rfl, h1, h2, h4⟩ := hn
    have hn' : NodeLax P lo (k + 1) (Node.inner (union_ r ins.rect) cs) :=
      NodeLax_inner_widen ((NodeLax_inner P lo k r cs).mpr ⟨h1, h2, h4⟩)
        (contains_union_left _ _)
    by_cases hbase : k + 1 ≤ insLevel
    · have he : insLevel = k + 1 := by omega
      subst he
      simp only [Nat.add_sub_cancel] at hins ⊢
      simp only [insertSubtree, le_refl, if_true, Node.setRect, Node.rect_inner,
        Node.size_inner, Node.children_inner]
      have hcs : ∀ c ∈ cs, NodeLax P (P.cfg.minAt k) k c ∧ contains (union_ r ins.rect) c.rect :=
        fun c hc => ⟨(h4 c hc).1, contains_trans (contains_union_left _ _) (h4 c hc).2⟩
      by_cases hsz : cs.length < P.cfg.InnerSize
      · simp only [hsz, if_true]
        refine ⟨contains_refl _, fun h => absurd Node.none_size h, fun _ => ⟨?_, ?_⟩⟩
        · rw [NodeLax_inner]
          refine ⟨?_, ?_, ?_⟩
          · rw [List.length_append]
            omega
          · rw [List.length_append]
            omega
          · intro c hc
            rcases List.mem_append.mp hc with h | h
            · exact hcs c h
            · rw [List.mem_singleton.mp h]
              exact ⟨hins, contains_union_right _ _⟩
        · intro h
          exact absurd hb h
      · simp only [hsz, if_false]
        exact splitInner_lax P ha hs mask bufs hb (k + 1) lo k (le_refl _) hlo _ cs (by omega)
          hcs ins ⟨hins, contains_union_right _ _⟩
    · rw [insertSubtree_succ P mask ins insLevel k _ bufs hbase]
      simp only [Node.setRect, Node.rect_inner, Node.children_inner]
      generalize hidx : chooseInner (Node.inner (union_ r ins.rect) cs) ins.rect = idx
      have hlt : idx < cs.length := by
        rw [← hidx]
        have := chooseInner_lt (Node.inner (union_ r ins.rect) cs) ins.rect h2
        simp only [Node.children_inner] at this
        exact this
      have hmem := getD_mem Node.none cs idx hlt
      have hchild := ih (P.cfg.minAt k) (cs.getD idx Node.none) bufs hb (le_refl _) (by omega)
        (h4 _ hmem).1
      exact afterChild_lax P ha hs mask insLevel lo k hle hlo _ cs hn' idx _
        (hchild.widen (contains_union_of
          (contains_trans (contains_union_left _ _) (h4 _ hmem).2) (contains_union_right _ _)))

theorem splitRoot_lax [LinearOrder S] (P : Setup D S T) (d : Nat)
    (hd : d ≤ max_depth) (node split : Node D S T)
    (hn : NodeLax P (P.cfg.minAt d) d node) (hsp : NodeLax P (P.cfg.minAt d) d split) :
    splitRoot ⟨d, node⟩ split = Except.error Err.lengthError ∨
    ∃ t, splitRoot ⟨d, node⟩ split = Except.ok t ∧ TreeLax P t ∧ t.mDepth = d + 1 := by
  unfold splitRoot
  by_cases h : d = max_depth
  · left
    simp [h]
  · right
    simp only [h, if_false]
    obtain ⟨r', e', ca, _⟩ := boundInner_inner node.rect [node, split]
    refine ⟨_, rfl, ⟨?_, ?_⟩, rfl⟩
    · show d + 1 ≤ max_depth
      omega
    · show NodeLax P 0 (d + 1) (boundInner (Node.inner node.rect [node, split]))
      rw [e', NodeLax_inner]
      refine ⟨Nat.zero_le _, by simp, ?_⟩
      intro c hc
      refine ⟨?_, ca c hc⟩
      simp only [List.mem_cons, List.mem_singleton, List.not_mem_nil, or_false] at hc
      rcases hc with h | h
      · rw [h]; exact hn
      · rw [h]; exact hsp

theorem GrownLax.trans_lax [LinearOrder S] {P : Setup D S T} {t : Tree D S T}
    {m : ReinsertMask} {r1 r2 : Tree D S T × ReinsertMask} (h1 : GrownLax P t m r1)
    (h2 : GrownLax P r1.1 r1.2 r2) : GrownLax P t m r2 := by
  obtain ⟨_, c1, d1⟩ := h1
  obtain ⟨a2, c2, d2⟩ := h2
  exact ⟨a2, fun l hl => c2 l (c1 l hl), le_trans d1 d2⟩

theorem GrownLax.refl_lax [LinearOrder S] {P : Setup D S T} {t : Tree D S T} {m : ReinsertMask}
    (h : TreeLax P t) : GrownLax P t m (t, m) :=
  ⟨h, fun _ hl => hl, le_refl _⟩

/-- A loop whose rounds each keep the invariant `TreeLax` keeps it as a whole, unless a
round throws the length error. -/
theorem forEachM_grownLax [LinearOrder S] {α σ : Type} (P : Setup D S T)
    (f : α → σ → Except Err σ) (pt : σ → Tree D S T) (pm : σ → ReinsertMask) (inv : σ → Prop)
    (bound lvl : Nat) (l : List α)
    (hf : ∀ a ∈ l, ∀ s, TreeLax P (pt s) → inv s → unsetBits (pm s) ≤ bound →
      lvl ≤ (pt s).mDepth →
      f a s = Except.error Err.lengthError ∨
      ∃ s', f a s = Except.ok s' ∧ GrownLax P (pt s) (pm s) (pt s', pm s') ∧ inv s') :
    ∀ s, TreeLax P (pt s) → inv s → unsetBits (pm s) ≤ bound → lvl ≤ (pt s).mDepth →
      forEachM f l s = Except.error Err.lengthError ∨
      ∃ s', forEachM f l s = Except.ok s' ∧
        GrownLax P (pt s) (pm s) (pt s', pm s') ∧ inv s' := by
  induction l with
  | nil =>
    intro s hs hi _ _
    right
    exact ⟨s, rfl, GrownLax.refl_lax hs, hi⟩
  | cons a as ih =>
    intro s hs hi hb hl
    rcases hf a (List.mem_cons_self a as) s hs hi hb hl with h | ⟨s1, h1, g1, i1⟩
    · left
      simp only [forEachM, h]
    · simp only [forEachM, h1]
      have hb1 : unsetBits (pm s1) ≤ bound := le_trans (unsetBits_mono g1.2.1) hb
      rcases ih (fun a' ha' => hf a' (List.mem_cons_of_mem a ha')) s1 g1.1 i1 hb1
        (le_trans hl g1.2.2) with h | ⟨s2, h2, g2, i2⟩
      · left
        exact h
      · right
        exact ⟨s2, h2, GrownLax.trans_lax g1 g2, i2⟩

theorem reinsertRound_lax [LinearOrderedField S] (P : Setup D S T) (ha : P.cfg.staticAsserts)
    (hs : SortPerm P.sort) (bound : Nat)
    (nested : Bufs D S T → Tree D S T × ReinsertMask → Except Err (Tree D S T × ReinsertMask))
    (hnested : NestedLax P bound nested) (rl : Nat) (hrl : 1 ≤ rl) (child : Node D S T)
    (hchild : NodeLax P (P.cfg.minAt (rl - 1)) (rl - 1) child) (w : Work D S T)
    (hw : TreeLax P w.tree) (hb : w.bufs.reinserts = 0) (hm : unsetBits w.mask ≤ bound)
    (hl : rl ≤ w.tree.mDepth) :
    reinsertRound P nested rl child w = Except.error Err.lengthError ∨
    ∃ w', reinsertRound P nested rl child w = Except.ok w' ∧
      GrownLax P w.tree w.mask (w'.tree, w'.mask) ∧ w'.bufs.reinserts = 0 := by
  have hstep := insertSubtree_lax P ha hs w.mask child rl hrl hchild w.tree.mDepth 0
    w.tree.mRoot w.bufs hb (Nat.zero_le _) hl hw.2
  obtain ⟨s1, s2, s3⟩ := hstep
  unfold reinsertRound
  generalize insertSubtree P w.mask child rl w.tree.mDepth w.tree.mRoot w.bufs = r at s1 s2 s3
  by_cases hret : r.ret.size = 0
  · obtain ⟨c1, c3⟩ := s3 hret
    by_cases hre : r.bufs.reinserts = 0
    · right
      simp only [hret, hre, ne_eq, not_true_eq_false, if_false]
      exact ⟨_, rfl, ⟨⟨hw.1, c1⟩, fun _ h => h, le_refl _⟩, hre⟩
    · obtain ⟨d1, d2, d3⟩ := c3 hre
      simp only [hret, hre, ne_eq, not_true_eq_false, if_false, not_false_eq_true, if_true]
      have hpos : 1 ≤ r.bufs.reinsertLevel := le_trans hrl d2.1
      have hlt : unsetBits (w.mask.set r.bufs.reinsertLevel) < bound :=
        lt_of_lt_of_le (unsetBits_set d1 (le_trans d2.2 hw.1)) hm
      rcases hnested r.bufs ⟨w.tree.mDepth, r.node⟩ (w.mask.set r.bufs.reinsertLevel)
        ⟨hw.1, c1⟩ hpos d2.2 (d3 (by omega)) hlt with h | ⟨res, h, g1, g3, g4⟩
      · left
        simp only [h]
      · right
        simp only [h]
        exact ⟨_, rfl, ⟨g1, fun l hl' => g3 l (ReinsertMask.set_le _ _ l hl'), g4⟩, rfl⟩
  · obtain ⟨c1, c2, c3, _⟩ := s2 hret
    simp only [hret, ne_eq, not_false_eq_true, if_true]
    rcases splitRoot_lax P w.tree.mDepth hw.1 r.node r.ret c2 c3 with h | ⟨t, h, t1, t2⟩
    · left
      simp only [h]
    · right
      simp only [h]
      refine ⟨_, rfl, ⟨t1, fun _ h => h, ?_⟩, c1⟩
      show w.tree.mDepth ≤ t.mDepth
      omega

theorem reinsertInner_lax [LinearOrderedField S] (P : Setup D S T) (ha : P.cfg.staticAsserts)
    (hs : SortPerm P.sort) (fuel : Nat) : NestedLax P fuel (reinsertInner P fuel) := by
  induction fuel with
  | zero =>
    intro parent t mask _ _ _ _ h
    omega
  | succ n ih =>
    intro parent t mask ht hpos hle hev hbits
    simp only [reinsertInner]
    have hloop := forEachM_grownLax P
      (reinsertRound P (reinsertInner P n) parent.reinsertLevel)
      (fun w => w.tree) (fun w => w.mask) (fun w => w.bufs.reinserts = 0)
      n parent.reinsertLevel (parent.children.take parent.reinserts)
      (fun a ha' s h1 h2 h3 h4 =>
        reinsertRound_lax P ha hs n (reinsertInner P n) ih parent.reinsertLevel hpos a
          (hev a ha') s h1 h2 h3 h4)
      ⟨t, mask, Bufs.init⟩ ht rfl (Nat.le_of_lt_succ hbits) hle
    rcases hloop with h | ⟨w', h, g, _⟩
    · left
      simp only [h]
    · right
      simp only [h]
      exact ⟨_, rfl, g⟩

theorem TreeLax.root_lax [LinearOrder S] {P : Setup D S T} {t : Tree D S T}
    (h : TreeLax P t) (obj : T) :
    NodeLax P 0 t.mDepth (if t.mRoot.size = 0 then Node.leaf (P.rect obj) [] else t.mRoot) := by
  by_cases hz : t.mRoot.size = 0
  · rw [if_pos hz]
    obtain ⟨hd, hn⟩ := h
    cases hdepth : t.mDepth with
    | zero =>
      exact (NodeLax_leaf P 0 _ _).mpr ⟨le_refl _, fun o ho => by cases ho⟩
    | succ k =>
      exfalso
      rw [hdepth] at hn
      obtain ⟨r, cs, hr, _, h1, _⟩ := hn
      rw [hr, Node.size_inner] at hz
      omega
  · rw [if_neg hz]
    exact h.2

theorem insertLeaf_lax [LinearOrderedField S] (P : Setup D S T) (ha : P.cfg.staticAsserts)
    (hs : SortPerm P.sort) (fuel : Nat) :
    ∀ (t : Tree D S T) (obj : T) (mask : ReinsertMask), TreeLax P t → unsetBits mask < fuel →
      insertLeaf P fuel t obj mask = Except.error Err.lengthError ∨
      ∃ res, insertLeaf P fuel t obj mask = Except.ok res ∧ GrownLax P t mask res := by
  induction fuel with
  | zero =>
    intro t obj mask _ h
    omega
  | succ n ih =>
    intro t obj mask ht hbits
    have hroot := ht.root_lax obj
    simp only [insertLeaf]
    generalize (if t.mRoot.size = 0 then Node.leaf (P.rect obj) [] else t.mRoot) = root
      at hroot
    obtain ⟨s1, s2, s3⟩ := insertElement_lax P ha hs mask obj t.mDepth 0 root Bufs.init rfl
      (Nat.zero_le _) hroot
    generalize insertElement P mask obj (P.rect obj) t.mDepth root Bufs.init = r at s1 s2 s3
    by_cases hret : r.ret.size = 0
    · obtain ⟨c1, c3⟩ := s3 hret
      by_cases hre : r.bufs.reinserts = 0
      · right
        simp only [hret, hre, ne_eq, not_true_eq_false, if_false]
        exact ⟨_, rfl, ⟨ht.1, c1⟩, fun _ h => h, le_refl _⟩
      · obtain ⟨d1, d2, d3⟩ := c3 hre
        simp only [hret, hre, ne_eq, not_true_eq_false, if_false, not_false_eq_true, if_true]
        have hlt : unsetBits (mask.set r.bufs.reinsertLevel) < n := by
          have := unsetBits_set d1 (le_trans d2.2 ht.1)
          omega
        have hup : ∀ (res : Tree D S T × ReinsertMask),
            GrownLax P ⟨t.mDepth, r.node⟩ (mask.set r.bufs.reinsertLevel) res →
              GrownLax P t mask res := by
          rintro res ⟨g1, g3, g4⟩
          exact ⟨g1, fun l hl' => g3 l (ReinsertMask.set_le _ _ l hl'), g4⟩
        by_cases hlev : r.bufs.reinsertLevel = 0
        · simp only [hlev, if_true]
          have hloop := forEachM_grownLax P
            (fun (x : T) (st : Tree D S T × ReinsertMask) => insertLeaf P n st.1 x st.2)
            (fun st => st.1) (fun st => st.2) (fun _ => True) (n - 1) 0
            (r.bufs.objects.take r.bufs.reinserts)
            (fun a _ s h1 _ h3 _ => by
              rcases ih s.1 a s.2 h1 (by simp only at h3; omega) with h | ⟨res, h, g⟩
              · exact Or.inl h
              · exact Or.inr ⟨res, h, g, trivial⟩)
            (⟨t.mDepth, r.node⟩, mask.set 0) ⟨ht.1, c1⟩ trivial
            (by rw [hlev] at hlt; simp only; omega) (Nat.zero_le _)
          rcases hloop with h | ⟨res, h, g, _⟩
          · exact Or.inl h
          · right
            refine ⟨res, h, hup res ?_⟩
            rw [hlev]
            exact g
        · simp only [hlev, if_false]
          rcases reinsertInner_lax P ha hs n r.bufs ⟨t.mDepth, r.node⟩
            (mask.set r.bufs.reinsertLevel) ⟨ht.1, c1⟩ (by omega) d2.2 (d3 hlev)
            hlt with h | ⟨res, h, g⟩
          · exact Or.inl h
          · exact Or.inr ⟨res, h, hup res g⟩
    · obtain ⟨c1, c2, c3, _⟩ := s2 hret
      simp only [hret, ne_eq, not_false_eq_true, if_true]
      rcases splitRoot_lax P t.mDepth ht.1 r.node r.ret c2 c3 with h | ⟨t', h, t1, t2⟩
      · left
        simp only [h]
      · right
        simp only [h]
        refine ⟨_, rfl, t1, fun _ h => h, ?_⟩
        show t.mDepth ≤ t'.mDepth
        omega

theorem insert_lax [LinearOrderedField S] (P : Setup D S T) (ha : P.cfg.staticAsserts)
    (hs : SortPerm P.sort) (t : Tree D S T) (obj : T) (ht : TreeLax P t) :
    insert P t obj = Except.error Err.lengthError ∨
    ∃ t', insert P t obj = Except.ok t' ∧ TreeLax P t' ∧ t.mDepth ≤ t'.mDepth := by
  unfold insert
  rcases insertLeaf_lax P ha hs (max_depth + 2) t obj ReinsertMask.zero ht
    (by rw [unsetBits_zero]; omega) with h | ⟨res, h, g1, _, g4⟩
  · left
    simp only [h]
  · right
    simp only [h]
    exact ⟨_, rfl, g1, g4⟩

/-- The margin loop of the source computes the running sum over the group sizes
`minSize + 1` to `Size - 1 - minSize`. -/
theorem marginSum_running [LinearOrder S] [Zero S] [Add S] [Sub S] (getRect : E → Rect D S)
    (buf : List E) (minSize : Nat) (hm : 1 ≤ minSize) (hlen : 2 * minSize + 1 < buf.length) :
    marginSum getRect buf minSize =
      runningMarginSum getRect buf (minSize + 1) (buf.length - 1 - minSize) := by
  unfold marginSum runningMarginSum
  have := forLoop_induction
    (fun j (st : Rect D S × Rect D S × S) =>
      st.1 = groupBox getRect (buf.take j) ∧
      st.2.1 = groupBox getRect (buf.drop (buf.length - j)) ∧
      st.2.2 = (List.range' (minSize + 1) (j - minSize)).foldl
        (fun s k => s + (margin (groupBox getRect (buf.take k)) +
          margin (groupBox getRect (buf.drop (buf.length - k))))) 0)
    (marginStep getRect buf minSize) 1 (buf.length - 1 - minSize)
    (rectAt getRect buf 0, rectAt getRect buf (buf.length - 1), 0)
    ⟨by
      cases buf with
      | nil => simp at hlen
      | cons e es => simp [rectAt, groupBox, unionAll],
     by
      rw [rectAt_eq getRect buf (buf.length - 1) (by omega),
        List.drop_eq_getElem_cons (by omega)]
      have e : buf.length - 1 + 1 = buf.length := by omega
      rw [e, List.drop_length]
      rfl,
     by
      have e : 1 - minSize = 0 := by omega
      rw [e]
      rfl⟩
    (fun i st h1 h2 hinv => by
      obtain ⟨a1, a2, a3⟩ := hinv
      have e1 : union_ st.1 (rectAt getRect buf i) = groupBox getRect (buf.take (i + 1)) := by
        rw [groupBox_take_succ getRect buf i h1 (by omega), a1]
      have e2 : union_ st.2.1 (rectAt getRect buf (buf.length - 1 - i)) =
          groupBox getRect (buf.drop (buf.length - (i + 1))) := by
        have e : buf.length - (i + 1) = buf.length - 1 - i := by omega
        rw [e, groupBox_drop_pred getRect buf (buf.length - 1 - i) (by omega), a2]
        have e' : buf.length - 1 - i + 1 = buf.length - i := by omega
        rw [e']
      unfold marginStep
      dsimp only
      rw [e1, e2]
      refine ⟨rfl, rfl, ?_⟩
      by_cases hmi : minSize ≤ i
      · rw [if_pos hmi, a3]
        have e : i + 1 - minSize = (i - minSize) + 1 := by omega
        rw [e, List.range'_concat, List.foldl_append]
        simp only [List.foldl_cons, List.foldl_nil, mul_one, one_mul]
        have e3 : minSize + 1 + (i - minSize) = i + 1 := by omega
        rw [e3]
      · rw [if_neg hmi, a3]
        have e : i + 1 - minSize = 0 := by omega
        have e' : i - minSize = 0 := by omega
        rw [e, e'])
    (by omega)
  rw [this.2.2]
  have e : buf.length - 1 - minSize + 1 - (minSize + 1) = buf.length - 1 - minSize - minSize := by
    omega
  rw [e]

/-- With exact scalars the running sum over the group sizes `minSize + 1` to
`Size - 1 - minSize` is the sum over the two-way groupings at these `k`: the last `k`
entries of one grouping are the second group of the grouping at `Size - k`. -/
theorem runningMarginSum_exact [LinearOrderedField S] (getRect : E → Rect D S)
    (buf : List E) (minSize : Nat) (hm : 1 ≤ minSize) (hlen : 2 * minSize + 1 < buf.length) :
    runningMarginSum getRect buf (minSize + 1) (buf.length - 1 - minSize) =
      groupingMarginSum getRect buf (minSize + 1) (buf.length - 1 - minSize) := by
  rw [← marginSum_running getRect buf minSize hm hlen, marginSum_eq getRect buf minSize hm hlen]

end RStar

/-! ## The claims -/

namespace RStar

variable {D : Nat} {S T : Type} {σ : Type}

/-- Round trip for reinsert counts of at least 1: for a valid configuration and any
sorting routine, if inserting the items `ys`, a rearrangement of `xs`, one by one into an
empty tree never raises the length error, then the insertion returns a tree, and a
traversal of that tree whose `checkFn` and `visitFn` always return true passes to
`visitFn` exactly the items of `xs`, each as often as it was inserted. -/
theorem roundtrip_of_valid [LinearOrderedField S] (P : Setup D S T) (hv : P.cfg.Valid)
    (hs : SortPerm P.sort) (xs ys : List T) (hperm : ys.Perm xs)
    (hok : insertAll P Tree.empty ys ≠ Except.error Err.lengthError)
    (v : Visitor σ D S T) (s : σ) (hcheck : ∀ r l s, (v.check r l s).1 = true)
    (hvisit : ∀ x s, (v.visit x s).1 = true) :
    ∃ t, insertAll P Tree.empty ys = Except.ok t ∧
      ((visitLog t v s).filterMap Event.item).Perm xs := by
  rcases insertAll_ok P hv hs ys Tree.empty (TreeOK.empty P) with h | ⟨t, h, _, h2⟩
  · exact absurd h hok
  · refine ⟨t, h, ?_⟩
    rw [visitLog_items t v (fun _ _ => true) s hcheck hvisit, prunedItems_true]
    exact h2.trans hperm

/-- C1, the code at a failing input: the sizes `zeroReinsert` (capacity 4, minimum fill
1, leaf reinsert count 0) pass the static assertions; inserting the six boxes of
`sixBoxes` into an empty tree succeeds, and the traversal that accepts everything passes
five boxes to `visitFn`: the inserted box 57 to 59 is missing.  With the reinsert count 1
(`smallSetup`) the same six boxes come back, and in general the round trip holds for
every configuration whose reinsert counts are at least 1. -/
theorem roundtrip_loses_item [LinearOrderedField S] :
    (Config.staticAsserts zeroReinsert.cfg ∧
      (∃ t, insertAll zeroReinsert Tree.empty sixBoxes = Except.ok t ∧
        (visitLog t acceptAll 0).filterMap Event.item =
          [interval 1 2, interval 96 98, interval 4 5, interval 19 24, interval 56 73] ∧
        interval 57 59 ∈ sixBoxes ∧
        interval 57 59 ∉ (visitLog t acceptAll 0).filterMap Event.item) ∧
      ∃ t, insertAll smallSetup Tree.empty sixBoxes = Except.ok t ∧
        ((visitLog t acceptAll 0).filterMap Event.item).Perm sixBoxes) ∧
    ∀ (P : Setup D S T) (xs ys : List T) (v : Visitor σ D S T) (s : σ), P.cfg.Valid →
      SortPerm P.sort → ys.Perm xs →
      insertAll P Tree.empty ys ≠ Except.error Err.lengthError →
      (∀ r l s, (v.check r l s).1 = true) → (∀ x s, (v.visit x s).1 = true) →
      ∃ t, insertAll P Tree.empty ys = Except.ok t ∧
        ((visitLog t v s).filterMap Event.item).Perm xs := by
  refine ⟨⟨by decide, ⟨_, eq_ok_of_isOk Tree.empty _ (by decide!), by decide!, by decide!, by decide!⟩,
    ?_⟩, ?_⟩
  · exact roundtrip_of_valid smallSetup (by decide) insertionSort_perm sixBoxes sixBoxes
      (List.Perm.refl _) (ne_error_of_isOk _ _ (by decide!)) acceptAll 0 (fun _ _ _ => rfl)
      (fun _ _ => rfl)
  · intro P xs ys v s hv hs hperm hok hcheck hvisit
    exact roundtrip_of_valid P hv hs xs ys hperm hok v s hcheck hvisit

/-- Query completeness for reinsert counts of at least 1: in a tree built by successful
inserts under a valid configuration, for a stateless check `c` that is monotone under
rectangle containment at every level, and callbacks whose `checkFn` answers `c` and whose
`visitFn` returns true, the traversal passes to `visitFn` every inserted item whose own
rectangle satisfies the check at the levels of the tree. -/
theorem visit_complete_of_valid [LinearOrderedField S] (P : Setup D S T) (hv : P.cfg.Valid)
    (hs : SortPerm P.sort) (xs : List T) (t : Tree D S T)
    (hins : insertAll P Tree.empty xs = Except.ok t) (c : Rect D S → Nat → Bool)
    (hmono : ∀ a b l, contains b a → c a l = true → c b l = true)
    (v : Visitor σ D S T) (s : σ) (hcheck : ∀ r l s, (v.check r l s).1 = c r l)
    (hvisit : ∀ x s, (v.visit x s).1 = true) (x : T) (hx : x ∈ xs)
    (hc : ∀ l, l ≤ t.mDepth → c (P.rect x) l = true) :
    x ∈ (visitLog t v s).filterMap Event.item := by
  obtain ⟨h1, h2⟩ := built_ok P hv hs xs t hins
  rw [visitLog_items t v c s hcheck hvisit]
  exact mem_prunedItems P c hmono x t.mDepth 0 t.mRoot h1.2 (h2.mem_iff.mpr hx) hc

/-- C2, the code at a failing input: with the sizes `zeroReinsert` (leaf reinsert count
0, accepted by the static assertions) and the six boxes of `sixBoxes`, the traversal for
the query box 57 to 58 is passed five boxes, but not the inserted box 57 to 59, whose
rectangle intersects the query.  For every configuration whose reinsert counts are at
least 1 the traversal passes every inserted item that satisfies a monotone check. -/
theorem visit_misses_item [LinearOrderedField S] :
    (Config.staticAsserts zeroReinsert.cfg ∧
      ∃ t, insertAll zeroReinsert Tree.empty sixBoxes = Except.ok t ∧
        interval 57 59 ∈ sixBoxes ∧
        intersects (interval 57 58) (zeroReinsert.rect (interval 57 59)) = true ∧
        (∀ (r : Rect 1 ℚ) (l s : Nat),
          (nearFiftySeven.check r l s).1 = intersects (interval 57 58) r) ∧
        (visitLog t nearFiftySeven 0).filterMap Event.item =
          [interval 1 2, interval 96 98, interval 4 5, interval 19 24, interval 56 73] ∧
        interval 57 59 ∉ (visitLog t nearFiftySeven 0).filterMap Event.item) ∧
    ∀ (P : Setup D S T) (xs : List T) (t : Tree D S T) (c : Rect D S → Nat → Bool)
      (v : Visitor σ D S T) (s : σ) (x : T), P.cfg.Valid → SortPerm P.sort →
      insertAll P Tree.empty xs = Except.ok t →
      (∀ a b l, contains b a → c a l = true → c b l = true) →
      (∀ r l s, (v.check r l s).1 = c r l) → (∀ x s, (v.visit x s).1 = true) → x ∈ xs →
      (∀ l, l ≤ t.mDepth → c (P.rect x) l = true) →
      x ∈ (visitLog t v s).filterMap Event.item := by
  refine ⟨⟨by decide, _, eq_ok_of_isOk Tree.empty _ (by decide!), by decide!, by decide!,
    fun _ _ _ => rfl, by decide!, by decide!⟩, ?_⟩
  intro P xs t c v s x hv hs hins hmono hcheck hvisit hx hc
  exact visit_complete_of_valid P hv hs xs t hins c hmono v s hcheck hvisit x hx hc

/-- C3, refuted as stated: after inserting the boxes 0 to 1 and 10 to 11 (default sizes),
a traversal for the query box 10 to 11 with a `visitFn` that records every item it is
passed records both boxes, although only the second one intersects the query box. -/
theorem range_query_records_disjoint_item :
    ∃ t, insertAll defaultSetup Tree.empty [interval 0 1, interval 10 11] = Except.ok t ∧
      collect t (fun r _ => intersects (interval 10 11) r) = [interval 0 1, interval 10 11] ∧
      [interval 0 1, interval 10 11].filter
        (fun x => intersects (interval 10 11) (defaultSetup.rect x)) = [interval 10 11] :=
  ⟨_, eq_ok_of_isOk Tree.empty _ (by decide!), by decide!, by decide!⟩

/-- C3 (amended, range query): for a valid configuration (reinsert counts of at least 1
on both kinds of node), in a tree built by successful inserts of `xs`, the traversal
with `checkFn(r, level) = intersects(Q, r)` and a recording `visitFn` is passed every
inserted item whose own rectangle intersects `Q`, and the recorded items that
themselves intersect `Q` are exactly the inserted items that intersect `Q`, each as often
as it was inserted: the brute-force result. -/
theorem range_query_filtered [LinearOrderedField S] (P : Setup D S T) (hv : P.cfg.Valid)
    (hs : SortPerm P.sort) (xs : List T) (t : Tree D S T)
    (hins : insertAll P Tree.empty xs = Except.ok t) (q : Rect D S) :
    (∀ x ∈ xs, intersects q (P.rect x) = true → x ∈ collect t (fun r _ => intersects q r)) ∧
    ((collect t (fun r _ => intersects q r)).filter (fun x => intersects q (P.rect x))).Perm
      (xs.filter (fun x => intersects q (P.rect x))) := by
  obtain ⟨h1, h2⟩ := built_ok P hv hs xs t hins
  constructor
  · intro x hx hq
    rw [collect_eq_prunedItems]
    exact mem_prunedItems P _ (fun _ _ _ ha hb => intersects_mono ha hb) x t.mDepth 0 t.mRoot
      h1.2 (h2.mem_iff.mpr hx) (fun _ _ => hq)
  · rw [collect_eq_prunedItems,
      filter_prunedItems P (fun r _ => intersects q r) (fun x => intersects q (P.rect x))
        (fun _ _ _ ha hb => intersects_mono ha hb) t.mDepth 0 t.mRoot h1.2]
    exact h2.filter _

/-- C3 (amended), at the two boxes of the counterexample. -/
theorem range_query_filtered_witness :
    Config.Valid defaultSetup.cfg ∧ SortPerm defaultSetup.sort ∧
    insertAll defaultSetup Tree.empty [interval 0 1, interval 10 11] =
      Except.ok (getOk Tree.empty
        (insertAll defaultSetup Tree.empty [interval 0 1, interval 10 11])) ∧
    ((∀ x ∈ [interval 0 1, interval 10 11],
        intersects (interval 10 11) (defaultSetup.rect x) = true →
        x ∈ collect (getOk Tree.empty
          (insertAll defaultSetup Tree.empty [interval 0 1, interval 10 11]))
          (fun r _ => intersects (interval 10 11) r)) ∧
      ((collect (getOk Tree.empty
          (insertAll defaultSetup Tree.empty [interval 0 1, interval 10 11]))
          (fun r _ => intersects (interval 10 11) r)).filter
        (fun x => intersects (interval 10 11) (defaultSetup.rect x))).Perm
        ([interval 0 1, interval 10 11].filter
          (fun x => intersects (interval 10 11) (defaultSetup.rect x)))) :=
  ⟨by decide, insertionSort_perm, eq_ok_of_isOk _ _ (by decide!),
    range_query_filtered defaultSetup (by decide) insertionSort_perm _ _
      (eq_ok_of_isOk _ _ (by decide!)) (interval 10 11)⟩

/-- C4 (fill invariant): for a valid configuration, in a tree built by successful inserts
into an empty tree the root has at most as many entries as its capacity, and every other
node has a size between the minimum fill and the capacity of its level. -/
theorem fill_invariant [LinearOrderedField S] (P : Setup D S T) (hv : P.cfg.Valid)
    (hs : SortPerm P.sort) (xs : List T) (t : Tree D S T)
    (hins : insertAll P Tree.empty xs = Except.ok t) :
    t.mRoot.size ≤ P.cfg.capAt t.mDepth ∧ fillOK P.cfg t.mDepth t.mRoot := by
  obtain ⟨h1, _⟩ := built_ok P hv hs xs t hins
  exact (NodeOK.fill t.mDepth 0 t.mRoot h1.2).2

/-- C4, at the seven boxes of `staleItems`, small sizes (a tree of depth 1). -/
theorem fill_invariant_witness :
    Config.Valid smallSetup.cfg ∧ SortPerm smallSetup.sort ∧
    insertAll smallSetup Tree.empty staleItems =
      Except.ok (getOk Tree.empty (insertAll smallSetup Tree.empty staleItems)) ∧
    (getOk Tree.empty (insertAll smallSetup Tree.empty staleItems)).mRoot.size ≤
      smallSetup.cfg.capAt (getOk Tree.empty (insertAll smallSetup Tree.empty staleItems)).mDepth ∧
    fillOK smallSetup.cfg (getOk Tree.empty (insertAll smallSetup Tree.empty staleItems)).mDepth
      (getOk Tree.empty (insertAll smallSetup Tree.empty staleItems)).mRoot :=
  ⟨by decide, insertionSort_perm, eq_ok_of_isOk _ _ (by decide!),
    fill_invariant smallSetup (by decide) insertionSort_perm staleItems _
      (eq_ok_of_isOk _ _ (by decide!))⟩

/-- C6, the code at a failing input: inserting the seven boxes of `staleItems` (small
sizes) succeeds and gives a tree of depth 1 whose first leaf holds the boxes 96 to 98,
19 to 24, 56 to 73 and 57 to 59 under the cached rectangle 4 to 98, while the union of
these boxes is 19 to 98; the tree is not tight. -/
theorem reinsertion_leaves_stale_rect :
    ∃ t, insertAll smallSetup Tree.empty staleItems = Except.ok t ∧ t.mDepth = 1 ∧
      (t.mRoot.children.getD 0 Node.none).objects =
        [interval 96 98, interval 19 24, interval 56 73, interval 57 59] ∧
      (t.mRoot.children.getD 0 Node.none).rect = interval 4 98 ∧
      (boundLeaf smallSetup.rect (t.mRoot.children.getD 0 Node.none)).rect = interval 19 98 ∧
      ¬ Tight smallSetup.rect t.mDepth t.mRoot :=
  ⟨_, eq_ok_of_isOk Tree.empty _ (by decide!), by decide!, by decide!, by decide!, by decide!,
    fun h => absurd (tightB_of_Tight _ _ _ h) (by decide!)⟩

/-- C7 (pruning): for every node of non-zero size, level and pair of callbacks, if
`checkFn(node.rect, level)` returns false, the traversal of the node returns true after
that one call, so that no callback is invoked on a descendant node or on an item of the
subtree, and the loop of the parent goes on with the next sibling from the state the
check left behind. -/
theorem visitNode_pruning (v : Visitor σ D S T) (level : Nat) (node : Node D S T)
    (rest : List (Node D S T)) (s : σ) (log : List (Event D S T))
    (hsize : node.size ≠ 0) (hcheck : (v.check node.rect level s).1 = false) :
    visitNode v.traced level node (s, log) =
      (true, ((v.check node.rect level s).2, log ++ [Event.check node.rect level false])) ∧
    forEachWhile (visitNode v.traced level) (node :: rest) (s, log) =
      forEachWhile (visitNode v.traced level) rest
        ((v.check node.rect level s).2, log ++ [Event.check node.rect level false]) := by
  have h1 : visitNode v.traced level node (s, log) =
      (true, ((v.check node.rect level s).2, log ++ [Event.check node.rect level false])) := by
    cases level with
    | zero => simp [visitNode, hsize, Visitor.traced, hcheck]
    | succ k => simp [visitNode, hsize, Visitor.traced, hcheck]
  refine ⟨h1, ?_⟩
  simp only [forEachWhile, h1, if_true]

/-- C7, at the leaf `leafA` followed by the sibling `leafB`, with a `checkFn` that
rejects everything. -/
theorem visitNode_pruning_witness :
    leafA.size ≠ 0 ∧ (rejectAll.check leafA.rect 0 0).1 = false ∧
    (visitNode rejectAll.traced 0 leafA (0, []) =
      (true, ((rejectAll.check leafA.rect 0 0).2, [] ++ [Event.check leafA.rect 0 false])) ∧
    forEachWhile (visitNode rejectAll.traced 0) (leafA :: [leafB]) (0, []) =
      forEachWhile (visitNode rejectAll.traced 0) [leafB]
        ((rejectAll.check leafA.rect 0 0).2, [] ++ [Event.check leafA.rect 0 false])) :=
  ⟨by decide, rfl, visitNode_pruning rejectAll 0 leafA [leafB] 0 [] (by decide) rfl⟩

/-- C8 (early termination): for every tree and pair of callbacks, a call of `visitFn`
that returned false is the last entry in the log of all callback calls of the traversal:
no `checkFn` or `visitFn` call follows it. -/
theorem visit_early_termination (t : Tree D S T) (v : Visitor σ D S T) (s : σ)
    (pre post : List (Event D S T)) (x : T)
    (h : visitLog t v s = pre ++ Event.visit x false :: post) : post = [] := by
  obtain ⟨evs, h1, h2⟩ := visitNode_traced_log v t.mDepth t.mRoot (s, [])
  have h3 : visitLog t v s = evs := by
    simp only [visitLog, visit, h1, List.nil_append]
  rw [h3] at h
  have he : (Event.visit x false : Event D S T).isStop = true := rfl
  exact (EarlyStop.last h2 he h).1

/-- C8, at the tree `twoLeaves` with a `visitFn` that returns false on the item 2: the
log ends there, the item 3 and the second leaf are not reached. -/
theorem visit_early_termination_witness :
    visitLog twoLeaves stopAtTwo 0 =
      [Event.check (interval 0 8) 1 true, Event.check (interval 0 3) 0 true,
        Event.visit 1 true] ++ Event.visit 2 false :: [] ∧
    ([] : List (Event 1 ℚ Nat)) = [] :=
  ⟨rfl, visit_early_termination twoLeaves stopAtTwo 0 _ [] 2 rfl⟩

/-- C9 (traversal order): for every tree, every stateless check `c` and every pair of
callbacks whose `checkFn` answers `c` and whose `visitFn` returns true, the log of all
callback calls is the prescribed one (the check of a node at its level, starting with
`depth()` at the root and one less per descent, comes before all calls on the node's
content, children in index order, items in storage order), and the items passed to
`visitFn` are the depth-first, left-to-right enumeration restricted to the leaves for
which the leaf and all its ancestors pass the check. -/
theorem visit_traversal_order (t : Tree D S T) (v : Visitor σ D S T)
    (c : Rect D S → Nat → Bool) (s : σ)
    (hc : ∀ r l s, (v.check r l s).1 = c r l) (hv : ∀ x s, (v.visit x s).1 = true) :
    visitLog t v s = expectedLog c t.mDepth t.mRoot ∧
    (visitLog t v s).filterMap Event.item = prunedItems c t.mDepth t.mRoot := by
  have h := (visitNode_expectedLog v c hc hv t.mDepth t.mRoot (s, [])).2
  have h1 : visitLog t v s = expectedLog c t.mDepth t.mRoot := by
    simp only [visitLog, visit, h, List.nil_append]
  exact ⟨h1, by rw [h1, expectedLog_items]⟩

/-- C9, at the tree `twoLeaves` with the check "the rectangle starts below 5", which
rejects the second leaf. -/
theorem visit_traversal_order_witness :
    (∀ (r : Rect 1 ℚ) (l : Nat) (s : Nat),
      (belowFive.check r l s).1 = (fun (a : Rect 1 ℚ) (_ : Nat) => decide (a.min 0 < 5)) r l) ∧
    (∀ (x : Nat) (s : Nat), (belowFive.visit x s).1 = true) ∧
    (visitLog twoLeaves belowFive 0 =
      expectedLog (fun a _ => decide (a.min 0 < 5)) twoLeaves.mDepth twoLeaves.mRoot ∧
    (visitLog twoLeaves belowFive 0).filterMap Event.item =
      prunedItems (fun a _ => decide (a.min 0 < 5)) twoLeaves.mDepth twoLeaves.mRoot) :=
  ⟨fun _ _ _ => rfl, fun _ _ => rfl,
    visit_traversal_order twoLeaves belowFive (fun a _ => decide (a.min 0 < 5)) 0
      (fun _ _ _ => rfl) (fun _ _ => rfl)⟩

/-- C10 (clear): for sizes accepted by the static assertions and every tree, after
`clear()` the depth and the root size are 0, a traversal with any callbacks calls none of
them and leaves their state untouched, and a following insert of one item `x` succeeds
and makes the traversal with always-true callbacks yield exactly `x`. -/
theorem clear_then_insert [LinearOrderedField S] (P : Setup D S T) (ha : P.cfg.staticAsserts)
    (t : Tree D S T) (x : T) :
    t.clear.depth = 0 ∧ t.clear.mRoot.size = 0 ∧
    (∀ (τ : Type) (v : Visitor τ D S T) (s : τ),
      visitLog t.clear v s = [] ∧ visit t.clear v s = s) ∧
    ∃ t', insert P t.clear x = Except.ok t' ∧ collect t' (fun _ _ => true) = [x] := by
  have hpos : 0 < P.cfg.LeafSize := by
    obtain ⟨_, _, ⟨h, _⟩, _⟩ := ha
    omega
  refine ⟨rfl, rfl, fun τ v s => ⟨rfl, rfl⟩, ?_⟩
  have hfuel : max_depth + 2 = 64 + 1 := rfl
  refine ⟨⟨0, Node.leaf (union_ (P.rect x) (P.rect x)) [x]⟩, ?_, ?_⟩
  · simp [insert, hfuel, insertLeaf, Tree.clear, Node.size, insertElement, Node.setRect,
      Node.rect, Node.objects, hpos, Node.none, Bufs.init]
  · simp [collect, visit, visitNode, collector, Node.size, Node.objects, forEachWhile]

/-- C10, at the tree of depth 1 built from the seven boxes of `staleItems` (small
sizes), cleared and then given the box 1 to 2. -/
theorem clear_then_insert_witness :
    Config.staticAsserts smallSetup.cfg ∧
    ((getOk Tree.empty (insertAll smallSetup Tree.empty staleItems)).clear.depth = 0 ∧
    (getOk Tree.empty (insertAll smallSetup Tree.empty staleItems)).clear.mRoot.size = 0 ∧
    (∀ (τ : Type) (v : Visitor τ 1 ℚ (Rect 1 ℚ)) (s : τ),
      visitLog (getOk Tree.empty (insertAll smallSetup Tree.empty staleItems)).clear v s = [] ∧
      visit (getOk Tree.empty (insertAll smallSetup Tree.empty staleItems)).clear v s = s) ∧
    ∃ t', insert smallSetup
        (getOk Tree.empty (insertAll smallSetup Tree.empty staleItems)).clear (interval 1 2) =
          Except.ok t' ∧
      collect t' (fun _ _ => true) = [interval 1 2]) :=
  ⟨by decide, clear_then_insert smallSetup (by decide) _ (interval 1 2)⟩

/-- C11 (depth limit): `splitRoot` raises the length error exactly when the depth is
`max_depth` = 63; then it leaves the tree as it was; below 63 it returns the grown tree,
one level deeper; either way a depth of at most 63 stays at most 63; and a tree built by
successful inserts has depth at most 63. -/
theorem splitRoot_depth_limit [LinearOrderedField S] (P : Setup D S T) (hv : P.cfg.Valid)
    (hs : SortPerm P.sort) (xs : List T) (t : Tree D S T)
    (hins : insertAll P Tree.empty xs = Except.ok t) (tree : Tree D S T)
    (split : Node D S T) :
    (splitRoot tree split = Except.error Err.lengthError ↔ tree.mDepth = 63) ∧
    (tree.mDepth = 63 → splitRootState tree split = tree) ∧
    (tree.mDepth < 63 → splitRoot tree split = Except.ok (splitRootState tree split) ∧
      (splitRootState tree split).depth = tree.depth + 1) ∧
    (tree.depth ≤ 63 → (splitRootState tree split).depth ≤ 63) ∧
    t.depth ≤ 63 := by
  have hmax : max_depth = 63 := rfl
  refine ⟨?_, ?_, ?_, ?_, ?_⟩
  · unfold splitRoot
    rw [hmax]
    by_cases h : tree.mDepth = 63
    · rw [if_pos h]
      exact ⟨fun _ => h, fun _ => rfl⟩
    · rw [if_neg h]
      exact ⟨fun hh => (by cases hh), fun hh => absurd hh h⟩
  · intro h
    unfold splitRootState
    rw [hmax, if_pos h]
  · intro h
    have hne : ¬ tree.mDepth = 63 := by omega
    unfold splitRoot splitRootState
    rw [hmax, if_neg hne, if_neg hne]
    exact ⟨rfl, rfl⟩
  · intro h
    unfold splitRootState
    rw [hmax]
    by_cases hd : tree.mDepth = 63
    · rw [if_pos hd]
      exact h
    · rw [if_neg hd]
      show tree.mDepth + 1 ≤ 63
      have : tree.mDepth ≤ 63 := h
      omega
  · exact (built_ok P hv hs xs t hins).1.1

/-- C11, at the tree built from the seven boxes of `staleItems` (small sizes), asked to
grow by the leaf `fullLeaf`. -/
theorem splitRoot_depth_limit_witness :
    Config.Valid smallSetup.cfg ∧ SortPerm smallSetup.sort ∧
    insertAll smallSetup Tree.empty staleItems =
      Except.ok (getOk Tree.empty (insertAll smallSetup Tree.empty staleItems)) ∧
    ((splitRoot (getOk Tree.empty (insertAll smallSetup Tree.empty staleItems)) fullLeaf =
        Except.error Err.lengthError ↔
      (getOk Tree.empty (insertAll smallSetup Tree.empty staleItems)).mDepth = 63) ∧
    ((getOk Tree.empty (insertAll smallSetup Tree.empty staleItems)).mDepth = 63 →
      splitRootState (getOk Tree.empty (insertAll smallSetup Tree.empty staleItems)) fullLeaf =
        getOk Tree.empty (insertAll smallSetup Tree.empty staleItems)) ∧
    ((getOk Tree.empty (insertAll smallSetup Tree.empty staleItems)).mDepth < 63 →
      splitRoot (getOk Tree.empty (insertAll smallSetup Tree.empty staleItems)) fullLeaf =
        Except.ok (splitRootState
          (getOk Tree.empty (insertAll smallSetup Tree.empty staleItems)) fullLeaf) ∧
      (splitRootState (getOk Tree.empty (insertAll smallSetup Tree.empty staleItems))
        fullLeaf).depth =
        (getOk Tree.empty (insertAll smallSetup Tree.empty staleItems)).depth + 1) ∧
    ((getOk Tree.empty (insertAll smallSetup Tree.empty staleItems)).depth ≤ 63 →
      (splitRootState (getOk Tree.empty (insertAll smallSetup Tree.empty staleItems))
        fullLeaf).depth ≤ 63) ∧
    (getOk Tree.empty (insertAll smallSetup Tree.empty staleItems)).depth ≤ 63) :=
  ⟨by decide, insertionSort_perm, eq_ok_of_isOk _ _ (by decide!),
    splitRoot_depth_limit smallSetup (by decide) insertionSort_perm staleItems _
      (eq_ok_of_isOk _ _ (by decide!)) _ fullLeaf⟩

/-- C12, the code at a failing input: with the small sizes (capacity 4, minimum fill 1),
which pass the static assertions, `insert` of the box 16 to 17 into `fourBoxTree` (the
tree of the first four boxes of `spreadBoxes`, which satisfies the structural invariant)
first evicts one entry from the full root leaf (`firstDescent`) and then, reinserting it
with bit 0 of the mask set, calls `splitLeaf` in its split branch on a leaf for which the
second assertion, `node.size < LeafSize`, fails: with the assertions enabled the call
has no value (`splitLeafChecked`), the program is aborted, while with the assertions
compiled out `insert` returns normally.  In general, for all sizes the static
assertions accept and with the assertions compiled out, `insert` on a tree satisfying
the invariant without the upper size bounds returns, either normally with a tree that
satisfies that invariant again or with the length error; the recursion never runs out:
any bound above the number of unset mask bits gives `insertLeaf` the same result as the
least such bound, and never the fuel error; and a descent from the root that signals
reinsertion does so at a level whose mask bit is unset, so that setting the bit for the
nested insertions lowers the number of unset bits. -/
theorem insert_reaches_failing_assertion [LinearOrderedField S] :
    (Config.staticAsserts smallSetup.cfg ∧
      insertAll smallSetup Tree.empty (spreadBoxes.take 4) = Except.ok fourBoxTree ∧
      TreeOK smallSetup fourBoxTree ∧ fourBoxTree.mDepth = 0 ∧
      firstDescent.ret.size = 0 ∧ firstDescent.bufs.reinserts = 1 ∧
      firstDescent.bufs.reinsertLevel = 0 ∧
      firstDescent.bufs.objects.take 1 = [interval 16 17] ∧
      firstDescent.node.rect = interval 0 17 ∧
      firstDescent.node.objects =
        [interval 0 1, interval 14 15, interval 12 13, interval 10 11] ∧
      (ReinsertMask.zero.set 0) 0 = true ∧
      insertElement smallSetup (ReinsertMask.zero.set 0) (interval 16 17)
          (smallSetup.rect (interval 16 17)) 0 firstDescent.node Bufs.init =
        splitLeaf smallSetup (ReinsertMask.zero.set 0) Bufs.init
          (firstDescent.node.setRect
            (union_ firstDescent.node.rect (smallSetup.rect (interval 16 17))))
          (interval 16 17) ∧
      splitLeafAsserts smallSetup
          (firstDescent.node.setRect
            (union_ firstDescent.node.rect (smallSetup.rect (interval 16 17))))
          (interval 16 17) = (true, false) ∧
      (splitLeafChecked smallSetup (ReinsertMask.zero.set 0) Bufs.init
          (firstDescent.node.setRect
            (union_ firstDescent.node.rect (smallSetup.rect (interval 16 17))))
          (interval 16 17)).isNone = true ∧
      insertLog smallSetup fourBoxTree (interval 16 17) =
        [InsEvent.reinsert 0, InsEvent.split 0, InsEvent.rootSplit] ∧
      ∃ t, insert smallSetup fourBoxTree (interval 16 17) = Except.ok t) ∧
    ∀ (P : Setup D S T) (t : Tree D S T) (obj : T), P.cfg.staticAsserts → SortPerm P.sort →
      TreeLax P t →
      (insert P t obj = Except.error Err.lengthError ∨
        ∃ t', insert P t obj = Except.ok t' ∧ TreeLax P t') ∧
      (∀ fuel mask, unsetBits mask < fuel →
        insertLeaf P fuel t obj mask ≠ Except.error Err.outOfFuel ∧
        insertLeaf P fuel t obj mask = insertLeaf P (unsetBits mask + 1) t obj mask) ∧
      (∀ mask,
        (insertElement P mask obj (P.rect obj) t.mDepth
          (if t.mRoot.size = 0 then Node.leaf (P.rect obj) [] else t.mRoot)
            Bufs.init).ret.size = 0 →
        (insertElement P mask obj (P.rect obj) t.mDepth
          (if t.mRoot.size = 0 then Node.leaf (P.rect obj) [] else t.mRoot)
            Bufs.init).bufs.reinserts ≠ 0 →
        mask (insertElement P mask obj (P.rect obj) t.mDepth
          (if t.mRoot.size = 0 then Node.leaf (P.rect obj) [] else t.mRoot)
            Bufs.init).bufs.reinsertLevel = false ∧
        unsetBits (mask.set (insertElement P mask obj (P.rect obj) t.mDepth
          (if t.mRoot.size = 0 then Node.leaf (P.rect obj) [] else t.mRoot)
            Bufs.init).bufs.reinsertLevel) < unsetBits mask) := by
  have hbuilt : insertAll smallSetup Tree.empty (spreadBoxes.take 4) = Except.ok fourBoxTree :=
    eq_ok_of_isOk Tree.empty _ (by decide!)
  refine ⟨⟨by decide, hbuilt, ?_, by decide!, by decide!, by decide!, by decide!, by decide!,
    by decide!, by decide!, rfl, ?_, by decide!, by decide!, by decide!,
    ⟨_, eq_ok_of_isOk Tree.empty _ (by decide!)⟩⟩, ?_⟩
  · exact (built_ok smallSetup (by decide) insertionSort_perm _ _ hbuilt).1
  · rw [insertElement]
    exact if_neg (by decide!)
  · intro P t obj ha hs ht
    have hfuel : ∀ fuel mask, unsetBits mask < fuel →
        insertLeaf P fuel t obj mask ≠ Except.error Err.outOfFuel := by
      intro fuel mask hf
      rcases insertLeaf_lax P ha hs fuel t obj mask ht hf with h | ⟨res, h, _⟩
      · rw [h]
        exact fun e => by cases e
      · rw [h]
        exact fun e => by cases e
    refine ⟨?_, ?_, ?_⟩
    · rcases insert_lax P ha hs t obj ht with h | ⟨t', h, g, _⟩
      · exact Or.inl h
      · exact Or.inr ⟨t', h, g⟩
    · intro fuel mask hf
      refine ⟨hfuel fuel mask hf, ?_⟩
      have hk : fuel = unsetBits mask + 1 + (fuel - (unsetBits mask + 1)) := by omega
      rw [hk]
      exact insertLeaf_fuel_add P _ t obj mask (hfuel _ mask (Nat.lt_succ_self _)) _
    · intro mask hret hre
      have hroot := ht.root_lax obj
      obtain ⟨_, _, s3⟩ := insertElement_lax P ha hs mask obj t.mDepth 0 _ Bufs.init rfl
        (Nat.zero_le _) hroot
      obtain ⟨_, c3⟩ := s3 hret
      obtain ⟨d1, d2, _⟩ := c3 hre
      exact ⟨d1, unsetBits_set d1 (le_trans d2.2 ht.1)⟩

/-- C13 (depth for 1000 items): with the default sizes (capacity 64, minimum fill and
reinsert count 21) every sequence of 1000 items is inserted into the empty tree without
error, and the depth of the resulting tree is 1 or 2. -/
theorem depth_of_thousand_items [LinearOrderedField S] (P : Setup D S T)
    (hcfg : P.cfg = Config.default) (hs : SortPerm P.sort) (xs : List T)
    (hlen : xs.length = 1000) :
    (∃ t, insertAll P Tree.empty xs = Except.ok t) ∧
    ∀ t, insertAll P Tree.empty xs = Except.ok t → t.depth = 1 ∨ t.depth = 2 := by
  have hv : P.cfg.Valid := by
    rw [hcfg]
    exact Config.default_valid
  have hmin : ∀ k, 2 ≤ k → 9261 ≤ minItems P.cfg k := by
    intro k hk
    have := minItems_le P.cfg hv.2.1 hk
    rw [hcfg] at this ⊢
    rw [minItems_default_two] at this
    exact this
  constructor
  · obtain ⟨t, h, _⟩ := insertAll_total P hv hs xs Tree.empty (TreeOK.empty P) (by
      have h0 : (items (Tree.empty : Tree D S T).mDepth (Tree.empty : Tree D S T).mRoot).length
          = 0 := rfl
      have := hmin max_depth (by decide)
      omega)
    exact ⟨t, h⟩
  · intro t hins
    obtain ⟨⟨_, hn⟩, hperm⟩ := built_ok P hv hs xs t hins
    have hl := hperm.length_eq
    rw [hlen] at hl
    show t.mDepth = 1 ∨ t.mDepth = 2
    cases hd : t.mDepth with
    | zero =>
      rw [hd] at hn hl
      have := NodeOK.count_leaf 0 t.mRoot hn
      rw [hcfg] at this
      have h64 : Config.default.LeafSize = 64 := rfl
      omega
    | succ k =>
      rw [hd] at hn hl
      have := NodeOK.count_root k t.mRoot hn
      by_cases hk : 2 ≤ k
      · have := hmin k hk
        omega
      · omega

/-- C13, at the thousand unit boxes of `thousandBoxes` with insertion sort. -/
theorem depth_of_thousand_items_witness :
    defaultSetup.cfg = Config.default ∧ SortPerm defaultSetup.sort ∧
    thousandBoxes.length = 1000 ∧
    ((∃ t, insertAll defaultSetup Tree.empty thousandBoxes = Except.ok t) ∧
    ∀ t, insertAll defaultSetup Tree.empty thousandBoxes = Except.ok t →
      t.depth = 1 ∨ t.depth = 2) :=
  ⟨rfl, insertionSort_perm, thousandBoxes_length,
    depth_of_thousand_items defaultSetup rfl insertionSort_perm thousandBoxes
      thousandBoxes_length⟩

/-- Nearest neighbour through visit for reinsert counts of at least 1: on a tree built
under a valid configuration by successful inserts of a non-empty sequence of items, the
nearest-neighbour callbacks `nearest` leave a candidate that is one of the inserted
items, carries its own distance, and is at most as far as every inserted item: the
brute-force minimum.  The distance to a rectangle is any function that is a lower bound
of the distance to the items whose rectangle lies inside. -/
theorem nearest_of_valid {R : Type} [LinearOrderedField S] [LinearOrder R] (P : Setup D S T)
    (hv : P.cfg.Valid) (hs : SortPerm P.sort) (xs : List T) (t : Tree D S T)
    (hins : insertAll P Tree.empty xs = Except.ok t) (hne : xs ≠ [])
    (dRect : Rect D S → R) (dItem : T → R)
    (hlaw : ∀ r x, contains r (P.rect x) → dRect r ≤ dItem x) :
    ∃ b, visit t (nearest dRect dItem) Option.none = some b ∧ b.1 ∈ xs ∧ b.2 = dItem b.1 ∧
      ∀ x ∈ xs, b.2 ≤ dItem x := by
  obtain ⟨ht, hperm⟩ := built_ok P hv hs xs t hins
  have h := (Best.visitNode P dRect dItem hlaw t.mDepth 0 t.mRoot ht.2 [] Option.none rfl).2
  rw [List.nil_append] at h
  have h' := Best.perm dItem hperm _ h
  unfold visit
  cases hres : (visitNode (nearest dRect dItem) t.mDepth t.mRoot Option.none).2 with
  | none =>
    rw [hres] at h'
    exact absurd h' hne
  | some b =>
    rw [hres] at h'
    exact ⟨b, rfl, h'⟩

/-- C14, the code at a failing input: with the sizes `zeroPointSetup` (leaf reinsert
count 0, accepted by the static assertions), inserting the first six points of
`somePoints` succeeds, and the nearest-neighbour visit for the query point 56 ends with a
candidate at squared distance 1, although the point 56 itself was inserted.  For every
configuration whose reinsert counts are at least 1 the visit ends with the brute-force
minimum. -/
theorem nearest_misses_point {R : Type} [LinearOrderedField S] [LinearOrder R] :
    (Config.staticAsserts zeroPointSetup.cfg ∧
      ∃ t, insertAll zeroPointSetup Tree.empty (somePoints.take 6) = Except.ok t ∧
        (fun _ => (56 : ℚ)) ∈ somePoints.take 6 ∧
        TGDomain.dist (fun _ => (56 : ℚ)) (fun (_ : Fin 1) => (56 : ℚ)) = 0 ∧
        (∀ r x, contains r (zeroPointSetup.rect x) →
          distToRect r (fun _ => 56) ≤ TGDomain.dist (fun _ => 56) x) ∧
        (visit t (nearest (fun r => distToRect r (fun _ => (56 : ℚ)))
          (fun x => TGDomain.dist (fun _ => (56 : ℚ)) x)) Option.none).map (fun b => b.2) =
            some 1) ∧
    ∀ (P : Setup D S T) (xs : List T) (t : Tree D S T) (dRect : Rect D S → R) (dItem : T → R),
      P.cfg.Valid → SortPerm P.sort → insertAll P Tree.empty xs = Except.ok t → xs ≠ [] →
      (∀ r x, contains r (P.rect x) → dRect r ≤ dItem x) →
      ∃ b, visit t (nearest dRect dItem) Option.none = some b ∧ b.1 ∈ xs ∧
        b.2 = dItem b.1 ∧ ∀ x ∈ xs, b.2 ≤ dItem x := by
  refine ⟨⟨by decide, _, eq_ok_of_isOk Tree.empty _ (by decide!),
    List.mem_cons_of_mem _ (List.mem_cons_self _ _), by decide!,
    fun r x h => distToRect_le r _ x h, by decide!⟩, ?_⟩
  intro P xs t dRect dItem hv hs hins hne hlaw
  exact nearest_of_valid P hv hs xs t hins hne dRect dItem hlaw

/-- C15 (union is the least upper bound): for all rectangles `a`, `b`, `c`,
`TGDomain::union_(a, b)` contains `a` and `b`, every rectangle that contains both `a`
and `b` contains `union_(a, b)`, and `union_` is commutative, associative and
idempotent. -/
theorem union_least_upper_bound [LinearOrder S] (a b c : Rect D S) :
    contains (union_ a b) a ∧ contains (union_ a b) b ∧
    (∀ r, contains r a → contains r b → contains r (union_ a b)) ∧
    union_ a b = union_ b a ∧
    union_ (union_ a b) c = union_ a (union_ b c) ∧
    union_ a a = a := by
  refine ⟨contains_union_left a b, contains_union_right a b,
    fun r ha hb => contains_union_of ha hb, ?_, ?_, union_self a⟩
  · simp only [union_, Rect.mk.injEq]
    exact ⟨funext fun i => min_comm _ _, funext fun i => max_comm _ _⟩
  · simp only [union_, Rect.mk.injEq]
    exact ⟨funext fun i => min_assoc _ _ _, funext fun i => max_assoc _ _ _⟩

/-- C16 (intersection): for all rectangles `a` and `b`, `TGDomain::intersect(a, b)`
returns none exactly when on some axis `max(a.min, b.min) >= min(a.max, b.max)`, so that
rectangles which only touch are reported disjoint; otherwise it returns the rectangle
from `max(a.min, b.min)` to `min(a.max, b.max)`, which is contained in `a` and in `b` and
contains every rectangle contained in both. -/
theorem intersect_spec [LinearOrder S] (a b : Rect D S) :
    (intersect a b = Option.none ↔
      ∃ i, Min.min (a.max i) (b.max i) ≤ Max.max (a.min i) (b.min i)) ∧
    ((¬ ∃ i, Min.min (a.max i) (b.max i) ≤ Max.max (a.min i) (b.min i)) →
      intersect a b =
        some ⟨fun i => Max.max (a.min i) (b.min i), fun i => Min.min (a.max i) (b.max i)⟩) ∧
    (∀ r, intersect a b = some r →
      contains a r ∧ contains b r ∧ ∀ c, contains a c → contains b c → contains r c) := by
  have hany : (List.finRange D).any
      (fun i => decide (Min.min (a.max i) (b.max i) ≤ Max.max (a.min i) (b.min i))) = true ↔
      ∃ i, Min.min (a.max i) (b.max i) ≤ Max.max (a.min i) (b.min i) := by
    rw [List.any_eq_true]
    constructor
    · rintro ⟨i, _, hi⟩
      exact ⟨i, of_decide_eq_true hi⟩
    · rintro ⟨i, hi⟩
      exact ⟨i, List.mem_finRange i, decide_eq_true hi⟩
  refine ⟨?_, ?_, ?_⟩
  · rw [← hany]
    unfold intersect
    simp only
    by_cases hh : (List.finRange D).any
        (fun i => decide (Min.min (a.max i) (b.max i) ≤ Max.max (a.min i) (b.min i))) = true
    · rw [if_pos hh]
      exact ⟨fun _ => hh, fun _ => rfl⟩
    · rw [if_neg hh]
      exact ⟨fun h => (by cases h), fun h => absurd h hh⟩
  · intro h
    unfold intersect
    simp only
    rw [if_neg (fun hh => h (hany.mp hh))]
  · intro r hr
    unfold intersect at hr
    simp only at hr
    split at hr
    · cases hr
    · rename_i hno
      cases hr
      have hlt : ∀ i, Max.max (a.min i) (b.min i) < Min.min (a.max i) (b.max i) := by
        intro i
        by_contra hc
        exact hno (hany.mpr ⟨i, not_lt.mp hc⟩)
      refine ⟨fun i => ⟨le_max_left _ _, min_le_left _ _⟩,
        fun i => ⟨le_max_right _ _, min_le_right _ _⟩, ?_⟩
      intro c hac hbc i
      exact ⟨max_le (hac i).1 (hbc i).1, le_min (hac i).2 (hbc i).2⟩

/-- C17 (first overflow boundary): for a sequence `xs` of `LeafSize` items and one more
item `x`, after each of the first `LeafSize` inserts the tree has depth 0 and its root
leaf holds the items inserted so far in insertion order, and an insert into the leaf
while it is not full meets no overflow; the insert of `x` meets, in this order, one
forced reinsertion at level 0, one split at level 0 and one call of `splitRoot`, and
leaves a tree of depth 1 whose root has two leaf children that together hold the
`LeafSize + 1` items. -/
theorem first_overflow_boundary [LinearOrderedField S] (P : Setup D S T) (hv : P.cfg.Valid)
    (hs : SortPerm P.sort) (xs : List T) (x : T) (hlen : xs.length = P.cfg.LeafSize) :
    (∀ k, k ≤ P.cfg.LeafSize →
      ∃ r, insertAll P Tree.empty (xs.take k) = Except.ok ⟨0, Node.leaf r (xs.take k)⟩ ∧
        (k < P.cfg.LeafSize → ∀ y, insertLog P ⟨0, Node.leaf r (xs.take k)⟩ y = [])) ∧
    ∃ t0 t1, insertAll P Tree.empty xs = Except.ok t0 ∧ insert P t0 x = Except.ok t1 ∧
      insertAll P Tree.empty (xs ++ [x]) = Except.ok t1 ∧
      insertLog P t0 x = [InsEvent.reinsert 0, InsEvent.split 0, InsEvent.rootSplit] ∧
      t1.depth = 1 ∧
      ∃ r ra rb oa ob, t1.mRoot = Node.inner r [Node.leaf ra oa, Node.leaf rb ob] ∧
        (oa ++ ob).Perm (xs ++ [x]) := by
  have hempty : (Tree.empty : Tree D S T) = ⟨0, Node.leaf default []⟩ := rfl
  constructor
  · intro k hk
    obtain ⟨r, h⟩ := insertAll_fits P (xs.take k) (default : Rect D S) [] (by
      rw [List.length_take]
      simp
      omega)
    rw [List.nil_append] at h
    refine ⟨r, by rw [hempty]; exact h, ?_⟩
    intro hlt y
    exact (insertLeaf_fits P (max_depth + 1) r (xs.take k) y ReinsertMask.zero (by
      rw [List.length_take]
      omega)).2
  · obtain ⟨r, h⟩ := insertAll_fits P xs (default : Rect D S) [] (by simp; omega)
    rw [List.nil_append] at h
    obtain ⟨⟨rr, ra, rb, oa, ob, c1⟩, c2⟩ := insertLeaf_first_overflow P hv hs max_depth r xs x
      ReinsertMask.zero hlen rfl
    have hins : insert P ⟨0, Node.leaf r xs⟩ x =
        Except.ok ⟨1, Node.inner rr [Node.leaf ra oa, Node.leaf rb ob]⟩ := by
      simp only [insert, c1]
    have hall : insertAll P Tree.empty (xs ++ [x]) =
        Except.ok ⟨1, Node.inner rr [Node.leaf ra oa, Node.leaf rb ob]⟩ := by
      rw [insertAll_append, hempty, h]
      simp only [insertAll, hins]
    refine ⟨_, _, by rw [hempty]; exact h, hins, hall, c2, rfl, rr, ra, rb, oa, ob, rfl, ?_⟩
    have := (built_ok P hv hs (xs ++ [x]) _ hall).2
    simpa [items, Node.children, Node.objects] using this

/-- C17, at the first four boxes of `staleItems` and the box 0 to 10 (small sizes,
capacity 4). -/
theorem first_overflow_boundary_witness :
    Config.Valid smallSetup.cfg ∧ SortPerm smallSetup.sort ∧
    (staleItems.take 4).length = smallSetup.cfg.LeafSize ∧
    ∃ t0 t1, insertAll smallSetup Tree.empty (staleItems.take 4) = Except.ok t0 ∧
      insert smallSetup t0 (interval 0 10) = Except.ok t1 ∧
      insertAll smallSetup Tree.empty (staleItems.take 4 ++ [interval 0 10]) = Except.ok t1 ∧
      insertLog smallSetup t0 (interval 0 10) =
        [InsEvent.reinsert 0, InsEvent.split 0, InsEvent.rootSplit] ∧
      t1.depth = 1 ∧
      ∃ r ra rb oa ob, t1.mRoot = Node.inner r [Node.leaf ra oa, Node.leaf rb ob] ∧
        (oa ++ ob).Perm (staleItems.take 4 ++ [interval 0 10]) :=
  ⟨by decide, insertionSort_perm, rfl,
    (first_overflow_boundary smallSetup (by decide) insertionSort_perm (staleItems.take 4)
      (interval 0 10) rfl).2⟩

/-- Reinsertion at most once per level for reinsert counts of at least 1: in the events
of one call of `insert` on a tree satisfying the invariant, under a valid configuration,
the forced-reinsertion branch of `splitLeaf` (level 0) or `splitInner` occurs at most once
for every level, and every overflow at level `L` that comes after a forced reinsertion at
`L`, the overflows during the reinsertion of evicted entries included, takes the split
branch; the events are those of every larger bound on the nesting as well, so none is cut
off; under any mask, no forced reinsertion happens at a level whose bit is set. -/
theorem once_per_level_of_valid [LinearOrderedField S] (P : Setup D S T)
    (hv : P.cfg.Valid) (hs : SortPerm P.sort) (t : Tree D S T) (obj : T) (ht : TreeOK P t) :
    (∀ L, (insertLog P t obj).count (InsEvent.reinsert L) ≤ 1) ∧
    (∀ L before after, insertLog P t obj = before ++ InsEvent.reinsert L :: after →
      ∀ e ∈ after, e.overflowLevel = some L → e = InsEvent.split L) ∧
    (∀ k, insertLeafLog P (max_depth + 2 + k) t obj ReinsertMask.zero = insertLog P t obj) ∧
    (∀ fuel mask L, mask L = true →
      InsEvent.reinsert L ∉ insertLeafLog P fuel t obj mask) := by
  have hl : 1 ≤ P.cfg.LeafReinsert := hv.1.2.2.1
  have hi : 1 ≤ P.cfg.InnerReinsert := hv.2.2.2.1
  have hok := (insertLeafLog_ok P hl hi (max_depth + 2) t obj ReinsertMask.zero).1
  refine ⟨?_, ?_, ?_, ?_⟩
  · exact fun L => count_reinsert_le_one _ hok.2 L
  · intro L before after hlog e he hlev
    exact later_overflow_splits _ hok.2 L before after hlog e he hlev
  · intro k
    exact insertLeafLog_fuel_add P (max_depth + 2) t obj ReinsertMask.zero
      (insertLeaf_no_outOfFuel P hv hs _ t obj _ ht (by rw [unsetBits_zero]; omega)) k
  · intro fuel mask L hm hmem
    have := (insertLeafLog_ok P hl hi fuel t obj mask).1.1 L hmem
    rw [hm] at this
    cases this

/-- C18, the code at a failing input: with the sizes `zeroInnerReinsert` (leaf reinsert
count 2, inner reinsert count 0, accepted by the static assertions) and the tree built
from the thirteen boxes of `crowdedBoxes` (a root with four leaves), the one call of
`insert` for the box 35 to 41 takes the forced-reinsertion branch of `splitInner` at level
1 twice.  For every configuration whose reinsert counts are at least 1 the branch is
taken at most once per level, and every later overflow at the level splits. -/
theorem reinsertion_twice_at_level [LinearOrderedField S] :
    (Config.staticAsserts zeroInnerReinsert.cfg ∧
      ∃ t, insertAll zeroInnerReinsert Tree.empty crowdedBoxes = Except.ok t ∧
        t.depth = 1 ∧ t.mRoot.size = 4 ∧
        insertLog zeroInnerReinsert t (interval 35 41) =
          [InsEvent.reinsert 0, InsEvent.split 0, InsEvent.reinsert 1, InsEvent.split 0,
            InsEvent.reinsert 1] ∧
        (insertLog zeroInnerReinsert t (interval 35 41)).count (InsEvent.reinsert 1) = 2 ∧
        ∃ t', insert zeroInnerReinsert t (interval 35 41) = Except.ok t' ∧
          t'.mRoot.size = 5) ∧
    ∀ (P : Setup D S T) (t : Tree D S T) (obj : T), P.cfg.Valid → SortPerm P.sort →
      TreeOK P t →
      (∀ L, (insertLog P t obj).count (InsEvent.reinsert L) ≤ 1) ∧
      (∀ L before after, insertLog P t obj = before ++ InsEvent.reinsert L :: after →
        ∀ e ∈ after, e.overflowLevel = some L → e = InsEvent.split L) ∧
      (∀ k, insertLeafLog P (max_depth + 2 + k) t obj ReinsertMask.zero = insertLog P t obj) ∧
      (∀ fuel mask L, mask L = true →
        InsEvent.reinsert L ∉ insertLeafLog P fuel t obj mask) := by
  refine ⟨⟨by decide, _, eq_ok_of_isOk Tree.empty _ (by decide!), by decide!, by decide!, by decide!,
    by decide!, _, eq_ok_of_isOk Tree.empty _ (by decide!), by decide!⟩, ?_⟩
  intro P t obj hv hs ht
  exact once_per_level_of_valid P hv hs t obj ht

/-- C19 (forced reinsertion evicts the farthest entries): when the reinsertion branch of
`splitLeaf` is taken on a full leaf (bit 0 of the mask unset), the first `LeafReinsert`
buffer entries (the evicted ones) and the entries kept in the node together are exactly
the old content plus the new item, `LeafReinsert` evicted and `LeafSize + 1 -
LeafReinsert` kept, and every evicted entry is at least as far from the centre of the
node's rectangle as every kept entry; the same holds for `splitInner` on a full inner
node, with the children's rectangles.  The sorting routine is assumed to return an ordered
rearrangement. -/
theorem reinsertion_evicts_farthest [LinearOrderedField S] (P : Setup D S T)
    (hs : SortPerm P.sort) (hsorted : SortSorted P.sort) (mask : ReinsertMask)
    (bufs : Bufs D S T) (leaf : Node D S T) (extra : T) (inner : Node D S T)
    (child : Node D S T) (level : Nat)
    (hleaf : leaf.objects.length = P.cfg.LeafSize)
    (hinner : inner.children.length = P.cfg.InnerSize)
    (hrl : P.cfg.LeafReinsert ≤ P.cfg.LeafSize + 1)
    (hri : P.cfg.InnerReinsert ≤ P.cfg.InnerSize + 1)
    (hm0 : mask 0 = false) (hml : mask level = false) :
    ((splitLeaf P mask bufs leaf extra).bufs.reinserts = P.cfg.LeafReinsert ∧
      ((splitLeaf P mask bufs leaf extra).bufs.objects.take P.cfg.LeafReinsert).length =
        P.cfg.LeafReinsert ∧
      (splitLeaf P mask bufs leaf extra).node.objects.length =
        P.cfg.LeafSize + 1 - P.cfg.LeafReinsert ∧
      ((splitLeaf P mask bufs leaf extra).bufs.objects.take P.cfg.LeafReinsert ++
        (splitLeaf P mask bufs leaf extra).node.objects).Perm (leaf.objects ++ [extra]) ∧
      ∀ e ∈ (splitLeaf P mask bufs leaf extra).bufs.objects.take P.cfg.LeafReinsert,
        ∀ k ∈ (splitLeaf P mask bufs leaf extra).node.objects,
          dist (center (P.rect k)) (center leaf.rect) ≤
            dist (center (P.rect e)) (center leaf.rect)) ∧
    ((splitInner P mask bufs inner child level).bufs.reinserts = P.cfg.InnerReinsert ∧
      ((splitInner P mask bufs inner child level).bufs.children.take
        P.cfg.InnerReinsert).length = P.cfg.InnerReinsert ∧
      (splitInner P mask bufs inner child level).node.children.length =
        P.cfg.InnerSize + 1 - P.cfg.InnerReinsert ∧
      ((splitInner P mask bufs inner child level).bufs.children.take P.cfg.InnerReinsert ++
        (splitInner P mask bufs inner child level).node.children).Perm
        (inner.children ++ [child]) ∧
      ∀ e ∈ (splitInner P mask bufs inner child level).bufs.children.take
          P.cfg.InnerReinsert,
        ∀ k ∈ (splitInner P mask bufs inner child level).node.children,
          dist (center k.rect) (center inner.rect) ≤
            dist (center e.rect) (center inner.rect)) := by
  constructor
  · have hbuf : leaf.objects.take P.cfg.LeafSize ++ [extra] = leaf.objects ++ [extra] := by
      rw [← hleaf, List.take_length]
    unfold splitLeaf
    simp only [hm0, Bool.not_false, if_true, hbuf, Node.objects_leaf]
    have hperm : (P.sort (fun a b => decide (dist (center (P.rect a)) (center leaf.rect) >
        dist (center (P.rect b)) (center leaf.rect))) (leaf.objects ++ [extra])).Perm
        (leaf.objects ++ [extra]) := hs T _ _
    have hsort : (P.sort (fun a b => decide (dist (center (P.rect a)) (center leaf.rect) >
        dist (center (P.rect b)) (center leaf.rect))) (leaf.objects ++ [extra])).Pairwise
        (fun a b => decide (dist (center (P.rect b)) (center leaf.rect) >
          dist (center (P.rect a)) (center leaf.rect)) = false) :=
      hsorted T _ (leaf.objects ++ [extra])
        (strictWeak_of_key (fun a => dist (center (P.rect a)) (center leaf.rect)))
    generalize P.sort (fun a b => decide (dist (center (P.rect a)) (center leaf.rect) >
      dist (center (P.rect b)) (center leaf.rect))) (leaf.objects ++ [extra]) = sorted
      at hperm hsort
    have hl : sorted.length = P.cfg.LeafSize + 1 := by
      rw [hperm.length_eq, List.length_append, hleaf]
      rfl
    refine ⟨trivial, ?_, ?_, ?_, ?_⟩
    · rw [List.length_take, hl]
      omega
    · rw [List.length_drop, hl]
    · rw [List.take_append_drop]
      exact hperm
    · intro e he k hk
      have := pairwise_take_drop hsort P.cfg.LeafReinsert e he k hk
      simpa using this
  · have hbuf : inner.children.take P.cfg.InnerSize ++ [child] = inner.children ++ [child] := by
      rw [← hinner, List.take_length]
    unfold splitInner
    simp only [hml, Bool.not_false, if_true, hbuf, Node.children_inner]
    have hperm : (P.sort (fun (a b : Node D S T) =>
        decide (dist (center a.rect) (center inner.rect) >
          dist (center b.rect) (center inner.rect))) (inner.children ++ [child])).Perm
        (inner.children ++ [child]) := hs (Node D S T) _ _
    have hsort : (P.sort (fun (a b : Node D S T) =>
        decide (dist (center a.rect) (center inner.rect) >
          dist (center b.rect) (center inner.rect))) (inner.children ++ [child])).Pairwise
        (fun a b => decide (dist (center b.rect) (center inner.rect) >
          dist (center a.rect) (center inner.rect)) = false) :=
      hsorted (Node D S T) _ (inner.children ++ [child])
        (strictWeak_of_key (fun (a : Node D S T) => dist (center a.rect) (center inner.rect)))
    generalize P.sort (fun (a b : Node D S T) => decide (dist (center a.rect) (center inner.rect) >
      dist (center b.rect) (center inner.rect))) (inner.children ++ [child]) = sorted
      at hperm hsort
    have hl : sorted.length = P.cfg.InnerSize + 1 := by
      rw [hperm.length_eq, List.length_append, hinner]
      rfl
    refine ⟨trivial, ?_, ?_, ?_, ?_⟩
    · rw [List.length_take, hl]
      omega
    · rw [List.length_drop, hl]
    · rw [List.take_append_drop]
      exact hperm
    · intro e he k hk
      have := pairwise_take_drop hsort P.cfg.InnerReinsert e he k hk
      simpa using this

/-- C19, at the full leaf `fullLeaf` with the box 19 to 24 and the full inner node
`fullInner` with the child `extraLeaf` at level 1 (small sizes, no mask bit set, insertion
sort). -/
theorem reinsertion_evicts_farthest_witness :
    SortPerm smallSetup.sort ∧ SortSorted smallSetup.sort ∧
    fullLeaf.objects.length = smallSetup.cfg.LeafSize ∧
    fullInner.children.length = smallSetup.cfg.InnerSize ∧
    smallSetup.cfg.LeafReinsert ≤ smallSetup.cfg.LeafSize + 1 ∧
    smallSetup.cfg.InnerReinsert ≤ smallSetup.cfg.InnerSize + 1 ∧
    ReinsertMask.zero 0 = false ∧ ReinsertMask.zero 1 = false ∧
    (((splitLeaf smallSetup ReinsertMask.zero Bufs.init fullLeaf
        (interval 19 24)).bufs.objects.take smallSetup.cfg.LeafReinsert ++
      (splitLeaf smallSetup ReinsertMask.zero Bufs.init fullLeaf
        (interval 19 24)).node.objects).Perm (fullLeaf.objects ++ [interval 19 24]) ∧
    ∀ e ∈ (splitLeaf smallSetup ReinsertMask.zero Bufs.init fullLeaf
        (interval 19 24)).bufs.objects.take smallSetup.cfg.LeafReinsert,
      ∀ k ∈ (splitLeaf smallSetup ReinsertMask.zero Bufs.init fullLeaf
          (interval 19 24)).node.objects,
        TGDomain.dist (center (smallSetup.rect k)) (center fullLeaf.rect) ≤
          TGDomain.dist (center (smallSetup.rect e)) (center fullLeaf.rect)) ∧
    (((splitInner smallSetup ReinsertMask.zero Bufs.init fullInner extraLeaf
        1).bufs.children.take smallSetup.cfg.InnerReinsert ++
      (splitInner smallSetup ReinsertMask.zero Bufs.init fullInner extraLeaf
        1).node.children).Perm (fullInner.children ++ [extraLeaf]) ∧
    ∀ e ∈ (splitInner smallSetup ReinsertMask.zero Bufs.init fullInner extraLeaf
        1).bufs.children.take smallSetup.cfg.InnerReinsert,
      ∀ k ∈ (splitInner smallSetup ReinsertMask.zero Bufs.init fullInner extraLeaf
          1).node.children,
        TGDomain.dist (center k.rect) (center fullInner.rect) ≤
          TGDomain.dist (center e.rect) (center fullInner.rect)) :=
  ⟨insertionSort_perm, insertionSort_sorted, rfl, rfl, by decide, by decide, rfl, rfl,
    ⟨(reinsertion_evicts_farthest smallSetup insertionSort_perm insertionSort_sorted
        ReinsertMask.zero Bufs.init fullLeaf (interval 19 24) fullInner extraLeaf 1 rfl rfl
        (by decide) (by decide) rfl rfl).1.2.2.2.1,
      (reinsertion_evicts_farthest smallSetup insertionSort_perm insertionSort_sorted
        ReinsertMask.zero Bufs.init fullLeaf (interval 19 24) fullInner extraLeaf 1 rfl rfl
        (by decide) (by decide) rfl rfl).1.2.2.2.2⟩,
    ⟨(reinsertion_evicts_farthest smallSetup insertionSort_perm insertionSort_sorted
        ReinsertMask.zero Bufs.init fullLeaf (interval 19 24) fullInner extraLeaf 1 rfl rfl
        (by decide) (by decide) rfl rfl).2.2.2.2.1,
      (reinsertion_evicts_farthest smallSetup insertionSort_perm insertionSort_sorted
        ReinsertMask.zero Bufs.init fullLeaf (interval 19 24) fullInner extraLeaf 1 rfl rfl
        (by decide) (by decide) rfl rfl).2.2.2.2.2⟩⟩

/-- C20, the code at a failing input: the full leaf `fullLeaf` (boxes 4 to 5, 56 to 73,
96 to 98, 57 to 59 under the rectangle 4 to 98) overflows with the box 19 to 24 while bit 0
of the mask is unset; the reinsertion branch of `splitLeaf` evicts the box 4 to 5, keeps
the other four, and returns the node with the rectangle 4 to 98 it had, while the union of
the kept boxes is 19 to 98.  In general the branch returns the node's rectangle unchanged,
in `splitLeaf` and in `splitInner`. -/
theorem reinsertion_branch_keeps_rect :
    (splitLeaf smallSetup ReinsertMask.zero Bufs.init fullLeaf (interval 19 24)).bufs.reinserts
      = 1 ∧
    (splitLeaf smallSetup ReinsertMask.zero Bufs.init fullLeaf (interval 19 24)).ret.size = 0 ∧
    (splitLeaf smallSetup ReinsertMask.zero Bufs.init fullLeaf
      (interval 19 24)).bufs.objects.take 1 = [interval 4 5] ∧
    (splitLeaf smallSetup ReinsertMask.zero Bufs.init fullLeaf (interval 19 24)).node.objects =
      [interval 96 98, interval 19 24, interval 56 73, interval 57 59] ∧
    (splitLeaf smallSetup ReinsertMask.zero Bufs.init fullLeaf (interval 19 24)).node.rect =
      interval 4 98 ∧
    (boundLeaf smallSetup.rect
      (splitLeaf smallSetup ReinsertMask.zero Bufs.init fullLeaf (interval 19 24)).node).rect =
      interval 19 98 ∧
    interval 4 98 ≠ interval 19 98 ∧
    (∀ (P : Setup 1 ℚ (Rect 1 ℚ)) (mask : ReinsertMask) (bufs : Bufs 1 ℚ (Rect 1 ℚ))
      (node : Node 1 ℚ (Rect 1 ℚ)) (extra : Rect 1 ℚ), mask 0 = false →
      (splitLeaf P mask bufs node extra).node.rect = node.rect) ∧
    (∀ (P : Setup 1 ℚ (Rect 1 ℚ)) (mask : ReinsertMask) (bufs : Bufs 1 ℚ (Rect 1 ℚ))
      (node extra : Node 1 ℚ (Rect 1 ℚ)) (level : Nat), mask level = false →
      (splitInner P mask bufs node extra level).node.rect = node.rect) := by
  refine ⟨by decide!, by decide!, by decide!, by decide!, by decide!, by decide!, ?_, ?_, ?_⟩
  · intro h
    have := congrArg (fun r => r.min 0) h
    simp [interval] at this
  · intro P mask bufs node extra hm
    unfold splitLeaf
    simp only [hm, Bool.not_false, if_true, Node.rect_leaf]
  · intro P mask bufs node extra level hm
    unfold splitInner
    simp only [hm, Bool.not_false, if_true, Node.rect_inner]

end RStar

/-! ### Splits, subtree choice, growth and bounds -/

namespace RStar

variable {D : Nat} {S T E : Type} {σ : Type}

/-- C21, a counterexample: the full leaf `centreLeaf` has the rectangle 0 to 10, centre
5; inserting the box 20 to 22 evicts the box 0 to 1 and keeps the box 20 to 22, although
the kept box is farther from the centre 5 than the evicted one. -/
theorem reinsertion_centre_not_pre_overflow :
    (insertElement smallSetup ReinsertMask.zero (interval 20 22) (interval 20 22) 0 centreLeaf
      Bufs.init).bufs.reinserts = 1 ∧
    (insertElement smallSetup ReinsertMask.zero (interval 20 22) (interval 20 22) 0 centreLeaf
      Bufs.init).bufs.objects.take 1 = [interval 0 1] ∧
    (insertElement smallSetup ReinsertMask.zero (interval 20 22) (interval 20 22) 0 centreLeaf
      Bufs.init).node.objects = [interval 20 22, interval 4 5, interval 5 6, interval 9 10] ∧
    center centreLeaf.rect = (fun _ => 5) ∧
    TGDomain.dist (center (interval 0 1)) (center centreLeaf.rect) <
      TGDomain.dist (center (interval 20 22)) (center centreLeaf.rect) := by
  refine ⟨by decide!, by decide!, by decide!, ?_, by decide!⟩
  funext i
  simp only [center, centreLeaf, interval, Node.rect]
  norm_num

/-- C21 as the code has it: when a full leaf overflows while bit 0 of the mask is unset,
the entries are sorted by their distance from the centre of the leaf's rectangle after it
was enlarged by the rectangle of the new item; likewise, when an evicted subtree is added
to a full inner node at its own level while the bit of the level is unset, the reference
is the centre of the node's rectangle enlarged by the rectangle of the subtree. -/
theorem reinsertion_centre_is_enlarged [LinearOrderedField S] (P : Setup D S T)
    (mask : ReinsertMask) (bufs : Bufs D S T) (r : Rect D S) (os : List T) (obj : T)
    (ri : Rect D S) (cs : List (Node D S T)) (ins : Node D S T) (insLevel level : Nat)
    (hleaf : os.length = P.cfg.LeafSize) (hinner : cs.length = P.cfg.InnerSize)
    (hm0 : mask 0 = false) (hml : mask (level + 1) = false) (hle : level + 1 ≤ insLevel) :
    (insertElement P mask obj (P.rect obj) 0 (Node.leaf r os) bufs).bufs.objects =
      P.sort (fun a b => decide
        (TGDomain.dist (center (P.rect a)) (center (union_ r (P.rect obj))) >
          TGDomain.dist (center (P.rect b)) (center (union_ r (P.rect obj)))))
        (os ++ [obj]) ∧
    (insertSubtree P mask ins insLevel (level + 1) (Node.inner ri cs) bufs).bufs.children =
      P.sort (fun a b => decide
        (TGDomain.dist (center a.rect) (center (union_ ri ins.rect)) >
          TGDomain.dist (center b.rect) (center (union_ ri ins.rect))))
        (cs ++ [ins]) := by
  have h1 : ¬ os.length < P.cfg.LeafSize := by omega
  have h2 : ¬ cs.length < P.cfg.InnerSize := by omega
  have e1 : os.take P.cfg.LeafSize = os := by rw [← hleaf, List.take_length]
  have e2 : cs.take P.cfg.InnerSize = cs := by rw [← hinner, List.take_length]
  constructor
  · simp only [insertElement, Node.setRect, Node.size, Node.rect, h1, if_false, splitLeaf, hm0,
      Bool.not_false, if_true, Node.objects, e1]
  · simp only [insertSubtree, Node.setRect, Node.size, Node.rect, h2, if_false, hle, if_true,
      splitInner, hml, Bool.not_false, Node.children, e2]

/-- C21 as the code has it, at the leaf `centreLeaf` with the box 20 to 22 and the inner
node `fullInner` with the subtree `extraLeaf` (small sizes, no mask bit set). -/
theorem reinsertion_centre_is_enlarged_witness :
    [interval 0 1, interval 9 10, interval 4 5, interval 5 6].length =
      smallSetup.cfg.LeafSize ∧
    fullInner.children.length = smallSetup.cfg.InnerSize ∧
    ReinsertMask.zero 0 = false ∧ ReinsertMask.zero (0 + 1) = false ∧ 0 + 1 ≤ 1 ∧
    (insertElement smallSetup ReinsertMask.zero (interval 20 22)
      (smallSetup.rect (interval 20 22)) 0
      (Node.leaf (interval 0 10) [interval 0 1, interval 9 10, interval 4 5, interval 5 6])
      Bufs.init).bufs.objects =
      smallSetup.sort (fun a b => decide
        (TGDomain.dist (center (smallSetup.rect a))
            (center (union_ (interval 0 10) (smallSetup.rect (interval 20 22)))) >
          TGDomain.dist (center (smallSetup.rect b))
            (center (union_ (interval 0 10) (smallSetup.rect (interval 20 22))))))
        ([interval 0 1, interval 9 10, interval 4 5, interval 5 6] ++ [interval 20 22]) :=
  ⟨rfl, rfl, rfl, rfl, by decide,
    (reinsertion_centre_is_enlarged smallSetup ReinsertMask.zero Bufs.init (interval 0 10)
      [interval 0 1, interval 9 10, interval 4 5, interval 5 6] (interval 20 22)
      (interval 0 98) fullInner.children extraLeaf 1 0 rfl rfl rfl rfl (by decide)).1⟩

/-- C22 (the split is a legal partition): for sizes accepted by the static assertions
and any sorting routine that rearranges, `computeSplit` on a buffer of capacity + 1
entries returns an index between `minSize` and `Size - minSize` and leaves the buffer a
rearrangement of its input; in the split branch of `splitLeaf` and of `splitInner`
(mask bit set, full node) the new sibling and the node each get at least the minimum
fill, and together exactly the old entries and the new one. -/
theorem split_is_legal_partition [LinearOrderedField S] (P : Setup D S T)
    (hs : SortPerm P.sort) (ha : P.cfg.staticAsserts) {E : Type} (buf : List E)
    (getRect : E → Rect D S) (minSize cap : Nat)
    (hcap : minSize < cap / 2) (hbuf : buf.length = cap + 1) (mask : ReinsertMask)
    (bufs : Bufs D S T) (leaf : Node D S T) (extra : T) (inner child : Node D S T)
    (level : Nat) (hleaf : leaf.objects.length = P.cfg.LeafSize)
    (hinner : inner.children.length = P.cfg.InnerSize) (hm0 : mask 0 = true)
    (hml : mask level = true) :
    (minSize ≤ (computeSplit P buf getRect minSize).2 ∧
      (computeSplit P buf getRect minSize).2 ≤ buf.length - minSize ∧
      (computeSplit P buf getRect minSize).1.Perm buf) ∧
    (P.cfg.LeafMin ≤ (splitLeaf P mask bufs leaf extra).ret.objects.length ∧
      P.cfg.LeafMin ≤ (splitLeaf P mask bufs leaf extra).node.objects.length ∧
      ((splitLeaf P mask bufs leaf extra).ret.objects ++
        (splitLeaf P mask bufs leaf extra).node.objects).Perm (leaf.objects ++ [extra])) ∧
    (P.cfg.InnerMin ≤ (splitInner P mask bufs inner child level).ret.children.length ∧
      P.cfg.InnerMin ≤ (splitInner P mask bufs inner child level).node.children.length ∧
      ((splitInner P mask bufs inner child level).ret.children ++
        (splitInner P mask bufs inner child level).node.children).Perm
          (inner.children ++ [child])) := by
  obtain ⟨_, ⟨_, hi⟩, ⟨_, hl⟩, _, _⟩ := ha
  have h1 := computeSplit_partition P hs buf getRect minSize cap hcap hbuf
  have hlb : leaf.objects.take P.cfg.LeafSize ++ [extra] = leaf.objects ++ [extra] := by
    rw [← hleaf, List.take_length]
  have hib : inner.children.take P.cfg.InnerSize ++ [child] = inner.children ++ [child] := by
    rw [← hinner, List.take_length]
  have h2 := computeSplit_partition P hs (leaf.objects ++ [extra]) P.rect P.cfg.LeafMin
    P.cfg.LeafSize hl (by rw [List.length_append, hleaf]; rfl)
  have h3 := computeSplit_partition P hs (inner.children ++ [child]) Node.rect P.cfg.InnerMin
    P.cfg.InnerSize hi (by rw [List.length_append, hinner]; rfl)
  obtain ⟨e1, e2⟩ := splitLeaf_split P mask bufs leaf extra hm0
  obtain ⟨e3, e4⟩ := splitInner_split P mask bufs inner child level hml
  rw [hlb] at e1 e2
  rw [hib] at e3 e4
  rw [e1, e2, e3, e4]
  exact ⟨⟨h1.1.1, h1.1.2, h1.2.1⟩, ⟨h2.2.2.1, h2.2.2.2.1, h2.2.2.2.2⟩,
    ⟨h3.2.2.1, h3.2.2.2.1, h3.2.2.2.2⟩⟩

/-- C22, at the full leaf `nestedLeaf` with the box 20 to 21 and the full inner node
`fullInner` with the child `extraLeaf` at level 1 (small sizes, both mask bits set), and
the five boxes of that leaf as the buffer. -/
theorem split_is_legal_partition_witness :
    SortPerm smallSetup.sort ∧ Config.staticAsserts smallSetup.cfg ∧ 1 < 4 / 2 ∧
    (nestedLeaf.objects ++ [interval 20 21]).length = 4 + 1 ∧
    nestedLeaf.objects.length = smallSetup.cfg.LeafSize ∧
    fullInner.children.length = smallSetup.cfg.InnerSize ∧
    (ReinsertMask.zero.set 0).set 1 0 = true ∧ (ReinsertMask.zero.set 0).set 1 1 = true ∧
    (1 ≤ (computeSplit smallSetup (nestedLeaf.objects ++ [interval 20 21]) id 1).2 ∧
      (computeSplit smallSetup (nestedLeaf.objects ++ [interval 20 21]) id 1).2 ≤
        (nestedLeaf.objects ++ [interval 20 21]).length - 1 ∧
      (computeSplit smallSetup (nestedLeaf.objects ++ [interval 20 21]) id 1).1.Perm
        (nestedLeaf.objects ++ [interval 20 21])) :=
  ⟨insertionSort_perm, by decide, by decide, rfl, rfl, rfl, rfl, rfl,
    (split_is_legal_partition smallSetup insertionSort_perm (by decide)
      (nestedLeaf.objects ++ [interval 20 21]) id 1 4 (by decide) rfl
      ((ReinsertMask.zero.set 0).set 1) Bufs.init nestedLeaf (interval 20 21) fullInner
      extraLeaf 1 rfl rfl rfl rfl).1⟩

/-- C23 fails as stated: for the boxes 0 to 10, 1 to 2, 3 to 4, 5 to 6 and 20 to 21 with
minimum fill 1 (the buffer is already sorted and stays in that order), `computeSplit`
returns 2, whose groups overlap by 7, although the valid split point 4 (groups of 4 and 1
entries) has overlap 0. -/
theorem split_point_not_least_over_valid :
    computeSplit smallSetup (nestedLeaf.objects ++ [interval 20 21]) id
        smallSetup.cfg.LeafMin =
      ([interval 0 10, interval 1 2, interval 3 4, interval 5 6, interval 20 21], 2) ∧
    smallSetup.cfg.staticAsserts = true ∧
    smallSetup.cfg.LeafMin ≤ 4 ∧
    4 ≤ (nestedLeaf.objects ++ [interval 20 21]).length - smallSetup.cfg.LeafMin ∧
    splitOverlap id [interval 0 10, interval 1 2, interval 3 4, interval 5 6, interval 20 21] 2
      = 7 ∧
    splitOverlap id [interval 0 10, interval 1 2, interval 3 4, interval 5 6, interval 20 21] 4
      = 0 := by
  refine ⟨by decide!, by decide, by decide, by decide, by decide!, by decide!⟩

/-- C23 (amended): on a buffer of `Size` entries with `1 ≤ minSize` and
`2 * minSize + 1 < Size`, the index `s` that `computeSplit` returns lies in
`[minSize, Size - 2 - minSize]` and, for the returned buffer (sorted along the chosen
axis), it has the least overlap of the indices in that range, the least area among those
of equal overlap, and is the lowest index among full ties; overlap and area of an index
`i` are those of the bounding rectangles of the entries `[0, i)` and `[i, Size)`. -/
theorem split_point_least_over_evaluated [LinearOrderedField S] (P : Setup D S T)
    (hs : SortPerm P.sort) (buf : List E) (getRect : E → Rect D S) (minSize : Nat)
    (hm : 1 ≤ minSize) (hlen : 2 * minSize + 1 < buf.length) :
    minSize ≤ (computeSplit P buf getRect minSize).2 ∧
    (computeSplit P buf getRect minSize).2 + minSize + 2 ≤ buf.length ∧
    ∀ (i : Nat), minSize ≤ i → i + minSize + 2 ≤ buf.length →
      splitOverlap getRect (computeSplit P buf getRect minSize).1
          (computeSplit P buf getRect minSize).2 ≤
        splitOverlap getRect (computeSplit P buf getRect minSize).1 i ∧
      (splitOverlap getRect (computeSplit P buf getRect minSize).1 i =
          splitOverlap getRect (computeSplit P buf getRect minSize).1
            (computeSplit P buf getRect minSize).2 →
        splitArea getRect (computeSplit P buf getRect minSize).1
            (computeSplit P buf getRect minSize).2 ≤
          splitArea getRect (computeSplit P buf getRect minSize).1 i) ∧
      (splitOverlap getRect (computeSplit P buf getRect minSize).1 i =
          splitOverlap getRect (computeSplit P buf getRect minSize).1
            (computeSplit P buf getRect minSize).2 →
        splitArea getRect (computeSplit P buf getRect minSize).1 i =
          splitArea getRect (computeSplit P buf getRect minSize).1
            (computeSplit P buf getRect minSize).2 →
        (computeSplit P buf getRect minSize).2 ≤ i) := by
  obtain ⟨b1, b2⟩ := computeSplit_bounds P hs buf getRect minSize hlen
  refine ⟨b1, b2, ?_⟩
  have hl : (computeSplit P buf getRect minSize).1.length = buf.length :=
    (computeSplit_perm P hs buf getRect minSize).length_eq
  have hsp : (computeSplit P buf getRect minSize).2 =
      (chooseSplit (rects1 getRect (computeSplit P buf getRect minSize).1)
        (rects2 getRect (computeSplit P buf getRect minSize).1)
        (computeSplit P buf getRect minSize).1.length minSize).1 := rfl
  intro i hi1 hi2
  obtain ⟨_, hleast⟩ := chooseSplit_least
    (rects1 getRect (computeSplit P buf getRect minSize).1)
    (rects2 getRect (computeSplit P buf getRect minSize).1)
    (computeSplit P buf getRect minSize).1.length minSize hm (by rw [hl]; omega)
  obtain ⟨hle, hlt⟩ := hleast i hi1 (by rw [hl]; omega)
  rw [← hsp, splitKey_eq getRect _ _ (by omega) (by rw [hl]; omega),
    splitKey_eq getRect _ _ (by omega) (by rw [hl]; omega)] at hle hlt
  rw [Prod.Lex.le_iff] at hle
  rw [Prod.Lex.lt_iff] at hlt
  simp only [ofLex_toLex] at hle hlt
  refine ⟨?_, ?_, ?_⟩
  · rcases hle with h | ⟨h, _⟩
    · exact le_of_lt h
    · exact le_of_eq h
  · intro e
    rcases hle with h | ⟨_, h⟩
    · rw [e] at h
      exact absurd h (lt_irrefl _)
    · exact h
  · intro e1 e2
    by_contra hcon
    rcases hlt (by omega) with h | ⟨_, h⟩
    · rw [e1] at h
      exact absurd h (lt_irrefl _)
    · rw [e2] at h
      exact absurd h (lt_irrefl _)

/-- C23, at the five boxes of the full leaf `nestedLeaf` and the box 20 to 21 (small
sizes): the index returned is 2, the least of the evaluated indices 1 and 2. -/
theorem split_point_least_over_evaluated_witness :
    SortPerm smallSetup.sort ∧ 1 ≤ 1 ∧
    2 * 1 + 1 < (nestedLeaf.objects ++ [interval 20 21]).length ∧
    (computeSplit smallSetup (nestedLeaf.objects ++ [interval 20 21]) id 1).2 = 2 ∧
    splitOverlap id (computeSplit smallSetup (nestedLeaf.objects ++ [interval 20 21]) id 1).1
        (computeSplit smallSetup (nestedLeaf.objects ++ [interval 20 21]) id 1).2 ≤
      splitOverlap id (computeSplit smallSetup (nestedLeaf.objects ++ [interval 20 21]) id 1).1
        1 :=
  ⟨insertionSort_perm, le_refl 1, by decide, by decide!,
    ((split_point_least_over_evaluated smallSetup insertionSort_perm
      (nestedLeaf.objects ++ [interval 20 21]) id 1 (le_refl 1) (by decide)).2.2 1 (le_refl 1)
      (by decide)).1⟩

/-- C24 fails as stated: for the five points (5,2), (4,7), (1,1), (2,3), (0,0) with minimum
fill 1, the sum over every valid grouping (`k` from 1 to 4) is 42 on axis 0 and 41 on
axis 1, but `computeSplit` selects axis 0 and returns the buffer sorted along axis 0,
because its own sums, 21 and 23, leave out the groupings at `k = 1` and `k = 4`. -/
theorem split_axis_not_least_over_valid :
    planeSetup.cfg.staticAsserts = true ∧
    axisBuf planeSetup id planePoints 0 =
      [planePoint 0 0, planePoint 1 1, planePoint 2 3, planePoint 4 7, planePoint 5 2] ∧
    axisBuf planeSetup id planePoints 1 =
      [planePoint 0 0, planePoint 1 1, planePoint 5 2, planePoint 2 3, planePoint 4 7] ∧
    groupingMarginSum id (axisBuf planeSetup id planePoints 0)
      planeSetup.cfg.LeafMin (planePoints.length - planeSetup.cfg.LeafMin) = 42 ∧
    groupingMarginSum id (axisBuf planeSetup id planePoints 1)
      planeSetup.cfg.LeafMin (planePoints.length - planeSetup.cfg.LeafMin) = 41 ∧
    marginSum id (axisBuf planeSetup id planePoints 0) planeSetup.cfg.LeafMin = 21 ∧
    marginSum id (axisBuf planeSetup id planePoints 1) planeSetup.cfg.LeafMin = 23 ∧
    (chooseAxis planeSetup id planeSetup.cfg.LeafMin planePoints).2.2 = 0 ∧
    (computeSplit planeSetup planePoints id planeSetup.cfg.LeafMin).1 =
      [planePoint 0 0, planePoint 1 1, planePoint 2 3, planePoint 4 7, planePoint 5 2] := by
  refine ⟨by decide, by decide!, by decide!, by decide!, by decide!, by decide!, by decide!,
    by decide!, by decide!⟩

/-- C24 (amended): on a buffer of `Size` entries with `1 ≤ minSize` and
`2 * minSize + 1 < Size`, `computeSplit` selects the lowest-numbered axis with the least
margin sum and sorts the buffer along it, where the margin sum of an axis is, for the
entries as the sort of that round of the axis loop left them, the running sum that adds,
for `k` from `minSize + 1` to `Size - 1 - minSize` in this order, the margin of the
bounding rectangle of the first `k` entries plus that of the last `k` entries.  The
scalar type is any ordered type with a zero, an addition and a subtraction, rounded or
exact. -/
theorem split_axis_least_margin [LinearOrder S] [Zero S] [One S] [Add S] [Mul S] [Sub S]
    (P : Setup D S T) (hs : SortPerm P.sort) (buf : List E) (getRect : E → Rect D S)
    (minSize : Nat) (hD : 1 ≤ D) (hm : 1 ≤ minSize) (hlen : 2 * minSize + 1 < buf.length) :
    (chooseAxis P getRect minSize buf).2.2 < D ∧
    (computeSplit P buf getRect minSize).1 =
      P.sort (fun a b => cmp (chooseAxis P getRect minSize buf).2.2 (getRect a) (getRect b))
        (axisBuf P getRect buf (D - 1)) ∧
    ∀ (a : Nat), a < D →
      runningMarginSum getRect
          (axisBuf P getRect buf (chooseAxis P getRect minSize buf).2.2)
          (minSize + 1) (buf.length - 1 - minSize) ≤
        runningMarginSum getRect (axisBuf P getRect buf a)
          (minSize + 1) (buf.length - 1 - minSize) ∧
      (runningMarginSum getRect (axisBuf P getRect buf a)
          (minSize + 1) (buf.length - 1 - minSize) =
        runningMarginSum getRect
          (axisBuf P getRect buf (chooseAxis P getRect minSize buf).2.2)
          (minSize + 1) (buf.length - 1 - minSize) →
        (chooseAxis P getRect minSize buf).2.2 ≤ a) := by
  obtain ⟨c1, c2, c3, c4⟩ := chooseAxis_least P getRect minSize buf hD
  have hsum : ∀ (a : Nat), marginSum getRect (axisBuf P getRect buf a) minSize =
      runningMarginSum getRect (axisBuf P getRect buf a) (minSize + 1)
        (buf.length - 1 - minSize) := by
    intro a
    have hl := (axisBuf_perm P hs getRect buf a).length_eq
    rw [marginSum_running getRect _ minSize hm (by rw [hl]; exact hlen), hl]
  refine ⟨c1, ?_, ?_⟩
  · unfold computeSplit
    dsimp only
    rw [c2]
  · intro a ha
    obtain ⟨d1, d2⟩ := c4 a ha
    rw [c3, hsum, hsum] at d1 d2
    refine ⟨d1, ?_⟩
    intro e
    by_contra hcon
    have := d2 (by omega)
    rw [e] at this
    exact absurd this (lt_irrefl _)

/-- C24 (amended), at the five points `planePoints` with minimum fill 1: axis 0 is
selected, with the running sum 21 over the group sizes 2 and 3 against 23 on axis 1. -/
theorem split_axis_least_margin_witness :
    SortPerm planeSetup.sort ∧ 1 ≤ 2 ∧ 1 ≤ 1 ∧ 2 * 1 + 1 < planePoints.length ∧
    (chooseAxis planeSetup id 1 planePoints).2.2 = 0 ∧
    runningMarginSum id (axisBuf planeSetup id planePoints 0) 2 3 = 21 ∧
    runningMarginSum id (axisBuf planeSetup id planePoints 1) 2 3 = 23 ∧
    runningMarginSum id
        (axisBuf planeSetup id planePoints (chooseAxis planeSetup id 1 planePoints).2.2)
        (1 + 1) (planePoints.length - 1 - 1) ≤
      runningMarginSum id (axisBuf planeSetup id planePoints 1)
        (1 + 1) (planePoints.length - 1 - 1) :=
  ⟨insertionSort_perm, by decide, le_refl 1, by decide, by decide!, by decide!, by decide!,
    ((split_axis_least_margin planeSetup insertionSort_perm planePoints id 1 (by decide)
      (le_refl 1) (by decide)).2.2 1 (by decide)).1⟩

/-- Subtree choice with exact scalars: `chooseLeaf` returns what `chooseInner` returns;
on a node with at least one child and for every rectangle `r`, the index `chooseInner`
returns is below the size, and the child at that index needs the least area enlargement
`area(union(child.rect, r)) - area(child.rect)` of all children, has the smallest
resulting area among the children that need the same enlargement, and has the lowest
index among the children that tie in both. -/
theorem chooseInner_exact [LinearOrderedField S] (node : Node D S T)
    (r : Rect D S) (hsize : 1 ≤ node.children.length) :
    chooseLeaf node r = chooseInner node r ∧
    chooseInner node r < node.children.length ∧
    ∃ best, node.children[chooseInner node r]? = some best ∧
      ∀ (j : Nat) (c : Node D S T), node.children[j]? = some c →
        area (union_ best.rect r) - area best.rect ≤ area (union_ c.rect r) - area c.rect ∧
        (area (union_ c.rect r) - area c.rect = area (union_ best.rect r) - area best.rect →
          area (union_ best.rect r) ≤ area (union_ c.rect r)) ∧
        (area (union_ c.rect r) - area c.rect = area (union_ best.rect r) - area best.rect →
          area (union_ c.rect r) = area (union_ best.rect r) → chooseInner node r ≤ j) := by
  refine ⟨rfl, chooseInner_lt node r hsize, ?_⟩
  unfold chooseInner
  cases hc : node.children with
  | nil =>
    rw [hc] at hsize
    cases hsize
  | cons c0 cs =>
    simp only
    obtain ⟨⟨best, hb, hk⟩, hle, hlt⟩ := chooseLoop_least r cs [c0]
      (0, area c0.rect, area (union_ c0.rect r) - area c0.rect) ⟨c0, rfl, rfl⟩
      (fun j x hx => by
        cases j with
        | zero =>
          simp only [List.getElem?_cons_zero, Option.some.injEq] at hx
          rw [hx]
        | succ k => simp at hx)
      (fun j x hj _ => by simp only at hj; omega)
    simp only [List.length_singleton, List.singleton_append] at hb hk hle hlt
    refine ⟨best, hb, ?_⟩
    intro j c hj
    have h1 := hle j c hj
    rw [← hk, Prod.Lex.le_iff] at h1
    simp only at h1
    refine ⟨?_, ?_, ?_⟩
    · rcases h1 with h | ⟨h, _⟩
      · exact le_of_lt h
      · exact le_of_eq h
    · intro he
      rcases h1 with h | ⟨_, h⟩
      · rw [he] at h
        exact absurd h (lt_irrefl _)
      · linarith
    · intro he ha
      by_contra hcon
      have h2 := hlt j c (by omega) hj
      rw [← hk, Prod.Lex.lt_iff] at h2
      simp only at h2
      rcases h2 with h | ⟨_, h⟩
      · rw [he] at h
        exact absurd h (lt_irrefl _)
      · linarith

/-- C25 fails as stated for `float`: for the children 0 to 16777216 and -1/2 to 0 and the
point -1, child 0 needs the enlargement 1 and child 1 the enlargement 1/2, but
`chooseInner` over `float` returns child 0: the area 16777217 of the union rounds to
16777216, so the enlargement of child 0 is computed as 0, below the 1/2 of child 1. -/
theorem chooseInner_rounded_not_least :
    chooseInner roundedInner (singleInterval (-1) (-1)) = 0 ∧
    (area (union_ (singleInterval 0 16777216) (singleInterval (-1) (-1)))).val = 16777216 ∧
    (area (union_ (singleInterval 0 16777216) (singleInterval (-1) (-1))) -
      area (singleInterval 0 16777216)).val = 0 ∧
    (area (union_ (singleInterval (-1 / 2) 0) (singleInterval (-1) (-1))) -
      area (singleInterval (-1 / 2) 0)).val = 1 / 2 ∧
    area (union_ (interval 0 16777216) (interval (-1) (-1))) - area (interval 0 16777216) = 1 ∧
    area (union_ (interval (-1 / 2) 0) (interval (-1) (-1))) - area (interval (-1 / 2) 0) =
      1 / 2 := by
  refine ⟨by decide!, by decide!, by decide!, by decide!, by decide!, by decide!⟩

/-- C25 (amended, subtree choice): `chooseLeaf` returns what `chooseInner` returns; on a
node with at least one child and for every rectangle `r`, the index `chooseInner`
returns is below the size, and the child at that index has the least enlargement
`area(union(child.rect, r)) - area(child.rect)` of all children as the scalar type
computes it, has the smallest computed area `area(child.rect)` of its own rectangle
among the children with the same computed enlargement, and has the lowest index among
the children that tie in both.  The scalar type is any ordered type with a one, a
multiplication and a subtraction, rounded or exact. -/
theorem chooseInner_least_computed [LinearOrder S] [One S] [Mul S] [Sub S]
    (node : Node D S T) (r : Rect D S) (hsize : 1 ≤ node.children.length) :
    chooseLeaf node r = chooseInner node r ∧
    chooseInner node r < node.children.length ∧
    ∃ best, node.children[chooseInner node r]? = some best ∧
      ∀ (j : Nat) (c : Node D S T), node.children[j]? = some c →
        area (union_ best.rect r) - area best.rect ≤ area (union_ c.rect r) - area c.rect ∧
        (area (union_ c.rect r) - area c.rect = area (union_ best.rect r) - area best.rect →
          area best.rect ≤ area c.rect) ∧
        (area (union_ c.rect r) - area c.rect = area (union_ best.rect r) - area best.rect →
          area c.rect = area best.rect → chooseInner node r ≤ j) := by
  refine ⟨rfl, chooseInner_lt node r hsize, ?_⟩
  unfold chooseInner
  cases hc : node.children with
  | nil =>
    rw [hc] at hsize
    cases hsize
  | cons c0 cs =>
    simp only
    obtain ⟨⟨best, hb, hk⟩, hle, hlt⟩ := chooseLoop_least r cs [c0]
      (0, area c0.rect, area (union_ c0.rect r) - area c0.rect) ⟨c0, rfl, rfl⟩
      (fun j x hx => by
        cases j with
        | zero =>
          simp only [List.getElem?_cons_zero, Option.some.injEq] at hx
          rw [hx]
        | succ k => simp at hx)
      (fun j x hj _ => by simp only at hj; omega)
    simp only [List.length_singleton, List.singleton_append] at hb hk hle hlt
    refine ⟨best, hb, ?_⟩
    intro j c hj
    have h1 := hle j c hj
    rw [← hk, Prod.Lex.le_iff] at h1
    simp only at h1
    refine ⟨?_, ?_, ?_⟩
    · rcases h1 with h | ⟨h, _⟩
      · exact le_of_lt h
      · exact le_of_eq h
    · intro he
      rcases h1 with h | ⟨_, h⟩
      · rw [he] at h
        exact absurd h (lt_irrefl _)
      · exact h
    · intro he ha
      by_contra hcon
      have h2 := hlt j c (by omega) hj
      rw [← hk, Prod.Lex.lt_iff] at h2
      simp only at h2
      rcases h2 with h | ⟨_, h⟩
      · rw [he] at h
        exact absurd h (lt_irrefl _)
      · rw [ha] at h
        exact absurd h (lt_irrefl _)

/-- C25 (amended), at the node `roundedInner` over `float` and the point -1: child 0 is
chosen, its computed enlargement is the least. -/
theorem chooseInner_least_computed_witness :
    1 ≤ roundedInner.children.length ∧
    chooseLeaf roundedInner (singleInterval (-1) (-1)) =
      chooseInner roundedInner (singleInterval (-1) (-1)) ∧
    chooseInner roundedInner (singleInterval (-1) (-1)) < roundedInner.children.length ∧
    chooseInner roundedInner (singleInterval (-1) (-1)) = 0 :=
  ⟨by decide,
    (chooseInner_least_computed roundedInner (singleInterval (-1) (-1)) (by decide)).1,
    (chooseInner_least_computed roundedInner (singleInterval (-1) (-1)) (by decide)).2.1,
    by decide!⟩

/-- C26 (root growth): called at a depth below 63 with the split sibling `split`,
`splitRoot` returns a tree whose root has exactly two children, the former root as it was
and `split`, whose root rectangle is the union of the rectangles of the two, and whose
depth is one more; a call of `insert` that returns raises the depth by the number of
calls of `splitRoot` it makes, so that without such a call the depth is unchanged. -/
theorem root_growth [LinearOrderedField S] (P : Setup D S T) (tree : Tree D S T)
    (split : Node D S T) (t : Tree D S T) (obj : T) (t' : Tree D S T)
    (hd : tree.mDepth < 63) (hins : insert P t obj = Except.ok t') :
    (∃ grown, splitRoot tree split = Except.ok grown ∧
      grown.mRoot.children = [tree.mRoot, split] ∧ grown.mRoot.size = 2 ∧
      grown.mRoot.rect = union_ tree.mRoot.rect split.rect ∧
      grown.depth = tree.depth + 1) ∧
    t'.depth = t.depth + (insertLog P t obj).count InsEvent.rootSplit ∧
    (InsEvent.rootSplit ∉ insertLog P t obj → t'.depth = t.depth) := by
  have hcount : t'.depth = t.depth + (insertLog P t obj).count InsEvent.rootSplit := by
    unfold insert at hins
    cases hl : insertLeaf P (max_depth + 2) t obj ReinsertMask.zero with
    | error e =>
      rw [hl] at hins
      cases hins
    | ok res =>
      rw [hl] at hins
      cases hins
      exact insertLeafLog_depth P (max_depth + 2) t obj ReinsertMask.zero res hl
  refine ⟨?_, hcount, ?_⟩
  · have hne : ¬ tree.mDepth = max_depth := by
      have : max_depth = 63 := rfl
      omega
    refine ⟨⟨tree.mDepth + 1, Node.inner (union_ tree.mRoot.rect split.rect)
      [tree.mRoot, split]⟩, ?_, rfl, rfl, rfl, rfl⟩
    unfold splitRoot
    rw [if_neg hne]
    rfl
  · intro hno
    rw [hcount, List.count_eq_zero.mpr hno]
    rfl

/-- C26, at the tree built from the seven boxes of `staleItems` (small sizes) with the
leaf `fullLeaf` as the sibling, and at the insertion of the fifth box of `spreadBoxes`
after the first four. -/
theorem root_growth_witness :
    (getOk Tree.empty (insertAll smallSetup Tree.empty staleItems)).mDepth < 63 ∧
    insert smallSetup (getOk Tree.empty (insertAll smallSetup Tree.empty (spreadBoxes.take 4)))
        (interval 16 17) =
      Except.ok (getOk Tree.empty (insert smallSetup
        (getOk Tree.empty (insertAll smallSetup Tree.empty (spreadBoxes.take 4)))
        (interval 16 17))) ∧
    (getOk Tree.empty (insert smallSetup
        (getOk Tree.empty (insertAll smallSetup Tree.empty (spreadBoxes.take 4)))
        (interval 16 17))).depth =
      (getOk Tree.empty (insertAll smallSetup Tree.empty (spreadBoxes.take 4))).depth +
        (insertLog smallSetup
          (getOk Tree.empty (insertAll smallSetup Tree.empty (spreadBoxes.take 4)))
          (interval 16 17)).count InsEvent.rootSplit :=
  ⟨by decide!, eq_ok_of_isOk _ _ (by decide!),
    (root_growth smallSetup (getOk Tree.empty (insertAll smallSetup Tree.empty staleItems))
      fullLeaf _ (interval 16 17) _ (by decide!) (eq_ok_of_isOk _ _ (by decide!))).2.1⟩

/-- C27, the code at a failing input: the sizes `zeroReinsert` (capacity 4, minimum fill
1, leaf reinsert count 0) pass the static assertions; on the full leaf `fullLeaf` with
the box 19 to 24 the reinsertion branch of `splitLeaf` keeps all five entries in the node
and signals neither a split nor a reinsertion, and inserting the five boxes into an empty
tree ends with a root leaf of five entries.  In general the branch leaves capacity + 1 -
reinsertCount entries, at least the minimum fill, and at most the capacity exactly when
the reinsert count is at least 1. -/
theorem eviction_can_leave_node_overfull [LinearOrderedField S] :
    (Config.staticAsserts zeroReinsert.cfg ∧ zeroReinsert.cfg.LeafSize = 4 ∧
      (splitLeaf zeroReinsert ReinsertMask.zero Bufs.init fullLeaf (interval 19 24)).node.size
        = 5 ∧
      (splitLeaf zeroReinsert ReinsertMask.zero Bufs.init fullLeaf (interval 19 24)).ret.size
        = 0 ∧
      (splitLeaf zeroReinsert ReinsertMask.zero Bufs.init fullLeaf
        (interval 19 24)).bufs.reinserts = 0 ∧
      ∃ t, insertAll zeroReinsert Tree.empty (fullLeaf.objects ++ [interval 19 24]) =
          Except.ok t ∧ t.depth = 0 ∧ t.mRoot.size = 5) ∧
    ∀ (P : Setup D S T) (mask : ReinsertMask) (bufs : Bufs D S T) (leaf : Node D S T)
      (extra : T) (inner child : Node D S T) (level : Nat), SortPerm P.sort →
      P.cfg.staticAsserts → leaf.objects.length = P.cfg.LeafSize →
      inner.children.length = P.cfg.InnerSize → mask 0 = false → mask level = false →
      ((splitLeaf P mask bufs leaf extra).node.size =
          P.cfg.LeafSize + 1 - P.cfg.LeafReinsert ∧
        P.cfg.LeafMin ≤ (splitLeaf P mask bufs leaf extra).node.size ∧
        ((splitLeaf P mask bufs leaf extra).node.size ≤ P.cfg.LeafSize ↔
          1 ≤ P.cfg.LeafReinsert)) ∧
      ((splitInner P mask bufs inner child level).node.size =
          P.cfg.InnerSize + 1 - P.cfg.InnerReinsert ∧
        P.cfg.InnerMin ≤ (splitInner P mask bufs inner child level).node.size ∧
        ((splitInner P mask bufs inner child level).node.size ≤ P.cfg.InnerSize ↔
          1 ≤ P.cfg.InnerReinsert)) := by
  refine ⟨⟨by decide, rfl, by decide!, by decide!, by decide!,
    ⟨_, eq_ok_of_isOk Tree.empty _ (by decide!), by decide!, by decide!⟩⟩, ?_⟩
  intro P mask bufs leaf extra inner child level hs ha hleaf hinner hm0 hml
  obtain ⟨_, ⟨hi1, _⟩, ⟨hl1, _⟩, hi2, hl2⟩ := ha
  rw [splitLeaf_evict_size P hs mask bufs leaf extra hleaf hm0,
    splitInner_evict_size P hs mask bufs inner child level hinner hml]
  refine ⟨⟨rfl, by omega, by omega⟩, ⟨rfl, by omega, by omega⟩⟩

/-- The root rectangle for reinsert counts of at least 1: after the successful insertion
of a non-empty sequence of items into an empty tree under a valid configuration, the
cached rectangle of the root equals the union of the rectangles of all inserted items, so
that a traversal whose `checkFn` rejects that union at the root passes no item to
`visitFn`. -/
theorem root_rect_of_valid [LinearOrderedField S] (P : Setup D S T) (hv : P.cfg.Valid)
    (hs : SortPerm P.sort) (x : T) (xs : List T) (t : Tree D S T)
    (hins : insertAll P Tree.empty (x :: xs) = Except.ok t) :
    t.mRoot.rect = unionAll (P.rect x) (xs.map P.rect) ∧
    ∀ (v : Visitor σ D S T) (s : σ),
      (v.check (unionAll (P.rect x) (xs.map P.rect)) t.depth s).1 = false →
      (visitLog t v s).filterMap Event.item = [] := by
  obtain ⟨ht, hperm⟩ := built_ok P hv hs (x :: xs) t hins
  have hsize : t.mRoot.size ≠ 0 := by
    apply ht.root_size
    intro h
    rw [h] at hperm
    exact absurd hperm.symm.eq_nil (by simp)
  have hall : ∀ y ∈ x :: xs, contains (unionAll (P.rect x) (xs.map P.rect)) (P.rect y) := by
    intro y hy
    rcases List.mem_cons.mp hy with h | h
    · rw [h]
      exact contains_unionAll_init _ _
    · exact contains_unionAll_mem _ _ _ (List.mem_map_of_mem P.rect h)
  have hw := insertAll_within P hv hs (unionAll (P.rect x) (xs.map P.rect)) (x :: xs)
    Tree.empty t (TreeOK.empty P) (fun h => absurd rfl h) hall hins hsize
  have hcont := items_contained P t.mDepth 0 t.mRoot ht.2
  have hrect : t.mRoot.rect = unionAll (P.rect x) (xs.map P.rect) := by
    apply contains_antisymm
    · apply contains_unionAll_of (hcont x (hperm.symm.subset (List.mem_cons_self x xs)))
      intro r hr
      obtain ⟨y, hy, rfl⟩ := List.mem_map.mp hr
      exact hcont y (hperm.symm.subset (List.mem_cons_of_mem x hy))
    · exact hw.rect_le
  refine ⟨hrect, ?_⟩
  intro v s h
  rw [← hrect] at h
  exact visitLog_rejected t v s h

/-- C29, the code at a failing input: with the sizes `zeroReinsert` (leaf reinsert count
0, accepted by the static assertions), inserting the six boxes of `wideFirstBoxes`
succeeds and leaves a root leaf with the cached rectangle 0 to 100 that holds five boxes
whose union is 10 to 91: the box 0 to 100 was inserted but is no longer in the tree.
For every configuration whose reinsert counts are at least 1 the root rectangle is the
union of the rectangles of the inserted items. -/
theorem root_rect_covers_lost_item [LinearOrderedField S] :
    (Config.staticAsserts zeroReinsert.cfg ∧
      ∃ t, insertAll zeroReinsert Tree.empty wideFirstBoxes = Except.ok t ∧
        t.mRoot.rect = interval 0 100 ∧
        items t.depth t.mRoot =
          [interval 90 91, interval 10 11, interval 80 81, interval 20 21, interval 50 51] ∧
        unionAll (zeroReinsert.rect (interval 90 91))
          ([interval 10 11, interval 80 81, interval 20 21, interval 50 51].map
            zeroReinsert.rect) = interval 10 91 ∧
        t.mRoot.rect ≠ unionAll (zeroReinsert.rect (interval 90 91))
          ([interval 10 11, interval 80 81, interval 20 21, interval 50 51].map
            zeroReinsert.rect)) ∧
    ∀ (P : Setup D S T) (x : T) (xs : List T) (t : Tree D S T), P.cfg.Valid →
      SortPerm P.sort → insertAll P Tree.empty (x :: xs) = Except.ok t →
      t.mRoot.rect = unionAll (P.rect x) (xs.map P.rect) ∧
      ∀ (v : Visitor σ D S T) (s : σ),
        (v.check (unionAll (P.rect x) (xs.map P.rect)) t.depth s).1 = false →
        (visitLog t v s).filterMap Event.item = [] := by
  refine ⟨⟨by decide, _, eq_ok_of_isOk Tree.empty _ (by decide!), by decide!, by decide!, by decide!,
    by decide!⟩, ?_⟩
  intro P x xs t hv hs hins
  exact root_rect_of_valid P hv hs x xs t hins

/-- C30, the code at a failing input: with the small sizes (capacity 4, minimum fill 1),
which pass the static assertions, `computeSplit` on the five boxes of `spreadBoxes`
returns the index 1, so that in the split branch of `splitLeaf` the first assertion
holds and the second, `node.size < LeafSize`, fails: the node keeps four entries, as many
as the capacity.  Inserting the five boxes into an empty tree reaches this split.  In
general the first assertion holds, the second holds exactly when the index is at least
2, and both hold when the minimum fill is at least 2. -/
theorem splitLeaf_assertion_can_fail [LinearOrderedField S] :
    (Config.staticAsserts smallSetup.cfg ∧
      (computeSplit smallSetup (spreadLeaf.objects ++ [interval 16 17]) id 1).2 = 1 ∧
      splitLeafAsserts smallSetup spreadLeaf (interval 16 17) = (true, false) ∧
      (splitLeaf smallSetup (ReinsertMask.zero.set 0) Bufs.init spreadLeaf
        (interval 16 17)).node.size = smallSetup.cfg.LeafSize ∧
      insertLog smallSetup (getOk Tree.empty (insertAll smallSetup Tree.empty
        (spreadBoxes.take 4))) (interval 16 17) =
          [InsEvent.reinsert 0, InsEvent.split 0, InsEvent.rootSplit] ∧
      ∃ t, insertAll smallSetup Tree.empty spreadBoxes = Except.ok t ∧
        t.mRoot.children.map Node.size = [4, 1]) ∧
    ∀ (P : Setup D S T) (leaf : Node D S T) (extra : T), SortPerm P.sort →
      P.cfg.staticAsserts → leaf.objects.length = P.cfg.LeafSize →
      (splitLeafAsserts P leaf extra).1 = true ∧
      ((splitLeafAsserts P leaf extra).2 = true ↔
        2 ≤ (computeSplit P (leaf.objects.take P.cfg.LeafSize ++ [extra]) P.rect
          P.cfg.LeafMin).2) ∧
      (2 ≤ P.cfg.LeafMin → splitLeafAsserts P leaf extra = (true, true)) := by
  refine ⟨⟨by decide, by decide!, by decide!, by decide!, by decide!,
    ⟨_, eq_ok_of_isOk Tree.empty _ (by decide!), by decide!⟩⟩, ?_⟩
  intro P leaf extra hs ha hleaf
  obtain ⟨_, _, ⟨_, hl⟩, _, _⟩ := ha
  have hb := computeSplit_bounds P hs (leaf.objects.take P.cfg.LeafSize ++ [extra]) P.rect
    P.cfg.LeafMin (by
      rw [List.length_append, List.length_take, hleaf]
      simp
      omega)
  rw [List.length_append, List.length_take, hleaf] at hb
  simp only [min_self, List.length_singleton] at hb
  unfold splitLeafAsserts
  simp only [decide_eq_true_eq, Prod.mk.injEq]
  refine ⟨by omega, by omega, fun h => ⟨by omega, by omega⟩⟩

end RStar
